import Mathlib


/-!
# CppAD `list_setvec`: vector of sets stored as singly linked lists

Shallow embedding of `include/cppad/local/sparse/list_setvec.hpp`.

* `size_t` counters are natural numbers: every decrement in the source is
  guarded by an assertion that the counter is positive, and every counter is
  bounded by the size of a container, so no wrap-around is involved.
* A member function is a function from the object state to `Option` of the new
  state (and result).  The value `none` stands for an aborted call: a
  `CPPAD_ASSERT_UNKNOWN` that fired, or a loop that did not stop within the
  number of steps any list stored in `data_` can have.
* A `const list_setvec& other` argument that may be the object itself is an
  `Option list_setvec`: `none` stands for `this == &other`.
-/

namespace CppAD

/-- Entry of a singly linked list: `struct pair_size_t {size_t value; size_t next; }`. -/
structure pair_size_t where
  value : Nat
  next : Nat
deriving DecidableEq, Repr

/-- Member data of `class list_setvec`. -/
structure list_setvec where
  end_ : Nat
  number_not_used_ : Nat
  data_not_used_ : Nat
  data_ : List pair_size_t
  start_ : List Nat
  post_ : List Nat
  temporary_ : List Nat
deriving DecidableEq, Repr

/-- Modelled from the spec: the macro `CPPAD_ASSERT_UNKNOWN` is defined outside the
sources; an internal-consistency fault "must abort immediately when checked"
(spec section 7).  This is the checked build. -/
def CPPAD_ASSERT_UNKNOWN (c : Bool) : Option Unit :=
  if c then some () else none

/-- Read `data_[k]` (`pod_vector` is declared outside the sources; a read
past the end gives a zero pair). -/
def rd (d : List pair_size_t) (k : Nat) : pair_size_t :=
  d.getD k ⟨0, 0⟩

/-- The assignment `data_[k].value = v`. -/
def wr_value (d : List pair_size_t) (k v : Nat) : List pair_size_t :=
  d.set k ⟨v, (rd d k).next⟩

/-- The assignment `data_[k].next = n`. -/
def wr_next (d : List pair_size_t) (k n : Nat) : List pair_size_t :=
  d.set k ⟨(rd d k).value, n⟩

/-- Default constructor (no sets). -/
def list_setvec.ctor : list_setvec :=
  ⟨0, 0, 0, [], [], [], []⟩

/-- Source: `reference_count(i)`. -/
def reference_count (s : list_setvec) (i : Nat) : Nat :=
  let start := s.start_.getD i 0
  if start = 0 then 0 else (rd s.data_ start).value

/-- Source: `get_data_index()`: pop the free list, or extend `data_` by one. -/
def get_data_index (s : list_setvec) : Option (Nat × list_setvec) :=
  if s.data_not_used_ > 0 then do
    CPPAD_ASSERT_UNKNOWN (s.number_not_used_ > 0)
    let index := s.data_not_used_
    some (index, { s with
      number_not_used_ := s.number_not_used_ - 1
      data_not_used_ := (rd s.data_ index).next })
  else
    some (s.data_.length, { s with data_ := s.data_ ++ [⟨0, 0⟩] })

/-- The loop `while( next != 0 ) { previous = next; next = data_[previous].next;
++number_drop; }` of `drop`. -/
def drop_loop (d : List pair_size_t) : Nat → Nat → Nat → Nat → Option (Nat × Nat)
  | 0, _, _, _ => none
  | fuel + 1, previous, next, number_drop =>
    if next ≠ 0 then drop_loop d fuel next (rd d next).next (number_drop + 1)
    else some (previous, number_drop)

/-- First half of `drop(i)`: the posting of set `i` goes to the free list. -/
def drop_post (s : list_setvec) (i : Nat) : Option (Nat × list_setvec) :=
  let post := s.post_.getD i 0
  if post ≠ 0 then do
    let s1 := { s with post_ := s.post_.set i 0 }
    let (previous, number_drop) ←
      drop_loop s1.data_ s1.data_.length post (rd s1.data_ post).next 1
    let s2 := { s1 with data_ := wr_next s1.data_ previous s1.data_not_used_ }
    some (number_drop, { s2 with data_not_used_ := post })
  else some (0, s)

/-- Source: `drop(i)`; the result is `(number_drop, new state)`. -/
def drop (s : list_setvec) (i : Nat) : Option (Nat × list_setvec) := do
  let (number_drop, s1) ← drop_post s i
  let start := s1.start_.getD i 0
  if start = 0 then some (number_drop, s1)
  else do
    CPPAD_ASSERT_UNKNOWN ((rd s1.data_ start).value > 0)
    let s2 := { s1 with data_ := wr_value s1.data_ start ((rd s1.data_ start).value - 1) }
    let s3 := { s2 with start_ := s2.start_.set i 0 }
    if (rd s3.data_ start).value > 0 then some (number_drop, s3)
    else do
      let (previous, number_drop) ←
        drop_loop s3.data_ s3.data_.length start (rd s3.data_ start).next (number_drop + 1)
      let s4 := { s3 with data_ := wr_next s3.data_ previous s3.data_not_used_ }
      some (number_drop, { s4 with data_not_used_ := start })

/-- The loop `while( next != 0 ) { assert value < end_; count++; next = data_[next].next; }`
of `number_elements`. -/
def number_elements_loop (d : List pair_size_t) (end_ : Nat) : Nat → Nat → Nat → Option Nat
  | 0, _, _ => none
  | fuel + 1, next, count =>
    if next ≠ 0 then do
      CPPAD_ASSERT_UNKNOWN ((rd d next).value < end_)
      number_elements_loop d end_ fuel (rd d next).next (count + 1)
    else some count

/-- Source: `number_elements(i)`. -/
def number_elements (s : list_setvec) (i : Nat) : Option Nat := do
  CPPAD_ASSERT_UNKNOWN (s.post_.getD i 0 = 0)
  let start := s.start_.getD i 0
  if start = 0 then some 0
  else do
    let count ← number_elements_loop s.data_ s.end_ s.data_.length (rd s.data_ start).next 0
    CPPAD_ASSERT_UNKNOWN (count > 0)
    some count

/-- The loop of `check_data_structure` over the sets `i, i+1, ...` (`k` of them):
every reference counter is decremented, and when it reaches zero it is restored
from `temporary_` and the list is counted. -/
def check_sets_loop : Nat → list_setvec → Nat → Nat → Option (Nat × list_setvec)
  | 0, s, _, number_used_by_sets => some (number_used_by_sets, s)
  | k + 1, s, i, number_used_by_sets =>
    let start := s.start_.getD i 0
    if start > 0 then do
      let reference_count := (rd s.data_ start).value
      let next := (rd s.data_ start).next
      CPPAD_ASSERT_UNKNOWN (reference_count > 0)
      CPPAD_ASSERT_UNKNOWN (next ≠ 0)
      CPPAD_ASSERT_UNKNOWN ((rd s.data_ next).value < s.end_)
      let s1 := { s with data_ := wr_value s.data_ start ((rd s.data_ start).value - 1) }
      if (rd s1.data_ start).value = 0 then do
        let s2 := { s1 with data_ := wr_value s1.data_ start (s1.temporary_.getD i 0) }
        let n ← number_elements s2 i
        check_sets_loop k s2 (i + 1) (number_used_by_sets + (n + 1))
      else check_sets_loop k s1 (i + 1) number_used_by_sets
    else check_sets_loop k s (i + 1) number_used_by_sets

/-- The loop `while( value < end_ ) { ++number_used_by_posts; value = data_[next].value;
next = data_[next].next; }` of `check_data_structure`. -/
def check_post_loop (d : List pair_size_t) (end_ : Nat) : Nat → Nat → Nat → Nat → Option Nat
  | 0, _, _, _ => none
  | fuel + 1, value, next, number_used_by_posts =>
    if value < end_ then
      check_post_loop d end_ fuel (rd d next).value (rd d next).next (number_used_by_posts + 1)
    else some number_used_by_posts

/-- The loop of `check_data_structure` over the postings of the sets `i, i+1, ...`. -/
def check_posts_loop (s : list_setvec) : Nat → Nat → Nat → Option Nat
  | 0, _, number_used_by_posts => some number_used_by_posts
  | k + 1, i, number_used_by_posts =>
    let post := s.post_.getD i 0
    if post > 0 then do
      let value := (rd s.data_ post).value
      let next := (rd s.data_ post).next
      CPPAD_ASSERT_UNKNOWN (value < s.end_)
      let n ← check_post_loop s.data_ s.end_ (s.data_.length + 1) value next number_used_by_posts
      check_posts_loop s k (i + 1) n
    else check_posts_loop s k (i + 1) number_used_by_posts

/-- The loop `while( next != 0 ) { ++count; next = data_[next].next; }` of
`check_data_structure`. -/
def check_free_loop (d : List pair_size_t) : Nat → Nat → Nat → Option Nat
  | 0, _, _ => none
  | fuel + 1, next, count =>
    if next ≠ 0 then check_free_loop d fuel (rd d next).next (count + 1)
    else some count

/-- Source: `check_data_structure()` (the version compiled without `NDEBUG`). -/
def check_data_structure (s : list_setvec) : Option list_setvec := do
  CPPAD_ASSERT_UNKNOWN (s.post_.length = s.start_.length)
  let n_set := s.start_.length
  if n_set = 0 then do
    CPPAD_ASSERT_UNKNOWN (s.end_ = 0)
    CPPAD_ASSERT_UNKNOWN (s.number_not_used_ = 0)
    CPPAD_ASSERT_UNKNOWN (s.data_not_used_ = 0)
    CPPAD_ASSERT_UNKNOWN (s.data_.length = 0)
    CPPAD_ASSERT_UNKNOWN (s.start_.length = 0)
    some s
  else do
    CPPAD_ASSERT_UNKNOWN ((rd s.data_ 0).value = s.end_)
    CPPAD_ASSERT_UNKNOWN ((rd s.data_ 0).next = 0)
    let s1 := { s with temporary_ := (List.range n_set).map (reference_count s) }
    let (number_used_by_sets, s2) ← check_sets_loop n_set s1 0 1
    let number_used_by_posts ← check_posts_loop s2 n_set 0 0
    let count ← check_free_loop s2.data_ (s2.data_.length + 1) s2.data_not_used_ 0
    CPPAD_ASSERT_UNKNOWN (s2.number_not_used_ = count)
    let number_used := number_used_by_sets + number_used_by_posts
    CPPAD_ASSERT_UNKNOWN (number_used + s2.number_not_used_ = s2.data_.length)
    some s2

/-- Source: `resize(n_set, end)`. -/
def resize (s : list_setvec) (n_set end_ : Nat) : Option list_setvec := do
  let s1 ← check_data_structure s
  if n_set = 0 then do
    CPPAD_ASSERT_UNKNOWN (end_ = 0)
    some { s1 with data_ := [], start_ := [], post_ := [], number_not_used_ := 0,
                   data_not_used_ := 0, end_ := 0 }
  else
    some { s1 with end_ := end_, start_ := List.replicate n_set 0,
                   post_ := List.replicate n_set 0, data_ := [⟨end_, 0⟩],
                   number_not_used_ := 0, data_not_used_ := 0 }

/-- Source: `n_set()`. -/
def n_set (s : list_setvec) : Nat := s.start_.length

/-- Source: `end()`. -/
def list_setvec.end (s : list_setvec) : Nat := s.end_

/-- Source: `operator=(other)`: every member but `temporary_` is copied. -/
def list_setvec.assign (s other : list_setvec) : list_setvec :=
  { s with end_ := other.end_, number_not_used_ := other.number_not_used_,
           data_not_used_ := other.data_not_used_, data_ := other.data_,
           start_ := other.start_, post_ := other.post_ }

/-- Source: `post_element(i, element)`. -/
def post_element (s : list_setvec) (i element : Nat) : Option list_setvec := do
  CPPAD_ASSERT_UNKNOWN (i < s.start_.length)
  CPPAD_ASSERT_UNKNOWN (element < s.end_)
  let next := s.post_.getD i 0
  let (post, s1) ← get_data_index s
  let s2 := { s1 with post_ := s1.post_.set i post }
  let s3 := { s2 with data_ := wr_value s2.data_ post element }
  some { s3 with data_ := wr_next s3.data_ post next }

/-- The loop `while( value < element ) { next = data_[next].next; value = data_[next].value; }`
of `is_element`. -/
def is_element_loop (d : List pair_size_t) (element : Nat) : Nat → Nat → Nat → Option (Nat × Nat)
  | 0, _, _ => none
  | fuel + 1, next, value =>
    if value < element then
      is_element_loop d element fuel (rd d next).next (rd d (rd d next).next).value
    else some (next, value)

/-- Source: `is_element(i, element)`. -/
def is_element (s : list_setvec) (i element : Nat) : Option Bool := do
  CPPAD_ASSERT_UNKNOWN (s.post_.getD i 0 = 0)
  CPPAD_ASSERT_UNKNOWN (element < s.end_)
  let start := s.start_.getD i 0
  if start = 0 then some false
  else do
    let next := (rd s.data_ start).next
    let value := (rd s.data_ next).value
    let (_, value) ← is_element_loop s.data_ element (s.data_.length + 1) next value
    some (element = value)

/-- The loop `while( value < element ) { previous = next; next = data_[next].next;
value = data_[next].value; }` of `add_element`. -/
def add_element_loop (d : List pair_size_t) (element : Nat) :
    Nat → Nat → Nat → Nat → Option (Nat × Nat × Nat)
  | 0, _, _, _ => none
  | fuel + 1, previous, next, value =>
    if value < element then
      add_element_loop d element fuel next (rd d next).next (rd d (rd d next).next).value
    else some (previous, next, value)

/-- The two copy loops of `add_element`, `while( value < bound )` with
`bound = element` and then `bound = end_`: the body (copy `value` to a new pair at
the end of the new list, step to the next pair of the old list) is the same.
The loop state is `(previous_new, next, value)`; `previous` is only written. -/
def add_element_copy (bound : Nat) :
    Nat → list_setvec → Nat → Nat → Nat → Option (list_setvec × Nat × Nat × Nat)
  | 0, _, _, _, _ => none
  | fuel + 1, s, previous_new, next, value =>
    if value < bound then do
      let (next_new, s1) ← get_data_index s
      let s2 := { s1 with data_ := wr_next s1.data_ previous_new next_new }
      let s3 := { s2 with data_ := wr_value s2.data_ next_new value }
      add_element_copy bound fuel s3 next_new (rd s3.data_ next).next
        (rd s3.data_ (rd s3.data_ next).next).value
    else some (s, previous_new, next, value)

/-- The branch of `add_element` for an empty starting set: a new list with the
reference count one and the single pair `element`. -/
def add_element_empty (s : list_setvec) (i element : Nat) : Option list_setvec := do
  let (start, s1) ← get_data_index s
  let s2 := { s1 with start_ := s1.start_.set i start }
  let s3 := { s2 with data_ := wr_value s2.data_ start 1 }
  let (next, s4) ← get_data_index s3
  let s5 := { s4 with data_ := wr_next s4.data_ start next }
  let s6 := { s5 with data_ := wr_value s5.data_ next element }
  some { s6 with data_ := wr_next s6.data_ next 0 }

/-- The branch of `add_element` for the only reference to the list: the new pair is
linked between `previous` and `next`. -/
def add_element_insert (s : list_setvec) (previous next element : Nat) : Option list_setvec := do
  let (insert, s1) ← get_data_index s
  let s2 := { s1 with data_ := wr_next s1.data_ insert next }
  let s3 := { s2 with data_ := wr_value s2.data_ insert element }
  some { s3 with data_ := wr_next s3.data_ previous insert }

/-- The branch of `add_element` for a shared list (`start` is `start_[i]`): a
separate copy with the new element inserted. -/
def add_element_separate (s : list_setvec) (i element start : Nat) : Option list_setvec := do
  CPPAD_ASSERT_UNKNOWN ((rd s.data_ start).value > 1)
  let s1 := { s with data_ := wr_value s.data_ start ((rd s.data_ start).value - 1) }
  let (start_new, s2) ← get_data_index s1
  let s3 := { s2 with data_ := wr_value s2.data_ start_new 1 }
  let previous := s3.start_.getD i 0
  let next := (rd s3.data_ previous).next
  let value := (rd s3.data_ next).value
  let (s4, previous_new, next, value) ←
    add_element_copy element s3.data_.length s3 start_new next value
  CPPAD_ASSERT_UNKNOWN (element < value)
  let (next_new, s5) ← get_data_index s4
  let s6 := { s5 with data_ := wr_next s5.data_ previous_new next_new }
  let s7 := { s6 with data_ := wr_value s6.data_ next_new element }
  let (s8, previous_new, next, _) ←
    add_element_copy s7.end_ s7.data_.length s7 next_new next value
  CPPAD_ASSERT_UNKNOWN (next = 0)
  let s9 := { s8 with data_ := wr_next s8.data_ previous_new 0 }
  some { s9 with start_ := s9.start_.set i start_new }

/-- Source: `add_element(i, element)`. -/
def add_element (s : list_setvec) (i element : Nat) : Option list_setvec := do
  CPPAD_ASSERT_UNKNOWN (i < s.start_.length)
  CPPAD_ASSERT_UNKNOWN (element < s.end_)
  let start := s.start_.getD i 0
  if start = 0 then add_element_empty s i element
  else do
    let next := (rd s.data_ start).next
    let value := (rd s.data_ next).value
    let (previous, next, value) ← add_element_loop s.data_ element s.data_.length start next value
    if value = element then some s
    else do
      CPPAD_ASSERT_UNKNOWN (element < value)
      if (rd s.data_ start).value = 1 then add_element_insert s previous next element
      else add_element_separate s i element start

/-- Source: `clear(target)`. -/
def clear (s : list_setvec) (target : Nat) : Option list_setvec := do
  CPPAD_ASSERT_UNKNOWN (target < s.start_.length)
  let (number_drop, s1) ← drop s target
  some { s1 with number_not_used_ := s1.number_not_used_ + number_drop }

/-- The copy loop of `assignment` (`this != &other`, `other_start != 0`):
`while( next != 0 ) { data_[this_next].value = other.data_[next].value;
next = other.data_[next].next; if( next == 0 ) data_[this_next].next = 0;
else { tmp = get_data_index(); data_[this_next].next = tmp; this_next = tmp; } }`. -/
def assignment_loop (od : List pair_size_t) : Nat → list_setvec → Nat → Nat → Option list_setvec
  | 0, _, _, _ => none
  | fuel + 1, s, this_next, next =>
    if next ≠ 0 then
      let s1 := { s with data_ := wr_value s.data_ this_next (rd od next).value }
      let next1 := (rd od next).next
      if next1 = 0 then
        assignment_loop od fuel { s1 with data_ := wr_next s1.data_ this_next 0 } this_next next1
      else do
        let (tmp, s2) ← get_data_index s1
        assignment_loop od fuel { s2 with data_ := wr_next s2.data_ this_next tmp } tmp next1
    else some s

/-- Source: `assignment(this_target, other_source, other)`; `other = none` is
the case `this == &other`. -/
def assignment (s : list_setvec) (this_target other_source : Nat)
    (other : Option list_setvec) : Option list_setvec := do
  let o := other.getD s
  CPPAD_ASSERT_UNKNOWN (o.post_.getD other_source 0 = 0)
  CPPAD_ASSERT_UNKNOWN (this_target < s.start_.length)
  CPPAD_ASSERT_UNKNOWN (other_source < o.start_.length)
  CPPAD_ASSERT_UNKNOWN (s.end_ = o.end_)
  if other.isNone ∧ this_target = other_source then some s
  else do
    let other_start := o.start_.getD other_source 0
    let (this_start, s1) ←
      if other.isNone then
        if other_start ≠ 0 then do
          let s1 := { s with data_ := wr_value s.data_ other_start ((rd s.data_ other_start).value + 1) }
          CPPAD_ASSERT_UNKNOWN ((rd s1.data_ other_start).value > 1)
          some (other_start, s1)
        else some (other_start, s)
      else if other_start = 0 then some (0, s)
      else do
        let (this_start, s1) ← get_data_index s
        let (this_next, s2) ← get_data_index s1
        let s3 := { s2 with data_ := wr_value s2.data_ this_start 1 }
        let s4 := { s3 with data_ := wr_next s3.data_ this_start this_next }
        let next := (rd o.data_ other_start).next
        CPPAD_ASSERT_UNKNOWN (next ≠ 0)
        let s5 ← assignment_loop o.data_ o.data_.length s4 this_next next
        some (this_start, s5)
    let (number_drop, s2) ← drop s1 this_target
    let s3 := { s2 with number_not_used_ := s2.number_not_used_ + number_drop }
    some { s3 with start_ := s3.start_.set this_target this_start }

/-- The loop that links the values of `temporary_` behind `index`:
`for(...) { next = get_data_index(); data_[index].next = next;
data_[next].value = temporary_[j]; index = next; }`; it ends the source of
`process_post`, `binary_union` and `binary_intersection` in the same form. -/
def link_loop : List Nat → list_setvec → Nat → Option (Nat × list_setvec)
  | [], s, index => some (index, s)
  | v :: vs, s, index => do
    let (next, s1) ← get_data_index s
    let s2 := { s1 with data_ := wr_next s1.data_ index next }
    let s3 := { s2 with data_ := wr_value s2.data_ next v }
    link_loop vs s3 next

/-- The common tail of `process_post`, `binary_union` and `binary_intersection`:
`index = get_data_index(); start_[target] = index; data_[index].value = 1;`
the linking loop over `values`, and `data_[index].next = 0`. -/
def link_new_list (s : list_setvec) (target : Nat) (values : List Nat) : Option list_setvec := do
  let (index, s1) ← get_data_index s
  let s2 := { s1 with start_ := s1.start_.set target index }
  let s3 := { s2 with data_ := wr_value s2.data_ index 1 }
  let (index, s4) ← link_loop values s3 index
  some { s4 with data_ := wr_next s4.data_ index 0 }

/-- The loop of `process_post` that copies the posting to `temporary_`:
`while( next != 0 ) { previous = next; value = data_[previous].value;
assert( value < end_ ); temporary_.push_back(value); next = data_[previous].next; }`. -/
def post_copy_loop (d : List pair_size_t) (end_ : Nat) :
    Nat → List Nat → Nat → Nat → Option (List Nat × Nat)
  | 0, _, _, _ => none
  | fuel + 1, temporary, previous, next =>
    if next ≠ 0 then do
      CPPAD_ASSERT_UNKNOWN ((rd d next).value < end_)
      post_copy_loop d end_ fuel (temporary ++ [(rd d next).value]) next (rd d next).next
    else some (temporary, previous)

/-- The loops `while( i_value < bound ) { temporary_.push_back(i_value);
i_next = data_[i_next].next; i_value = data_[i_next].value; }` of `process_post`
(`bound = post_value`, and `bound = end_` for the rest of set `i`). -/
def post_skip_loop (d : List pair_size_t) (bound : Nat) :
    Nat → List Nat → Nat → Nat → Option (List Nat × Nat × Nat)
  | 0, _, _, _ => none
  | fuel + 1, temporary, i_next, i_value =>
    if i_value < bound then
      post_skip_loop d bound fuel (temporary ++ [i_value]) (rd d i_next).next
        (rd d (rd d i_next).next).value
    else some (temporary, i_next, i_value)

/-- The loop `for(j = 0; j < number_post; ++j)` of `process_post` over the sorted
posting; the state is `(temporary_, i_next, i_value, post_is_subset, previous_post)`. -/
def post_merge_loop (d : List pair_size_t) (end_ : Nat) :
    List Nat → List Nat → Nat → Nat → Bool → Nat → Option (List Nat × Nat × Nat × Bool)
  | [], temporary, i_next, i_value, post_is_subset, _ =>
    some (temporary, i_next, i_value, post_is_subset)
  | post_value :: rest, temporary, i_next, i_value, post_is_subset, previous_post => do
    CPPAD_ASSERT_UNKNOWN (post_value < end_)
    let (temporary1, i_next1, i_value1) ←
      post_skip_loop d post_value d.length temporary i_next i_value
    let (i_next2, i_value2, post_is_subset2) :=
      if i_value1 = post_value then
        ((rd d i_next1).next, (rd d (rd d i_next1).next).value, post_is_subset)
      else (i_next1, i_value1, false)
    let temporary2 :=
      if previous_post ≠ post_value then temporary1 ++ [post_value] else temporary1
    post_merge_loop d end_ rest temporary2 i_next2 i_value2 post_is_subset2 post_value

/-- Source: `process_post(i)`; `std::sort` is a sort into non-decreasing order. -/
def process_post (s : list_setvec) (i : Nat) : Option list_setvec :=
  let post := s.post_.getD i 0
  if post = 0 then some s
  else
    let next := (rd s.data_ post).next
    if next = 0 then do
      -- only one element to process
      let value := (rd s.data_ post).value
      let s1 := { s with post_ := s.post_.set i 0 }
      let s2 := { s1 with data_ := wr_next s1.data_ post s1.data_not_used_ }
      let s3 := { s2 with data_not_used_ := post }
      let s4 := { s3 with number_not_used_ := s3.number_not_used_ + 1 }
      add_element s4 i value
    else do
      let value := (rd s.data_ post).value
      CPPAD_ASSERT_UNKNOWN (value < s.end_)
      let (temporary, previous) ← post_copy_loop s.data_ s.end_ s.data_.length [value] post next
      let number_post := temporary.length
      let s1 := { s with post_ := s.post_.set i 0 }
      let s2 := { s1 with data_ := wr_next s1.data_ previous s1.data_not_used_ }
      let s3 := { s2 with data_not_used_ := post }
      let s4 := { s3 with number_not_used_ := s3.number_not_used_ + number_post }
      CPPAD_ASSERT_UNKNOWN (number_post > 1)
      let sorted := temporary.insertionSort (· ≤ ·)
      let i_start := s4.start_.getD i 0
      let i_next := if i_start > 0 then (rd s4.data_ i_start).next else i_start
      let i_value := if i_start > 0 then (rd s4.data_ i_next).value else s4.end_
      let (temporary1, i_next1, i_value1, post_is_subset) ←
        post_merge_loop s4.data_ s4.end_ sorted sorted i_next i_value true s4.end_
      if post_is_subset then some { s4 with temporary_ := temporary1 }
      else do
        let (temporary2, _, _) ←
          post_skip_loop s4.data_ s4.end_ s4.data_.length temporary1 i_next1 i_value1
        let s5 := { s4 with temporary_ := temporary2 }
        let (number_drop, s6) ← drop s5 i
        let s7 := { s6 with number_not_used_ := s6.number_not_used_ + number_drop }
        CPPAD_ASSERT_UNKNOWN (s7.temporary_.length ≥ number_post + 1)
        link_new_list s7 i (s7.temporary_.drop number_post)

/-- Loop state of the merge loops of `binary_union` and `binary_intersection`. -/
structure merge_state where
  temporary : List Nat
  next_left : Nat
  value_left : Nat
  next_right : Nat
  value_right : Nat
  left_is_subset : Bool
  right_is_subset : Bool
deriving DecidableEq, Repr

/-- The loop `while( (value_left < end_) & (value_right < end_) )` of `binary_union`;
`d` is `data_` and `od` is `other.data_`. -/
def union_loop (d od : List pair_size_t) (end_ : Nat) : Nat → merge_state → Option merge_state
  | 0, _ => none
  | fuel + 1, m =>
    if m.value_left < end_ ∧ m.value_right < end_ then
      if m.value_left = m.value_right then
        union_loop d od end_ fuel { m with
          temporary := m.temporary ++ [m.value_left]
          next_left := (rd d m.next_left).next
          value_left := (rd d (rd d m.next_left).next).value
          next_right := (rd od m.next_right).next
          value_right := (rd od (rd od m.next_right).next).value }
      else if m.value_left < m.value_right then
        union_loop d od end_ fuel { m with
          left_is_subset := false
          temporary := m.temporary ++ [m.value_left]
          next_left := (rd d m.next_left).next
          value_left := (rd d (rd d m.next_left).next).value }
      else
        union_loop d od end_ fuel { m with
          right_is_subset := false
          temporary := m.temporary ++ [m.value_right]
          next_right := (rd od m.next_right).next
          value_right := (rd od (rd od m.next_right).next).value }
    else some m

/-- The loops `while( value < end_ ) { temporary_.push_back(value); next = data[next].next;
value = data[next].value; }` that end the merge of `binary_union`. -/
def union_rest_loop (d : List pair_size_t) (end_ : Nat) :
    Nat → List Nat → Nat → Nat → Option (List Nat)
  | 0, _, _, _ => none
  | fuel + 1, temporary, next, value =>
    if value < end_ then
      union_rest_loop d end_ fuel (temporary ++ [value]) (rd d next).next
        (rd d (rd d next).next).value
    else some temporary

/-- The assertions that open `binary_union` and `binary_intersection`
(`o` is `other`). -/
def binary_asserts (s o : list_setvec) (this_target this_left other_right : Nat) :
    Option Unit := do
  CPPAD_ASSERT_UNKNOWN (s.post_.getD this_left 0 = 0)
  CPPAD_ASSERT_UNKNOWN (o.post_.getD other_right 0 = 0)
  CPPAD_ASSERT_UNKNOWN (this_target < s.start_.length)
  CPPAD_ASSERT_UNKNOWN (this_left < s.start_.length)
  CPPAD_ASSERT_UNKNOWN (other_right < o.start_.length)
  CPPAD_ASSERT_UNKNOWN (s.end_ = o.end_)

/-- Start of the merge in `binary_union` and `binary_intersection` when both
operands are non-empty: the assertions and the first pair of each list. -/
def merge_init (s o : list_setvec) (this_left other_right : Nat) : Option merge_state := do
  let start_left := s.start_.getD this_left 0
  let start_right := o.start_.getD other_right 0
  CPPAD_ASSERT_UNKNOWN (reference_count s this_left > 0)
  CPPAD_ASSERT_UNKNOWN (reference_count o other_right > 0)
  let next_left := (rd s.data_ start_left).next
  let value_left := (rd s.data_ next_left).value
  let next_right := (rd o.data_ start_right).next
  let value_right := (rd o.data_ next_right).value
  CPPAD_ASSERT_UNKNOWN (value_left < s.end_ && value_right < s.end_)
  some ⟨[], next_left, value_left, next_right, value_right, true, true⟩

/-- End of `binary_union` when neither operand is a subset of the other: the rest of
the operands goes to `temporary_`, the target is dropped and the union is linked. -/
def union_new_list (s o : list_setvec) (this_target : Nat) (m : merge_state) :
    Option list_setvec := do
  let temporary1 ← union_rest_loop s.data_ s.end_ s.data_.length m.temporary
    m.next_left m.value_left
  let temporary2 ← union_rest_loop o.data_ s.end_ o.data_.length temporary1
    m.next_right m.value_right
  let s2 := { s with temporary_ := temporary2 }
  let (number_drop, s3) ← drop s2 this_target
  let s4 := { s3 with number_not_used_ := s3.number_not_used_ + number_drop }
  CPPAD_ASSERT_UNKNOWN (s4.temporary_.length ≥ 2)
  link_new_list s4 this_target s4.temporary_

/-- Source: `binary_union(this_target, this_left, other_right, other)`; `other = none`
is the case `this == &other`. -/
def binary_union (s : list_setvec) (this_target this_left other_right : Nat)
    (other : Option list_setvec) : Option list_setvec := do
  binary_asserts s (other.getD s) this_target this_left other_right
  if (other.getD s).start_.getD other_right 0 = 0 then
    assignment s this_target this_left none
  else if s.start_.getD this_left 0 = 0 then
    assignment s this_target other_right other
  else do
    let m0 ← merge_init s (other.getD s) this_left other_right
    let m ← union_loop s.data_ (other.getD s).data_ s.end_
      (s.data_.length + (other.getD s).data_.length) m0
    let s1 := { s with temporary_ := m.temporary }
    if m.right_is_subset && (m.value_right = s.end_) then
      assignment s1 this_target this_left none
    else if m.left_is_subset && (m.value_left = s.end_) then
      assignment s1 this_target other_right other
    else union_new_list s1 (other.getD s1) this_target m

/-- The loop `while( (value_left < end_) & (value_right < end_) )` of
`binary_intersection`. -/
def intersection_loop (d od : List pair_size_t) (end_ : Nat) :
    Nat → merge_state → Option merge_state
  | 0, _ => none
  | fuel + 1, m =>
    if m.value_left < end_ ∧ m.value_right < end_ then
      if m.value_left = m.value_right then
        intersection_loop d od end_ fuel { m with
          temporary := m.temporary ++ [m.value_left]
          next_left := (rd d m.next_left).next
          value_left := (rd d (rd d m.next_left).next).value
          next_right := (rd od m.next_right).next
          value_right := (rd od (rd od m.next_right).next).value }
      else if m.value_left < m.value_right then
        intersection_loop d od end_ fuel { m with
          left_is_subset := false
          next_left := (rd d m.next_left).next
          value_left := (rd d (rd d m.next_left).next).value }
      else
        intersection_loop d od end_ fuel { m with
          right_is_subset := false
          next_right := (rd od m.next_right).next
          value_right := (rd od (rd od m.next_right).next).value }
    else some m

/-- Source: `binary_intersection(this_target, this_left, other_right, other)`;
`other = none` is the case `this == &other`. -/
def binary_intersection (s : list_setvec) (this_target this_left other_right : Nat)
    (other : Option list_setvec) : Option list_setvec := do
  binary_asserts s (other.getD s) this_target this_left other_right
  if s.start_.getD this_left 0 = 0 ∨ (other.getD s).start_.getD other_right 0 = 0 then
    clear s this_target
  else do
    let m0 ← merge_init s (other.getD s) this_left other_right
    let m ← intersection_loop s.data_ (other.getD s).data_ s.end_
      (s.data_.length + (other.getD s).data_.length) m0
    let s1 := { s with temporary_ := m.temporary }
    if m.left_is_subset && (m.value_left = s.end_) then
      assignment s1 this_target this_left none
    else if m.right_is_subset && (m.value_right = s.end_) then
      assignment s1 this_target other_right other
    else do
      let (number_drop, s2) ← drop s1 this_target
      let s3 := { s2 with number_not_used_ := s2.number_not_used_ + number_drop }
      if s3.temporary_.length = 0 then some s3
      else link_new_list s3 this_target s3.temporary_

/-- State of a `list_setvec_const_iterator`: the members `data_` (a reference to
the data of the vector of sets), `end_` and `next_pair_`. -/
structure list_setvec_const_iterator where
  data_ : List pair_size_t
  end_ : Nat
  next_pair_ : pair_size_t
deriving DecidableEq, Repr

/-- Source: the constructor `list_setvec_const_iterator(list, i)`. -/
def list_setvec_const_iterator.ctor (list : list_setvec) (i : Nat) :
    Option list_setvec_const_iterator := do
  CPPAD_ASSERT_UNKNOWN (list.post_.getD i 0 = 0)
  let start := list.start_.getD i 0
  if start = 0 then some ⟨list.data_, list.end_, ⟨list.end_, 0⟩⟩
  else do
    CPPAD_ASSERT_UNKNOWN ((rd list.data_ start).value > 0)
    let next := (rd list.data_ start).next
    CPPAD_ASSERT_UNKNOWN (next ≠ 0)
    let next_pair := rd list.data_ next
    CPPAD_ASSERT_UNKNOWN (next_pair.value < list.end_)
    some ⟨list.data_, list.end_, next_pair⟩

/-- Source: `operator++`. -/
def list_setvec_const_iterator.incr (it : list_setvec_const_iterator) :
    list_setvec_const_iterator :=
  { it with next_pair_ := rd it.data_ it.next_pair_.next }

/-- Source: `operator*`. -/
def list_setvec_const_iterator.deref (it : list_setvec_const_iterator) : Nat :=
  it.next_pair_.value

end CppAD


namespace CppAD

/-! ## Representation invariant -/

/-- `Seg d p ns q`: following the `next` fields of `d` from index `p` visits exactly
the non-zero indices `ns`, in that order, and arrives at `q`. -/
def Seg (d : List pair_size_t) : Nat → List Nat → Nat → Prop
  | p, [], q => p = q
  | p, n :: ns, q => p = n ∧ n ≠ 0 ∧ n < d.length ∧ Seg d (rd d n).next ns q

/-- The values stored in the pairs `ns`. -/
def vals (d : List pair_size_t) (ns : List Nat) : List Nat :=
  ns.map fun x => (rd d x).value

/-- What a pair of `data_` is used for. -/
inductive Owner
  | sentinel
  | free
  | post (i : Nat)
  | head
  | elem (h : Nat)
  | scratch
deriving DecidableEq

/-- Ghost description of `data_`: the owner of every pair, the pairs of the free
list, of every posting, and of the list that starts at every reference counter. -/
structure Layout where
  own : Nat → Owner
  free : List Nat
  posts : Nat → List Nat
  elems : Nat → List Nat

/-- The pairs of `d` are linked as the layout `L` says; `f h` is the value of the
reference counter `h`. -/
structure Heap (d : List pair_size_t) (e : Nat) (L : Layout) (f : Nat → Nat) : Prop where
  len_pos : 0 < d.length
  zero : rd d 0 = ⟨e, 0⟩
  own_zero : L.own 0 = Owner.sentinel
  free_chain : Seg d (L.free.headD 0) L.free 0
  free_own : ∀ x ∈ L.free, L.own x = Owner.free
  post_chain : ∀ i, Seg d ((L.posts i).headD 0) (L.posts i) 0
  post_own : ∀ i, ∀ x ∈ L.posts i, L.own x = Owner.post i
  post_val : ∀ i, ∀ x ∈ L.posts i, (rd d x).value < e
  list_chain : ∀ h, h < d.length → L.own h = Owner.head → Seg d (rd d h).next (L.elems h) 0
  list_ne : ∀ h, h < d.length → L.own h = Owner.head → L.elems h ≠ []
  list_own : ∀ h, h < d.length → L.own h = Owner.head → ∀ x ∈ L.elems h, L.own x = Owner.elem h
  list_sorted : ∀ h, h < d.length → L.own h = Owner.head → (vals d (L.elems h)).Pairwise (· < ·)
  list_val : ∀ h, h < d.length → L.own h = Owner.head → ∀ x ∈ L.elems h, (rd d x).value < e
  list_rc : ∀ h, h < d.length → L.own h = Owner.head → (rd d h).value = f h
  complete_sentinel : ∀ x, x < d.length → L.own x = Owner.sentinel → x = 0
  complete_free : ∀ x, x < d.length → L.own x = Owner.free → x ∈ L.free
  complete_post : ∀ x, x < d.length → ∀ i, L.own x = Owner.post i → x ∈ L.posts i
  complete_elem : ∀ x, x < d.length → ∀ h, L.own x = Owner.elem h →
    h < d.length ∧ L.own h = Owner.head ∧ x ∈ L.elems h
  rc_pos : ∀ h, h < d.length → L.own h = Owner.head → 0 < f h

/-- The free list of `s` is the one of the layout. -/
structure FreeLink (s : list_setvec) (L : Layout) : Prop where
  head : s.data_not_used_ = L.free.headD 0
  count : s.number_not_used_ = L.free.length

/-- The vectors `start_` and `post_` of `s` point at the lists of the layout, and
no reference counter `f h` is below the number of sets that start at `h`. -/
structure SetLink (s : list_setvec) (L : Layout) (f : Nat → Nat) : Prop where
  len : s.post_.length = s.start_.length
  post : ∀ i, i < s.start_.length → s.post_.getD i 0 = (L.posts i).headD 0
  post_out : ∀ i, s.start_.length ≤ i → L.posts i = []
  start : ∀ i, i < s.start_.length → s.start_.getD i 0 ≠ 0 →
    s.start_.getD i 0 < s.data_.length ∧ L.own (s.start_.getD i 0) = Owner.head
  rc : ∀ h, h < s.data_.length → L.own h = Owner.head → s.start_.count h ≤ f h

/-- Invariant of the storage of `s` during a member function: the heap is linked as
the layout says, the free list is the one of the layout, and the scratch pairs
(allocated, not yet part of a list) are exactly `pending`. -/
structure Inv (s : list_setvec) (L : Layout) (f : Nat → Nat) (pending : List Nat) : Prop where
  heap : Heap s.data_ s.end_ L f
  free : FreeLink s L
  scratch : ∀ x, x < s.data_.length → (L.own x = Owner.scratch ↔ x ∈ pending)
  pending_lt : ∀ x ∈ pending, x < s.data_.length

/-- Representation invariant of a `list_setvec` with at least one set: `data_[0]`
is the end marker, every non-empty set starts at a reference counter that counts
the sets starting there and is followed by a non-empty list of strictly increasing
values below `end_`, and the lists, the postings and the free list use disjoint
pairs that together are all of `data_`. -/
def WF (s : list_setvec) : Prop :=
  ∃ L : Layout,
    Inv s L (fun h => s.start_.count h) [] ∧ SetLink s L (fun h => s.start_.count h)

/-- The state of an object without sets (after the default constructor or
`resize(0, 0)`). -/
def IsEmpty (s : list_setvec) : Prop :=
  s.end_ = 0 ∧ s.number_not_used_ = 0 ∧ s.data_not_used_ = 0 ∧ s.data_ = [] ∧
  s.start_ = [] ∧ s.post_ = []

/-- `SetIs s i vs`: the list of set `i` holds exactly the values `vs`, in this order. -/
def SetIs (s : list_setvec) (i : Nat) (vs : List Nat) : Prop :=
  if s.start_.getD i 0 = 0 then vs = []
  else ∃ ns, Seg s.data_ (rd s.data_ (s.start_.getD i 0)).next ns 0 ∧ vs = vals s.data_ ns

end CppAD

namespace CppAD

/-- The layout after `get_data_index` returned `k`: the pair `k` leaves the free list. -/
def Layout.alloc (L : Layout) (k : Nat) : Layout :=
  { L with own := Function.update L.own k Owner.scratch, free := L.free.erase k }

/-- The layout after the pairs `h :: ns` became a list with reference counter `h`. -/
def Layout.adopt (L : Layout) (h : Nat) (ns : List Nat) : Layout :=
  { L with
    own := fun x => if x = h then Owner.head else if x ∈ ns then Owner.elem h else L.own x
    elems := Function.update L.elems h ns }

/-- The layout after the pairs `c` were put in front of the free list. -/
def Layout.release (L : Layout) (c : List Nat) (posts : Nat → List Nat) : Layout :=
  { L with
    own := fun x => if x ∈ c then Owner.free else L.own x
    free := c ++ L.free
    posts := posts }

end CppAD

namespace CppAD

/-- The layout after `drop(i)`: the posting of set `i` and the pairs `c` (the list of
set `i` when its last reference is dropped, else no pair) are in the free list. -/
def Layout.drop (L : Layout) (i : Nat) (c : List Nat) : Layout :=
  { L with
    own := fun x => if x ∈ c ∨ x ∈ L.posts i then Owner.free else L.own x
    free := c ++ (L.posts i ++ L.free)
    posts := Function.update L.posts i [] }

end CppAD

namespace CppAD

/-- A list under construction: the new pairs `k0 :: N` are linked from the reference
counter `k0` up to the last one, `pn`, whose link is not yet written. -/
def Partial (d : List pair_size_t) (k0 : Nat) (N : List Nat) (pn : Nat) : Prop :=
  (k0 :: N).Nodup ∧ ∃ M, k0 :: N = M ++ [pn] ∧ Seg d k0 M pn

/-- `Ext s L s1 L1`: the pairs that are in a list or a posting of `(s, L)` have the
same owner and content in `(s1, L1)`, and the lists and postings are the same. -/
structure Ext (s : list_setvec) (L : Layout) (s1 : list_setvec) (L1 : Layout) : Prop where
  len : s.data_.length ≤ s1.data_.length
  own : ∀ x, x < s.data_.length → L.own x ≠ Owner.free → L.own x ≠ Owner.scratch →
    L1.own x = L.own x
  back : ∀ x, x < s1.data_.length → L1.own x ≠ Owner.scratch →
    x < s.data_.length ∧ L.own x = L1.own x
  rd : ∀ x, x < s.data_.length → L.own x ≠ Owner.free → L.own x ≠ Owner.scratch →
    rd s1.data_ x = rd s.data_ x
  elems : L1.elems = L.elems
  posts : L1.posts = L.posts

end CppAD

namespace CppAD

/-- The values of set `i` of `s` as the layout `L` gives them. -/
def Layout.content (L : Layout) (s : list_setvec) (i : Nat) : List Nat :=
  if s.start_.getD i 0 = 0 then [] else vals s.data_ (L.elems (s.start_.getD i 0))

end CppAD

namespace CppAD

/-- `Frame s L s1 L1 keep`: every list of `(s, L)` whose reference counter satisfies
`keep` is the same list in `(s1, L1)`. -/
structure Frame (s : list_setvec) (L : Layout) (s1 : list_setvec) (L1 : Layout)
    (keep : Nat → Prop) : Prop where
  len : s.data_.length ≤ s1.data_.length
  head : ∀ h, h < s.data_.length → L.own h = Owner.head → keep h →
    L1.own h = Owner.head ∧ L1.elems h = L.elems h ∧ (rd s1.data_ h).next = (rd s.data_ h).next
  elem : ∀ h, h < s.data_.length → L.own h = Owner.head → keep h →
    ∀ x ∈ L.elems h, rd s1.data_ x = rd s.data_ x

end CppAD

namespace CppAD

/-- The layout after the scratch pair `k` was linked into the list of `h`, which now
has the pairs `ns`. -/
def Layout.insert (L : Layout) (h k : Nat) (ns : List Nat) : Layout :=
  { L with own := Function.update L.own k (Owner.elem h), elems := Function.update L.elems h ns }

end CppAD


namespace CppAD

/-- The common form of the merge loops of `binary_union` and `binary_intersection`:
`pushL` (`pushR`) says whether a value that is only in the left (right) operand goes to
`temporary`; `union_loop` is the case `true true` and `intersection_loop` the case
`false false`. -/
def merge_loop (pushL pushR : Bool) (d od : List pair_size_t) (end_ : Nat) :
    Nat → merge_state → Option merge_state
  | 0, _ => none
  | fuel + 1, m =>
    if m.value_left < end_ ∧ m.value_right < end_ then
      if m.value_left = m.value_right then
        merge_loop pushL pushR d od end_ fuel { m with
          temporary := m.temporary ++ [m.value_left]
          next_left := (rd d m.next_left).next
          value_left := (rd d (rd d m.next_left).next).value
          next_right := (rd od m.next_right).next
          value_right := (rd od (rd od m.next_right).next).value }
      else if m.value_left < m.value_right then
        merge_loop pushL pushR d od end_ fuel { m with
          left_is_subset := false
          temporary := if pushL then m.temporary ++ [m.value_left] else m.temporary
          next_left := (rd d m.next_left).next
          value_left := (rd d (rd d m.next_left).next).value }
      else
        merge_loop pushL pushR d od end_ fuel { m with
          right_is_subset := false
          temporary := if pushR then m.temporary ++ [m.value_right] else m.temporary
          next_right := (rd od m.next_right).next
          value_right := (rd od (rd od m.next_right).next).value }
    else some m

/-- The loop state of a merge that stands at the pairs `nl` of the left and `nr` of
the right operand. -/
def merge_at (d od : List pair_size_t) (T nl nr : List Nat) (ls rs : Bool) : merge_state :=
  ⟨T, nl.headD 0, (rd d (nl.headD 0)).value, nr.headD 0, (rd od (nr.headD 0)).value, ls, rs⟩

/-- What a merge loop has done when it consumed the values `CA` of the left and `CB`
of the right operand and left `RA` and `RB`: the consumed values are below the
remaining ones, `T1` (the values pushed) is increasing and holds the common values
and the one-sided values the loop pushes, and a flag is still set exactly when it
was set and no value of its operand was found missing in the other one. -/
def MergeOut (pL pR : Bool) (CA CB RA RB T1 : List Nat) (ls rs ls1 rs1 : Bool) : Prop :=
  (∀ u ∈ CA ++ CB, ∀ y ∈ RA ++ RB, u < y) ∧ T1.Pairwise (· < ·) ∧
  (∀ x, x ∈ T1 ↔ (x ∈ CA ∧ (pL = true ∨ x ∈ CB)) ∨ (x ∈ CB ∧ (pR = true ∨ x ∈ CA))) ∧
  (ls1 = true ↔ ls = true ∧ ∀ x ∈ CA, x ∈ CB) ∧
  (rs1 = true ↔ rs = true ∧ ∀ x ∈ CB, x ∈ CA)

/-- The layout after the scratch pair `k` was put in front of the posting of set `i`. -/
def Layout.push (L : Layout) (i k : Nat) : Layout :=
  { L with own := Function.update L.own k (Owner.post i)
           posts := Function.update L.posts i (k :: L.posts i) }

/-- `PostIs s i ps`: the values posted to set `i` and not yet processed are `ps`,
the last posted first. -/
def PostIs (s : list_setvec) (i : Nat) (ps : List Nat) : Prop :=
  ∃ ns, Seg s.data_ (s.post_.getD i 0) ns 0 ∧ ps = vals s.data_ ns

/-- Invariant of the merge loop of `process_post`: the values `T` pushed so far are
increasing, and unless nothing was pushed (`prev = e`, the initial value of
`previous_post`) the last processed posted value `prev` is the greatest of them
and is below the values `RA` of set `i` not yet visited. -/
def PostInv (e : Nat) (T RA : List Nat) (prev : Nat) : Prop :=
  T.Pairwise (· < ·) ∧
    ((prev = e ∧ T = []) ∨ (prev < e ∧ prev ∈ T ∧ (∀ t ∈ T, t ≤ prev) ∧ ∀ y ∈ RA, prev < y))

/-- The first `k` values that a `const_iterator` yields by `*itr` and `++itr`. -/
def list_setvec_const_iterator.values : Nat → list_setvec_const_iterator → List Nat
  | 0, _ => []
  | k + 1, it => it.deref :: list_setvec_const_iterator.values k it.incr

/-- The calls `post_element(i, e1)`, ..., `post_element(i, ek)`. -/
def post_all (s : list_setvec) (i : Nat) : List Nat → Option list_setvec
  | [] => some s
  | e :: es => (post_element s i e).bind fun s1 => post_all s1 i es

/-- The calls `add_element(i, e1)`, ..., `add_element(i, ek)`. -/
def add_all (s : list_setvec) (i : Nat) : List Nat → Option list_setvec
  | [] => some s
  | e :: es => (add_element s i e).bind fun s1 => add_all s1 i es

/-- The states of a `list_setvec` object that a program can reach: the state after the
default constructor, and the state after a call of `resize`, `add_element`,
`post_element`, `process_post`, `clear`, `assignment`, `binary_union`,
`binary_intersection` or `operator=` that returns (no assertion fails), where the
other object of the call, if it is not this object, is in a reachable state too.
(`swap` leaves each object in the state the other one had.) -/
inductive Reachable : list_setvec → Prop
  | ctor : Reachable list_setvec.ctor
  | resize {s s1 : list_setvec} {n_set end_ : Nat} :
      Reachable s → resize s n_set end_ = some s1 → Reachable s1
  | add_element {s s1 : list_setvec} {i element : Nat} :
      Reachable s → add_element s i element = some s1 → Reachable s1
  | post_element {s s1 : list_setvec} {i element : Nat} :
      Reachable s → post_element s i element = some s1 → Reachable s1
  | process_post {s s1 : list_setvec} {i : Nat} :
      Reachable s → process_post s i = some s1 → Reachable s1
  | clear {s s1 : list_setvec} {target : Nat} :
      Reachable s → clear s target = some s1 → Reachable s1
  | assignment {s s1 : list_setvec} {target source : Nat} {other : Option list_setvec} :
      Reachable s → (∀ o, other = some o → Reachable o) →
      assignment s target source other = some s1 → Reachable s1
  | binary_union {s s1 : list_setvec} {target left right : Nat} {other : Option list_setvec} :
      Reachable s → (∀ o, other = some o → Reachable o) →
      binary_union s target left right other = some s1 → Reachable s1
  | binary_intersection {s s1 : list_setvec} {target left right : Nat}
      {other : Option list_setvec} :
      Reachable s → (∀ o, other = some o → Reachable o) →
      binary_intersection s target left right other = some s1 → Reachable s1
  | assign {s other : list_setvec} : Reachable s → Reachable other → Reachable (s.assign other)

end CppAD


namespace CppAD

/-! ## Example states -/

/-- A vector of seven sets over `{0, ..., 4}`: the state after `resize(7, 5)`, the
elements `1, 2` added to set 0, `2, 3` to set 1 and `4` to set 4, then
`assignment(2, 0, *this)` and `binary_intersection(3, 0, 1, *this)`; sets 0 and 2 share
one list, set 3 is `{2}`, sets 5 and 6 are empty. -/
def example_vec : list_setvec :=
  ⟨5, 0, 0,
    [⟨5, 0⟩, ⟨2, 2⟩, ⟨1, 3⟩, ⟨2, 0⟩, ⟨1, 5⟩, ⟨2, 6⟩, ⟨3, 0⟩, ⟨1, 8⟩, ⟨4, 0⟩, ⟨1, 10⟩, ⟨2, 0⟩],
    [1, 4, 1, 9, 7, 0, 0], [0, 0, 0, 0, 0, 0, 0], [2]⟩

/-- The calls that build `example_vec` from a default-constructed object. -/
def example_vec_calls : Option list_setvec :=
  ((((((((some list_setvec.ctor).bind fun s => resize s 7 5).bind fun s =>
    add_element s 0 1).bind fun s => add_element s 0 2).bind fun s =>
    add_element s 1 2).bind fun s => add_element s 1 3).bind fun s =>
    add_element s 4 4).bind fun s => assignment s 2 0 none).bind fun s =>
    binary_intersection s 3 0 1 none

/-- One set over `{0, ..., 4}` that is empty and has the posted element `2`: the state
after `resize(1, 5)` and `post_element(0, 2)`. -/
def example_pending : list_setvec :=
  ⟨5, 0, 0, [⟨5, 0⟩, ⟨2, 0⟩], [0], [1], []⟩

/-- The calls that build `example_pending` from a default-constructed object. -/
def example_pending_calls : Option list_setvec :=
  ((some list_setvec.ctor).bind fun s => resize s 1 5).bind fun s => post_element s 0 2

end CppAD


namespace CppAD

/-! ## `sparsity_user2internal` -/

/-- Modelled from the spec: the macro `CPPAD_ASSERT_KNOWN` is defined outside the
given sources; in a checked build a failed assertion is a fatal error (here `none`),
and its message is not modelled. -/
def CPPAD_ASSERT_KNOWN (c : Bool) : Option Unit :=
  if c then some () else none

/-- The loop `while(itr != user[j].end()) { i = *itr++; assert( i < n_set );
internal.add_element(i, j); }` of the transposed case; `is` is the sequence that the
iterator of the set `user[j]` yields. -/
def user2internal_column (n_set j : Nat) : List Nat → list_setvec → Option list_setvec
  | [], s => some s
  | i :: is, s => do
    CPPAD_ASSERT_KNOWN (i < n_set)
    let s1 ← add_element s i j
    user2internal_column n_set j is s1

/-- The loop `while(itr != user[i].end()) { j = *itr++; assert( j < end );
internal.add_element(i, j); }` of the case that is not transposed. -/
def user2internal_row (end_ i : Nat) : List Nat → list_setvec → Option list_setvec
  | [], s => some s
  | j :: js, s => do
    CPPAD_ASSERT_KNOWN (j < end_)
    let s1 ← add_element s i j
    user2internal_row end_ i js s1

/-- The loop `for(j = 0; j < end; j++)` of the transposed case, with `k` columns from
column `j` on still to do. -/
def user2internal_columns (user : List (List Nat)) (n_set : Nat) :
    Nat → Nat → list_setvec → Option list_setvec
  | 0, _, s => some s
  | k + 1, j, s => do
    let s1 ← user2internal_column n_set j (user.getD j []) s
    user2internal_columns user n_set k (j + 1) s1

/-- The loop `for(i = 0; i < n_set; i++)` of the case that is not transposed, with `k`
rows from row `i` on still to do. -/
def user2internal_rows (user : List (List Nat)) (end_ : Nat) :
    Nat → Nat → list_setvec → Option list_setvec
  | 0, _, s => some s
  | k + 1, i, s => do
    let s1 ← user2internal_row end_ i (user.getD i []) s
    user2internal_rows user end_ k (i + 1) s1

/-- Source: `sparsity_user2internal(internal, user, n_set, end, transpose, error_msg)`
for `list_setvec`, in a checked build; a set `user[i]` is given by the sequence of its
elements in the order of its iterator. -/
def sparsity_user2internal (internal : list_setvec) (user : List (List Nat))
    (n_set end_ : Nat) (transpose : Bool) : Option list_setvec := do
  if transpose then CPPAD_ASSERT_KNOWN (end_ = user.length) else some ()
  if ! transpose then CPPAD_ASSERT_KNOWN (n_set = user.length) else some ()
  let s ← resize internal n_set end_
  if transpose then user2internal_columns user n_set end_ 0 s
  else user2internal_rows user end_ n_set 0 s

/-- `Mem s i x`: the list of set `i` of `s` holds the value `x`. -/
def Mem (s : list_setvec) (i x : Nat) : Prop :=
  ∃ vs, SetIs s i vs ∧ x ∈ vs

end CppAD


namespace CppAD

/-! ## `AD<Base>`: the computed assignment operators `+=` and `-=` -/

/-- Modelled from the spec: the opcodes that the given sources name (the opcode table
is declared outside the given sources): those that `operator+=` and `operator-=`
record, and `InvOp` and `AbsOp` of `sweep::dynamic`. -/
inductive OpCode where
  | AddpvOp
  | AddvpOp
  | AddvvOp
  | SubpvOp
  | SubvpOp
  | SubvvOp
  | InvOp
  | AbsOp
deriving DecidableEq, Repr

/-- Modelled from the spec: an operand of an operation, one of the "operand addresses
or embedded constants". -/
inductive Operand (Base : Type) where
  | par (value : Base)
  | addr (taddr : Nat)
deriving DecidableEq, Repr

/-- Modelled from the spec: an operation "(opcode, operand addresses or embedded
constants, result address)". -/
structure Operation (Base : Type) where
  op : OpCode
  arg0 : Operand Base
  arg1 : Operand Base
  result : Nat
deriving DecidableEq, Repr

/-- Modelled from the spec: the tape, "an ordered sequence of Operations" that "grows
only by append"; `size` is the number of addresses in use, the next fresh address. -/
structure ADTape (Base : Type) where
  Rec : List (Operation Base)
  size : Nat
deriving DecidableEq, Repr

/-- The members of an `AD<Base>` object that the operators read and write: `value` and
`taddr`, and (modelled from the spec: "variant {Constant(base value), Variable(tape-id,
address)}") whether the object is a variable of the tape that is recording. -/
structure AD (Base : Type) where
  value : Base
  is_variable : Bool
  taddr : Nat
deriving DecidableEq, Repr

/-- The objects of type `AD<Base>` of a program, by location, and the tape that `Tape()`
returns. A reference is a location, so `y += y` is the call with `right` equal to
`this`. -/
structure ADState (Base : Type) where
  obj : Nat → AD Base
  tape : ADTape Base

/-- Modelled from the spec: `Parameter(u)`, the object is a "Constant(base value)". -/
def Parameter {Base : Type} (u : AD Base) : Bool := ! u.is_variable

/-- Modelled from the spec: `Variable(u)`, the object is a "Variable(tape-id,
address)" of the tape that is recording. -/
def Variable {Base : Type} (u : AD Base) : Bool := u.is_variable

/-- Modelled from the spec: `IdenticalZero(u)` for an `AD<Base>` object `u`: a parameter
whose value is identically zero; `IdenticalZero` for the type `Base` is the argument
`zero`. -/
def AD.IdenticalZero {Base : Type} (zero : Base → Bool) (u : AD Base) : Bool :=
  Parameter u && zero u.value

/-- The assignment `value = v` in a member function of the object at `this`. -/
def ADState.set_value {Base : Type} (m : ADState Base) (this : Nat) (v : Base) :
    ADState Base :=
  { m with obj := Function.update m.obj this { m.obj this with value := v } }

/-- Modelled from the spec: the member function `MakeVariable(taddr)`, which "converts
the target directly into an alias of the variable": the object at `this` becomes a
variable with the tape address `taddr`; its value is kept and nothing is recorded. -/
def MakeVariable {Base : Type} (m : ADState Base) (this taddr : Nat) : ADState Base :=
  { m with obj := Function.update m.obj this
              { m.obj this with is_variable := true, taddr := taddr } }

/-- Modelled from the spec: `Tape()->RecordOp(op, z, arg0, arg1)`, "appends an
Operation, returns a fresh result address": the operation is appended to the tape and
the object at `z` becomes the variable at the fresh address; its value is kept. -/
def RecordOp {Base : Type} (m : ADState Base) (op : OpCode) (z : Nat)
    (arg0 arg1 : Operand Base) : ADState Base :=
  { obj := Function.update m.obj z
             { m.obj z with is_variable := true, taddr := m.tape.size },
    tape := { Rec := m.tape.Rec ++ [⟨op, arg0, arg1, m.tape.size⟩],
              size := m.tape.size + 1 } }

/-- Source: `AD<Base>& AD<Base>::operator += (const AD<Base> &right)` (AddEq.h), for
the object at `this`; the second component is the location of the returned reference
(`return *this`). The helper `IdenticalZero` of the type `Base` is the argument
`zero`. -/
def AD.operator_add_eq {Base : Type} [Add Base] (zero : Base → Bool) (m : ADState Base)
    (this right : Nat) : ADState Base × Nat :=
  let left := (m.obj this).value
  let m1 := m.set_value this ((m.obj this).value + (m.obj right).value)
  if Parameter (m1.obj this) then
    if Variable (m1.obj right) then
      if zero left then
        (MakeVariable m1 this (m1.obj right).taddr, this)
      else
        (RecordOp m1 OpCode.AddpvOp this (Operand.par left)
          (Operand.addr (m1.obj right).taddr), this)
    else (m1, this)
  else if Parameter (m1.obj right) then
    if ! zero (m1.obj right).value then
      (RecordOp m1 OpCode.AddvpOp this (Operand.addr (m1.obj this).taddr)
        (Operand.par (m1.obj right).value), this)
    else (m1, this)
  else
    (RecordOp m1 OpCode.AddvvOp this (Operand.addr (m1.obj this).taddr)
      (Operand.addr (m1.obj right).taddr), this)

/-- Source: `AD<Base>& AD<Base>::operator -= (const AD<Base> &right)` (SubEq.h), for
the object at `this`; the second component is the location of the returned reference
(`return *this`). -/
def AD.operator_sub_eq {Base : Type} [Sub Base] (zero : Base → Bool) (m : ADState Base)
    (this right : Nat) : ADState Base × Nat :=
  let left := (m.obj this).value
  let m1 := m.set_value this ((m.obj this).value - (m.obj right).value)
  if Parameter (m1.obj this) then
    if Variable (m1.obj right) then
      (RecordOp m1 OpCode.SubpvOp this (Operand.par left)
        (Operand.addr (m1.obj right).taddr), this)
    else (m1, this)
  else if Parameter (m1.obj right) then
    if ! AD.IdenticalZero zero (m1.obj right) then
      (RecordOp m1 OpCode.SubvpOp this (Operand.addr (m1.obj this).taddr)
        (Operand.par (m1.obj right).value), this)
    else (m1, this)
  else
    (RecordOp m1 OpCode.SubvvOp this (Operand.addr (m1.obj this).taddr)
      (Operand.addr (m1.obj right).taddr), this)

/-- The helper `IdenticalZero` for the exact base type `Int` of the examples. -/
def IdenticalZero_Int (x : Int) : Bool := decide (x = 0)

/-- An example state over the base type `Int`: the objects at 0 and 2 are the parameters
0 and 3, the objects at 1 and 3 are variables with the values 5 and 7 at the tape
addresses 1 and 2, every other object is the parameter 0; nothing is recorded yet. -/
def example_state : ADState Int :=
  { obj := fun k =>
      if k = 1 then ⟨5, true, 1⟩
      else if k = 2 then ⟨3, false, 0⟩
      else if k = 3 then ⟨7, true, 2⟩
      else ⟨0, false, 0⟩,
    tape := ⟨[], 3⟩ }

end CppAD


namespace CppAD

/-! ## Fatal errors and the two build configurations -/

/-- The ways in which a call ends other than by returning: the fatal error of
`CPPAD_ASSERT_KNOWN(false, msg)` with its message, the fatal error of a failed
`CPPAD_ASSERT_UNKNOWN`, a failed C `assert`, a checked element access past the end of
a vector, and undefined behaviour (use of a null pointer, of an object of another
class, or an unchecked access past the end). -/
inductive Fatal where
  | known (msg : String)
  | unknown
  | c_assert
  | index
  | undefined
deriving DecidableEq, Repr

namespace sweep

/-- Modelled from the spec: the macro `CPPAD_ASSERT_UNKNOWN(exp)`, defined outside the
given sources: an internal-consistency fault "may be elided in a trusted build
configuration, but must abort immediately when checked"; `NDEBUG` is the trusted
build. -/
def CPPAD_ASSERT_UNKNOWN (NDEBUG c : Bool) : Except Fatal Unit :=
  if NDEBUG || c then Except.ok () else Except.error Fatal.unknown

/-- Modelled from the spec: the macro `CPPAD_ASSERT_KNOWN(exp, msg)`, defined outside
the given sources: a fatal error with the message `msg` when `exp` is false, and like
`CPPAD_ASSERT_UNKNOWN` elided when `NDEBUG` is defined. -/
def CPPAD_ASSERT_KNOWN (NDEBUG c : Bool) (msg : String) : Except Fatal Unit :=
  if NDEBUG || c then Except.ok () else Except.error (Fatal.known msg)

/-- The C macro `assert(exp)` in a block that is compiled without `NDEBUG`. -/
def c_assert (c : Bool) : Except Fatal Unit :=
  if c then Except.ok () else Except.error Fatal.c_assert

/-- The element access `v[i]` of `pod_vector` and `CppAD::vector` (declared outside
the given sources): past the end it is a fatal error in a checked build and undefined
behaviour with `NDEBUG`. -/
def vec_read {α : Type} (NDEBUG : Bool) (v : List α) (i : Nat) : Except Fatal α :=
  match v[i]? with
  | some a => Except.ok a
  | none => Except.error (if NDEBUG then Fatal.undefined else Fatal.index)

/-- The assignment `v[i] = a` of `pod_vector` and `CppAD::vector`. -/
def vec_write {α : Type} (NDEBUG : Bool) (v : List α) (i : Nat) (a : α) :
    Except Fatal (List α) :=
  if i < v.length then Except.ok (v.set i a)
  else Except.error (if NDEBUG then Fatal.undefined else Fatal.index)

/-! ## The atomic function dispatcher (`call_atomic.hpp`) -/

/-- The virtual functions of `atomic_base<Base>` (type tag 2, declared outside the given
sources) that the dispatcher calls. `S` is the state that the calls can change (the
objects of the user), `B` the type `Base`, `E` the type `ad_type_enum` and `P` the type
`InternalSparsity`; the results are the return value, if it has one, the arguments
that are not `const`, and the state. -/
structure atomic_base (B E P S : Type) where
  set_old : Nat → S → S
  forward : Nat → Nat → List E → List E → List B → List B → S → Bool × List E × List B × S
  reverse : Nat → List B → List B → List B → List B → S → Bool × List B × S
  for_sparse_jac : List B → List Nat → List Nat → P → S → P × S
  rev_sparse_jac : List B → List Nat → List Nat → P → S → P × S
  for_sparse_hes : List B → List Nat → List Nat → P → P → P → S → P × S
  rev_sparse_hes : List B → List Nat → List Nat → P → List Bool → P → S → List Bool × P × S

/-- The virtual functions of `atomic_three<Base>` (type tag 3, declared outside the
given sources) that the dispatcher calls. -/
structure atomic_three (B E S : Type) where
  forward : Nat → Nat → List E → List E → List B → List B → S → Bool × List E × List B × S
  reverse : Nat → List B → List B → List B → List B → S → Bool × List B × S

/-- The object that a pointer of the registry that is not null points to. -/
inductive atomic_object (B E P S : Type) where
  | base (afun : atomic_base B E P S)
  | three (afun : atomic_three B E S)

/-- Modelled from the spec: an "atomic registry entry: (stable index, type tag,
pointer-or-null to an implementation)", with the registered name of the function. -/
structure atomic_index_info (B E P S : Type) where
  type : Nat
  name : String
  ptr : Option (atomic_object B E P S)

/-- Modelled from the spec: `local::atomic_index<RecBase>(set_null, index, type,
name_ptr, v_ptr)` with `set_null` false, declared outside the given sources: the
"registry maps a stable numeric index to (type tag, pointer-or-null)"; the results are
the values of `type`, of the name and of `v_ptr`. -/
def atomic_index {B E P S : Type} (registry : Nat → atomic_index_info B E P S)
    (index : Nat) : Nat × String × Option (atomic_object B E P S) :=
  ((registry index).type, (registry index).name, (registry index).ptr)

/-- The use of `reinterpret_cast< atomic_base<RecBase>* >(v_ptr)`: undefined for a
null pointer and for an object that is not an `atomic_base`. -/
def as_atomic_base {B E P S : Type} :
    Option (atomic_object B E P S) → Except Fatal (atomic_base B E P S)
  | some (atomic_object.base afun) => Except.ok afun
  | _ => Except.error Fatal.undefined

/-- The use of `reinterpret_cast< atomic_three<RecBase>* >(v_ptr)`: undefined for a
null pointer and for an object that is not an `atomic_three`. -/
def as_atomic_three {B E P S : Type} :
    Option (atomic_object B E P S) → Except Fatal (atomic_three B E S)
  | some (atomic_object.three afun) => Except.ok afun
  | _ => Except.error Fatal.undefined

/-- The block `if( type == 2 ) { ... afun->set_old(atom_old); afun->forward(...) }
else { ... afun->forward(...) }` of `call_atomic_forward`, which is the same in both
builds but for the assertion `type == 3`. -/
def call_atomic_forward_type {B E P S : Type} (NDEBUG : Bool) (type : Nat)
    (v_ptr : Option (atomic_object B E P S)) (order_low order_up atom_old : Nat)
    (type_x type_y : List E) (taylor_x taylor_y : List B) (s : S) :
    Except Fatal (Bool × List E × List B × S) :=
  if type = 2 then do
    let afun ← as_atomic_base v_ptr
    let s1 := afun.set_old atom_old s
    pure (afun.forward order_low order_up type_x type_y taylor_x taylor_y s1)
  else do
    CPPAD_ASSERT_UNKNOWN NDEBUG (type = 3)
    let afun ← as_atomic_three v_ptr
    pure (afun.forward order_low order_up type_x type_y taylor_x taylor_y s)

/-- Source: `call_atomic_forward(order_low, order_up, atom_index, atom_old, type_x,
type_y, taylor_x, taylor_y)`, in the build with `NDEBUG` defined or not; the result is
`type_y`, `taylor_y` and the state after the call. -/
def call_atomic_forward {B E P S : Type} (NDEBUG : Bool)
    (registry : Nat → atomic_index_info B E P S) (order_low order_up atom_index atom_old : Nat)
    (type_x type_y : List E) (taylor_x taylor_y : List B) (s : S) :
    Except Fatal (List E × List B × S) := do
  CPPAD_ASSERT_UNKNOWN NDEBUG (0 < atom_index)
  let (type, _, v_ptr) := atomic_index registry atom_index
  if ! NDEBUG then
    let ok := v_ptr.isSome
    let r ← if ok then
        call_atomic_forward_type NDEBUG type v_ptr order_low order_up atom_old type_x type_y
          taylor_x taylor_y s
      else pure (ok, type_y, taylor_y, s)
    if ! r.1 then
      let (_, name, v_ptr) := atomic_index registry atom_index
      let msg := name
      let msg := if v_ptr.isNone then msg ++ ": this atomic_three function has been deleted"
        else msg ++ ": atomic forward returned false"
      CPPAD_ASSERT_KNOWN NDEBUG false msg
    pure r.2
  else
    let r ← call_atomic_forward_type NDEBUG type v_ptr order_low order_up atom_old type_x
      type_y taylor_x taylor_y s
    pure r.2

/-- The block `if( type == 2 ) { ... afun->set_old(atom_old); afun->reverse(...) }
else { ... afun->reverse(...) }` of `call_atomic_reverse`. -/
def call_atomic_reverse_type {B E P S : Type} (NDEBUG : Bool) (type : Nat)
    (v_ptr : Option (atomic_object B E P S)) (order_up atom_old : Nat)
    (taylor_x taylor_y partial_x partial_y : List B) (s : S) :
    Except Fatal (Bool × List B × S) :=
  if type = 2 then do
    let afun ← as_atomic_base v_ptr
    let s1 := afun.set_old atom_old s
    pure (afun.reverse order_up taylor_x taylor_y partial_x partial_y s1)
  else do
    CPPAD_ASSERT_UNKNOWN NDEBUG (type = 3)
    let afun ← as_atomic_three v_ptr
    pure (afun.reverse order_up taylor_x taylor_y partial_x partial_y s)

/-- Source: `call_atomic_reverse(order_up, atom_index, atom_old, taylor_x, taylor_y,
partial_x, partial_y)`, in the build with `NDEBUG` defined or not; the result is
`partial_x` and the state after the call. -/
def call_atomic_reverse {B E P S : Type} (NDEBUG : Bool)
    (registry : Nat → atomic_index_info B E P S) (order_up atom_index atom_old : Nat)
    (taylor_x taylor_y partial_x partial_y : List B) (s : S) :
    Except Fatal (List B × S) := do
  CPPAD_ASSERT_UNKNOWN NDEBUG (0 < atom_index)
  let (type, _, v_ptr) := atomic_index registry atom_index
  if ! NDEBUG then
    let ok := v_ptr.isSome
    let r ← if ok then
        call_atomic_reverse_type NDEBUG type v_ptr order_up atom_old taylor_x taylor_y
          partial_x partial_y s
      else pure (ok, partial_x, s)
    if ! r.1 then
      let (_, name, v_ptr) := atomic_index registry atom_index
      let msg := name
      let msg := if v_ptr.isNone then msg ++ ": this atomic_three function has been deleted"
        else msg ++ ": atomic reverse returned false"
      CPPAD_ASSERT_KNOWN NDEBUG false msg
    pure r.2
  else
    let r ← call_atomic_reverse_type NDEBUG type v_ptr order_up atom_old taylor_x taylor_y
      partial_x partial_y s
    pure r.2

/-- Source: `call_atomic_for_jac_sparsity(atom_index, atom_old, parameter_x, x_index,
y_index, var_sparsity)`; the result is `var_sparsity` and the state after the call. -/
def call_atomic_for_jac_sparsity {B E P S : Type} (NDEBUG : Bool)
    (registry : Nat → atomic_index_info B E P S) (atom_index atom_old : Nat)
    (parameter_x : List B) (x_index y_index : List Nat) (var_sparsity : P) (s : S) :
    Except Fatal (P × S) := do
  CPPAD_ASSERT_UNKNOWN NDEBUG (0 < atom_index)
  let (type, _, v_ptr) := atomic_index registry atom_index
  CPPAD_ASSERT_UNKNOWN NDEBUG (type = 2)
  let afun ← as_atomic_base v_ptr
  let s1 := afun.set_old atom_old s
  pure (afun.for_sparse_jac parameter_x x_index y_index var_sparsity s1)

/-- Source: `call_atomic_rev_jac_sparsity(atom_index, atom_old, parameter_x, x_index,
y_index, var_sparsity)`; the result is `var_sparsity` and the state after the call. -/
def call_atomic_rev_jac_sparsity {B E P S : Type} (NDEBUG : Bool)
    (registry : Nat → atomic_index_info B E P S) (atom_index atom_old : Nat)
    (parameter_x : List B) (x_index y_index : List Nat) (var_sparsity : P) (s : S) :
    Except Fatal (P × S) := do
  CPPAD_ASSERT_UNKNOWN NDEBUG (0 < atom_index)
  let (type, _, v_ptr) := atomic_index registry atom_index
  CPPAD_ASSERT_UNKNOWN NDEBUG (type = 2)
  let afun ← as_atomic_base v_ptr
  let s1 := afun.set_old atom_old s
  pure (afun.rev_sparse_jac parameter_x x_index y_index var_sparsity s1)

/-- Source: `call_atomic_for_hes_sparsity(atom_index, atom_old, parameter_x, x_index,
y_index, for_jac_sparsity, rev_jac_sparsity, for_hes_sparsity)`; the result is
`for_hes_sparsity` and the state after the call. -/
def call_atomic_for_hes_sparsity {B E P S : Type} (NDEBUG : Bool)
    (registry : Nat → atomic_index_info B E P S) (atom_index atom_old : Nat)
    (parameter_x : List B) (x_index y_index : List Nat)
    (for_jac_sparsity rev_jac_sparsity for_hes_sparsity : P) (s : S) :
    Except Fatal (P × S) := do
  CPPAD_ASSERT_UNKNOWN NDEBUG (0 < atom_index)
  let (type, _, v_ptr) := atomic_index registry atom_index
  CPPAD_ASSERT_UNKNOWN NDEBUG (type = 2)
  let afun ← as_atomic_base v_ptr
  let s1 := afun.set_old atom_old s
  pure (afun.for_sparse_hes parameter_x x_index y_index for_jac_sparsity rev_jac_sparsity
    for_hes_sparsity s1)

/-- Source: `call_atomic_rev_hes_sparsity(atom_index, atom_old, parameter_x, x_index,
y_index, for_jac_sparsity, rev_jac_flag, rev_hes_sparsity)`; the result is
`rev_jac_flag`, `rev_hes_sparsity` and the state after the call. -/
def call_atomic_rev_hes_sparsity {B E P S : Type} (NDEBUG : Bool)
    (registry : Nat → atomic_index_info B E P S) (atom_index atom_old : Nat)
    (parameter_x : List B) (x_index y_index : List Nat) (for_jac_sparsity : P)
    (rev_jac_flag : List Bool) (rev_hes_sparsity : P) (s : S) :
    Except Fatal (List Bool × P × S) := do
  CPPAD_ASSERT_UNKNOWN NDEBUG (0 < atom_index)
  let (type, _, v_ptr) := atomic_index registry atom_index
  CPPAD_ASSERT_UNKNOWN NDEBUG (type = 2)
  let afun ← as_atomic_base v_ptr
  let s1 := afun.set_old atom_old s
  pure (afun.rev_sparse_hes parameter_x x_index y_index for_jac_sparsity rev_jac_flag
    rev_hes_sparsity s1)

/-- The type tag of an entry agrees with its object: a function that is not deleted
has the tag 2 when its object is an `atomic_base` and the tag 3 when it is an
`atomic_three`. -/
def atomic_index_info.well_typed {B E P S : Type} (e : atomic_index_info B E P S) : Bool :=
  match e.ptr with
  | some (atomic_object.base _) => decide (e.type = 2)
  | some (atomic_object.three _) => decide (e.type = 3)
  | none => true

/-- What the implementation of `forward` of the function of an entry returns (for an
`atomic_base` after `set_old(atom_old)`); `none` for a deleted function. -/
def atomic_index_info.own_forward {B E P S : Type} (e : atomic_index_info B E P S)
    (order_low order_up atom_old : Nat) (type_x type_y : List E) (taylor_x taylor_y : List B)
    (s : S) : Option (Bool × List E × List B × S) :=
  match e.ptr with
  | some (atomic_object.base afun) =>
    some (afun.forward order_low order_up type_x type_y taylor_x taylor_y
      (afun.set_old atom_old s))
  | some (atomic_object.three afun) =>
    some (afun.forward order_low order_up type_x type_y taylor_x taylor_y s)
  | none => none

/-- What the implementation of `reverse` of the function of an entry returns (for an
`atomic_base` after `set_old(atom_old)`); `none` for a deleted function. -/
def atomic_index_info.own_reverse {B E P S : Type} (e : atomic_index_info B E P S)
    (order_up atom_old : Nat) (taylor_x taylor_y partial_x partial_y : List B) (s : S) :
    Option (Bool × List B × S) :=
  match e.ptr with
  | some (atomic_object.base afun) =>
    some (afun.reverse order_up taylor_x taylor_y partial_x partial_y
      (afun.set_old atom_old s))
  | some (atomic_object.three afun) =>
    some (afun.reverse order_up taylor_x taylor_y partial_x partial_y s)
  | none => none

/-- The outcome of a call of the dispatcher as the sources describe it, given what the
callback of the function returns (`none` for a deleted function): `del` and `fal` are
the messages of the two fatal errors of a checked build. -/
def dispatch_outcome {α : Type} (NDEBUG : Bool) (own : Option (Bool × α))
    (del fal : String) : Except Fatal α :=
  match own with
  | none => if NDEBUG then Except.error Fatal.undefined else Except.error (Fatal.known del)
  | some r => if NDEBUG || r.1 then Except.ok r.2 else Except.error (Fatal.known fal)

/-- An `atomic_three` object for the examples: the state counts the calls; `forward`
and `reverse` return whether `order_up` is 0 and copy `taylor_x` to their result. -/
def example_three : atomic_three Int Nat Nat :=
  { forward := fun _ order_up type_x _ taylor_x _ s =>
      (decide (order_up = 0), type_x, taylor_x, s + 1),
    reverse := fun order_up taylor_x _ _ _ s => (decide (order_up = 0), taylor_x, s + 1) }

/-- An `atomic_base` object for the examples: `set_old` stores `atom_old` in the state,
`forward` and `reverse` return whether `order_up` is 0 and copy `taylor_y` and
`partial_y`, the sparsity functions add `x_index` to the pattern. -/
def example_base : atomic_base Int Nat (List Nat) Nat :=
  { set_old := fun atom_old _ => atom_old,
    forward := fun _ order_up _ type_y _ taylor_y s =>
      (decide (order_up = 0), type_y, taylor_y, s),
    reverse := fun order_up _ _ _ partial_y s => (decide (order_up = 0), partial_y, s),
    for_sparse_jac := fun _ x_index _ p s => (p ++ x_index, s),
    rev_sparse_jac := fun _ x_index _ p s => (p ++ x_index, s),
    for_sparse_hes := fun _ x_index _ _ _ p s => (p ++ x_index, s),
    rev_sparse_hes := fun _ x_index _ _ flag p s => (flag, p ++ x_index, s) }

/-- A registry for the examples: index 1 is the `atomic_three` function "three", index
2 the `atomic_base` function "base", index 3 the deleted `atomic_three` function
"gone" and every other index the deleted `atomic_base` function "old". -/
def example_registry : Nat → atomic_index_info Int Nat (List Nat) Nat := fun index =>
  if index = 1 then ⟨3, "three", some (atomic_object.three example_three)⟩
  else if index = 2 then ⟨2, "base", some (atomic_object.base example_base)⟩
  else if index = 3 then ⟨3, "gone", none⟩
  else ⟨2, "old", none⟩

end sweep

end CppAD


namespace CppAD

namespace sweep

/-! ## `sweep::dynamic` (`dynamic.hpp`) -/

/-- The loop `for(j = 0; j < num_ind_dynamic; ++j) CPPAD_ASSERT_UNKNOWN( dyn_par_is[j] &&
OpCode( dyn_par_op[j] ) == InvOp )` of a checked build, with `n` indices from `j` on
still to do. -/
def dynamic_check_ind (dyn_par_is : List Bool) (dyn_par_op : List OpCode) :
    Nat → Nat → Except Fatal Unit
  | 0, _ => Except.ok ()
  | n + 1, j => do
    let is_dyn ← vec_read false dyn_par_is j
    let c ← if is_dyn then do
        let op ← vec_read false dyn_par_op j
        pure (decide (op = OpCode.InvOp))
      else pure false
    CPPAD_ASSERT_UNKNOWN false c
    dynamic_check_ind dyn_par_is dyn_par_op n (j + 1)

/-- The loop `for(j = 0; j < NumArg(op); ++j) CPPAD_ASSERT_UNKNOWN( size_t(
dyn_par_arg[i_arg + j] ) < i )` of a checked build, with `n` arguments from `j` on
still to do. -/
def dynamic_check_arg (dyn_par_arg : List Nat) (i i_arg : Nat) : Nat → Nat → Except Fatal Unit
  | 0, _ => Except.ok ()
  | n + 1, j => do
    let a ← vec_read false dyn_par_arg (i_arg + j)
    CPPAD_ASSERT_UNKNOWN false (a < i)
    dynamic_check_arg dyn_par_arg i i_arg n (j + 1)

/-- The function `abs` at the integer type `addr_t` of an element of `dyn_par_arg`. -/
def abs_addr (a : Nat) : Nat := (Int.ofNat a).natAbs

/-- The loop `for(i = num_ind_dynamic; i < par_vec.size(); ++i) if( dyn_par_is[i] ) {
... }` of `dynamic`, with `n` indices from `i` on still to do (the size of `par_vec`
does not change). `NumArg` and `OpName` are the tables of the opcodes, declared outside
the given sources. The source line `OpCode op = OpCode( dyn_par_op[i_op++];` is read
with its closing parenthesis. -/
def dynamic_loop {Base : Type} [NatCast Base] (NDEBUG : Bool) (NumArg : OpCode → Nat)
    (OpName : OpCode → String) (dyn_par_is : List Bool) (dyn_par_op : List OpCode)
    (dyn_par_arg : List Nat) :
    Nat → Nat → Nat → Nat → List Base → Except Fatal (List Base)
  | 0, _, _, _, par_vec => Except.ok par_vec
  | n + 1, i, i_op, i_arg, par_vec => do
    let is_dyn ← vec_read NDEBUG dyn_par_is i
    if is_dyn then
      let op ← vec_read NDEBUG dyn_par_op i_op
      if ! NDEBUG then dynamic_check_arg dyn_par_arg i i_arg (NumArg op) 0
      let par_vec1 ← match op with
        | OpCode.AbsOp => do
          let a ← vec_read NDEBUG dyn_par_arg (i_arg + 0)
          vec_write NDEBUG par_vec i ((abs_addr a : Nat) : Base)
        | _ => do
          CPPAD_ASSERT_KNOWN NDEBUG false (OpName op)
          pure par_vec
      dynamic_loop NDEBUG NumArg OpName dyn_par_is dyn_par_op dyn_par_arg n (i + 1) (i_op + 1)
        (i_arg + NumArg op) par_vec1
    else
      dynamic_loop NDEBUG NumArg OpName dyn_par_is dyn_par_op dyn_par_arg n (i + 1) i_op i_arg
        par_vec

/-- Source: `dynamic(num_ind_dynamic, par_vec, dyn_par_is, dyn_par_op, dyn_par_arg)`;
the result is `par_vec` after the call. -/
def dynamic {Base : Type} [NatCast Base] (NDEBUG : Bool) (NumArg : OpCode → Nat)
    (OpName : OpCode → String) (num_ind_dynamic : Nat) (par_vec : List Base)
    (dyn_par_is : List Bool) (dyn_par_op : List OpCode) (dyn_par_arg : List Nat) :
    Except Fatal (List Base) := do
  if ! NDEBUG then dynamic_check_ind dyn_par_is dyn_par_op num_ind_dynamic 0
  dynamic_loop NDEBUG NumArg OpName dyn_par_is dyn_par_op dyn_par_arg
    (par_vec.length - num_ind_dynamic) num_ind_dynamic num_ind_dynamic 0 par_vec

/-- The change of `i`, `i_op` and `i_arg` in one iteration of the loop of `dynamic` that
does not end in a fatal error. -/
def dynamic_step (NumArg : OpCode → Nat) (dyn_par_is : List Bool) (dyn_par_op : List OpCode)
    (r : Nat × Nat × Nat) : Nat × Nat × Nat :=
  if dyn_par_is.getD r.1 false then
    (r.1 + 1, r.2.1 + 1, r.2.2 + NumArg (dyn_par_op.getD r.2.1 OpCode.InvOp))
  else (r.1 + 1, r.2.1, r.2.2)

/-- The values of `i`, `i_op` and `i_arg` at the start of the iteration for the
parameter `num_ind_dynamic + n`. -/
def dynamic_index (NumArg : OpCode → Nat) (num_ind_dynamic : Nat) (dyn_par_is : List Bool)
    (dyn_par_op : List OpCode) (n : Nat) : Nat × Nat × Nat :=
  (dynamic_step NumArg dyn_par_is dyn_par_op)^[n] (num_ind_dynamic, num_ind_dynamic, 0)

/-- A table `NumArg` for the examples: `AbsOp` has one argument, `InvOp` none and the
binary operators two. -/
def example_NumArg : OpCode → Nat
  | OpCode.AbsOp => 1
  | OpCode.InvOp => 0
  | _ => 2

/-- A table `OpName` for the examples. -/
def example_OpName : OpCode → String
  | OpCode.AbsOp => "Abs"
  | OpCode.InvOp => "Inv"
  | OpCode.AddpvOp => "Addpv"
  | OpCode.AddvpOp => "Addvp"
  | OpCode.AddvvOp => "Addvv"
  | OpCode.SubpvOp => "Subpv"
  | OpCode.SubvpOp => "Subvp"
  | OpCode.SubvvOp => "Subvv"

end sweep

/-! ## The atomic function `atomic_reciprocal` of `llvm_tst.cpp` -/

/-- Source: `atomic_reciprocal::forward(parameter_x, type_x, need_y, order_low,
order_up, taylor_x, taylor_y)`; the result is the return value and `taylor_y` after the
call. `B` is the type `double` with its division and `E` the type `ad_type_enum`. -/
def atomic_reciprocal.forward {B E : Type} [One B] [Div B] (NDEBUG : Bool)
    (parameter_x : List B) (type_x : List E) (need_y order_low order_up : Nat)
    (taylor_x taylor_y : List B) : Except Fatal (Bool × List B) := do
  if ! NDEBUG then
    let n := taylor_x.length / (order_up + 1)
    let m := taylor_y.length / (order_up + 1)
    sweep.c_assert (n = 1)
    sweep.c_assert (m = 1)
    sweep.c_assert (order_low ≤ order_up)
  let ok := decide (order_up = 0)
  if ! ok then
    pure (ok, taylor_y)
  else
    let x0 ← sweep.vec_read NDEBUG taylor_x 0
    let taylor_y1 ← sweep.vec_write NDEBUG taylor_y 0 (1 / x0)
    pure (ok, taylor_y1)

end CppAD


namespace CppAD

/-! ## Sealed functions, their sweeps and the graph exchange form

The class `ADFun`, its sweeps, the comparison operators and the graph exchange form are
declared outside the given sources (the sources hold tests of them); the definitions of
this section are modelled from the spec. -/

/-- Modelled from the spec: the "comparison opcodes used for conditional branching"; an
operation holds the relation that was true at recording time. -/
inductive CompareOp where
  | eq
  | le
  | lt
  | ne
deriving DecidableEq, Repr

/-- Modelled from the spec: an operand of an operation of a sealed tape: a dynamic
parameter or a constant of the "parameter table split into true constants and dynamic
parameters", or the address of a variable. -/
inductive Ref where
  | dyn (k : Nat)
  | con (k : Nat)
  | var (a : Nat)
deriving DecidableEq, Repr

/-- Modelled from the spec: the operations of a sealed tape that the tests of the given
sources use: the sum of its operands, whose result is the next variable, and a
comparison of two operands, which has no result. -/
inductive FunOp where
  | sum (args : List Ref)
  | comp (c : CompareOp) (left right : Ref)
deriving DecidableEq, Repr

/-- Modelled from the spec: a Function "owns a sealed tape, a parameter table split into
true constants and dynamic parameters, and the list of dependent (output) addresses".
The variables `0 .. n_ind - 1` are the independent variables. -/
structure ADFun (Base : Type) where
  n_dyn : Nat
  n_ind : Nat
  constants : List Base
  ops : List FunOp
  dependents : List Ref
deriving DecidableEq, Repr

/-- Modelled from the spec: `f.Domain()`, the number of independent variables. -/
def ADFun.Domain {Base : Type} (f : ADFun Base) : Nat := f.n_ind

/-- Modelled from the spec: `f.Range()`, the number of dependent values. -/
def ADFun.Range {Base : Type} (f : ADFun Base) : Nat := f.dependents.length

/-- Modelled from the spec: `f.size_dyn_ind()`, the number of independent dynamic
parameters. -/
def ADFun.size_dyn_ind {Base : Type} (f : ADFun Base) : Nat := f.n_dyn

/-- The operand is in range when `n_var` variables are defined. -/
def Ref.valid (n_dyn n_con n_var : Nat) : Ref → Bool
  | Ref.dyn k => decide (k < n_dyn)
  | Ref.con k => decide (k < n_con)
  | Ref.var a => decide (a < n_var)

/-- Modelled from the spec: the invariant of a sealed tape, "every operand address
referenced by an operation must have a strictly smaller index than the operation's own
result address", for the operations `ops` that follow `n_var` variables. -/
def FunOp.valid_list (n_dyn n_con : Nat) : Nat → List FunOp → Bool
  | _, [] => true
  | n_var, FunOp.sum args :: ops =>
    args.all (Ref.valid n_dyn n_con n_var) && FunOp.valid_list n_dyn n_con (n_var + 1) ops
  | n_var, FunOp.comp _ left right :: ops =>
    Ref.valid n_dyn n_con n_var left && Ref.valid n_dyn n_con n_var right &&
      FunOp.valid_list n_dyn n_con n_var ops

/-- The number of variables of a tape with `n_var` variables before `ops`. -/
def FunOp.count_var : Nat → List FunOp → Nat
  | n_var, [] => n_var
  | n_var, FunOp.sum _ :: ops => FunOp.count_var (n_var + 1) ops
  | n_var, FunOp.comp _ _ _ :: ops => FunOp.count_var n_var ops

/-- Modelled from the spec: a sealed Function: `end_recording` "validates the
acyclic/forward-reference invariant"; every operand and every dependent is in range. -/
def ADFun.sealed {Base : Type} (f : ADFun Base) : Bool :=
  FunOp.valid_list f.n_dyn f.constants.length f.n_ind f.ops &&
    f.dependents.all
      (Ref.valid f.n_dyn f.constants.length (FunOp.count_var f.n_ind f.ops))

/-- The value of an operand, given the dynamic parameters, the constants and the values
of the variables. -/
def Ref.value {Base : Type} [Zero Base] (p constants vars : List Base) : Ref → Base
  | Ref.dyn k => p.getD k 0
  | Ref.con k => constants.getD k 0
  | Ref.var a => vars.getD a 0

/-- Whether the relation of a comparison holds. -/
def CompareOp.holds {Base : Type} [LinearOrder Base] (c : CompareOp) (left right : Base) :
    Bool :=
  match c with
  | CompareOp.eq => decide (left = right)
  | CompareOp.le => decide (left ≤ right)
  | CompareOp.lt => decide (left < right)
  | CompareOp.ne => decide (left ≠ right)

/-- Modelled from the spec: the forward sweep of order zero, "ordinary function
evaluation": "iterate operations in tape order"; the state is the values of the
variables and the "compare changed" counter, which counts the comparisons whose
"run-time comparison result differs from its value at recording time". -/
def forward0_sweep {Base : Type} [LinearOrderedRing Base] (p constants : List Base) :
    List FunOp → List Base × Nat → List Base × Nat
  | [], s => s
  | FunOp.sum args :: ops, s =>
    forward0_sweep p constants ops
      (s.1 ++ [(args.map (Ref.value p constants s.1)).sum], s.2)
  | FunOp.comp c left right :: ops, s =>
    forward0_sweep p constants ops
      (s.1, if c.holds (Ref.value p constants s.1 left) (Ref.value p constants s.1 right)
        then s.2 else s.2 + 1)

/-- Modelled from the spec: `f.new_dynamic(p)` followed by `f.Forward(0, x)`, the values
of the dependents; mismatched vector sizes are an input-validity fault (`none`). -/
def ADFun.Forward0 {Base : Type} [LinearOrderedRing Base] (f : ADFun Base)
    (p x : List Base) : Option (List Base) :=
  if p.length = f.n_dyn ∧ x.length = f.n_ind then
    some (f.dependents.map
      (Ref.value p f.constants (forward0_sweep p f.constants f.ops (x, 0)).1))
  else none

/-- Modelled from the spec: `f.compare_change_number()` after `f.new_dynamic(p)` and
`f.Forward(0, x)`: the "compare changed" counter of that sweep. -/
def ADFun.compare_change_number {Base : Type} [LinearOrderedRing Base] (f : ADFun Base)
    (p x : List Base) : Nat :=
  (forward0_sweep p f.constants f.ops (x, 0)).2

/-- The first order Taylor coefficient of an operand: that of a variable, or zero for a
parameter. -/
def Ref.tangent {Base : Type} [Zero Base] (dvars : List Base) : Ref → Base
  | Ref.var a => dvars.getD a 0
  | _ => 0

/-- Modelled from the spec: the forward sweep of order one: for each operation the
Taylor coefficient of its result "from its already-computed operand coefficients"; the
coefficient of a sum is the sum of those of its operands. -/
def forward1_sweep {Base : Type} [LinearOrderedRing Base] :
    List FunOp → List Base → List Base
  | [], dvars => dvars
  | FunOp.sum args :: ops, dvars =>
    forward1_sweep ops (dvars ++ [(args.map (Ref.tangent dvars)).sum])
  | FunOp.comp _ _ _ :: ops, dvars => forward1_sweep ops dvars

/-- Modelled from the spec: `f.Forward(1, dx)` after a forward sweep of order zero: the
first order Taylor coefficients of the dependents. -/
def ADFun.Forward1 {Base : Type} [LinearOrderedRing Base] (f : ADFun Base)
    (dx : List Base) : Option (List Base) :=
  if dx.length = f.n_ind then
    some (f.dependents.map (Ref.tangent (forward1_sweep f.ops dx)))
  else none

/-- The operations with a result, each with the address of its result, for a tape with
`n_var` variables before `ops`. -/
def FunOp.results : Nat → List FunOp → List (Nat × List Ref)
  | _, [] => []
  | n_var, FunOp.sum args :: ops => (n_var, args) :: FunOp.results (n_var + 1) ops
  | n_var, FunOp.comp _ _ _ :: ops => FunOp.results n_var ops

/-- The statement `adjoint[a] += v`. -/
def adjoint_add {Base : Type} [Add Base] [Zero Base] (adjoint : List Base) (a : Nat)
    (v : Base) : List Base :=
  adjoint.set a (adjoint.getD a 0 + v)

/-- The contribution `adjoint[a] += v` to each operand of a sum that is a variable. -/
def adjoint_add_args {Base : Type} [Add Base] [Zero Base] (v : Base) :
    List Ref → List Base → List Base
  | [], adjoint => adjoint
  | Ref.var a :: args, adjoint => adjoint_add_args v args (adjoint_add adjoint a v)
  | _ :: args, adjoint => adjoint_add_args v args adjoint

/-- The seed of a reverse sweep: `adjoint[d] += w[i]` for each dependent `d` that is a
variable. -/
def adjoint_seed {Base : Type} [Add Base] [Zero Base] :
    List Ref → List Base → List Base → List Base
  | Ref.var a :: deps, v :: w, adjoint => adjoint_seed deps w (adjoint_add adjoint a v)
  | _ :: deps, _ :: w, adjoint => adjoint_seed deps w adjoint
  | _, _, adjoint => adjoint

/-- Modelled from the spec: the reverse sweep of order one: "iterate operations in
reverse tape order; for each, dispatch on opcode to add this operation's contribution to
its operands' adjoint accumulators"; `results` is in reverse tape order. -/
def reverse1_sweep {Base : Type} [Add Base] [Zero Base] :
    List (Nat × List Ref) → List Base → List Base
  | [], adjoint => adjoint
  | (r, args) :: results, adjoint =>
    reverse1_sweep results (adjoint_add_args (adjoint.getD r 0) args adjoint)

/-- Modelled from the spec: `f.Reverse(1, w)` after a forward sweep of order zero: the
adjoints of the independent variables for the weights `w` of the dependents. -/
def ADFun.Reverse1 {Base : Type} [LinearOrderedRing Base] (f : ADFun Base)
    (w : List Base) : Option (List Base) :=
  if w.length = f.dependents.length then
    some ((reverse1_sweep (FunOp.results f.n_ind f.ops).reverse
      (adjoint_seed f.dependents w
        (List.replicate (FunOp.count_var f.n_ind f.ops) 0))).take f.n_ind)
  else none

end CppAD


namespace CppAD

/-! ## Recording (modelled from the spec) -/

/-- Modelled from the spec: the recording, the tape of the operations recorded so far
and the constants of its parameter table. -/
structure Recorder (Base : Type) where
  n_ind : Nat
  constants : List Base
  ops : List FunOp
deriving DecidableEq, Repr

/-- Modelled from the spec: `Independent(x)`, `begin_recording`: it "allocates a fresh
tape, assigns addresses to the supplied independent Values"; the result is the vector of
the independent variables, with the addresses `0 .. n - 1` from `a` on. -/
def Independent_from {Base : Type} : Nat → List Base → List (AD Base)
  | _, [] => []
  | a, v :: x => ⟨v, true, a⟩ :: Independent_from (a + 1) x

/-- Modelled from the spec: `Independent(x)` with the recording that it starts. -/
def Independent {Base : Type} (x : List Base) : List (AD Base) × Recorder Base :=
  (Independent_from 0 x, ⟨x.length, [], []⟩)

/-- Modelled from the spec: the unary plus `+ u` of an `AD<Base>` object: the result is
the operand, nothing is recorded. -/
def AD.unary_plus {Base : Type} (u : AD Base) : AD Base := u

/-- Modelled from the spec: a `VecAD<Base>` vector, with the assignment `v[i] = u` to
its element reference. -/
def VecAD_assign {Base : Type} (v : List (AD Base)) (i : Nat) (u : AD Base) :
    List (AD Base) :=
  v.set i u

/-- Modelled from the spec: the unary plus `+ v[i]` of a `VecAD<Base>` element
reference: the `AD<Base>` value of the element. -/
def VecAD_unary_plus {Base : Type} [Zero Base] (v : List (AD Base)) (i : Nat) : AD Base :=
  AD.unary_plus (v.getD i ⟨0, false, 0⟩)

/-- The operand of a recorded operation for an `AD<Base>` object: the address of a
variable, or a new constant of the parameter table for a parameter. -/
def Recorder.operand {Base : Type} (r : Recorder Base) (u : AD Base) :
    Recorder Base × Ref :=
  if Variable u then (r, Ref.var u.taddr)
  else ({ r with constants := r.constants ++ [u.value] }, Ref.con r.constants.length)

/-- Modelled from the spec: a comparison `left c right` of two `AD<Base>` objects used
for conditional branching: the result is the value of the comparison, and unless both
operands are parameters the relation that is true is recorded (`c`, or its negation
when the comparison is false). -/
def AD.compare {Base : Type} [LinearOrder Base] (c : CompareOp) (r : Recorder Base)
    (left right : AD Base) : Bool × Recorder Base :=
  let b := c.holds left.value right.value
  if Parameter left && Parameter right then (b, r)
  else
    let (r1, l) := r.operand left
    let (r2, rt) := r1.operand right
    let op := match c, b with
      | c, true => FunOp.comp c l rt
      | CompareOp.eq, false => FunOp.comp CompareOp.ne l rt
      | CompareOp.ne, false => FunOp.comp CompareOp.eq l rt
      | CompareOp.lt, false => FunOp.comp CompareOp.le rt l
      | CompareOp.le, false => FunOp.comp CompareOp.lt rt l
    (b, { r2 with ops := r2.ops ++ [op] })

/-- The dependents of a function for the vector `y`, with the constants for those that
are parameters. -/
def Recorder.dependents {Base : Type} : Recorder Base → List (AD Base) →
    Recorder Base × List Ref
  | r, [] => (r, [])
  | r, u :: y =>
    let (r1, d) := r.operand u
    let (r2, ds) := Recorder.dependents r1 y
    (r2, d :: ds)

/-- Modelled from the spec: the constructor `ADFun<Base> f(x, y)`, `end_recording`: it
"seals the tape, records the dependent address list". -/
def ADFun.ctor {Base : Type} (r : Recorder Base) (y : List (AD Base)) : ADFun Base :=
  let (r1, ds) := Recorder.dependents r y
  ⟨0, r1.n_ind, r1.constants, r1.ops, ds⟩

/-- Source: the recording of `UnaryPlus` (unary_plus.cpp): `Independent(x)`,
`y[0] = + x[0]`, `ADFun<double> f(x, y)`; the result is `y` and `f`. -/
def UnaryPlus_record {Base : Type} [Zero Base] (x0 : Base) : List (AD Base) × ADFun Base :=
  let (x, r) := Independent [x0]
  let y := [AD.unary_plus (x.getD 0 ⟨0, false, 0⟩)]
  (y, ADFun.ctor r y)

/-- Source: the recording of one case of `tst_compare_1` (llvm_tst.cpp):
`Independent(ax)`, `if( ax[0] c ax[1] ) ay[0] = ax[2]; else ay[0] = ax[3];`,
`ADFun<double> f(ax, ay)`. -/
def tst_compare_record {Base : Type} [LinearOrder Base] [Zero Base] (c : CompareOp)
    (x : List Base) : ADFun Base :=
  let (ax, r) := Independent x
  let (b, r1) := AD.compare c r (ax.getD 0 ⟨0, false, 0⟩) (ax.getD 1 ⟨0, false, 0⟩)
  let ay := if b then [ax.getD 2 ⟨0, false, 0⟩] else [ax.getD 3 ⟨0, false, 0⟩]
  ADFun.ctor r1 ay

/-! ## The graph exchange form (modelled from the spec) -/

/-- Modelled from the spec: the operators of a graph that the tests of the given sources
name. -/
inductive graph_op_enum where
  | sum_graph_op
  | comp_eq_graph_op
  | comp_le_graph_op
  | comp_lt_graph_op
  | comp_ne_graph_op
deriving DecidableEq, Repr

/-- Modelled from the spec: the graph exchange form, "an ordered node list; each
operator node is preceded by an argument count followed by that many operand node
references (1-based indices into earlier nodes or named inputs); independent-variable
count, dynamic-parameter count, and the dependent (output) node index list are stored
explicitly". The nodes are the dynamic parameters, the independent variables, the
constants and the results of the operators, in this order. -/
structure cpp_graph (Base : Type) where
  n_dynamic_ind : Nat
  n_variable_ind : Nat
  constant_vec : List Base
  operator_vec : List graph_op_enum
  operator_arg : List Nat
  dependent_vec : List Nat
deriving DecidableEq, Repr

/-- The operator of a graph for a comparison. -/
def CompareOp.graph_op : CompareOp → graph_op_enum
  | CompareOp.eq => graph_op_enum.comp_eq_graph_op
  | CompareOp.le => graph_op_enum.comp_le_graph_op
  | CompareOp.lt => graph_op_enum.comp_lt_graph_op
  | CompareOp.ne => graph_op_enum.comp_ne_graph_op

/-- The node of the graph for an operand of a function with `n_dyn` dynamic parameters,
`n_ind` independent variables and `n_con` constants. -/
def Ref.node (n_dyn n_ind n_con : Nat) : Ref → Nat
  | Ref.dyn k => k + 1
  | Ref.var a => if a < n_ind then n_dyn + a + 1 else n_dyn + n_con + a + 1
  | Ref.con k => n_dyn + n_ind + k + 1

/-- The operators of the graph for the operations of a tape. -/
def FunOp.graph_ops : List FunOp → List graph_op_enum
  | [] => []
  | FunOp.sum _ :: ops => graph_op_enum.sum_graph_op :: FunOp.graph_ops ops
  | FunOp.comp c _ _ :: ops => c.graph_op :: FunOp.graph_ops ops

/-- The arguments of the graph for the operations of a tape: for each operator the
argument count followed by the nodes of its operands. -/
def FunOp.graph_args (n_dyn n_ind n_con : Nat) : List FunOp → List Nat
  | [] => []
  | FunOp.sum args :: ops =>
    args.length :: (args.map (Ref.node n_dyn n_ind n_con) ++
      FunOp.graph_args n_dyn n_ind n_con ops)
  | FunOp.comp _ left right :: ops =>
    2 :: Ref.node n_dyn n_ind n_con left :: Ref.node n_dyn n_ind n_con right ::
      FunOp.graph_args n_dyn n_ind n_con ops

/-- Modelled from the spec: `f.to_graph(graph_obj)`, the graph exchange form of a
Function. -/
def ADFun.to_graph {Base : Type} (f : ADFun Base) : cpp_graph Base :=
  { n_dynamic_ind := f.n_dyn,
    n_variable_ind := f.n_ind,
    constant_vec := f.constants,
    operator_vec := FunOp.graph_ops f.ops,
    operator_arg := FunOp.graph_args f.n_dyn f.n_ind f.constants.length f.ops,
    dependent_vec := f.dependents.map (Ref.node f.n_dyn f.n_ind f.constants.length) }

/-- The operand for a node reference of a graph in which `n_node` nodes are defined;
`none` for a reference that is not one of these nodes (a malformed graph). -/
def cpp_graph.ref {Base : Type} (g : cpp_graph Base) (n_node node : Nat) : Option Ref :=
  if node = 0 ∨ n_node < node then none
  else if node ≤ g.n_dynamic_ind then some (Ref.dyn (node - 1))
  else if node ≤ g.n_dynamic_ind + g.n_variable_ind then
    some (Ref.var (node - 1 - g.n_dynamic_ind))
  else if node ≤ g.n_dynamic_ind + g.n_variable_ind + g.constant_vec.length then
    some (Ref.con (node - 1 - g.n_dynamic_ind - g.n_variable_ind))
  else some (Ref.var (node - 1 - g.n_dynamic_ind - g.constant_vec.length))

/-- The operands for a list of node references. -/
def cpp_graph.refs {Base : Type} (g : cpp_graph Base) (n_node : Nat) :
    List Nat → Option (List Ref)
  | [] => some []
  | node :: nodes => do
    let r ← g.ref n_node node
    let rs ← cpp_graph.refs g n_node nodes
    pure (r :: rs)

/-- The comparison of an operator of a graph. -/
def graph_op_enum.compare : graph_op_enum → Option CompareOp
  | graph_op_enum.sum_graph_op => none
  | graph_op_enum.comp_eq_graph_op => some CompareOp.eq
  | graph_op_enum.comp_le_graph_op => some CompareOp.le
  | graph_op_enum.comp_lt_graph_op => some CompareOp.lt
  | graph_op_enum.comp_ne_graph_op => some CompareOp.ne

/-- The operations of the tape for the operators of a graph and their arguments, with
`n_node` nodes defined before them; `none` for a malformed graph. -/
def cpp_graph.operations {Base : Type} (g : cpp_graph Base) :
    Nat → List graph_op_enum → List Nat → Option (List FunOp)
  | _, [], [] => some []
  | _, [], _ :: _ => none
  | _, _ :: _, [] => none
  | n_node, op :: ops, n_arg :: args =>
    match op.compare with
    | none =>
      if n_arg ≤ args.length then do
        let rs ← cpp_graph.refs g n_node (args.take n_arg)
        let rest ← cpp_graph.operations g (n_node + 1) ops (args.drop n_arg)
        pure (FunOp.sum rs :: rest)
      else none
    | some c =>
      if n_arg = 2 ∧ 2 ≤ args.length then do
        let rs ← cpp_graph.refs g n_node (args.take 2)
        let rest ← cpp_graph.operations g n_node ops (args.drop 2)
        pure (FunOp.comp c (rs.getD 0 (Ref.var 0)) (rs.getD 1 (Ref.var 0)) :: rest)
      else none

/-- Modelled from the spec: `f.from_graph(graph_obj)`, the Function of a graph exchange
form; `none` for a malformed graph (an input-validity fault). -/
def ADFun.from_graph {Base : Type} (g : cpp_graph Base) : Option (ADFun Base) := do
  let n_input := g.n_dynamic_ind + g.n_variable_ind + g.constant_vec.length
  let ops ← cpp_graph.operations g n_input g.operator_vec g.operator_arg
  let ds ← cpp_graph.refs g (FunOp.count_var n_input ops) g.dependent_vec
  pure ⟨g.n_dynamic_ind, g.n_variable_ind, g.constant_vec, ops, ds⟩

/-- Source: the graph that `sum_op` (sum_op.cpp) and `tst_sum` (llvm_tst.cpp) build:
three dynamic parameters, one independent variable, `node_5 = p[0] + p[1] + p[2]`,
`node_6 = x[0] + node_5` and the dependent `node_6`. -/
def sum_op_graph (Base : Type) : cpp_graph Base :=
  { n_dynamic_ind := 3,
    n_variable_ind := 1,
    constant_vec := [],
    operator_vec := [graph_op_enum.sum_graph_op, graph_op_enum.sum_graph_op],
    operator_arg := [3, 1, 2, 3, 2, 4, 5],
    dependent_vec := [6] }

end CppAD


namespace CppAD

/-- Source: `~list_setvec()`: the destructor runs `check_data_structure()`. -/
def list_setvec.destructor (s : list_setvec) : Option Unit :=
  (check_data_structure s).map fun _ => ()

/-- One set over `{0, ..., 4}` that holds `1` and has the posted element `2`: the state
after `resize(1, 5)`, `add_element(0, 1)` and `post_element(0, 2)`. -/
def example_posted : list_setvec :=
  ⟨5, 0, 0, [⟨5, 0⟩, ⟨1, 2⟩, ⟨1, 0⟩, ⟨2, 0⟩], [1], [3], []⟩

/-- The calls that build `example_posted` from a default-constructed object. -/
def example_posted_calls : Option list_setvec :=
  (((some list_setvec.ctor).bind fun s => resize s 1 5).bind fun s =>
    add_element s 0 1).bind fun s => post_element s 0 2

/-- State of `data_` inside the first loop of `check_data_structure`, before set `i` is
visited: the reference counter of a list that has been visited, but not yet by all the
sets that share it, is below its value in `s` by the number of visits; every other pair
is as in `s`. -/
structure CheckInv (s s1 : list_setvec) (i : Nat) : Prop where
  end_eq : s1.end_ = s.end_
  number_eq : s1.number_not_used_ = s.number_not_used_
  free_eq : s1.data_not_used_ = s.data_not_used_
  start_eq : s1.start_ = s.start_
  post_eq : s1.post_ = s.post_
  temporary_eq : s1.temporary_ = (List.range s.start_.length).map (reference_count s)
  length_eq : s1.data_.length = s.data_.length
  data : ∀ p, rd s1.data_ p =
    if p ≠ 0 ∧ 0 < (s.start_.take i).count p ∧ (s.start_.take i).count p < s.start_.count p
    then ⟨(rd s.data_ p).value - (s.start_.take i).count p, (rd s.data_ p).next⟩
    else rd s.data_ p

end CppAD


namespace CppAD

/-! ## Reading and writing `data_` -/

theorem length_wr_value (d : List pair_size_t) (k v : Nat) : (wr_value d k v).length = d.length := by
  simp [wr_value]

theorem length_wr_next (d : List pair_size_t) (k v : Nat) : (wr_next d k v).length = d.length := by
  simp [wr_next]

theorem rd_set (d : List pair_size_t) (k j : Nat) (p : pair_size_t) :
    rd (d.set k p) j = if k = j ∧ k < d.length then p else rd d j := by
  simp only [rd, List.getD_eq_getElem?_getD, List.getElem?_set]
  by_cases h1 : k = j
  · by_cases h2 : k < d.length
    · subst h1; simp [h2]
    · subst h1
      simp [h2, List.getElem?_eq_none (Nat.le_of_not_lt h2)]
  · simp [h1]

theorem rd_wr_value (d : List pair_size_t) (k v j : Nat) :
    rd (wr_value d k v) j = if k = j ∧ k < d.length then ⟨v, (rd d k).next⟩ else rd d j := by
  simp [wr_value, rd_set]

theorem rd_wr_next (d : List pair_size_t) (k v j : Nat) :
    rd (wr_next d k v) j = if k = j ∧ k < d.length then ⟨(rd d k).value, v⟩ else rd d j := by
  simp [wr_next, rd_set]

theorem next_wr_value (d : List pair_size_t) (k v j : Nat) :
    (rd (wr_value d k v) j).next = (rd d j).next := by
  rw [rd_wr_value]; split
  · rename_i h; rw [h.1]
  · rfl

theorem value_wr_next (d : List pair_size_t) (k v j : Nat) :
    (rd (wr_next d k v) j).value = (rd d j).value := by
  rw [rd_wr_next]; split
  · rename_i h; rw [h.1]
  · rfl

theorem rd_wr_value_ne (d : List pair_size_t) {k j : Nat} (v : Nat) (h : j ≠ k) :
    rd (wr_value d k v) j = rd d j := by
  rw [rd_wr_value, if_neg]; intro h1; exact h h1.1.symm

theorem rd_wr_next_ne (d : List pair_size_t) {k j : Nat} (v : Nat) (h : j ≠ k) :
    rd (wr_next d k v) j = rd d j := by
  rw [rd_wr_next, if_neg]; intro h1; exact h h1.1.symm

theorem value_wr_value_same (d : List pair_size_t) {k : Nat} (v : Nat) (h : k < d.length) :
    (rd (wr_value d k v) k).value = v := by
  rw [rd_wr_value, if_pos ⟨rfl, h⟩]

theorem next_wr_next_same (d : List pair_size_t) {k : Nat} (v : Nat) (h : k < d.length) :
    (rd (wr_next d k v) k).next = v := by
  rw [rd_wr_next, if_pos ⟨rfl, h⟩]

theorem rd_append_lt (d : List pair_size_t) (p : pair_size_t) {k : Nat} (h : k < d.length) :
    rd (d ++ [p]) k = rd d k := by
  simp [rd, List.getD_eq_getElem?_getD, List.getElem?_append_left h]

theorem rd_append_length (d : List pair_size_t) (p : pair_size_t) :
    rd (d ++ [p]) d.length = p := by
  simp [rd, List.getD_eq_getElem?_getD]

end CppAD


namespace CppAD

/-! ## Linked segments -/

theorem Seg.mem {d : List pair_size_t} : ∀ {ns : List Nat} {p q : Nat}, Seg d p ns q →
    ∀ x ∈ ns, x ≠ 0 ∧ x < d.length
  | [], _, _, _, x, hx => by simp at hx
  | n :: ns, p, q, h, x, hx => by
    obtain ⟨_, h1, h2, h3⟩ := h
    rcases List.mem_cons.1 hx with rfl | hx
    · exact ⟨h1, h2⟩
    · exact Seg.mem h3 x hx

theorem Seg.start {d : List pair_size_t} {ns : List Nat} {p : Nat} (h : Seg d p ns 0) :
    p = ns.headD 0 := by
  cases ns with
  | nil => exact h
  | cons n ns => exact h.1

theorem Seg.congr {d d1 : List pair_size_t} (hl : d.length ≤ d1.length) :
    ∀ {ns : List Nat} {p q : Nat}, (∀ x ∈ ns, (rd d1 x).next = (rd d x).next) →
      Seg d p ns q → Seg d1 p ns q
  | [], _, _, _, h => h
  | n :: ns, p, q, heq, h => by
    obtain ⟨h0, h1, h2, h3⟩ := h
    refine ⟨h0, h1, Nat.lt_of_lt_of_le h2 hl, ?_⟩
    rw [heq n (List.mem_cons_self _ _)]
    exact Seg.congr hl (fun x hx => heq x (List.mem_cons_of_mem _ hx)) h3

theorem Seg.append {d : List pair_size_t} : ∀ {a b : List Nat} {p q : Nat},
    Seg d p (a ++ b) q ↔ ∃ r, Seg d p a r ∧ Seg d r b q
  | [], b, p, q => by
    constructor
    · intro h; exact ⟨p, rfl, h⟩
    · rintro ⟨r, h1, h2⟩
      have : p = r := h1
      subst this; exact h2
  | n :: a, b, p, q => by
    constructor
    · rintro ⟨h0, h1, h2, h3⟩
      obtain ⟨r, h4, h5⟩ := Seg.append.1 h3
      exact ⟨r, ⟨h0, h1, h2, h4⟩, h5⟩
    · rintro ⟨r, ⟨h0, h1, h2, h4⟩, h5⟩
      exact ⟨h0, h1, h2, Seg.append.2 ⟨r, h4, h5⟩⟩

theorem Seg.det {d : List pair_size_t} : ∀ {xs ys : List Nat} {p : Nat},
    Seg d p xs 0 → Seg d p ys 0 → xs = ys
  | [], [], _, _, _ => rfl
  | [], y :: ys, p, h1, h2 => by
    have h3 : p = 0 := h1
    exact absurd (h2.1.symm.trans h3) h2.2.1
  | x :: xs, [], p, h1, h2 => by
    have h3 : p = 0 := h2
    exact absurd (h1.1.symm.trans h3) h1.2.1
  | x :: xs, y :: ys, p, h1, h2 => by
    have hxy : x = y := h1.1.symm.trans h2.1
    subst hxy
    rw [Seg.det h1.2.2.2 h2.2.2.2]

theorem Seg.nodup {d : List pair_size_t} : ∀ {ns : List Nat} {p : Nat}, Seg d p ns 0 → ns.Nodup
  | [], _, _ => List.nodup_nil
  | n :: ns, p, h => by
    have h3 := h.2.2.2
    refine List.nodup_cons.2 ⟨?_, Seg.nodup h3⟩
    intro hn
    obtain ⟨a, b, rfl⟩ := List.append_of_mem hn
    obtain ⟨r, _, h5⟩ := Seg.append.1 h3
    have h6 : Seg d (rd d n).next b 0 := h5.2.2.2
    have h7 := Seg.det h3 h6
    have h8 := congrArg List.length h7
    simp at h8
    omega

theorem length_lt_of_nodup {ns : List Nat} {n : Nat} (hn : ns.Nodup)
    (h : ∀ x ∈ ns, x ≠ 0 ∧ x < n) : ns.length < n ∨ (ns = [] ∧ n = 0) := by
  by_cases hn0 : n = 0
  · right
    subst hn0
    cases ns with
    | nil => exact ⟨rfl, rfl⟩
    | cons x xs => exact absurd (h x (List.mem_cons_self _ _)).2 (Nat.not_lt_zero _)
  · left
    have h1 : ns.toFinset ⊆ Finset.Ico 1 n := by
      intro x hx
      have := h x (List.mem_toFinset.1 hx)
      simp only [Finset.mem_Ico]; omega
    have h2 := Finset.card_le_card h1
    rw [List.toFinset_card_of_nodup hn, Nat.card_Ico] at h2
    omega

theorem Seg.length_lt {d : List pair_size_t} {ns : List Nat} {p : Nat} (h : Seg d p ns 0)
    (hd : 0 < d.length) : ns.length < d.length := by
  rcases length_lt_of_nodup h.nodup h.mem with h1 | h1
  · exact h1
  · omega

theorem Seg.suffix {d : List pair_size_t} {a b : List Nat} {p q : Nat} (h : Seg d p (a ++ b) q) :
    Seg d (b.headD q) b q := by
  obtain ⟨r, _, h2⟩ := Seg.append.1 h
  cases b with
  | nil => rfl
  | cons n b => exact ⟨rfl, h2.2⟩

end CppAD


namespace CppAD

/-! ## The heap invariant under allocation and writes -/

theorem vals_congr (d d1 : List pair_size_t) {ns : List Nat}
    (h : ∀ x ∈ ns, (rd d1 x).value = (rd d x).value) : vals d1 ns = vals d ns := by
  unfold vals
  exact List.map_congr_left h

theorem Heap.free_nodup {d e L f} (H : Heap d e L f) : L.free.Nodup := H.free_chain.nodup

theorem Heap.own_ne_zero {d e L f} (H : Heap d e L f) {x : Nat} (h : L.own x ≠ Owner.sentinel) :
    x ≠ 0 := by
  rintro rfl; exact h H.own_zero

/-- Pairs that are not scratch keep their links and values, reference counters
become `g`, and new pairs are scratch. -/
theorem Heap.congr_rc {d d1 e L f g} (H : Heap d e L f) (hl : d.length ≤ d1.length)
    (hnext : ∀ x, x < d.length → L.own x ≠ Owner.scratch → (rd d1 x).next = (rd d x).next)
    (hval : ∀ x, x < d.length → L.own x ≠ Owner.scratch → L.own x ≠ Owner.head →
      L.own x ≠ Owner.free → (rd d1 x).value = (rd d x).value)
    (hrc : ∀ h, h < d.length → L.own h = Owner.head → (rd d1 h).value = g h)
    (hpos : ∀ h, h < d.length → L.own h = Owner.head → 0 < g h)
    (hnew : ∀ x, d.length ≤ x → x < d1.length → L.own x = Owner.scratch) :
    Heap d1 e L g := by
  have hin : ∀ h, h < d1.length → L.own h = Owner.head → h < d.length := by
    intro h h1 h2
    by_contra h3
    have := hnew h (Nat.le_of_not_lt h3) h1
    rw [h2] at this; cases this
  have hfree : ∀ x ∈ L.free, (rd d1 x).next = (rd d x).next := fun x hx =>
    hnext x (H.free_chain.mem x hx).2 (by rw [H.free_own x hx]; simp)
  have hpost : ∀ i, ∀ x ∈ L.posts i, (rd d1 x).next = (rd d x).next := fun i x hx =>
    hnext x ((H.post_chain i).mem x hx).2 (by rw [H.post_own i x hx]; simp)
  have hpostv : ∀ i, ∀ x ∈ L.posts i, (rd d1 x).value = (rd d x).value := fun i x hx =>
    hval x ((H.post_chain i).mem x hx).2 (by rw [H.post_own i x hx]; simp)
      (by rw [H.post_own i x hx]; simp) (by rw [H.post_own i x hx]; simp)
  have helem : ∀ h, h < d.length → L.own h = Owner.head → ∀ x ∈ L.elems h,
      (rd d1 x).next = (rd d x).next :=
    fun h h1 h2 x hx =>
      hnext x ((H.list_chain h h1 h2).mem x hx).2 (by rw [H.list_own h h1 h2 x hx]; simp)
  have helemv : ∀ h, h < d.length → L.own h = Owner.head → ∀ x ∈ L.elems h,
      (rd d1 x).value = (rd d x).value :=
    fun h h1 h2 x hx =>
      hval x ((H.list_chain h h1 h2).mem x hx).2 (by rw [H.list_own h h1 h2 x hx]; simp)
        (by rw [H.list_own h h1 h2 x hx]; simp) (by rw [H.list_own h h1 h2 x hx]; simp)
  have hhead : ∀ h, h < d.length → L.own h = Owner.head → (rd d1 h).next = (rd d h).next :=
    fun h h1 h2 => hnext h h1 (by rw [h2]; simp)
  have hold : ∀ x, x < d1.length → L.own x ≠ Owner.scratch → x < d.length := by
    intro x h1 h2
    by_contra h3
    exact h2 (hnew x (Nat.le_of_not_lt h3) h1)
  have hz : rd d1 0 = rd d 0 := by
    have h1 := hnext 0 H.len_pos (by rw [H.own_zero]; simp)
    have h2 := hval 0 H.len_pos (by rw [H.own_zero]; simp) (by rw [H.own_zero]; simp)
      (by rw [H.own_zero]; simp)
    cases hh : rd d1 0; cases hh2 : rd d 0
    rw [hh, hh2] at h1 h2
    simp at h1 h2
    rw [h1, h2]
  refine ⟨Nat.lt_of_lt_of_le H.len_pos hl, ?_, H.own_zero, ?_, H.free_own, ?_, H.post_own, ?_,
    ?_, ?_, ?_, ?_, ?_, ?_, ?_, ?_, ?_, ?_, fun h h1 h2 => hpos h (hin h h1 h2) h2⟩
  · rw [hz]; exact H.zero
  · exact Seg.congr hl (fun x hx => hfree x hx) H.free_chain
  · intro i
    exact Seg.congr hl (fun x hx => hpost i x hx) (H.post_chain i)
  · intro i x hx
    rw [hpostv i x hx]; exact H.post_val i x hx
  · intro h h1 h2
    have h3 := hin h h1 h2
    rw [hhead h h3 h2]
    exact Seg.congr hl (fun x hx => helem h h3 h2 x hx) (H.list_chain h h3 h2)
  · intro h h1 h2; exact H.list_ne h (hin h h1 h2) h2
  · intro h h1 h2; exact H.list_own h (hin h h1 h2) h2
  · intro h h1 h2
    have h3 := hin h h1 h2
    rw [vals_congr d d1 (fun x hx => helemv h h3 h2 x hx)]
    exact H.list_sorted h h3 h2
  · intro h h1 h2 x hx
    have h3 := hin h h1 h2
    rw [helemv h h3 h2 x hx]; exact H.list_val h h3 h2 x hx
  · intro h h1 h2
    exact hrc h (hin h h1 h2) h2
  · intro x hx ho
    exact H.complete_sentinel x (hold x hx (by rw [ho]; simp)) ho
  · intro x hx ho
    exact H.complete_free x (hold x hx (by rw [ho]; simp)) ho
  · intro x hx i ho
    exact H.complete_post x (hold x hx (by rw [ho]; simp)) i ho
  · intro x hx h ho
    obtain ⟨a, b, c⟩ := H.complete_elem x (hold x hx (by rw [ho]; simp)) h ho
    exact ⟨Nat.lt_of_lt_of_le a hl, b, c⟩

/-- Pairs that are not scratch keep their content, new pairs are scratch. -/
theorem Heap.congr_heap {d d1 e L f} (H : Heap d e L f) (hl : d.length ≤ d1.length)
    (heq : ∀ x, x < d.length → L.own x ≠ Owner.scratch → rd d1 x = rd d x)
    (hnew : ∀ x, d.length ≤ x → x < d1.length → L.own x = Owner.scratch) :
    Heap d1 e L f :=
  H.congr_rc hl (fun x h1 h2 => by rw [heq x h1 h2]) (fun x h1 h2 _ _ => by rw [heq x h1 h2])
    (fun h h1 h2 => by rw [heq h h1 (by rw [h2]; simp)]; exact H.list_rc h h1 h2) H.rc_pos hnew

/-- Writing the reference counter `h`. -/
theorem Heap.wr_rc {d e L f} (H : Heap d e L f) {h : Nat} (v : Nat) (hh : h < d.length)
    (ho : L.own h = Owner.head) (hv : 0 < v) :
    Heap (wr_value d h v) e L (Function.update f h v) := by
  refine H.congr_rc (by rw [length_wr_value]) ?_ ?_ ?_ ?_ ?_
  · intro x _ _; exact next_wr_value d h v x
  · intro x _ _ hx _
    rw [rd_wr_value_ne d v (by rintro rfl; exact hx ho)]
  · intro k hk hko
    by_cases h1 : k = h
    · subst h1
      rw [value_wr_value_same d v hh, Function.update_same]
    · rw [rd_wr_value_ne d v h1, Function.update_noteq h1]
      exact H.list_rc k hk hko
  · intro k hk hko
    by_cases h1 : k = h
    · subst h1; rw [Function.update_same]; exact hv
    · rw [Function.update_noteq h1]; exact H.rc_pos k hk hko
  · intro x h1 h2
    rw [length_wr_value] at h2; omega

theorem Heap.wr_value_scratch {d e L f} (H : Heap d e L f) {k : Nat} (v : Nat)
    (hk : L.own k = Owner.scratch) : Heap (wr_value d k v) e L f := by
  refine H.congr_heap (by rw [length_wr_value]) ?_ ?_
  · intro x _ hx
    exact rd_wr_value_ne d v (by rintro rfl; exact hx hk)
  · intro x h1 h2
    rw [length_wr_value] at h2; omega

theorem Heap.wr_next_scratch {d e L f} (H : Heap d e L f) {k : Nat} (v : Nat)
    (hk : L.own k = Owner.scratch) : Heap (wr_next d k v) e L f := by
  refine H.congr_heap (by rw [length_wr_next]) ?_ ?_
  · intro x _ hx
    exact rd_wr_next_ne d v (by rintro rfl; exact hx hk)
  · intro x h1 h2
    rw [length_wr_next] at h2; omega

end CppAD

namespace CppAD

theorem Heap.alloc_free {d e L f} (H : Heap d e L f) {k : Nat} {rest : List Nat}
    (hfree : L.free = k :: rest) : Heap d e (L.alloc k) f := by
  have hnd := H.free_nodup
  rw [hfree] at hnd
  have hk : L.own k = Owner.free := H.free_own k (by rw [hfree]; exact List.mem_cons_self _ _)
  have hne : ∀ x, L.own x ≠ Owner.free → x ≠ k := by
    rintro x hx rfl; exact hx hk
  have hown : ∀ x, x ≠ k → (L.alloc k).own x = L.own x := by
    intro x hx; simp [Layout.alloc, Function.update_noteq hx]
  have herase : (L.alloc k).free = rest := by
    simp [Layout.alloc, hfree]
  have hhead : ∀ h, (L.alloc k).own h = Owner.head → L.own h = Owner.head := by
    intro h hh
    by_cases h1 : h = k
    · subst h1; simp [Layout.alloc] at hh
    · rwa [hown h h1] at hh
  have hback : ∀ x o, o ≠ Owner.scratch → (L.alloc k).own x = o → x ≠ k ∧ L.own x = o := by
    intro x o ho hx
    have h1 : x ≠ k := by
      rintro rfl
      simp [Layout.alloc] at hx
      exact ho hx.symm
    exact ⟨h1, by rwa [hown x h1] at hx⟩
  refine ⟨H.len_pos, H.zero, ?_, ?_, ?_, H.post_chain, ?_, H.post_val, ?_, ?_, ?_, ?_, ?_, ?_,
    ?_, ?_, ?_, ?_, fun h h1 h2 => H.rc_pos h h1 (hhead h h2)⟩
  · rw [hown 0 (hne 0 (by rw [H.own_zero]; simp))]; exact H.own_zero
  · rw [herase]
    have h1 := H.free_chain
    rw [hfree] at h1
    have h2 : Seg d (rd d k).next rest 0 := h1.2.2.2
    rw [← h2.start]; exact h2
  · intro x hx
    rw [herase] at hx
    have hxk : x ≠ k := by
      rintro rfl; exact (List.nodup_cons.1 hnd).1 hx
    rw [hown x hxk]
    exact H.free_own x (by rw [hfree]; exact List.mem_cons_of_mem _ hx)
  · intro i x hx
    have h1 := H.post_own i x hx
    rw [hown x (hne x (by rw [h1]; simp))]; exact h1
  · intro h h1 h2; exact H.list_chain h h1 (hhead h h2)
  · intro h h1 h2; exact H.list_ne h h1 (hhead h h2)
  · intro h h1 h2 x hx
    have h3 := H.list_own h h1 (hhead h h2) x hx
    rw [hown x (hne x (by rw [h3]; simp))]; exact h3
  · intro h h1 h2; exact H.list_sorted h h1 (hhead h h2)
  · intro h h1 h2; exact H.list_val h h1 (hhead h h2)
  · intro h h1 h2; exact H.list_rc h h1 (hhead h h2)
  · intro x hx ho
    exact H.complete_sentinel x hx (hback x _ (by simp) ho).2
  · intro x hx ho
    obtain ⟨h1, h2⟩ := hback x _ (by simp) ho
    have h3 := H.complete_free x hx h2
    rw [hfree] at h3
    rw [herase]
    rcases List.mem_cons.1 h3 with h4 | h4
    · exact absurd h4 h1
    · exact h4
  · intro x hx i ho
    exact H.complete_post x hx i (hback x _ (by simp) ho).2
  · intro x hx h ho
    obtain ⟨a, b, c⟩ := H.complete_elem x hx h (hback x _ (by simp) ho).2
    refine ⟨a, ?_, c⟩
    rw [hown _ (hne _ (by rw [b]; simp))]; exact b

theorem Heap.alloc_new {d e L f} (H : Heap d e L f) (hfree : L.free = []) (p : pair_size_t) :
    Heap (d ++ [p]) e (L.alloc d.length) f := by
  have hown : ∀ x, x < d.length → (L.alloc d.length).own x = L.own x := by
    intro x hx
    simp [Layout.alloc, Function.update_noteq (Nat.ne_of_lt hx)]
  have h0 : Heap d e (L.alloc d.length) f := by
    have hhead : ∀ h, h < d.length → (L.alloc d.length).own h = Owner.head →
        L.own h = Owner.head := by
      intro h h1 hh; rwa [hown h h1] at hh
    refine ⟨H.len_pos, H.zero, ?_, ?_, ?_, H.post_chain, ?_, H.post_val, ?_, ?_, ?_, ?_, ?_,
      ?_, ?_, ?_, ?_, ?_, fun h h1 h2 => H.rc_pos h h1 (hhead h h1 h2)⟩
    · rw [hown 0 H.len_pos]; exact H.own_zero
    · simp [Layout.alloc, hfree, Seg]
    · simp [Layout.alloc, hfree]
    · intro i x hx
      rw [hown x ((H.post_chain i).mem x hx).2]; exact H.post_own i x hx
    · intro h h1 h2; exact H.list_chain h h1 (hhead h h1 h2)
    · intro h h1 h2; exact H.list_ne h h1 (hhead h h1 h2)
    · intro h h1 h2 x hx
      have h3 := hhead h h1 h2
      rw [hown x ((H.list_chain h h1 h3).mem x hx).2]
      exact H.list_own h h1 h3 x hx
    · intro h h1 h2; exact H.list_sorted h h1 (hhead h h1 h2)
    · intro h h1 h2; exact H.list_val h h1 (hhead h h1 h2)
    · intro h h1 h2; exact H.list_rc h h1 (hhead h h1 h2)
    · intro x hx ho
      rw [hown x hx] at ho
      exact H.complete_sentinel x hx ho
    · intro x hx ho
      rw [hown x hx] at ho
      have := H.complete_free x hx ho
      rw [hfree] at this; simp at this
    · intro x hx i ho
      rw [hown x hx] at ho
      exact H.complete_post x hx i ho
    · intro x hx h ho
      rw [hown x hx] at ho
      obtain ⟨a, b, c⟩ := H.complete_elem x hx h ho
      exact ⟨a, by rw [hown _ a]; exact b, c⟩
  refine h0.congr_heap (by simp) ?_ ?_
  · intro x hx _; exact rd_append_lt d p hx
  · intro x h1 h2
    have : x = d.length := by simp at h2; omega
    subst this; simp [Layout.alloc]

/-- Specification of `get_data_index`. -/
theorem get_data_index_spec {s : list_setvec} {L f} (H : Heap s.data_ s.end_ L f)
    (F : FreeLink s L) :
    ∃ k s1, get_data_index s = some (k, s1) ∧ k ≠ 0 ∧ k < s1.data_.length ∧
      s1.end_ = s.end_ ∧ s1.start_ = s.start_ ∧ s1.post_ = s.post_ ∧
      s1.temporary_ = s.temporary_ ∧ s.data_.length ≤ s1.data_.length ∧
      (∀ x, x < s.data_.length → rd s1.data_ x = rd s.data_ x) ∧
      (L.own k = Owner.free ∨ s.data_.length ≤ k) ∧
      (∀ x, x < s1.data_.length → x < s.data_.length ∨ x = k) ∧
      Heap s1.data_ s1.end_ (L.alloc k) f ∧ FreeLink s1 (L.alloc k) := by
  cases hfree : L.free with
  | nil =>
    have h0 : s.data_not_used_ = 0 := by rw [F.head, hfree]; rfl
    refine ⟨s.data_.length, { s with data_ := s.data_ ++ [⟨0, 0⟩] }, ?_, ?_, ?_, rfl, rfl, rfl,
      rfl, ?_, ?_, Or.inr (Nat.le_refl _), ?_, H.alloc_new hfree _, ?_⟩
    · simp [get_data_index, h0]
    · exact Nat.ne_of_gt H.len_pos
    · simp
    · simp
    · intro x hx; exact rd_append_lt _ _ hx
    · intro x hx
      simp at hx; omega
    · constructor
      · simp [Layout.alloc, hfree, h0]
      · simp [Layout.alloc, hfree, F.count]
  | cons k rest =>
    have h0 : s.data_not_used_ = k := by rw [F.head, hfree]; rfl
    have h1 := H.free_chain
    rw [hfree] at h1
    have hk0 : k ≠ 0 := h1.2.1
    have hn : s.number_not_used_ = rest.length + 1 := by rw [F.count, hfree]; rfl
    have h2 : Seg s.data_ (rd s.data_ k).next rest 0 := h1.2.2.2
    refine ⟨k, { s with number_not_used_ := s.number_not_used_ - 1,
                        data_not_used_ := (rd s.data_ k).next }, ?_, hk0, h1.2.2.1, rfl, rfl,
      rfl, rfl, Nat.le_refl _, fun _ _ => rfl,
      Or.inl (H.free_own k (by rw [hfree]; exact List.mem_cons_self _ _)),
      fun x hx => Or.inl hx, H.alloc_free hfree, ?_⟩
    · simp [get_data_index, h0, Nat.pos_of_ne_zero hk0, hn, CPPAD_ASSERT_UNKNOWN]
    · constructor
      · simp only [Layout.alloc, hfree, List.erase_cons_head]; exact h2.start
      · simp [Layout.alloc, hfree, hn]

/-- The heap invariant only looks at the pairs through `rd`. -/
theorem Heap.of_rd_eq {d d1 e L f} (H : Heap d e L f) (hl : d1.length = d.length)
    (h : ∀ x, rd d1 x = rd d x) : Heap d1 e L f :=
  H.congr_heap (Nat.le_of_eq hl.symm) (fun x _ _ => h x)
    (fun x h1 h2 => by rw [hl] at h2; exact absurd h2 (Nat.not_lt.2 h1))

/-- The value of a pair of the free list is not used. -/
theorem Heap.wr_value_free {d e L f} (H : Heap d e L f) {k : Nat} (v : Nat)
    (hk : L.own k = Owner.free) : Heap (wr_value d k v) e L f := by
  refine H.congr_rc (by rw [length_wr_value]) ?_ ?_ ?_ H.rc_pos ?_
  · intro x _ _; exact next_wr_value d k v x
  · intro x _ _ _ hx
    rw [rd_wr_value_ne d v (by rintro rfl; exact hx hk)]
  · intro h h1 h2
    rw [rd_wr_value_ne d v (by rintro rfl; rw [hk] at h2; cases h2)]
    exact H.list_rc h h1 h2
  · intro x h1 h2
    rw [length_wr_value] at h2; omega

end CppAD


namespace CppAD

theorem Seg.not_mem_of_next {d : List pair_size_t} {h : Nat} {ns : List Nat}
    (hseg : Seg d (rd d h).next ns 0) : h ∉ ns := by
  intro hn
  obtain ⟨a, b, rfl⟩ := List.append_of_mem hn
  obtain ⟨r, _, h5⟩ := Seg.append.1 hseg
  have h6 : Seg d (rd d h).next b 0 := h5.2.2.2
  have h8 := congrArg List.length (Seg.det hseg h6)
  simp at h8
  omega

/-- Scratch pairs that form a list become a list of the layout. -/
theorem Heap.adopt_heap {d e L f} (H : Heap d e L f) {h : Nat} {ns : List Nat} (hh : h < d.length)
    (ho : L.own h = Owner.scratch) (hns : ∀ x ∈ ns, L.own x = Owner.scratch)
    (hseg : Seg d (rd d h).next ns 0) (hne : ns ≠ [])
    (hsort : (vals d ns).Pairwise (· < ·)) (hval : ∀ x ∈ ns, (rd d x).value < e)
    (hpos : 0 < (rd d h).value) :
    Heap d e (L.adopt h ns) (Function.update f h (rd d h).value) := by
  have hnot : h ∉ ns := hseg.not_mem_of_next
  have hown : ∀ x, L.own x ≠ Owner.scratch → (L.adopt h ns).own x = L.own x := by
    intro x hx
    have h1 : x ≠ h := by rintro rfl; exact hx ho
    have h2 : x ∉ ns := fun h2 => hx (hns x h2)
    simp [Layout.adopt, h1, h2]
  have hownh : (L.adopt h ns).own h = Owner.head := by simp [Layout.adopt]
  have hownn : ∀ x ∈ ns, (L.adopt h ns).own x = Owner.elem h := by
    intro x hx
    have h1 : x ≠ h := by rintro rfl; exact hnot hx
    simp [Layout.adopt, h1, hx]
  have hback : ∀ x o, o ≠ Owner.head → (∀ k, o ≠ Owner.elem k) → (L.adopt h ns).own x = o →
      L.own x = o := by
    intro x o h1 h2 h3
    by_cases h4 : x = h
    · subst h4; rw [hownh] at h3; exact absurd h3.symm h1
    · by_cases h5 : x ∈ ns
      · rw [hownn x h5] at h3; exact absurd h3.symm (h2 h)
      · simpa [Layout.adopt, h4, h5] using h3
  have hhead : ∀ k, k ≠ h → (L.adopt h ns).own k = Owner.head → L.own k = Owner.head := by
    intro k h1 h2
    by_cases h5 : k ∈ ns
    · rw [hownn k h5] at h2; cases h2
    · simpa [Layout.adopt, h1, h5] using h2
  have helems : ∀ k, k ≠ h → (L.adopt h ns).elems k = L.elems k := by
    intro k h1; simp [Layout.adopt, Function.update_noteq h1]
  have helemsh : (L.adopt h ns).elems h = ns := by simp [Layout.adopt]
  refine ⟨H.len_pos, H.zero, ?_, H.free_chain, ?_, H.post_chain, ?_, H.post_val, ?_, ?_, ?_,
    ?_, ?_, ?_, ?_, ?_, ?_, ?_, ?_⟩
  · rw [hown 0 (by rw [H.own_zero]; simp)]; exact H.own_zero
  · intro x hx
    have h1 := H.free_own x hx
    rw [hown x (by rw [h1]; simp)]; exact h1
  · intro i x hx
    have h1 := H.post_own i x hx
    rw [hown x (by rw [h1]; simp)]; exact h1
  · intro k h1 h2
    by_cases h3 : k = h
    · subst h3; rw [helemsh]; exact hseg
    · rw [helems k h3]; exact H.list_chain k h1 (hhead k h3 h2)
  · intro k h1 h2
    by_cases h3 : k = h
    · subst h3; rw [helemsh]; exact hne
    · rw [helems k h3]; exact H.list_ne k h1 (hhead k h3 h2)
  · intro k h1 h2 x hx
    by_cases h3 : k = h
    · subst h3; rw [helemsh] at hx; exact hownn x hx
    · rw [helems k h3] at hx
      have h4 := H.list_own k h1 (hhead k h3 h2) x hx
      rw [hown x (by rw [h4]; simp)]; exact h4
  · intro k h1 h2
    by_cases h3 : k = h
    · subst h3; rw [helemsh]; exact hsort
    · rw [helems k h3]; exact H.list_sorted k h1 (hhead k h3 h2)
  · intro k h1 h2 x hx
    by_cases h3 : k = h
    · subst h3; rw [helemsh] at hx; exact hval x hx
    · rw [helems k h3] at hx; exact H.list_val k h1 (hhead k h3 h2) x hx
  · intro k h1 h2
    by_cases h3 : k = h
    · subst h3; rw [Function.update_same]
    · rw [Function.update_noteq h3]; exact H.list_rc k h1 (hhead k h3 h2)
  · intro x hx hxo
    exact H.complete_sentinel x hx (hback x _ (by simp) (by simp) hxo)
  · intro x hx hxo
    exact H.complete_free x hx (hback x _ (by simp) (by simp) hxo)
  · intro x hx i hxo
    exact H.complete_post x hx i (hback x _ (by simp) (by simp) hxo)
  · intro x hx k hxo
    by_cases h4 : x = h
    · subst h4; rw [hownh] at hxo; cases hxo
    · by_cases h5 : x ∈ ns
      · rw [hownn x h5] at hxo
        cases hxo
        exact ⟨hh, hownh, by rw [helemsh]; exact h5⟩
      · have h6 : L.own x = Owner.elem k := by simpa [Layout.adopt, h4, h5] using hxo
        obtain ⟨a, b, c⟩ := H.complete_elem x hx k h6
        have h7 : k ≠ h := by rintro rfl; rw [ho] at b; cases b
        exact ⟨a, by rw [hown k (by rw [b]; simp)]; exact b, by rw [helems k h7]; exact c⟩
  · intro k h1 h2
    by_cases h3 : k = h
    · subst h3; rw [Function.update_same]; exact hpos
    · rw [Function.update_noteq h3]; exact H.rc_pos k h1 (hhead k h3 h2)

theorem Seg.set_last {d : List pair_size_t} {init : List Nat} {last p : Nat} (r : Nat)
    (h : Seg d p (init ++ [last]) 0) : Seg (wr_next d last r) p (init ++ [last]) r := by
  have hnd := h.nodup
  obtain ⟨q, h1, h2⟩ := Seg.append.1 h
  refine Seg.append.2 ⟨q, ?_, ?_⟩
  · refine Seg.congr (by rw [length_wr_next]) ?_ h1
    intro x hx
    rw [rd_wr_next_ne]
    rintro rfl
    rw [List.nodup_append] at hnd
    exact hnd.2.2 hx (List.mem_singleton_self _)
  · obtain ⟨h3, h4, h5, _⟩ := h2
    exact ⟨h3, h4, by rw [length_wr_next]; exact h5, next_wr_next_same d r h5⟩

/-- A chain of pairs is put in front of the free list. -/
theorem Heap.release {d e L f} (H : Heap d e L f) {init : List Nat} {last : Nat}
    {posts1 : Nat → List Nat}
    (hseg : Seg d ((init ++ [last]).headD 0) (init ++ [last]) 0)
    (hC : ∀ x ∈ init ++ [last], L.own x ≠ Owner.free)
    (hposts : ∀ j, (posts1 j = L.posts j ∧ ∀ x ∈ L.posts j, x ∉ init ++ [last]) ∨
      (posts1 j = [] ∧ ∀ x ∈ L.posts j, x ∈ init ++ [last]))
    (hlists : ∀ h, h < d.length → L.own h = Owner.head →
      (h ∉ init ++ [last] ∧ ∀ x ∈ L.elems h, x ∉ init ++ [last]) ∨
      (h ∈ init ++ [last] ∧ ∀ x ∈ L.elems h, x ∈ init ++ [last])) :
    Heap (wr_next d last (L.free.headD 0)) e (L.release (init ++ [last]) posts1) f := by
  have hlast : last ∈ init ++ [last] := by simp
  have hown : ∀ x, x ∉ init ++ [last] → (L.release (init ++ [last]) posts1).own x = L.own x := by
    intro x hx; simp only [Layout.release, if_neg hx]
  have hownC : ∀ x, x ∈ init ++ [last] →
      (L.release (init ++ [last]) posts1).own x = Owner.free := by
    intro x hx; simp only [Layout.release, if_pos hx]
  have hrd : ∀ x, x ∉ init ++ [last] → rd (wr_next d last (L.free.headD 0)) x = rd d x := by
    intro x hx
    exact rd_wr_next_ne d _ (by rintro rfl; exact hx hlast)
  have hback : ∀ x o, o ≠ Owner.free → (L.release (init ++ [last]) posts1).own x = o →
      x ∉ init ++ [last] ∧ L.own x = o := by
    intro x o h1 h2
    by_cases h3 : x ∈ init ++ [last]
    · rw [hownC x h3] at h2; exact absurd h2.symm h1
    · exact ⟨h3, by rwa [hown x h3] at h2⟩
  have hl : d.length ≤ (wr_next d last (L.free.headD 0)).length := by rw [length_wr_next]
  have hhead : ∀ h, h < d.length → (L.release (init ++ [last]) posts1).own h = Owner.head →
      L.own h = Owner.head ∧ h ∉ init ++ [last] ∧ ∀ x ∈ L.elems h, x ∉ init ++ [last] := by
    intro h h1 h2
    obtain ⟨h3, h4⟩ := hback h _ (by simp) h2
    rcases hlists h h1 h4 with h5 | h5
    · exact ⟨h4, h5.1, h5.2⟩
    · exact absurd h5.1 h3
  refine ⟨by rw [length_wr_next]; exact H.len_pos, ?_, ?_, ?_, ?_, ?_, ?_, ?_, ?_, ?_, ?_,
    ?_, ?_, ?_, ?_, ?_, ?_, ?_, ?_⟩
  · rw [hrd 0 (fun h0 => (hseg.mem 0 h0).1 rfl)]; exact H.zero
  · rw [hown 0 (fun h0 => (hseg.mem 0 h0).1 rfl)]; exact H.own_zero
  · show Seg _ (((init ++ [last]) ++ L.free).headD 0) ((init ++ [last]) ++ L.free) 0
    have h1 : ((init ++ [last]) ++ L.free).headD 0 = (init ++ [last]).headD 0 := by
      cases init <;> simp
    rw [h1]
    refine Seg.append.2 ⟨L.free.headD 0, hseg.set_last _, ?_⟩
    refine Seg.congr hl ?_ H.free_chain
    intro x hx
    rw [hrd x (fun h2 => hC x h2 (H.free_own x hx))]
  · intro x hx
    by_cases h1 : x ∈ init ++ [last]
    · exact hownC x h1
    · rw [hown x h1]
      have h2 : x ∈ (init ++ [last]) ++ L.free := hx
      rcases List.mem_append.1 h2 with h3 | h3
      · exact absurd h3 h1
      · exact H.free_own x h3
  · intro j
    show Seg _ ((posts1 j).headD 0) (posts1 j) 0
    rcases hposts j with ⟨h1, h2⟩ | ⟨h1, _⟩
    · rw [h1]
      exact Seg.congr hl (fun x hx => by rw [hrd x (h2 x hx)]) (H.post_chain j)
    · rw [h1]; rfl
  · intro j x hx
    have hx1 : x ∈ posts1 j := hx
    rcases hposts j with ⟨h1, h2⟩ | ⟨h1, _⟩
    · rw [h1] at hx1
      rw [hown x (h2 x hx1)]; exact H.post_own j x hx1
    · rw [h1] at hx1; simp at hx1
  · intro j x hx
    have hx1 : x ∈ posts1 j := hx
    rcases hposts j with ⟨h1, h2⟩ | ⟨h1, _⟩
    · rw [h1] at hx1
      rw [hrd x (h2 x hx1)]; exact H.post_val j x hx1
    · rw [h1] at hx1; simp at hx1
  · intro h h1 h2
    rw [length_wr_next] at h1
    obtain ⟨h3, h4, h5⟩ := hhead h h1 h2
    rw [hrd h h4]
    exact Seg.congr hl (fun x hx => by rw [hrd x (h5 x hx)]) (H.list_chain h h1 h3)
  · intro h h1 h2
    rw [length_wr_next] at h1
    exact H.list_ne h h1 (hhead h h1 h2).1
  · intro h h1 h2 x hx
    rw [length_wr_next] at h1
    obtain ⟨h3, h4, h5⟩ := hhead h h1 h2
    have hx1 : x ∈ L.elems h := hx
    rw [hown x (h5 x hx1)]; exact H.list_own h h1 h3 x hx1
  · intro h h1 h2
    rw [length_wr_next] at h1
    obtain ⟨h3, h4, h5⟩ := hhead h h1 h2
    show (vals _ (L.elems h)).Pairwise _
    rw [vals_congr d _ (fun x hx => by rw [hrd x (h5 x hx)])]
    exact H.list_sorted h h1 h3
  · intro h h1 h2 x hx
    rw [length_wr_next] at h1
    obtain ⟨h3, h4, h5⟩ := hhead h h1 h2
    have hx1 : x ∈ L.elems h := hx
    rw [hrd x (h5 x hx1)]; exact H.list_val h h1 h3 x hx1
  · intro h h1 h2
    rw [length_wr_next] at h1
    obtain ⟨h3, h4, h5⟩ := hhead h h1 h2
    rw [hrd h h4]; exact H.list_rc h h1 h3
  · intro x hx hxo
    rw [length_wr_next] at hx
    exact H.complete_sentinel x hx (hback x _ (by simp) hxo).2
  · intro x hx hxo
    rw [length_wr_next] at hx
    show x ∈ (init ++ [last]) ++ L.free
    by_cases h1 : x ∈ init ++ [last]
    · exact List.mem_append_left _ h1
    · rw [hown x h1] at hxo
      exact List.mem_append_right _ (H.complete_free x hx hxo)
  · intro x hx j hxo
    rw [length_wr_next] at hx
    obtain ⟨h1, h2⟩ := hback x _ (by simp) hxo
    have h3 := H.complete_post x hx j h2
    show x ∈ posts1 j
    rcases hposts j with ⟨h4, _⟩ | ⟨_, h5⟩
    · rw [h4]; exact h3
    · exact absurd (h5 x h3) h1
  · intro x hx h hxo
    rw [length_wr_next] at hx
    obtain ⟨h1, h2⟩ := hback x _ (by simp) hxo
    obtain ⟨a, b, c⟩ := H.complete_elem x hx h h2
    rw [length_wr_next]
    refine ⟨a, ?_, c⟩
    rcases hlists h a b with h5 | h5
    · rw [hown h h5.1]; exact b
    · exact absurd (h5.2 x c) h1
  · intro h h1 h2
    rw [length_wr_next] at h1
    exact H.rc_pos h h1 (hhead h h1 h2).1

end CppAD


namespace CppAD

/-! ## Vectors of indices -/

theorem getD_set (l : List Nat) (i j v : Nat) :
    (l.set i v).getD j 0 = if i = j ∧ i < l.length then v else l.getD j 0 := by
  simp only [List.getD_eq_getElem?_getD, List.getElem?_set]
  by_cases h1 : i = j
  · subst h1
    by_cases h2 : i < l.length
    · simp [h2]
    · simp [h2, List.getElem?_eq_none (Nat.le_of_not_lt h2)]
  · simp [h1]

theorem getD_set_same (l : List Nat) {i : Nat} (v : Nat) (h : i < l.length) :
    (l.set i v).getD i 0 = v := by
  rw [getD_set, if_pos ⟨rfl, h⟩]

theorem getD_set_ne (l : List Nat) {i j : Nat} (v : Nat) (h : j ≠ i) :
    (l.set i v).getD j 0 = l.getD j 0 := by
  rw [getD_set, if_neg]; intro h1; exact h h1.1.symm

theorem count_pos_of_getD {l : List Nat} {i h : Nat} (hi : i < l.length) (hh : l.getD i 0 = h) :
    0 < l.count h := by
  rw [List.count_pos_iff]
  rw [← hh, List.getD_eq_getElem?_getD, List.getElem?_eq_getElem hi]
  simp

theorem count_set (l : List Nat) : ∀ (i v h : Nat), i < l.length →
    (l.set i v).count h + (if l.getD i 0 = h then 1 else 0) =
      l.count h + (if v = h then 1 else 0) := by
  induction l with
  | nil => intro i v h hi; simp at hi
  | cons a l ih =>
    intro i v h hi
    cases i with
    | zero =>
      simp only [List.set_cons_zero, List.count_cons, List.getD_cons_zero, beq_iff_eq]
      omega
    | succ i =>
      have := ih i v h (by simpa using hi)
      simp only [List.set_cons_succ, List.count_cons, List.getD_cons_succ, beq_iff_eq]
      omega

theorem getD_lt_of_ne_zero {l : List Nat} {i : Nat} (h : l.getD i 0 ≠ 0) : i < l.length := by
  by_contra h1
  apply h
  rw [List.getD_eq_getElem?_getD, List.getElem?_eq_none (Nat.le_of_not_lt h1)]
  rfl

/-! ## `drop` -/

theorem drop_loop_spec {d : List pair_size_t} : ∀ (rest : List Nat) (c n fuel : Nat),
    Seg d c (c :: rest) 0 → rest.length < fuel →
    ∃ init last, c :: rest = init ++ [last] ∧
      drop_loop d fuel c (rd d c).next n = some (last, n + rest.length)
  | [], c, n, fuel, h, hf => by
    obtain ⟨k, rfl⟩ : ∃ k, fuel = k + 1 := ⟨fuel - 1, by simp at hf; omega⟩
    have h1 : (rd d c).next = 0 := h.2.2.2
    exact ⟨[], c, rfl, by simp [drop_loop, h1]⟩
  | r :: rest, c, n, fuel, h, hf => by
    obtain ⟨k, rfl⟩ : ∃ k, fuel = k + 1 := ⟨fuel - 1, by simp at hf; omega⟩
    have h1 : Seg d (rd d c).next (r :: rest) 0 := h.2.2.2
    have h2 : (rd d c).next = r := h1.1
    have h3 : r ≠ 0 := h1.2.1
    rw [h2] at h1
    obtain ⟨init, last, h4, h5⟩ := drop_loop_spec rest r (n + 1) k h1 (by simpa using hf)
    refine ⟨c :: init, last, by rw [h4]; rfl, ?_⟩
    rw [drop_loop, h2, if_pos h3, h5]
    simp only [List.length_cons]
    congr 2
    omega

theorem Layout.release_nil (L : Layout) (i : Nat) (h : L.posts i = []) :
    L.release [] (Function.update L.posts i []) = L := by
  have h1 : Function.update L.posts i [] = L.posts := by
    rw [← h]; exact Function.update_eq_self i L.posts
  cases L
  simp only [Layout.release, h1]
  simp

theorem Layout.release_posts_eq (L : Layout) (i : Nat) :
    L.release (L.posts i) (Function.update L.posts i []) = L.drop i [] := by
  simp [Layout.release, Layout.drop]

end CppAD


namespace CppAD

theorem Heap.f_congr_heap {d e L f g} (H : Heap d e L f)
    (h : ∀ k, k < d.length → L.own k = Owner.head → f k = g k) : Heap d e L g :=
  H.congr_rc (Nat.le_refl _) (fun _ _ _ => rfl) (fun _ _ _ _ _ => rfl)
    (fun k h1 h2 => by rw [← h k h1 h2]; exact H.list_rc k h1 h2)
    (fun k h1 h2 => by rw [← h k h1 h2]; exact H.rc_pos k h1 h2)
    (fun x h1 h2 => absurd h2 (Nat.not_lt.2 h1))

theorem set_getD_self (l : List Nat) (i : Nat) : l.set i (l.getD i 0) = l := by
  apply List.ext_getElem?
  intro j
  rw [List.getElem?_set]
  by_cases h1 : i = j
  · subst h1
    by_cases h2 : i < l.length
    · simp [h2, List.getD_eq_getElem?_getD, List.getElem?_eq_getElem h2]
    · simp [h2, List.getElem?_eq_none (Nat.le_of_not_lt h2)]
  · simp [h1]

theorem Layout.drop_nil_self (L : Layout) (i : Nat) (h : L.posts i = []) : L.drop i [] = L := by
  have h1 : Function.update L.posts i [] = L.posts := by
    rw [← h]; exact Function.update_eq_self i L.posts
  cases L
  simp only [Layout.drop, h1]
  simp at h
  simp [h]

theorem drop_post_spec {s : list_setvec} {L f} (H : Heap s.data_ s.end_ L f)
    (hF : s.data_not_used_ = L.free.headD 0) (hS : SetLink s L f) {i : Nat}
    (hi : i < s.start_.length) :
    ∃ s1, drop_post s i = some ((L.posts i).length, s1) ∧ s1.end_ = s.end_ ∧
      s1.start_ = s.start_ ∧ s1.post_ = s.post_.set i 0 ∧ s1.temporary_ = s.temporary_ ∧
      s1.number_not_used_ = s.number_not_used_ ∧ s1.data_.length = s.data_.length ∧
      Heap s1.data_ s1.end_ (L.drop i []) f ∧
      s1.data_not_used_ = (L.drop i []).free.headD 0 ∧
      (∀ x, x ∉ L.posts i → rd s1.data_ x = rd s.data_ x) := by
  have hp := hS.post i hi
  cases hP : L.posts i with
  | nil =>
    have h0 : s.post_.getD i 0 = 0 := by rw [hp, hP]; rfl
    refine ⟨s, ?_, rfl, rfl, ?_, rfl, rfl, rfl, ?_, ?_, fun _ _ => rfl⟩
    · simp only [drop_post, h0]; simp
    · rw [← h0, set_getD_self]
    · rw [L.drop_nil_self i hP]; exact H
    · rw [L.drop_nil_self i hP]; exact hF
  | cons p rest =>
    have h0 : s.post_.getD i 0 = p := by rw [hp, hP]; rfl
    have hseg : Seg s.data_ p (p :: rest) 0 := by
      have := H.post_chain i
      rw [hP] at this; exact this
    have hp0 : p ≠ 0 := hseg.2.1
    have hlen := hseg.length_lt H.len_pos
    obtain ⟨init, last, h4, h5⟩ := drop_loop_spec rest p 1 s.data_.length hseg
      (by simp at hlen; omega)
    have hrel : Heap (wr_next s.data_ last (L.free.headD 0)) s.end_
        (L.release (init ++ [last]) (Function.update L.posts i [])) f := by
      refine H.release (by rw [← h4]; exact hseg) ?_ ?_ ?_
      · intro x hx
        rw [← h4, ← hP] at hx
        rw [H.post_own i x hx]; simp
      · intro j
        by_cases hj : j = i
        · subst hj
          right
          refine ⟨by simp, ?_⟩
          intro x hx; rw [← h4, ← hP]; exact hx
        · left
          refine ⟨by simp [Function.update_noteq hj], ?_⟩
          intro x hx hx2
          rw [← h4, ← hP] at hx2
          have h6 := H.post_own i x hx2
          rw [H.post_own j x hx] at h6
          cases h6; exact hj rfl
      · intro h h1 h2
        left
        constructor
        · intro hx2
          rw [← h4, ← hP] at hx2
          have h6 := H.post_own i h hx2
          rw [h2] at h6; cases h6
        · intro x hx hx2
          rw [← h4, ← hP] at hx2
          have h6 := H.post_own i x hx2
          rw [H.list_own h h1 h2 x hx] at h6; cases h6
    rw [← h4, ← hP, L.release_posts_eq] at hrel
    refine ⟨{ s with post_ := s.post_.set i 0,
                     data_ := wr_next s.data_ last s.data_not_used_,
                     data_not_used_ := p }, ?_, rfl, rfl, rfl, rfl, rfl, ?_, ?_, ?_, ?_⟩
    · simp only [drop_post, h0, ne_eq, hp0, not_false_eq_true, if_true, h5]
      simp [Nat.add_comm]
    · simp [length_wr_next]
    · rw [hF]; exact hrel
    · simp [Layout.drop, hP]
    · intro x hx
      apply rd_wr_next_ne
      rintro rfl
      apply hx
      rw [h4]; simp

end CppAD

namespace CppAD

theorem Layout.drop_drop (L : Layout) (i : Nat) (c : List Nat) :
    (L.drop i []).release c (L.drop i []).posts = L.drop i c := by
  simp only [Layout.release, Layout.drop, List.nil_append, List.not_mem_nil, false_or]
  congr 1
  funext x
  by_cases h1 : x ∈ c <;> by_cases h2 : x ∈ L.posts i <;> simp [h1, h2]

theorem Layout.drop_own_of_not_mem (L : Layout) (i : Nat) (c : List Nat) {x : Nat}
    (h1 : x ∉ c) (h2 : x ∉ L.posts i) : (L.drop i c).own x = L.own x := by
  simp [Layout.drop, h1, h2]

theorem Layout.drop_own_cases (L : Layout) (i : Nat) (c : List Nat) (x : Nat) :
    ((L.drop i c).own x = Owner.free ∧ (x ∈ c ∨ x ∈ L.posts i)) ∨
    ((L.drop i c).own x = L.own x ∧ x ∉ c ∧ x ∉ L.posts i) := by
  by_cases h : x ∈ c ∨ x ∈ L.posts i
  · left; exact ⟨by simp only [Layout.drop, if_pos h], h⟩
  · right
    refine ⟨by simp only [Layout.drop, if_neg h], fun h1 => h (Or.inl h1), fun h1 => h (Or.inr h1)⟩

/-- Specification of `drop(i)`. -/
theorem drop_spec {s : list_setvec} {L f} (H : Heap s.data_ s.end_ L f)
    (hF : s.data_not_used_ = L.free.headD 0) (hS : SetLink s L f) {i : Nat}
    (hi : i < s.start_.length) :
    ∃ s1 c, drop s i = some (c.length + (L.posts i).length, s1) ∧
      c = (if s.start_.getD i 0 ≠ 0 ∧ f (s.start_.getD i 0) = 1
            then s.start_.getD i 0 :: L.elems (s.start_.getD i 0) else []) ∧
      s1.end_ = s.end_ ∧ s1.start_ = s.start_.set i 0 ∧ s1.post_ = s.post_.set i 0 ∧
      s1.temporary_ = s.temporary_ ∧ s1.number_not_used_ = s.number_not_used_ ∧
      s1.data_.length = s.data_.length ∧
      Heap s1.data_ s1.end_ (L.drop i c)
        (Function.update f (s.start_.getD i 0) (f (s.start_.getD i 0) - 1)) ∧
      s1.data_not_used_ = (L.drop i c).free.headD 0 ∧
      SetLink s1 (L.drop i c)
        (Function.update f (s.start_.getD i 0) (f (s.start_.getD i 0) - 1)) ∧
      (∀ x, x ∉ c → x ∉ L.posts i → x ≠ s.start_.getD i 0 → rd s1.data_ x = rd s.data_ x) ∧
      (s.start_.getD i 0 ∉ c →
        (rd s1.data_ (s.start_.getD i 0)).next = (rd s.data_ (s.start_.getD i 0)).next) := by
  obtain ⟨s1, hdp, he1, hst1, hpo1, htmp1, hnn1, hlen1, H1, hF1, hfr1⟩ :=
    drop_post_spec H hF hS hi
  -- facts on the links that do not depend on the case
  have hpostlink : ∀ c, ∀ j, j < s.start_.length →
      (s.post_.set i 0).getD j 0 = ((L.drop i c).posts j).headD 0 := by
    intro c j hj
    by_cases hji : j = i
    · subst hji
      rw [getD_set_same _ _ (by rw [hS.len]; exact hj)]
      simp [Layout.drop]
    · rw [getD_set_ne _ _ hji]
      simp only [Layout.drop, Function.update_noteq hji]
      exact hS.post j hj
  have hpostout : ∀ c, ∀ j, s.start_.length ≤ j → (L.drop i c).posts j = [] := by
    intro c j hj
    have hji : j ≠ i := by omega
    simp only [Layout.drop, Function.update_noteq hji]
    exact hS.post_out j hj
  have hheadP : ∀ h, L.own h = Owner.head → h ∉ L.posts i := by
    intro h h1 h2
    rw [H.post_own i h h2] at h1; cases h1
  by_cases hst : s.start_.getD i 0 = 0
  · -- the set is empty
    refine ⟨s1, [], ?_, (if_neg (fun h => h.1 hst)).symm, he1, ?_, hpo1, htmp1, hnn1, hlen1, ?_, hF1, ?_, ?_, ?_⟩
    · simp only [drop, hdp, Option.bind_eq_bind, Option.some_bind, hst1, hst, if_true]
      simp
    · rw [hst1, ← hst, set_getD_self]
    · rw [he1] at H1 ⊢
      refine H1.f_congr_heap ?_
      intro k hk hko
      rw [hst, Function.update_noteq]
      rintro rfl
      have := H1.own_zero
      rw [hko] at this; cases this
    · refine ⟨by rw [hpo1, hst1]; simp [hS.len], ?_, ?_, ?_, ?_⟩
      · intro j hj; rw [hpo1]; rw [hst1] at hj; exact hpostlink [] j hj
      · intro j hj; rw [hst1] at hj; exact hpostout [] j hj
      · intro j hj hne
        rw [hst1] at hj hne ⊢
        obtain ⟨h2, h3⟩ := hS.start j hj hne
        rw [hlen1]
        refine ⟨h2, ?_⟩
        rw [L.drop_own_of_not_mem i [] (by simp) (hheadP _ h3)]; exact h3
      · intro k hk hko
        rw [hlen1] at hk
        rcases L.drop_own_cases i [] k with ⟨h1, _⟩ | ⟨h1, _, _⟩
        · rw [hko] at h1; cases h1
        · rw [hko] at h1
          rw [hst1, hst, Function.update_noteq (H.own_ne_zero (by rw [← h1]; simp))]
          exact hS.rc k hk h1.symm
    · intro x _ hx _; exact hfr1 x hx
    · intro _; rw [hst, hfr1 0 (fun h0 => ((H.post_chain i).mem 0 h0).1 rfl)]
  · -- the set is not empty
    obtain ⟨hh, hho⟩ := hS.start i hi hst
    generalize hhdef : s.start_.getD i 0 = h at *
    have hrd1 : rd s1.data_ h = rd s.data_ h := hfr1 h (hheadP h hho)
    have hrc := H.list_rc h hh hho
    have hcnt : 0 < s.start_.count h := count_pos_of_getD hi hhdef
    have hfpos : 0 < f h := Nat.lt_of_lt_of_le hcnt (hS.rc h hh hho)
    have hho1 : (L.drop i []).own h = Owner.head := by
      rw [L.drop_own_of_not_mem i [] (by simp) (hheadP h hho)]; exact hho
    have hh1 : h < s1.data_.length := by rw [hlen1]; exact hh
    have hcount : ∀ k, k ≠ 0 →
        (s.start_.set i 0).count k + (if h = k then 1 else 0) = s.start_.count k := by
      intro k hk
      have := count_set s.start_ i 0 k hi
      rw [hhdef] at this
      rw [if_neg (Ne.symm hk)] at this
      exact this
    have hrcS : ∀ k, k < s.data_.length → L.own k = Owner.head →
        (s.start_.set i 0).count k ≤ Function.update f h (f h - 1) k := by
      intro k hk hko
      have h1 := hcount k (H.own_ne_zero (by rw [hko]; simp))
      have h2 := hS.rc k hk hko
      by_cases hkh : h = k
      · subst hkh
        rw [Function.update_same]
        rw [if_pos rfl] at h1; omega
      · rw [Function.update_noteq (Ne.symm hkh)]
        rw [if_neg hkh] at h1; omega
    have hval2 : (rd (wr_value s1.data_ h ((rd s1.data_ h).value - 1)) h).value = f h - 1 := by
      rw [value_wr_value_same _ _ hh1, hrd1, hrc]
    by_cases hf1 : f h = 1
    · -- last reference: the list is released
      have hseg0 : Seg s1.data_ (rd s1.data_ h).next (L.elems h) 0 :=
        H1.list_chain h hh1 hho1
      have hsegA : Seg s1.data_ h (h :: L.elems h) 0 := ⟨rfl, hst, hh1, hseg0⟩
      have hseg : Seg (wr_value s1.data_ h (f h - 1)) h (h :: L.elems h) 0 := by
        refine ⟨rfl, hst, by rw [length_wr_value]; exact hh1, ?_⟩
        rw [next_wr_value]
        exact Seg.congr (by rw [length_wr_value]) (fun x _ => next_wr_value _ _ _ _) hseg0
      have hlen := hseg.length_lt (by rw [length_wr_value]; exact H1.len_pos)
      obtain ⟨init, last, h4, h5⟩ := drop_loop_spec (L.elems h) h ((L.posts i).length + 1)
        (wr_value s1.data_ h (f h - 1)).length hseg (by simp at hlen ⊢; omega)
      have hrelA : Heap (wr_next s1.data_ last ((L.drop i []).free.headD 0)) s1.end_
          ((L.drop i []).release (init ++ [last]) (L.drop i []).posts) f := by
        refine H1.release (by rw [← h4]; exact hsegA) ?_ ?_ ?_
        · intro x hx
          rw [← h4] at hx
          rcases List.mem_cons.1 hx with h6 | h6
          · rw [h6, hho1]; simp
          · rw [H1.list_own h hh1 hho1 x h6]; simp
        · intro j
          left
          refine ⟨rfl, ?_⟩
          intro x hx hx2
          rw [← h4] at hx2
          have h7 := H1.post_own j x hx
          rcases List.mem_cons.1 hx2 with h6 | h6
          · rw [h6, hho1] at h7; cases h7
          · rw [H1.list_own h hh1 hho1 x h6] at h7; cases h7
        · intro k hk hko
          by_cases hkh : k = h
          · subst hkh
            right
            rw [← h4]
            exact ⟨List.mem_cons_self _ _, fun x hx => List.mem_cons_of_mem _ hx⟩
          · left
            rw [← h4]
            constructor
            · intro hm
              rcases List.mem_cons.1 hm with h6 | h6
              · exact hkh h6
              · rw [H1.list_own h hh1 hho1 k h6] at hko; cases hko
            · intro x hx hm
              have h7 := H1.list_own k hk hko x hx
              rcases List.mem_cons.1 hm with h6 | h6
              · rw [h6, hho1] at h7; cases h7
              · rw [H1.list_own h hh1 hho1 x h6] at h7
                cases h7; exact hkh rfl
      rw [← h4, L.drop_drop] at hrelA
      have hfreeh : (L.drop i (h :: L.elems h)).own h = Owner.free := by
        simp [Layout.drop]
      have hlast : last ≠ h := by
        have h6 := hseg0.not_mem_of_next
        have h7 := H1.list_ne h hh1 hho1
        have h8 : last ∈ L.elems h := by
          have h9 : (h :: L.elems h).getLast? = some last := by rw [h4]; simp
          cases hE : L.elems h with
          | nil => exact absurd hE h7
          | cons a l =>
            rw [hE, List.getLast?_cons_cons] at h9
            rw [← hE] at h9
            rw [← hE]
            exact List.mem_of_getLast?_eq_some h9
        rintro rfl; exact h6 h8
      have hrel : Heap (wr_next (wr_value s1.data_ h (f h - 1)) last ((L.drop i []).free.headD 0))
          s1.end_ (L.drop i (h :: L.elems h)) (Function.update f h (f h - 1)) := by
        refine ((hrelA.wr_value_free (f h - 1) hfreeh).of_rd_eq ?_ ?_).f_congr_heap ?_
        · simp [length_wr_next, length_wr_value]
        · intro x
          simp only [rd_wr_next, rd_wr_value, length_wr_value, length_wr_next]
          by_cases h6 : last = x <;> by_cases h7 : h = x
          · exact absurd (h6.trans h7.symm) hlast
          · simp [h6, h7]
          · simp [h6, h7]
          · simp [h6, h7]
        · intro k hk hko
          rw [Function.update_noteq]
          rintro rfl
          rw [hfreeh] at hko; cases hko
      refine ⟨{ s1 with data_ := wr_next (wr_value s1.data_ h (f h - 1)) last s1.data_not_used_,
                        start_ := s1.start_.set i 0, data_not_used_ := h },
        h :: L.elems h, ?_, (if_pos ⟨hst, hf1⟩).symm, he1, by simp [hst1], hpo1, htmp1, hnn1, ?_, ?_,
        ?_, ?_, ?_, ?_⟩
      · simp only [drop, hdp, Option.bind_eq_bind, Option.some_bind, hst1, hhdef, hst,
          if_false, hrd1, hrc, CPPAD_ASSERT_UNKNOWN, gt_iff_lt, hfpos, decide_True, if_true]
        rw [show (rd (wr_value s1.data_ h (f h - 1)) h).value = f h - 1 from by
          rw [value_wr_value_same _ _ hh1]]
        have h6 : ¬ (0 < f h - 1) := by omega
        simp only [h6, if_false]
        rw [length_wr_value] at h5
        simp only [length_wr_value, h5, Option.some_bind]
        simp
        omega
      · simp [length_wr_next, length_wr_value, hlen1]
      · show Heap (wr_next (wr_value s1.data_ h (f h - 1)) last s1.data_not_used_) s1.end_ _ _
        rw [hF1]; exact hrel
      · simp [Layout.drop]
      · refine ⟨by simp [hpo1, hst1, hS.len], ?_, ?_, ?_, ?_⟩
        · intro j hj
          have hj1 : j < s.start_.length := by simpa [hst1] using hj
          show s1.post_.getD j 0 = _
          rw [hpo1]; exact hpostlink _ j hj1
        · intro j hj
          have hj1 : s.start_.length ≤ j := by simpa [hst1] using hj
          exact hpostout _ j hj1
        · intro j hj hne
          have hj1 : j < s.start_.length := by simpa [hst1] using hj
          have hne1 : (s.start_.set i 0).getD j 0 ≠ 0 := by simpa [hst1] using hne
          have hji : j ≠ i := by
            rintro rfl
            rw [getD_set_same _ _ hi] at hne1; exact hne1 rfl
          show (s1.start_.set i 0).getD j 0 < _ ∧ (L.drop i _).own ((s1.start_.set i 0).getD j 0) = _
          rw [hst1, getD_set_ne _ _ hji] at *
          obtain ⟨h2, h3⟩ := hS.start j hj1 hne1
          have hneh : s.start_.getD j 0 ≠ h := by
            intro heq
            have h7 := hcount h hst
            rw [if_pos rfl] at h7
            have h8 := hS.rc h hh hho
            have h9 : 0 < (s.start_.set i 0).count h :=
              count_pos_of_getD (i := j) (by simpa using hj1)
                (by rw [getD_set_ne _ _ hji]; exact heq)
            omega
          refine ⟨by rw [length_wr_next, length_wr_value, hlen1]; exact h2, ?_⟩
          rw [L.drop_own_of_not_mem i _ ?_ (hheadP _ h3)]
          · exact h3
          · intro hm
            rcases List.mem_cons.1 hm with h6 | h6
            · exact hneh h6
            · rw [H.list_own h hh hho _ h6] at h3; cases h3
        · intro k hk hko
          have hk1 : k < s.data_.length := by
            simpa [length_wr_next, length_wr_value, hlen1] using hk
          rcases L.drop_own_cases i (h :: L.elems h) k with ⟨h1, _⟩ | ⟨h1, _, _⟩
          · rw [hko] at h1; cases h1
          · rw [hko] at h1
            show (s1.start_.set i 0).count k ≤ _
            rw [hst1]; exact hrcS k hk1 h1.symm
      · intro x hx1 hx2 hx3
        show rd (wr_next (wr_value s1.data_ h (f h - 1)) last s1.data_not_used_) x = _
        rw [rd_wr_next_ne, rd_wr_value_ne _ _ hx3, hfr1 x hx2]
        rintro rfl
        apply hx1; rw [h4]; simp
      · intro hx; exact absurd (List.mem_cons_self _ _) hx
    · -- the list is still used
      have hf2 : 0 < f h - 1 := by omega
      have H2 := H1.wr_rc (f h - 1) hh1 hho1 hf2
      refine ⟨{ s1 with data_ := wr_value s1.data_ h (f h - 1), start_ := s1.start_.set i 0 },
        [], ?_, (if_neg (fun h => hf1 h.2)).symm, he1, by simp [hst1], hpo1, htmp1, hnn1, ?_, H2, hF1, ?_, ?_, ?_⟩
      · simp only [drop, hdp, Option.bind_eq_bind, Option.some_bind, hst1, hhdef, hst,
          if_false, hrd1, hrc, CPPAD_ASSERT_UNKNOWN, gt_iff_lt, hfpos, decide_True, if_true]
        rw [show (rd (wr_value s1.data_ h (f h - 1)) h).value = f h - 1 from by
          rw [value_wr_value_same _ _ hh1]]
        simp [hf2]
      · simp [length_wr_value, hlen1]
      · refine ⟨by simp [hpo1, hst1, hS.len], ?_, ?_, ?_, ?_⟩
        · intro j hj
          have hj1 : j < s.start_.length := by simpa [hst1] using hj
          show s1.post_.getD j 0 = _
          rw [hpo1]; exact hpostlink _ j hj1
        · intro j hj
          have hj1 : s.start_.length ≤ j := by simpa [hst1] using hj
          exact hpostout _ j hj1
        · intro j hj hne
          have hj1 : j < s.start_.length := by simpa [hst1] using hj
          have hne1 : (s.start_.set i 0).getD j 0 ≠ 0 := by simpa [hst1] using hne
          have hji : j ≠ i := by
            rintro rfl
            rw [getD_set_same _ _ hi] at hne1; exact hne1 rfl
          show (s1.start_.set i 0).getD j 0 < _ ∧ (L.drop i _).own ((s1.start_.set i 0).getD j 0) = _
          rw [hst1, getD_set_ne _ _ hji] at *
          obtain ⟨h2, h3⟩ := hS.start j hj1 hne1
          refine ⟨by rw [length_wr_value, hlen1]; exact h2, ?_⟩
          rw [L.drop_own_of_not_mem i _ (by simp) (hheadP _ h3)]
          exact h3
        · intro k hk hko
          have hk1 : k < s.data_.length := by
            simpa [length_wr_value, hlen1] using hk
          rcases L.drop_own_cases i [] k with ⟨h1, _⟩ | ⟨h1, _, _⟩
          · rw [hko] at h1; cases h1
          · rw [hko] at h1
            show (s1.start_.set i 0).count k ≤ _
            rw [hst1]; exact hrcS k hk1 h1.symm
      · intro x _ hx2 hx3
        show rd (wr_value s1.data_ h (f h - 1)) x = _
        rw [rd_wr_value_ne _ _ hx3, hfr1 x hx2]
      · intro _
        show (rd (wr_value s1.data_ h (f h - 1)) h).next = _
        rw [next_wr_value, hrd1]

end CppAD


namespace CppAD

/-! ## The invariant during a member function -/

theorem Inv.of_fields {s s1 : list_setvec} {L f P} (I : Inv s L f P) (hd : s1.data_ = s.data_)
    (he : s1.end_ = s.end_) (h1 : s1.data_not_used_ = s.data_not_used_)
    (h2 : s1.number_not_used_ = s.number_not_used_) : Inv s1 L f P := by
  refine ⟨by rw [hd, he]; exact I.heap, ⟨by rw [h1]; exact I.free.head,
    by rw [h2]; exact I.free.count⟩, by rw [hd]; exact I.scratch, by rw [hd]; exact I.pending_lt⟩

theorem Inv.pending_congr {s : list_setvec} {L f P Q} (I : Inv s L f P)
    (h : ∀ x, x ∈ P ↔ x ∈ Q) : Inv s L f Q :=
  ⟨I.heap, I.free, fun x hx => (I.scratch x hx).trans (h x),
    fun x hx => I.pending_lt x ((h x).2 hx)⟩

theorem Ext.refl (s : list_setvec) (L : Layout) : Ext s L s L :=
  ⟨Nat.le_refl _, fun _ _ _ _ => rfl, fun _ h _ => ⟨h, rfl⟩, fun _ _ _ _ => rfl, rfl, rfl⟩

theorem Ext.trans {s L s1 L1 s2 L2} (h1 : Ext s L s1 L1) (h2 : Ext s1 L1 s2 L2) :
    Ext s L s2 L2 := by
  refine ⟨Nat.le_trans h1.len h2.len, ?_, ?_, ?_, by rw [h2.elems, h1.elems],
    by rw [h2.posts, h1.posts]⟩
  · intro x hx ha hb
    have h3 := h1.own x hx ha hb
    rw [h2.own x (Nat.lt_of_lt_of_le hx h1.len) (by rw [h3]; exact ha) (by rw [h3]; exact hb)]
    exact h3
  · intro x hx ha
    obtain ⟨h3, h4⟩ := h2.back x hx ha
    obtain ⟨h5, h6⟩ := h1.back x h3 (by rw [h4]; exact ha)
    exact ⟨h5, h6.trans h4⟩
  · intro x hx ha hb
    have h3 := h1.own x hx ha hb
    rw [h2.rd x (Nat.lt_of_lt_of_le hx h1.len) (by rw [h3]; exact ha) (by rw [h3]; exact hb)]
    exact h1.rd x hx ha hb

theorem Ext.ext_fields {s L s1 L1 s2} (h : Ext s L s1 L1) (hd : s2.data_ = s1.data_) :
    Ext s L s2 L1 :=
  ⟨by rw [hd]; exact h.len, h.own, by rw [hd]; exact h.back, by rw [hd]; exact h.rd, h.elems,
    h.posts⟩

/-- Allocation of a pair. -/
theorem Inv.alloc {s : list_setvec} {L f P} (I : Inv s L f P) :
    ∃ k s1, get_data_index s = some (k, s1) ∧ Inv s1 (L.alloc k) f (P ++ [k]) ∧
      Ext s L s1 (L.alloc k) ∧ k ≠ 0 ∧ k ∉ P ∧ k < s1.data_.length ∧
      s1.end_ = s.end_ ∧ s1.start_ = s.start_ ∧ s1.post_ = s.post_ ∧
      s1.temporary_ = s.temporary_ ∧
      (∀ x, x < s.data_.length → rd s1.data_ x = rd s.data_ x) ∧
      (L.own k = Owner.free ∨ s.data_.length ≤ k) := by
  obtain ⟨k, s1, h1, hk0, hk1, he, hst, hpo, htmp, hlen, hrd, hfresh, hnew, H1, F1⟩ :=
    get_data_index_spec I.heap I.free
  have hkP : k ∉ P := by
    intro hk
    have h2 := I.pending_lt k hk
    have h3 := (I.scratch k h2).2 hk
    rcases hfresh with h4 | h4
    · rw [h3] at h4; cases h4
    · omega
  have hown : ∀ x, x ≠ k → (L.alloc k).own x = L.own x := by
    intro x hx; simp [Layout.alloc, Function.update_noteq hx]
  have hownk : (L.alloc k).own k = Owner.scratch := by simp [Layout.alloc]
  refine ⟨k, s1, h1, ⟨H1, F1, ?_, ?_⟩, ⟨hlen, ?_, ?_, ?_, rfl, rfl⟩, hk0, hkP, hk1, he, hst,
    hpo, htmp, hrd, hfresh⟩
  · intro x hx
    by_cases hxk : x = k
    · subst hxk; simp [hownk]
    · rw [hown x hxk]
      rcases hnew x hx with h2 | h2
      · rw [I.scratch x h2]; simp [hxk]
      · exact absurd h2 hxk
  · intro x hx
    rcases List.mem_append.1 hx with h2 | h2
    · exact Nat.lt_of_lt_of_le (I.pending_lt x h2) hlen
    · simp at h2; subst h2; exact hk1
  · intro x hx ha _
    apply hown
    rintro rfl
    rcases hfresh with h4 | h4
    · exact ha h4
    · omega
  · intro x hx ha
    have hxk : x ≠ k := by rintro rfl; exact ha hownk
    rcases hnew x hx with h2 | h2
    · exact ⟨h2, (hown x hxk).symm⟩
    · exact absurd h2 hxk
  · intro x hx _ _; exact hrd x hx

theorem Inv.write_value {s : list_setvec} {L f P} (I : Inv s L f P) {k : Nat} (hk : k ∈ P)
    (v : Nat) : Inv { s with data_ := wr_value s.data_ k v } L f P := by
  have hs := (I.scratch k (I.pending_lt k hk)).2 hk
  refine ⟨I.heap.wr_value_scratch v hs, ⟨I.free.head, I.free.count⟩, ?_, ?_⟩
  · intro x hx
    simp only [length_wr_value] at hx
    exact I.scratch x hx
  · intro x hx
    simp only [length_wr_value]
    exact I.pending_lt x hx

theorem Inv.write_next {s : list_setvec} {L f P} (I : Inv s L f P) {k : Nat} (hk : k ∈ P)
    (v : Nat) : Inv { s with data_ := wr_next s.data_ k v } L f P := by
  have hs := (I.scratch k (I.pending_lt k hk)).2 hk
  refine ⟨I.heap.wr_next_scratch v hs, ⟨I.free.head, I.free.count⟩, ?_, ?_⟩
  · intro x hx
    simp only [length_wr_next] at hx
    exact I.scratch x hx
  · intro x hx
    simp only [length_wr_next]
    exact I.pending_lt x hx

theorem Ext.ext_write_value {s L s1 L1} (h : Ext s L s1 L1) {k : Nat} (v : Nat)
    (hk : L1.own k = Owner.scratch) : Ext s L { s1 with data_ := wr_value s1.data_ k v } L1 := by
  refine ⟨by simp only [length_wr_value]; exact h.len, h.own, ?_, ?_, h.elems, h.posts⟩
  · intro x hx; simp only [length_wr_value] at hx; exact h.back x hx
  · intro x hx ha hb
    have h3 := h.own x hx ha hb
    show CppAD.rd (wr_value s1.data_ k v) x = _
    rw [rd_wr_value_ne _ _ (by rintro rfl; rw [hk] at h3; exact hb h3.symm)]
    exact h.rd x hx ha hb

theorem Ext.ext_write_next {s L s1 L1} (h : Ext s L s1 L1) {k : Nat} (v : Nat)
    (hk : L1.own k = Owner.scratch) : Ext s L { s1 with data_ := wr_next s1.data_ k v } L1 := by
  refine ⟨by simp only [length_wr_next]; exact h.len, h.own, ?_, ?_, h.elems, h.posts⟩
  · intro x hx; simp only [length_wr_next] at hx; exact h.back x hx
  · intro x hx ha hb
    have h3 := h.own x hx ha hb
    show CppAD.rd (wr_next s1.data_ k v) x = _
    rw [rd_wr_next_ne _ _ (by rintro rfl; rw [hk] at h3; exact hb h3.symm)]
    exact h.rd x hx ha hb

theorem Inv.own_pending {s : list_setvec} {L f P} (I : Inv s L f P) {k : Nat} (hk : k ∈ P) :
    L.own k = Owner.scratch :=
  (I.scratch k (I.pending_lt k hk)).2 hk

/-- The pending pairs became a list. -/
theorem Inv.adopt {s : list_setvec} {L f} {k0 : Nat} {N : List Nat} (I : Inv s L f (k0 :: N))
    (hseg : Seg s.data_ (rd s.data_ k0).next N 0) (hne : N ≠ [])
    (hsort : (vals s.data_ N).Pairwise (· < ·)) (hval : ∀ x ∈ N, (rd s.data_ x).value < s.end_)
    (hpos : 0 < (rd s.data_ k0).value) :
    Inv s (L.adopt k0 N) (Function.update f k0 (rd s.data_ k0).value) [] := by
  have hk0 := I.own_pending (List.mem_cons_self k0 N)
  have hN : ∀ x ∈ N, L.own x = Owner.scratch := fun x hx =>
    I.own_pending (List.mem_cons_of_mem _ hx)
  refine ⟨I.heap.adopt_heap (I.pending_lt k0 (List.mem_cons_self _ _)) hk0 hN hseg hne hsort hval hpos,
    ⟨I.free.head, I.free.count⟩, ?_, by simp⟩
  intro x hx
  simp only [List.not_mem_nil, iff_false]
  by_cases h1 : x = k0
  · subst h1; simp [Layout.adopt]
  · by_cases h2 : x ∈ N
    · simp [Layout.adopt, h1, h2]
    · simp only [Layout.adopt, h1, h2, if_false]
      rw [I.scratch x hx]
      simp [h1, h2]

end CppAD


namespace CppAD

/-! ## The values of a set -/

theorem SetIs.unique {s : list_setvec} {i : Nat} {vs ws : List Nat} (h1 : SetIs s i vs)
    (h2 : SetIs s i ws) : vs = ws := by
  unfold SetIs at h1 h2
  split at h1
  · rename_i h; rw [if_pos h] at h2; rw [h1, h2]
  · rename_i h; rw [if_neg h] at h2
    obtain ⟨ns, h3, rfl⟩ := h1
    obtain ⟨ms, h4, rfl⟩ := h2
    rw [Seg.det h3 h4]

theorem SetIs.of_layout {s : list_setvec} {L f} (H : Heap s.data_ s.end_ L f)
    (S : SetLink s L f) {i : Nat} (hi : i < s.start_.length) : SetIs s i (L.content s i) := by
  unfold SetIs Layout.content
  by_cases h : s.start_.getD i 0 = 0
  · rw [if_pos h, if_pos h]
  · rw [if_neg h, if_neg h]
    obtain ⟨h1, h2⟩ := S.start i hi h
    exact ⟨_, H.list_chain _ h1 h2, rfl⟩

theorem Layout.content_sorted {s : list_setvec} {L f} (H : Heap s.data_ s.end_ L f)
    (S : SetLink s L f) {i : Nat} (hi : i < s.start_.length) :
    (L.content s i).Pairwise (· < ·) ∧ ∀ x ∈ L.content s i, x < s.end_ := by
  unfold Layout.content
  by_cases h : s.start_.getD i 0 = 0
  · rw [if_pos h]; simp
  · rw [if_neg h]
    obtain ⟨h1, h2⟩ := S.start i hi h
    refine ⟨H.list_sorted _ h1 h2, ?_⟩
    intro x hx
    simp only [vals, List.mem_map] at hx
    obtain ⟨y, hy, rfl⟩ := hx
    exact H.list_val _ h1 h2 y hy

theorem Layout.content_ne_nil {s : list_setvec} {L f} (H : Heap s.data_ s.end_ L f)
    (S : SetLink s L f) {i : Nat} (hi : i < s.start_.length) (h : s.start_.getD i 0 ≠ 0) :
    L.content s i ≠ [] := by
  unfold Layout.content
  rw [if_neg h]
  obtain ⟨h1, h2⟩ := S.start i hi h
  have := H.list_ne _ h1 h2
  simpa [vals] using this

/-- In a well-formed vector every set has a list of strictly increasing values
below `end_`. -/
theorem WF.setIs {s : list_setvec} (hw : WF s) {i : Nat} (hi : i < s.start_.length) :
    ∃ vs, SetIs s i vs ∧ vs.Pairwise (· < ·) ∧ (∀ x ∈ vs, x < s.end_) ∧
      (vs = [] ↔ s.start_.getD i 0 = 0) := by
  obtain ⟨L, I, S⟩ := hw
  refine ⟨L.content s i, SetIs.of_layout I.heap S hi, (L.content_sorted I.heap S hi).1,
    (L.content_sorted I.heap S hi).2, ?_⟩
  constructor
  · intro h
    by_contra h1
    exact L.content_ne_nil I.heap S hi h1 h
  · intro h
    unfold Layout.content
    rw [if_pos h]

theorem WF.intro {s : list_setvec} {L f} (I : Inv s L f []) (S : SetLink s L f)
    (h : ∀ k, k < s.data_.length → L.own k = Owner.head → f k = s.start_.count k) : WF s := by
  refine ⟨L, ⟨I.heap.f_congr_heap h, I.free, I.scratch, I.pending_lt⟩, ⟨S.len, S.post, S.post_out,
    S.start, fun _ _ _ => Nat.le_refl _⟩⟩

theorem WF.len_pos {s : list_setvec} (hw : WF s) : 0 < s.data_.length := by
  obtain ⟨L, I, _⟩ := hw
  exact I.heap.len_pos

theorem WF.zero {s : list_setvec} (hw : WF s) : rd s.data_ 0 = ⟨s.end_, 0⟩ := by
  obtain ⟨L, I, _⟩ := hw
  exact I.heap.zero

theorem WF.len_post {s : list_setvec} (hw : WF s) : s.post_.length = s.start_.length := by
  obtain ⟨L, _, S⟩ := hw
  exact S.len

/-! ## Sorted lists of values -/

theorem sorted_mem_iff_head_dropWhile {vs : List Nat} {e x : Nat} (hs : vs.Pairwise (· < ·))
    (hv : ∀ y ∈ vs, y < e) (hx : x < e) :
    x ∈ vs ↔ x = (vs.dropWhile (fun y => decide (y < x))).headD e := by
  induction vs with
  | nil => simp; omega
  | cons a l ih =>
    have hs1 := List.pairwise_cons.1 hs
    by_cases h1 : a < x
    · rw [List.dropWhile_cons_of_pos (by simpa using h1)]
      rw [← ih hs1.2 (fun y hy => hv y (List.mem_cons_of_mem _ hy))]
      simp only [List.mem_cons]
      constructor
      · rintro (h | h)
        · omega
        · exact h
      · intro h; exact Or.inr h
    · rw [List.dropWhile_cons_of_neg (by simpa using h1)]
      simp only [List.mem_cons, List.headD_cons]
      constructor
      · rintro (h | h)
        · exact h
        · have := hs1.1 x h; omega
      · intro h; exact Or.inl h

theorem vals_dropWhile (d : List pair_size_t) (ns : List Nat) (x : Nat) :
    vals d (ns.dropWhile (fun n => decide ((rd d n).value < x))) =
      (vals d ns).dropWhile (fun y => decide (y < x)) := by
  induction ns with
  | nil => rfl
  | cons a l ih =>
    by_cases h1 : (rd d a).value < x
    · rw [List.dropWhile_cons_of_pos (by simpa using h1)]
      simp only [vals, List.map_cons] at ih ⊢
      rw [List.dropWhile_cons_of_pos (by simpa using h1)]
      exact ih
    · rw [List.dropWhile_cons_of_neg (by simpa using h1)]
      simp only [vals, List.map_cons]
      rw [List.dropWhile_cons_of_neg (by simpa using h1)]

theorem value_headD (d : List pair_size_t) {e : Nat} (hz : rd d 0 = ⟨e, 0⟩) (ns : List Nat) :
    (rd d (ns.headD 0)).value = (vals d ns).headD e := by
  cases ns with
  | nil => simp [vals, hz]
  | cons a l => simp [vals]

/-! ## `is_element` -/

theorem is_element_loop_spec {d : List pair_size_t} {e : Nat} (hz : rd d 0 = ⟨e, 0⟩)
    (element : Nat) (he : element ≤ e) : ∀ (ns : List Nat) (p fuel : Nat), Seg d p ns 0 →
      ns.length < fuel →
      is_element_loop d element fuel p (rd d p).value =
        some ((ns.dropWhile (fun n => decide ((rd d n).value < element))).headD 0,
          (rd d ((ns.dropWhile (fun n => decide ((rd d n).value < element))).headD 0)).value)
  | [], p, fuel, h, hf => by
    obtain ⟨k, rfl⟩ : ∃ k, fuel = k + 1 := ⟨fuel - 1, by simp at hf; omega⟩
    have hp : p = 0 := h
    subst hp
    have : ¬ (e < element) := by omega
    simp [is_element_loop, hz, this]
  | n :: ns, p, fuel, h, hf => by
    obtain ⟨k, rfl⟩ : ∃ k, fuel = k + 1 := ⟨fuel - 1, by simp at hf; omega⟩
    obtain ⟨hp, _, _, h3⟩ := h
    subst hp
    by_cases h1 : (rd d p).value < element
    · rw [is_element_loop, if_pos h1, List.dropWhile_cons_of_pos (by simpa using h1)]
      exact is_element_loop_spec hz element he ns _ k h3 (by simpa using hf)
    · rw [is_element_loop, if_neg h1, List.dropWhile_cons_of_neg (by simpa using h1)]
      rfl

/-- Specification of `is_element`. -/
theorem is_element_spec {s : list_setvec} (hlen : 0 < s.data_.length)
    (hz : rd s.data_ 0 = ⟨s.end_, 0⟩) {i : Nat} {vs : List Nat} (h : SetIs s i vs)
    (hs : vs.Pairwise (· < ·)) (hv : ∀ x ∈ vs, x < s.end_) (hp : s.post_.getD i 0 = 0)
    {e : Nat} (he : e < s.end_) : is_element s i e = some (decide (e ∈ vs)) := by
  unfold SetIs at h
  unfold is_element
  simp only [hp, he, CPPAD_ASSERT_UNKNOWN, decide_True, if_true, Option.bind_eq_bind,
    Option.some_bind]
  split at h
  · rename_i h0
    rw [if_pos h0, h]
    simp
  · rename_i h0
    obtain ⟨ns, hseg, rfl⟩ := h
    rw [if_neg h0]
    have h1 := is_element_loop_spec hz e (Nat.le_of_lt he) ns _ (s.data_.length + 1) hseg
      (by have := hseg.length_lt hlen; omega)
    rw [h1]
    simp only [Option.some_bind]
    rw [value_headD _ hz, vals_dropWhile]
    congr 1
    have := sorted_mem_iff_head_dropWhile hs hv he
    exact (decide_eq_decide.2 this).symm

end CppAD


namespace CppAD

/-! ## Building a new list -/

theorem Partial.init {d : List pair_size_t} {k0 : Nat} : Partial d k0 [] k0 :=
  ⟨by simp, [], rfl, rfl⟩

theorem Partial.last_mem {d : List pair_size_t} {k0 pn : Nat} {N : List Nat}
    (B : Partial d k0 N pn) : pn ∈ k0 :: N := by
  obtain ⟨_, M, h1, _⟩ := B
  rw [h1]; simp

/-- One step of a linking loop: `k = get_data_index(); data_[pn].next = k;
data_[k].value = v`. -/
theorem build_step {s : list_setvec} {L f} {k0 pn : Nat} {N : List Nat}
    (I : Inv s L f (k0 :: N)) (B : Partial s.data_ k0 N pn) (v : Nat) :
    ∃ k s1, get_data_index s = some (k, s1) ∧
      s1.end_ = s.end_ ∧ s1.start_ = s.start_ ∧ s1.post_ = s.post_ ∧
      s1.temporary_ = s.temporary_ ∧
      Inv { s1 with data_ := wr_value (wr_next s1.data_ pn k) k v } (L.alloc k) f
        (k0 :: (N ++ [k])) ∧
      Partial (wr_value (wr_next s1.data_ pn k) k v) k0 (N ++ [k]) k ∧
      vals (wr_value (wr_next s1.data_ pn k) k v) (N ++ [k]) = vals s.data_ N ++ [v] ∧
      (rd (wr_value (wr_next s1.data_ pn k) k v) k0).value = (rd s.data_ k0).value ∧
      Ext s L { s1 with data_ := wr_value (wr_next s1.data_ pn k) k v } (L.alloc k) := by
  obtain ⟨k, s1, h1, I1, E1, hk0, hkP, hk1, he, hst, hpo, htmp, hrd, _⟩ := I.alloc
  have hpn := B.last_mem
  have hpn1 : pn ∈ (k0 :: N) ++ [k] := List.mem_append_left _ hpn
  have hkm : k ∈ (k0 :: N) ++ [k] := by simp
  have I2 := (I1.write_next hpn1 k).write_value hkm v
  have hpnk : pn ≠ k := by rintro rfl; exact hkP hpn
  have hpnlt : pn < s1.data_.length := I1.pending_lt pn hpn1
  have hpn0 : pn ≠ 0 := I1.heap.own_ne_zero (by rw [I1.own_pending hpn1]; simp)
  have hold : ∀ x ∈ k0 :: N, x ≠ pn →
      rd (wr_value (wr_next s1.data_ pn k) k v) x = rd s.data_ x := by
    intro x hx hxp
    have hxk : x ≠ k := by rintro rfl; exact hkP hx
    rw [rd_wr_value_ne _ _ hxk, rd_wr_next_ne _ _ hxp, hrd x (I.pending_lt x hx)]
  have holdv : ∀ x ∈ k0 :: N,
      (rd (wr_value (wr_next s1.data_ pn k) k v) x).value = (rd s.data_ x).value := by
    intro x hx
    have hxk : x ≠ k := by rintro rfl; exact hkP hx
    rw [rd_wr_value_ne _ _ hxk, value_wr_next, hrd x (I.pending_lt x hx)]
  obtain ⟨hnd, M, hM, hseg⟩ := B
  refine ⟨k, s1, h1, he, hst, hpo, htmp, I2, ⟨?_, M ++ [pn], ?_, ?_⟩, ?_,
    holdv k0 (List.mem_cons_self _ _), (E1.ext_write_next k (I1.own_pending hpn1)).ext_write_value v
      (I1.own_pending hkm)⟩
  · have : (k0 :: (N ++ [k])) = (k0 :: N) ++ [k] := rfl
    rw [this, List.nodup_append]
    refine ⟨hnd, by simp, ?_⟩
    intro x hx hx2
    simp at hx2; subst hx2; exact hkP hx
  · rw [← hM]; rfl
  · refine Seg.append.2 ⟨pn, ?_, ?_⟩
    · refine Seg.congr ?_ ?_ hseg
      · rw [length_wr_value, length_wr_next]; exact E1.len
      · intro x hx
        have hxm : x ∈ k0 :: N := by rw [hM]; exact List.mem_append_left _ hx
        have hxp : x ≠ pn := by
          rintro rfl
          rw [hM, List.nodup_append] at hnd
          exact hnd.2.2 hx (List.mem_singleton_self _)
        rw [hold x hxm hxp]
    · refine ⟨rfl, hpn0, by rw [length_wr_value, length_wr_next]; exact hpnlt, ?_⟩
      show (rd (wr_value (wr_next s1.data_ pn k) k v) pn).next = k
      rw [next_wr_value, next_wr_next_same _ _ hpnlt]
  · simp only [vals, List.map_append, List.map_cons, List.map_nil]
    congr 1
    · apply List.map_congr_left
      intro x hx
      exact holdv x (List.mem_cons_of_mem _ hx)
    · rw [value_wr_value_same]
      rw [length_wr_next]; exact hk1

/-- The end of a linking loop: `data_[pn].next = 0`. -/
theorem build_finish {d : List pair_size_t} {k0 pn : Nat} {N : List Nat} (B : Partial d k0 N pn)
    (hN : N ≠ []) (hpn0 : pn ≠ 0) (hpn : pn < d.length) :
    Seg (wr_next d pn 0) (rd (wr_next d pn 0) k0).next N 0 ∧
      vals (wr_next d pn 0) N = vals d N ∧
      (rd (wr_next d pn 0) k0).value = (rd d k0).value := by
  obtain ⟨hnd, M, hM, hseg⟩ := B
  cases M with
  | nil =>
    simp at hM
    exact absurd hM.2 hN
  | cons m M1 =>
    simp only [List.cons_append, List.cons.injEq] at hM
    obtain ⟨rfl, hN1⟩ := hM
    have hk0pn : k0 ≠ pn := by
      rintro rfl
      have := (List.nodup_cons.1 hnd).1
      apply this; rw [hN1]; simp
    refine ⟨?_, ?_, value_wr_next _ _ _ _⟩
    · rw [rd_wr_next_ne _ _ hk0pn, hN1]
      refine Seg.append.2 ⟨pn, ?_, ?_⟩
      · refine Seg.congr (by rw [length_wr_next]) ?_ hseg.2.2.2
        intro x hx
        rw [rd_wr_next_ne]
        rintro rfl
        have h3 := (List.nodup_cons.1 hnd).2
        rw [hN1, List.nodup_append] at h3
        exact h3.2.2 hx (List.mem_singleton_self _)
      · exact ⟨rfl, hpn0, by rw [length_wr_next]; exact hpn, next_wr_next_same _ _ hpn⟩
    · apply List.map_congr_left
      intro x _
      exact value_wr_next _ _ _ _

end CppAD


namespace CppAD

/-! ## Frames -/

theorem Frame.frame_refl (s : list_setvec) (L : Layout) (keep : Nat → Prop) : Frame s L s L keep :=
  ⟨Nat.le_refl _, fun _ _ h _ => ⟨h, rfl, rfl⟩, fun _ _ _ _ _ _ => rfl⟩

theorem Frame.frame_trans {s L s1 L1 s2 L2} {keep keep1 : Nat → Prop} (h1 : Frame s L s1 L1 keep)
    (h2 : Frame s1 L1 s2 L2 keep1) (hk : ∀ h, keep h → keep1 h) : Frame s L s2 L2 keep := by
  refine ⟨Nat.le_trans h1.len h2.len, ?_, ?_⟩
  · intro h hh ho hkeep
    obtain ⟨a, b, c⟩ := h1.head h hh ho hkeep
    obtain ⟨a2, b2, c2⟩ := h2.head h (Nat.lt_of_lt_of_le hh h1.len) a (hk h hkeep)
    exact ⟨a2, b2.trans b, c2.trans c⟩
  · intro h hh ho hkeep x hx
    obtain ⟨a, b, c⟩ := h1.head h hh ho hkeep
    rw [h2.elem h (Nat.lt_of_lt_of_le hh h1.len) a (hk h hkeep) x (by rw [b]; exact hx)]
    exact h1.elem h hh ho hkeep x hx

theorem Frame.mono {s L s1 L1} {keep keep1 : Nat → Prop} (h1 : Frame s L s1 L1 keep1)
    (hk : ∀ h, keep h → keep1 h) : Frame s L s1 L1 keep :=
  ⟨h1.len, fun h hh ho hkeep => h1.head h hh ho (hk h hkeep),
    fun h hh ho hkeep => h1.elem h hh ho (hk h hkeep)⟩

theorem Frame.frame_fields {s L s1 L1 s2 s3} {keep : Nat → Prop} (h : Frame s L s1 L1 keep)
    (ha : s2.data_ = s.data_) (hb : s3.data_ = s1.data_) : Frame s2 L s3 L1 keep :=
  ⟨by rw [ha, hb]; exact h.len, by rw [ha, hb]; exact h.head, by rw [ha, hb]; exact h.elem⟩

theorem Ext.frame {s L s1 L1} {f : Nat → Nat} (E : Ext s L s1 L1) (H : Heap s.data_ s.end_ L f)
    (keep : Nat → Prop) : Frame s L s1 L1 keep := by
  refine ⟨E.len, ?_, ?_⟩
  · intro h hh ho _
    have h1 := E.own h hh (by rw [ho]; simp) (by rw [ho]; simp)
    have h2 := E.rd h hh (by rw [ho]; simp) (by rw [ho]; simp)
    exact ⟨h1.trans ho, by rw [E.elems], by rw [h2]⟩
  · intro h hh ho _ x hx
    have h3 := H.list_own h hh ho x hx
    exact E.rd x ((H.list_chain h hh ho).mem x hx).2 (by rw [h3]; simp) (by rw [h3]; simp)

theorem Frame.of_adopt {s : list_setvec} {L f} {k0 : Nat} {N : List Nat} (I : Inv s L f (k0 :: N))
    (keep : Nat → Prop) : Frame s L s (L.adopt k0 N) keep := by
  refine ⟨Nat.le_refl _, ?_, fun _ _ _ _ _ _ => rfl⟩
  intro h hh ho _
  have h1 : h ≠ k0 := by
    rintro rfl
    rw [I.own_pending (List.mem_cons_self _ _)] at ho; cases ho
  have h2 : h ∉ N := by
    intro h2
    rw [I.own_pending (List.mem_cons_of_mem _ h2)] at ho; cases ho
  refine ⟨by simp [Layout.adopt, h1, h2, ho], by simp [Layout.adopt, Function.update_noteq h1],
    rfl⟩

/-- A kept list of `s` is the list of a set of `s1`. -/
theorem SetIs.of_frame {s L s1 L1 f} {keep : Nat → Prop} (F : Frame s L s1 L1 keep)
    (H : Heap s.data_ s.end_ L f) (S : SetLink s L f) {j j1 : Nat} (hj : j < s.start_.length)
    (hst : s1.start_.getD j1 0 = s.start_.getD j 0)
    (hkeep : s.start_.getD j 0 ≠ 0 → keep (s.start_.getD j 0)) {vs : List Nat}
    (h : SetIs s j vs) : SetIs s1 j1 vs := by
  have h1 := SetIs.unique h (SetIs.of_layout H S hj)
  subst h1
  unfold SetIs Layout.content
  rw [hst]
  by_cases h0 : s.start_.getD j 0 = 0
  · rw [if_pos h0, if_pos h0]
  · rw [if_neg h0, if_neg h0]
    obtain ⟨h2, h3⟩ := S.start j hj h0
    obtain ⟨_, _, c⟩ := F.head _ h2 h3 (hkeep h0)
    refine ⟨L.elems (s.start_.getD j 0), ?_, ?_⟩
    · rw [c]
      refine Seg.congr F.len ?_ (H.list_chain _ h2 h3)
      intro x hx
      rw [F.elem _ h2 h3 (hkeep h0) x hx]
    · apply List.map_congr_left
      intro x hx
      rw [F.elem _ h2 h3 (hkeep h0) x hx]

/-! ## The linking loop -/

theorem link_loop_spec : ∀ (vs : List Nat) {s : list_setvec} {L f} {k0 pn : Nat} {N : List Nat},
    Inv s L f (k0 :: N) → Partial s.data_ k0 N pn →
    ∃ s1 L1 N1 pn1, link_loop vs s pn = some (pn1, s1) ∧ Inv s1 L1 f (k0 :: N1) ∧
      Partial s1.data_ k0 N1 pn1 ∧ vals s1.data_ N1 = vals s.data_ N ++ vs ∧
      (rd s1.data_ k0).value = (rd s.data_ k0).value ∧ Ext s L s1 L1 ∧
      s1.end_ = s.end_ ∧ s1.start_ = s.start_ ∧ s1.post_ = s.post_ ∧
      s1.temporary_ = s.temporary_
  | [], s, L, f, k0, pn, N, I, B =>
    ⟨s, L, N, pn, rfl, I, B, by simp, rfl, Ext.refl s L, rfl, rfl, rfl, rfl⟩
  | v :: vs, s, L, f, k0, pn, N, I, B => by
    obtain ⟨k, s1, h1, he, hst, hpo, htmp, I2, B2, hv, hk0v, E2⟩ := build_step I B v
    obtain ⟨s3, L3, N3, pn3, h3, I3, B3, hv3, hk0v3, E3, he3, hst3, hpo3, htmp3⟩ :=
      link_loop_spec vs I2 B2
    refine ⟨s3, L3, N3, pn3, ?_, I3, B3, ?_, hk0v3.trans hk0v, E2.trans E3, he3.trans he,
      hst3.trans hst, hpo3.trans hpo, htmp3.trans htmp⟩
    · simp only [link_loop, h1, Option.bind_eq_bind, Option.some_bind]
      exact h3
    · rw [hv3]
      show vals (wr_value (wr_next s1.data_ pn k) k v) (N ++ [k]) ++ vs = _
      rw [hv]; simp

end CppAD


namespace CppAD

theorem count_eq_zero_of_fresh {s : list_setvec} {L f} (S : SetLink s L f) {k : Nat}
    (hk : L.own k = Owner.free ∨ s.data_.length ≤ k) (hk0 : k ≠ 0) : s.start_.count k = 0 := by
  rw [List.count_eq_zero]
  intro hmem
  obtain ⟨j, hj, hjk⟩ := List.getElem_of_mem hmem
  have h1 : s.start_.getD j 0 = k := by
    rw [List.getD_eq_getElem?_getD, List.getElem?_eq_getElem hj, hjk]; rfl
  obtain ⟨h2, h3⟩ := S.start j hj (by rw [h1]; exact hk0)
  rw [h1] at h2 h3
  rcases hk with h4 | h4
  · rw [h3] at h4; cases h4
  · omega

/-- Specification of the end of `process_post`, `binary_union` and
`binary_intersection`: a new list with the given values becomes set `target`. -/
theorem link_new_list_spec {s : list_setvec} {L f} (I : Inv s L f []) (S : SetLink s L f)
    (hf : ∀ k, k < s.data_.length → L.own k = Owner.head → f k = s.start_.count k)
    {target : Nat} (ht : target < s.start_.length) (h0 : s.start_.getD target 0 = 0)
    (values : List Nat) (hne : values ≠ []) (hsort : values.Pairwise (· < ·))
    (hval : ∀ x ∈ values, x < s.end_) :
    ∃ s1 L1, link_new_list s target values = some s1 ∧ WF s1 ∧
      Frame s L s1 L1 (fun _ => True) ∧ SetIs s1 target values ∧ s1.end_ = s.end_ ∧
      s1.start_.length = s.start_.length ∧ s1.post_ = s.post_ ∧
      s1.temporary_ = s.temporary_ ∧
      (∀ j, j ≠ target → s1.start_.getD j 0 = s.start_.getD j 0) := by
  obtain ⟨k0, sA, h1, IA, EA, hk0, _, hk0lt, heA, hstA, hpoA, htmpA, hrdA, hfresh⟩ := I.alloc
  have hmem0 : k0 ∈ ([] : List Nat) ++ [k0] := by simp
  have I3 : Inv { sA with start_ := sA.start_.set target k0, data_ := wr_value sA.data_ k0 1 }
      (L.alloc k0) f (k0 :: []) :=
    (IA.write_value hmem0 1).of_fields rfl rfl rfl rfl
  have B3 : Partial (wr_value sA.data_ k0 1) k0 [] k0 := Partial.init
  obtain ⟨s4, L4, N4, pn4, h4, I4, B4, hv4, hk0v4, E4, he4, hst4, hpo4, htmp4⟩ :=
    link_loop_spec values I3 B3
  have hv4a : vals s4.data_ N4 = values := by rw [hv4]; simp [vals]
  have hN4 : N4 ≠ [] := by
    rintro rfl
    apply hne; rw [← hv4a]; rfl
  have hpn4 := B4.last_mem
  have hpn4lt := I4.pending_lt pn4 hpn4
  have hpn40 : pn4 ≠ 0 := I4.heap.own_ne_zero (by rw [I4.own_pending hpn4]; simp)
  have I5 := I4.write_next hpn4 0
  obtain ⟨hseg5, hv5, hk0v5⟩ := build_finish B4 hN4 hpn40 hpn4lt
  have hval1 : (rd (wr_next s4.data_ pn4 0) k0).value = 1 := by
    rw [hk0v5, hk0v4]
    exact value_wr_value_same _ _ hk0lt
  have I6 := I5.adopt hseg5 hN4 (by rw [hv5, hv4a]; exact hsort)
    (by
      intro x hx
      have : (rd (wr_next s4.data_ pn4 0) x).value ∈ vals (wr_next s4.data_ pn4 0) N4 :=
        List.mem_map_of_mem _ hx
      rw [hv5, hv4a] at this
      show _ < s4.end_
      rw [he4]
      exact (hval _ this).trans_eq heA.symm)
    (by rw [hval1]; exact Nat.one_pos)
  rw [hval1] at I6
  have hstart5 : s4.start_ = s.start_.set target k0 := by rw [hst4, ← hstA]
  have hcount0 : s.start_.count k0 = 0 := count_eq_zero_of_fresh S hfresh hk0
  have E3 : Ext s L
      { sA with start_ := sA.start_.set target k0, data_ := wr_value sA.data_ k0 1 }
      (L.alloc k0) :=
    (EA.ext_write_value 1 (IA.own_pending hmem0)).ext_fields rfl
  have E5 : Ext s L { s4 with data_ := wr_next s4.data_ pn4 0 } L4 :=
    (E3.trans E4).ext_write_next 0 (I4.own_pending hpn4)
  have hlen5 : s.data_.length ≤ (wr_next s4.data_ pn4 0).length := E5.len
  have hhead : ∀ k, k < (wr_next s4.data_ pn4 0).length → (L4.adopt k0 N4).own k = Owner.head →
      k = k0 ∨ (k ≠ k0 ∧ k < s.data_.length ∧ L.own k = Owner.head) := by
    intro k hk hko
    by_cases hkk : k = k0
    · exact Or.inl hkk
    · right
      have hkN : k ∉ N4 := by
        intro h; simp [Layout.adopt, hkk, h] at hko
      have h5 : L4.own k = Owner.head := by simpa [Layout.adopt, hkk, hkN] using hko
      obtain ⟨h6, h7⟩ := E5.back k hk (by rw [h5]; simp)
      exact ⟨hkk, h6, h7.trans h5⟩
  have hcnt : ∀ k, k ≠ 0 → k ≠ k0 → (s.start_.set target k0).count k = s.start_.count k := by
    intro k hk hkk
    have := count_set s.start_ target k0 k ht
    rw [h0, if_neg (Ne.symm hk), if_neg (Ne.symm hkk)] at this
    exact this
  have hcntk0 : (s.start_.set target k0).count k0 = 1 := by
    have := count_set s.start_ target k0 k0 ht
    rw [h0, if_neg (Ne.symm hk0), if_pos rfl, hcount0] at this
    omega
  have S6 : SetLink { s4 with data_ := wr_next s4.data_ pn4 0 } (L4.adopt k0 N4)
      (Function.update f k0 1) := by
    refine ⟨?_, ?_, ?_, ?_, ?_⟩
    · show s4.post_.length = s4.start_.length
      rw [hpo4, hstart5]; simp
      show sA.post_.length = _
      rw [hpoA]; exact S.len
    · intro j hj
      show s4.post_.getD j 0 = ((L4.adopt k0 N4).posts j).headD 0
      have hj1 : j < s.start_.length := by
        have : j < s4.start_.length := hj
        rw [hstart5] at this; simpa using this
      rw [hpo4]
      show sA.post_.getD j 0 = (L4.posts j).headD 0
      rw [hpoA, E5.posts]; exact S.post j hj1
    · intro j hj
      have hj1 : s.start_.length ≤ j := by
        have : s4.start_.length ≤ j := hj
        rw [hstart5] at this; simpa using this
      show L4.posts j = []
      rw [E5.posts]; exact S.post_out j hj1
    · intro j hj hne0
      have hj1 : j < s.start_.length := by
        have : j < s4.start_.length := hj
        rw [hstart5] at this; simpa using this
      show s4.start_.getD j 0 < (wr_next s4.data_ pn4 0).length ∧
        (L4.adopt k0 N4).own (s4.start_.getD j 0) = Owner.head
      have hne1 : s4.start_.getD j 0 ≠ 0 := hne0
      rw [hstart5] at hne1 ⊢
      by_cases hjt : j = target
      · subst hjt
        rw [getD_set_same _ _ ht]
        exact ⟨I5.pending_lt k0 (List.mem_cons_self _ _), by simp [Layout.adopt]⟩
      · rw [getD_set_ne _ _ hjt] at hne1 ⊢
        obtain ⟨h5, h6⟩ := S.start j hj1 hne1
        refine ⟨Nat.lt_of_lt_of_le h5 hlen5, ?_⟩
        have h7 := (E5.own _ h5 (by rw [h6]; simp) (by rw [h6]; simp)).trans h6
        have h8 : s.start_.getD j 0 ≠ k0 := by
          intro h8
          rw [h8] at h7
          rw [I4.own_pending (List.mem_cons_self _ _)] at h7; cases h7
        have h9 : s.start_.getD j 0 ∉ N4 := by
          intro h9
          rw [I4.own_pending (List.mem_cons_of_mem _ h9)] at h7; cases h7
        simp only [Layout.adopt, h8, h9, if_false]
        exact h7
    · intro k hk hko
      show s4.start_.count k ≤ _
      rw [hstart5]
      rcases hhead k hk hko with rfl | ⟨h5, h6, h7⟩
      · rw [hcntk0, Function.update_same]
      · rw [Function.update_noteq h5, hcnt k (I.heap.own_ne_zero (by rw [h7]; simp)) h5]
        exact S.rc k h6 h7
  have hw : WF { s4 with data_ := wr_next s4.data_ pn4 0 } := by
    refine WF.intro I6 S6 ?_
    intro k hk hko
    show _ = s4.start_.count k
    rw [hstart5]
    rcases hhead k hk hko with rfl | ⟨h5, h6, h7⟩
    · rw [hcntk0, Function.update_same]
    · rw [Function.update_noteq h5, hcnt k (I.heap.own_ne_zero (by rw [h7]; simp)) h5]
      exact hf k h6 h7
  refine ⟨{ s4 with data_ := wr_next s4.data_ pn4 0 }, L4.adopt k0 N4, ?_, hw, ?_, ?_, ?_, ?_, ?_,
    ?_, ?_⟩
  · simp only [link_new_list, h1, Option.bind_eq_bind, Option.some_bind]
    rw [h4]
    rfl
  · exact (E5.frame I.heap _).frame_trans (Frame.of_adopt I5 _) (fun _ h => h)
  · unfold SetIs
    show (if s4.start_.getD target 0 = 0 then _ else _)
    rw [hstart5, getD_set_same _ _ ht, if_neg hk0]
    exact ⟨N4, hseg5, by rw [hv5, hv4a]⟩
  · exact he4.trans heA
  · show s4.start_.length = _
    rw [hstart5]; simp
  · exact hpo4.trans hpoA
  · exact htmp4.trans htmpA
  · intro j hj
    show s4.start_.getD j 0 = _
    rw [hstart5, getD_set_ne _ _ hj]

end CppAD


namespace CppAD

/-- Specification of `drop(i)` followed by `number_not_used_ += number_drop`. -/
theorem drop_bump_spec {s : list_setvec} {L f} (I : Inv s L f []) (S : SetLink s L f) {i : Nat}
    (hi : i < s.start_.length) :
    ∃ nd s1 L1, drop s i = some (nd, s1) ∧
      Inv { s1 with number_not_used_ := s1.number_not_used_ + nd } L1
        (Function.update f (s.start_.getD i 0) (f (s.start_.getD i 0) - 1)) [] ∧
      SetLink s1 L1 (Function.update f (s.start_.getD i 0) (f (s.start_.getD i 0) - 1)) ∧
      Frame s L s1 L1 (fun h => h ≠ s.start_.getD i 0 ∨ f h ≠ 1) ∧
      s1.end_ = s.end_ ∧ s1.start_ = s.start_.set i 0 ∧ s1.post_ = s.post_.set i 0 ∧
      s1.temporary_ = s.temporary_ ∧ s1.data_.length = s.data_.length ∧
      (∀ k, L1.own k = Owner.head → L.own k = Owner.head) := by
  obtain ⟨s1, c, hd, hc, he, hst, hpo, htmp, hnn, hlen, H1, hF1, S1, hfr, hnext⟩ :=
    drop_spec I.heap I.free.head S hi
  have hcmem : ∀ x, x ∈ c → s.start_.getD i 0 ≠ 0 ∧ f (s.start_.getD i 0) = 1 ∧
      (x = s.start_.getD i 0 ∨ x ∈ L.elems (s.start_.getD i 0)) := by
    intro x hx
    rw [hc] at hx
    split at hx
    · rename_i h
      exact ⟨h.1, h.2, List.mem_cons.1 hx⟩
    · simp at hx
  have hheadc : ∀ h, h < s.data_.length → L.own h = Owner.head →
      (h ≠ s.start_.getD i 0 ∨ f h ≠ 1) → h ∉ c := by
    intro h hh ho hk hmem
    obtain ⟨h1, h2, h3⟩ := hcmem h hmem
    have hi0 := S.start i hi h1
    rcases h3 with h3 | h3
    · rcases hk with hk | hk
      · exact hk h3
      · rw [h3] at hk; exact hk h2
    · rw [I.heap.list_own _ hi0.1 hi0.2 h h3] at ho; cases ho
  have hheadP : ∀ h, L.own h = Owner.head → h ∉ L.posts i := by
    intro h h1 h2
    rw [I.heap.post_own i h h2] at h1; cases h1
  refine ⟨c.length + (L.posts i).length, s1, L.drop i c, hd, ⟨H1, ⟨hF1, ?_⟩, ?_, by simp⟩, S1,
    ⟨Nat.le_of_eq hlen.symm, ?_, ?_⟩, he, hst, hpo, htmp, hlen, ?_⟩
  · show s1.number_not_used_ + (c.length + (L.posts i).length) = _
    rw [hnn, I.free.count]
    simp [Layout.drop]; omega
  · intro x hx
    simp only [List.not_mem_nil, iff_false]
    have hx1 : x < s.data_.length := by rw [← hlen]; exact hx
    rcases L.drop_own_cases i c x with ⟨h1, _⟩ | ⟨h1, _, _⟩
    · rw [h1]; simp
    · rw [h1]
      intro h2
      exact (List.not_mem_nil x) ((I.scratch x hx1).1 h2)
  · intro h hh ho hk
    have h1 := hheadc h hh ho hk
    refine ⟨by rw [L.drop_own_of_not_mem i c h1 (hheadP h ho)]; exact ho, rfl, ?_⟩
    by_cases h2 : h = s.start_.getD i 0
    · rw [h2] at h1 ⊢; exact hnext h1
    · rw [hfr h h1 (hheadP h ho) h2]
  · intro h hh ho hk x hx
    have hxo := I.heap.list_own h hh ho x hx
    apply hfr
    · intro hmem
      obtain ⟨h1, h2, h3⟩ := hcmem x hmem
      have hi0 := S.start i hi h1
      rcases h3 with h3 | h3
      · rw [h3, hi0.2] at hxo; cases hxo
      · rw [I.heap.list_own _ hi0.1 hi0.2 x h3] at hxo
        cases hxo
        rcases hk with hk | hk
        · exact hk rfl
        · exact hk h2
    · intro hmem
      rw [I.heap.post_own i x hmem] at hxo; cases hxo
    · intro h3
      by_cases h4 : s.start_.getD i 0 = 0
      · rw [h4] at h3
        exact (I.heap.list_chain h hh ho).mem x hx |>.1 h3
      · rw [h3, (S.start i hi h4).2] at hxo; cases hxo
  · intro k hk
    rcases L.drop_own_cases i c k with ⟨h1, _⟩ | ⟨h1, _, _⟩
    · rw [hk] at h1; cases h1
    · rw [← h1]; exact hk

end CppAD


namespace CppAD

theorem Inv.f_congr {s : list_setvec} {L f g P} (I : Inv s L f P)
    (h : ∀ k, k < s.data_.length → L.own k = Owner.head → f k = g k) : Inv s L g P :=
  ⟨I.heap.f_congr_heap h, I.free, I.scratch, I.pending_lt⟩

theorem SetLink.f_congr_link {s : list_setvec} {L f g} (S : SetLink s L f)
    (h : ∀ k, k < s.data_.length → L.own k = Owner.head → f k = g k) : SetLink s L g :=
  ⟨S.len, S.post, S.post_out, S.start, fun k h1 h2 => by rw [← h k h1 h2]; exact S.rc k h1 h2⟩

theorem SetLink.link_fields {s s1 : list_setvec} {L f} (S : SetLink s L f)
    (h1 : s1.start_ = s.start_) (h2 : s1.post_ = s.post_)
    (h3 : s1.data_.length = s.data_.length) : SetLink s1 L f := by
  refine ⟨by rw [h1, h2]; exact S.len, by rw [h1, h2]; exact S.post, by rw [h1]; exact S.post_out,
    by rw [h1, h3]; exact S.start, by rw [h1, h3]; exact S.rc⟩

theorem two_le_count {l : List Nat} {i j h : Nat} (hi : i < l.length) (hj : j < l.length)
    (hij : j ≠ i) (h0 : h ≠ 0) (h1 : l.getD i 0 = h) (h2 : l.getD j 0 = h) : 2 ≤ l.count h := by
  have h3 := count_set l i 0 h hi
  rw [h1, if_pos rfl, if_neg (Ne.symm h0)] at h3
  have h4 : 0 < (l.set i 0).count h :=
    count_pos_of_getD (i := j) (by simpa using hj) (by rw [getD_set_ne _ _ hij]; exact h2)
  omega

theorem count_after_drop (l : List Nat) {i : Nat} (hi : i < l.length) {k : Nat} (hk : k ≠ 0) :
    Function.update (fun h => l.count h) (l.getD i 0) (l.count (l.getD i 0) - 1) k =
      (l.set i 0).count k := by
  have h3 := count_set l i 0 k hi
  rw [if_neg (Ne.symm hk)] at h3
  by_cases h : k = l.getD i 0
  · subst h
    rw [Function.update_same]
    rw [if_pos rfl] at h3
    omega
  · rw [Function.update_noteq h]
    rw [if_neg (Ne.symm h)] at h3
    omega

/-- `drop(i)` and the update of `number_not_used_` in a well-formed vector. -/
theorem drop_wf {s : list_setvec} {L} (I : Inv s L (fun h => s.start_.count h) [])
    (S : SetLink s L (fun h => s.start_.count h)) {i : Nat} (hi : i < s.start_.length)
    (t : List Nat) :
    ∃ nd s1 L1, drop s i = some (nd, s1) ∧
      Inv { s1 with number_not_used_ := s1.number_not_used_ + nd, temporary_ := t } L1
        (fun h => s1.start_.count h) [] ∧
      SetLink { s1 with number_not_used_ := s1.number_not_used_ + nd, temporary_ := t } L1
        (fun h => s1.start_.count h) ∧
      Frame s L { s1 with number_not_used_ := s1.number_not_used_ + nd, temporary_ := t } L1
        (fun h => h ≠ s.start_.getD i 0 ∨ s.start_.count h ≠ 1) ∧
      s1.end_ = s.end_ ∧ s1.start_ = s.start_.set i 0 ∧ s1.post_ = s.post_.set i 0 ∧
      s1.temporary_ = s.temporary_ := by
  obtain ⟨nd, s1, L1, hd, I1, S1, F1, he, hst, hpo, htmp, hlen, hback⟩ := drop_bump_spec I S hi
  have hfc : ∀ k, k < s1.data_.length → L1.own k = Owner.head →
      Function.update (fun h => s.start_.count h) (s.start_.getD i 0)
        (s.start_.count (s.start_.getD i 0) - 1) k = s1.start_.count k := by
    intro k _ hko
    rw [hst]
    exact count_after_drop s.start_ hi (I.heap.own_ne_zero (by rw [hback k hko]; simp))
  refine ⟨nd, s1, L1, hd, (I1.f_congr hfc).of_fields rfl rfl rfl rfl,
    (S1.f_congr_link hfc).link_fields rfl rfl rfl, F1.frame_fields rfl rfl, he, hst, hpo, htmp⟩

/-- Another set than the target is kept by `drop`. -/
theorem drop_keep {s : list_setvec} {i j : Nat} (hi : i < s.start_.length)
    (hj : j < s.start_.length) (hij : j ≠ i) (h0 : s.start_.getD j 0 ≠ 0) :
    s.start_.getD j 0 ≠ s.start_.getD i 0 ∨ s.start_.count (s.start_.getD j 0) ≠ 1 := by
  by_cases h : s.start_.getD j 0 = s.start_.getD i 0
  · right
    have := two_le_count hi hj hij h0 h.symm rfl
    omega
  · exact Or.inl h

/-- Specification of `clear`. -/
theorem clear_spec {s : list_setvec} (hw : WF s) {target : Nat} (ht : target < s.start_.length) :
    ∃ s1, clear s target = some s1 ∧ WF s1 ∧ s1.end_ = s.end_ ∧
      s1.start_.length = s.start_.length ∧ s1.post_ = s.post_.set target 0 ∧
      SetIs s1 target [] ∧
      (∀ j, j ≠ target → ∀ vs, SetIs s j vs → SetIs s1 j vs) := by
  obtain ⟨L, I, S⟩ := hw
  obtain ⟨nd, s1, L1, hd, I1, S1, F1, he, hst, hpo, htmp⟩ := drop_wf I S ht s.temporary_
  refine ⟨{ s1 with number_not_used_ := s1.number_not_used_ + nd }, ?_, ?_, he, ?_, hpo, ?_, ?_⟩
  · simp only [clear, ht, CPPAD_ASSERT_UNKNOWN, decide_True, if_true, hd, Option.bind_eq_bind,
      Option.some_bind]
  · exact ⟨L1, I1.of_fields rfl rfl rfl rfl, S1.link_fields rfl rfl rfl⟩
  · show s1.start_.length = _
    rw [hst]; simp
  · unfold SetIs
    show (if s1.start_.getD target 0 = 0 then _ else _)
    rw [hst, getD_set_same _ _ ht, if_pos rfl]
  · intro j hj vs hvs
    by_cases hjn : j < s.start_.length
    · refine SetIs.of_frame (F1.frame_fields rfl rfl) I.heap S hjn ?_ (drop_keep ht hjn hj) hvs
      show s1.start_.getD j 0 = _
      rw [hst, getD_set_ne _ _ hj]
    · unfold SetIs at hvs ⊢
      have h1 : s.start_.getD j 0 = 0 := by
        by_contra h; exact hjn (getD_lt_of_ne_zero h)
      have h2 : s1.start_.getD j 0 = 0 := by
        rw [hst, getD_set_ne _ _ hj]; exact h1
      rw [if_pos h1] at hvs
      show (if s1.start_.getD j 0 = 0 then _ else _)
      rw [if_pos h2]; exact hvs

end CppAD


namespace CppAD

/-! ## The loops of `add_element` -/

theorem takeWhile_congr {l : List Nat} {p q : Nat → Bool} (h : ∀ x ∈ l, p x = q x) :
    l.takeWhile p = l.takeWhile q := by
  induction l with
  | nil => rfl
  | cons a l ih =>
    simp only [List.takeWhile_cons, h a (List.mem_cons_self _ _)]
    rw [ih (fun x hx => h x (List.mem_cons_of_mem _ hx))]

theorem dropWhile_congr {l : List Nat} {p q : Nat → Bool} (h : ∀ x ∈ l, p x = q x) :
    l.dropWhile p = l.dropWhile q := by
  induction l with
  | nil => rfl
  | cons a l ih =>
    simp only [List.dropWhile_cons, h a (List.mem_cons_self _ _)]
    rw [ih (fun x hx => h x (List.mem_cons_of_mem _ hx))]

theorem add_element_loop_spec {d : List pair_size_t} {e : Nat} (hz : rd d 0 = ⟨e, 0⟩)
    (element : Nat) (he : element ≤ e) : ∀ (ns : List Nat) (p prev fuel : Nat), Seg d p ns 0 →
      ns.length < fuel →
      add_element_loop d element fuel prev p (rd d p).value =
        some ((ns.takeWhile (fun n => decide ((rd d n).value < element))).getLastD prev,
          (ns.dropWhile (fun n => decide ((rd d n).value < element))).headD 0,
          (rd d ((ns.dropWhile (fun n => decide ((rd d n).value < element))).headD 0)).value)
  | [], p, prev, fuel, h, hf => by
    obtain ⟨k, rfl⟩ : ∃ k, fuel = k + 1 := ⟨fuel - 1, by simp at hf; omega⟩
    have hp : p = 0 := h
    subst hp
    have : ¬ (e < element) := by omega
    simp [add_element_loop, hz, this]
  | n :: ns, p, prev, fuel, h, hf => by
    obtain ⟨k, rfl⟩ : ∃ k, fuel = k + 1 := ⟨fuel - 1, by simp at hf; omega⟩
    obtain ⟨hp, _, _, h3⟩ := h
    subst hp
    by_cases h1 : (rd d p).value < element
    · rw [add_element_loop, if_pos h1, List.dropWhile_cons_of_pos (by simpa using h1),
        List.takeWhile_cons_of_pos (by simpa using h1), List.getLastD_cons]
      exact add_element_loop_spec hz element he ns _ p k h3 (by simpa using hf)
    · rw [add_element_loop, if_neg h1, List.dropWhile_cons_of_neg (by simpa using h1),
        List.takeWhile_cons_of_neg (by simpa using h1)]
      rfl

/-- The copy loops of `add_element`: the values of the old list below `bound` are
linked behind the list under construction. -/
theorem add_element_copy_spec (bound : Nat) : ∀ (ns : List Nat) (fuel : Nat) {s : list_setvec}
    {L f} {k0 pn nxt : Nat} {N : List Nat},
    Inv s L f (k0 :: N) → Partial s.data_ k0 N pn → Seg s.data_ nxt ns 0 →
    (∀ x ∈ ns, L.own x ≠ Owner.free ∧ L.own x ≠ Owner.scratch) → bound ≤ s.end_ →
    ns.length < fuel →
    ∃ s1 L1 N1 pn1,
      add_element_copy bound fuel s pn nxt (rd s.data_ nxt).value =
        some (s1, pn1, (ns.dropWhile (fun n => decide ((rd s.data_ n).value < bound))).headD 0,
          (rd s.data_
            ((ns.dropWhile (fun n => decide ((rd s.data_ n).value < bound))).headD 0)).value) ∧
      Inv s1 L1 f (k0 :: N1) ∧ Partial s1.data_ k0 N1 pn1 ∧
      vals s1.data_ N1 = vals s.data_ N ++
        vals s.data_ (ns.takeWhile (fun n => decide ((rd s.data_ n).value < bound))) ∧
      (rd s1.data_ k0).value = (rd s.data_ k0).value ∧ Ext s L s1 L1 ∧
      s1.end_ = s.end_ ∧ s1.start_ = s.start_ ∧ s1.post_ = s.post_ ∧
      s1.temporary_ = s.temporary_
  | [], fuel, s, L, f, k0, pn, nxt, N, I, B, hseg, _, hb, hf => by
    obtain ⟨k, rfl⟩ : ∃ k, fuel = k + 1 := ⟨fuel - 1, by simp at hf; omega⟩
    have hp : nxt = 0 := hseg
    subst hp
    have : ¬ (s.end_ < bound) := by omega
    refine ⟨s, L, N, pn, ?_, I, B, by simp [vals], rfl, Ext.refl s L, rfl, rfl, rfl, rfl⟩
    simp [add_element_copy, I.heap.zero, this]
  | n :: ns, fuel, s, L, f, k0, pn, nxt, N, I, B, hseg, hst, hb, hf => by
    obtain ⟨k, rfl⟩ : ∃ k, fuel = k + 1 := ⟨fuel - 1, by simp at hf; omega⟩
    obtain ⟨hp, hn0, hnlt, h3⟩ := hseg
    subst hp
    by_cases h1 : (rd s.data_ nxt).value < bound
    · obtain ⟨kk, s1, hg, he, hstart, hpo, htmp, I2, B2, hv, hk0v, E2⟩ :=
        build_step I B (rd s.data_ nxt).value
      have hstn := hst nxt (List.mem_cons_self _ _)
      have hrdn : rd (wr_value (wr_next s1.data_ pn kk) kk (rd s.data_ nxt).value) nxt =
          rd s.data_ nxt := E2.rd nxt hnlt hstn.1 hstn.2
      have hrdx : ∀ x ∈ ns,
          rd (wr_value (wr_next s1.data_ pn kk) kk (rd s.data_ nxt).value) x = rd s.data_ x := by
        intro x hx
        have hx1 := hst x (List.mem_cons_of_mem _ hx)
        exact E2.rd x (h3.mem x hx).2 hx1.1 hx1.2
      have hseg2 : Seg (wr_value (wr_next s1.data_ pn kk) kk (rd s.data_ nxt).value)
          (rd s.data_ nxt).next ns 0 :=
        Seg.congr E2.len (fun x hx => by rw [hrdx x hx]) h3
      have hst2 : ∀ x ∈ ns, (L.alloc kk).own x ≠ Owner.free ∧
          (L.alloc kk).own x ≠ Owner.scratch := by
        intro x hx
        have hx1 := hst x (List.mem_cons_of_mem _ hx)
        rw [E2.own x (h3.mem x hx).2 hx1.1 hx1.2]
        exact hx1
      obtain ⟨s3, L3, N3, pn3, h4, I3, B3, hv3, hk0v3, E3, he3, hstart3, hpo3, htmp3⟩ :=
        add_element_copy_spec bound ns k I2 B2 hseg2 hst2
          (by show bound ≤ s1.end_; rw [he]; exact hb) (by simpa using hf)
      have hpred : ∀ x ∈ ns,
          decide ((rd (wr_value (wr_next s1.data_ pn kk) kk (rd s.data_ nxt).value) x).value
            < bound) = decide ((rd s.data_ x).value < bound) := by
        intro x hx; rw [hrdx x hx]
      have hdw := dropWhile_congr hpred
      have htw := takeWhile_congr hpred
      have hz0 : rd (wr_value (wr_next s1.data_ pn kk) kk (rd s.data_ nxt).value) 0 =
          rd s.data_ 0 :=
        E2.rd 0 I.heap.len_pos (by rw [I.heap.own_zero]; simp) (by rw [I.heap.own_zero]; simp)
      have hhead : rd (wr_value (wr_next s1.data_ pn kk) kk (rd s.data_ nxt).value)
          ((ns.dropWhile (fun n => decide ((rd s.data_ n).value < bound))).headD 0) =
          rd s.data_ ((ns.dropWhile (fun n => decide ((rd s.data_ n).value < bound))).headD 0) := by
        cases hdd : ns.dropWhile (fun n => decide ((rd s.data_ n).value < bound)) with
        | nil => exact hz0
        | cons y ys =>
          have hy : y ∈ ns := by
            have : y ∈ ns.dropWhile (fun n => decide ((rd s.data_ n).value < bound)) := by
              rw [hdd]; exact List.mem_cons_self _ _
            exact (List.dropWhile_sublist _).subset this
          exact hrdx y hy
      refine ⟨s3, L3, N3, pn3, ?_, I3, B3, ?_, hk0v3.trans hk0v, E2.trans E3, he3.trans he,
        hstart3.trans hstart, hpo3.trans hpo, htmp3.trans htmp⟩
      · rw [add_element_copy, if_pos h1]
        simp only [hg, Option.bind_eq_bind, Option.some_bind]
        rw [List.dropWhile_cons_of_pos (by simpa using h1)]
        have h5 : (rd (wr_value (wr_next s1.data_ pn kk) kk (rd s.data_ nxt).value) nxt).next =
            (rd s.data_ nxt).next := by rw [hrdn]
        rw [h5, h4, hdw, hhead]
      · rw [hv3, List.takeWhile_cons_of_pos (by simpa using h1), htw]
        show vals (wr_value (wr_next s1.data_ pn kk) kk (rd s.data_ nxt).value) (N ++ [kk]) ++
          vals (wr_value (wr_next s1.data_ pn kk) kk (rd s.data_ nxt).value) _ = _
        rw [hv]
        have h6 : vals (wr_value (wr_next s1.data_ pn kk) kk (rd s.data_ nxt).value)
            (ns.takeWhile (fun n => decide ((rd s.data_ n).value < bound))) =
            vals s.data_ (ns.takeWhile (fun n => decide ((rd s.data_ n).value < bound))) := by
          apply List.map_congr_left
          intro x hx
          rw [hrdx x ((List.takeWhile_sublist _).subset hx)]
        rw [h6]
        simp [vals]
    · refine ⟨s, L, N, pn, ?_, I, B, ?_, rfl, Ext.refl s L, rfl, rfl, rfl, rfl⟩
      · rw [add_element_copy, if_neg h1, List.dropWhile_cons_of_neg (by simpa using h1)]
        rfl
      · rw [List.takeWhile_cons_of_neg (by simpa using h1)]
        simp [vals]

end CppAD


namespace CppAD

/-! ## Insertion into a list that is not shared -/

theorem cons_eq_append_getLastD : ∀ (a : List Nat) (h : Nat), ∃ c, h :: a = c ++ [a.getLastD h]
  | [], h => ⟨[], rfl⟩
  | x :: a, h => by
    obtain ⟨c, hc⟩ := cons_eq_append_getLastD a x
    exact ⟨h :: c, by rw [List.getLastD_cons, List.cons_append, ← hc]⟩

theorem getLastD_mem : ∀ (a : List Nat) (h : Nat), a.getLastD h = h ∨ a.getLastD h ∈ a
  | [], _ => Or.inl rfl
  | x :: a, h => by
    right
    rw [List.getLastD_cons]
    rcases getLastD_mem a x with h1 | h1
    · rw [h1]; exact List.mem_cons_self _ _
    · exact List.mem_cons_of_mem _ h1

/-- The scratch pair `k` with value `v` is linked into the list of `h`. -/
theorem Heap.insert_elem {d e L f} (H : Heap d e L f) {h k v : Nat} {a b : List Nat}
    (hh : h < d.length) (ho : L.own h = Owner.head) (hab : L.elems h = a ++ b)
    (hk : L.own k = Owner.scratch) (hklt : k < d.length) (hkn : (rd d k).next = b.headD 0)
    (hkv : (rd d k).value = v) (hva : ∀ x ∈ a, (rd d x).value < v)
    (hvb : ∀ x ∈ b, v < (rd d x).value) (hve : v < e) :
    Heap (wr_next d (a.getLastD h) k) e (L.insert h k (a ++ k :: b)) f := by
  have hk0 : k ≠ 0 := H.own_ne_zero (by rw [hk]; simp)
  have hh0 : h ≠ 0 := H.own_ne_zero (by rw [ho]; simp)
  have hchain := H.list_chain h hh ho
  rw [hab] at hchain
  have hfull : Seg d h (h :: (a ++ b)) 0 := ⟨rfl, hh0, hh, hchain⟩
  obtain ⟨c, hc⟩ := cons_eq_append_getLastD a h
  have hfull2 : Seg d h (c ++ (a.getLastD h :: b)) 0 := by
    have : h :: (a ++ b) = c ++ (a.getLastD h :: b) := by
      rw [← List.cons_append, hc]; simp
    rw [← this]; exact hfull
  have hnd := hfull2.nodup
  obtain ⟨r, hs1, hs2⟩ := Seg.append.1 hfull2
  obtain ⟨rfl, hp0, hplt, hs3⟩ := hs2
  have hpown : L.own (a.getLastD h) = Owner.head ∨ L.own (a.getLastD h) = Owner.elem h := by
    rcases getLastD_mem a h with h1 | h1
    · left; rw [h1]; exact ho
    · right; exact H.list_own h hh ho _ (by rw [hab]; exact List.mem_append_left _ h1)
  have hpk : a.getLastD h ≠ k := by
    rintro h1
    rw [h1, hk] at hpown
    rcases hpown with h2 | h2 <;> cases h2
  have hrd : ∀ x, x ≠ a.getLastD h → rd (wr_next d (a.getLastD h) k) x = rd d x :=
    fun x hx => rd_wr_next_ne d k hx
  have hval : ∀ x, (rd (wr_next d (a.getLastD h) k) x).value = (rd d x).value :=
    fun x => value_wr_next d _ k x
  have hne_of : ∀ x, L.own x ≠ Owner.head → L.own x ≠ Owner.elem h → x ≠ a.getLastD h := by
    rintro x h1 h2 rfl
    rcases hpown with h3 | h3
    · exact h1 h3
    · exact h2 h3
  have hne_head : ∀ x, L.own x = Owner.head → x ≠ h → x ≠ a.getLastD h := by
    rintro x h1 h2 h3
    rcases getLastD_mem a h with h4 | h4
    · exact h2 (h3.trans h4)
    · rw [← h3] at h4
      have := H.list_own h hh ho x (by rw [hab]; exact List.mem_append_left _ h4)
      rw [h1] at this; cases this
  have hown : ∀ x, x ≠ k → (L.insert h k (a ++ k :: b)).own x = L.own x := by
    intro x hx; simp [Layout.insert, Function.update_noteq hx]
  have hownk : (L.insert h k (a ++ k :: b)).own k = Owner.elem h := by simp [Layout.insert]
  have hnek : ∀ x, L.own x ≠ Owner.scratch → x ≠ k := by
    rintro x h1 rfl; exact h1 hk
  have helems : ∀ x, x ≠ h → (L.insert h k (a ++ k :: b)).elems x = L.elems x := by
    intro x hx; simp [Layout.insert, Function.update_noteq hx]
  have helemsh : (L.insert h k (a ++ k :: b)).elems h = a ++ k :: b := by simp [Layout.insert]
  have hl : d.length ≤ (wr_next d (a.getLastD h) k).length := by rw [length_wr_next]
  have hhead : ∀ x, (L.insert h k (a ++ k :: b)).own x = Owner.head → L.own x = Owner.head := by
    intro x hx
    by_cases h1 : x = k
    · subst h1; rw [hownk] at hx; cases hx
    · rwa [hown x h1] at hx
  have hback : ∀ x o, (∀ j, o ≠ Owner.elem j) → (L.insert h k (a ++ k :: b)).own x = o →
      L.own x = o := by
    intro x o h1 h2
    by_cases h3 : x = k
    · subst h3; rw [hownk] at h2; exact absurd h2.symm (h1 h)
    · rwa [hown x h3] at h2
  refine ⟨by rw [length_wr_next]; exact H.len_pos, ?_, ?_, ?_, ?_, ?_, ?_, ?_, ?_, ?_, ?_,
    ?_, ?_, ?_, ?_, ?_, ?_, ?_, ?_⟩
  · rw [hrd 0 (Ne.symm hp0)]; exact H.zero
  · rw [hown 0 (Ne.symm hk0)]; exact H.own_zero
  · refine Seg.congr hl ?_ H.free_chain
    intro x hx
    have h1 := H.free_own x hx
    rw [hrd x (hne_of x (by rw [h1]; simp) (by rw [h1]; simp))]
  · intro x hx
    have h1 := H.free_own x hx
    rw [hown x (hnek x (by rw [h1]; simp))]; exact h1
  · intro i
    refine Seg.congr hl ?_ (H.post_chain i)
    intro x hx
    have h1 := H.post_own i x hx
    rw [hrd x (hne_of x (by rw [h1]; simp) (by rw [h1]; simp))]
  · intro i x hx
    have h1 := H.post_own i x hx
    rw [hown x (hnek x (by rw [h1]; simp))]; exact h1
  · intro i x hx
    rw [hval]; exact H.post_val i x hx
  · intro j hj hjo
    rw [length_wr_next] at hj
    have hjo1 := hhead j hjo
    by_cases hjh : j = h
    · subst hjh
      rw [helemsh]
      have hnew : Seg (wr_next d (a.getLastD j) k) j (c ++ (a.getLastD j :: k :: b)) 0 := by
        refine Seg.append.2 ⟨a.getLastD j, ?_, ?_⟩
        · refine Seg.congr hl ?_ hs1
          intro x hx
          rw [hrd]
          rintro rfl
          rw [List.nodup_append] at hnd
          exact hnd.2.2 hx (List.mem_cons_self _ _)
        · refine ⟨rfl, hp0, by rw [length_wr_next]; exact hplt, ?_⟩
          rw [next_wr_next_same _ _ hplt]
          refine ⟨rfl, hk0, by rw [length_wr_next]; exact hklt, ?_⟩
          rw [hrd k (Ne.symm hpk), hkn, ← hs3.start]
          refine Seg.congr hl ?_ hs3
          intro x hx
          rw [hrd]
          rintro rfl
          rw [List.nodup_append] at hnd
          exact (List.nodup_cons.1 hnd.2.1).1 hx
      have heq : c ++ (a.getLastD j :: k :: b) = j :: (a ++ k :: b) := by
        have : c ++ (a.getLastD j :: k :: b) = (c ++ [a.getLastD j]) ++ k :: b := by simp
        rw [this, ← hc]; rfl
      rw [heq] at hnew
      exact hnew.2.2.2
    · rw [helems j hjh, hrd j (hne_head j hjo1 hjh)]
      refine Seg.congr hl ?_ (H.list_chain j hj hjo1)
      intro x hx
      have h1 := H.list_own j hj hjo1 x hx
      rw [hrd x (hne_of x (by rw [h1]; simp) (by rw [h1]; simp; exact hjh))]
  · intro j hj hjo
    by_cases hjh : j = h
    · subst hjh; rw [helemsh]; simp
    · rw [length_wr_next] at hj
      rw [helems j hjh]; exact H.list_ne j hj (hhead j hjo)
  · intro j hj hjo x hx
    rw [length_wr_next] at hj
    have hjo1 := hhead j hjo
    by_cases hjh : j = h
    · subst hjh
      rw [helemsh] at hx
      by_cases hxk : x = k
      · subst hxk; exact hownk
      · rw [hown x hxk]
        apply H.list_own j hj hjo1 x
        rw [hab]
        simp only [List.mem_append, List.mem_cons] at hx ⊢
        rcases hx with h1 | h1 | h1
        · exact Or.inl h1
        · exact absurd h1 hxk
        · exact Or.inr h1
    · rw [helems j hjh] at hx
      have h1 := H.list_own j hj hjo1 x hx
      rw [hown x (hnek x (by rw [h1]; simp))]; exact h1
  · intro j hj hjo
    rw [length_wr_next] at hj
    have hjo1 := hhead j hjo
    have hv2 : ∀ ns, vals (wr_next d (a.getLastD h) k) ns = vals d ns := fun ns =>
      List.map_congr_left (fun x _ => hval x)
    rw [hv2]
    by_cases hjh : j = h
    · subst hjh
      rw [helemsh]
      have hs := H.list_sorted j hj hjo1
      rw [hab] at hs
      simp only [vals, List.map_append, List.map_cons] at hs ⊢
      rw [List.pairwise_append] at hs ⊢
      refine ⟨hs.1, ?_, ?_⟩
      · rw [List.pairwise_cons]
        refine ⟨?_, hs.2.1⟩
        intro y hy
        obtain ⟨x, hx, rfl⟩ := List.mem_map.1 hy
        rw [hkv]; exact hvb x hx
      · intro y hy z hz
        obtain ⟨x, hx, rfl⟩ := List.mem_map.1 hy
        rcases List.mem_cons.1 hz with h1 | h1
        · rw [h1, hkv]; exact hva x hx
        · exact hs.2.2 _ hy z h1
    · rw [helems j hjh]; exact H.list_sorted j hj hjo1
  · intro j hj hjo x hx
    rw [length_wr_next] at hj
    have hjo1 := hhead j hjo
    rw [hval]
    by_cases hjh : j = h
    · subst hjh
      rw [helemsh] at hx
      simp only [List.mem_append, List.mem_cons] at hx
      rcases hx with h1 | h1 | h1
      · exact H.list_val j hj hjo1 x (by rw [hab]; exact List.mem_append_left _ h1)
      · rw [h1, hkv]; exact hve
      · exact H.list_val j hj hjo1 x (by rw [hab]; exact List.mem_append_right _ h1)
    · rw [helems j hjh] at hx
      exact H.list_val j hj hjo1 x hx
  · intro j hj hjo
    rw [length_wr_next] at hj
    rw [hval]; exact H.list_rc j hj (hhead j hjo)
  · intro x hx hxo
    rw [length_wr_next] at hx
    exact H.complete_sentinel x hx (hback x _ (by simp) hxo)
  · intro x hx hxo
    rw [length_wr_next] at hx
    exact H.complete_free x hx (hback x _ (by simp) hxo)
  · intro x hx i hxo
    rw [length_wr_next] at hx
    exact H.complete_post x hx i (hback x _ (by simp) hxo)
  · intro x hx j hxo
    rw [length_wr_next] at hx ⊢
    by_cases hxk : x = k
    · subst hxk
      rw [hownk] at hxo
      cases hxo
      refine ⟨hh, ?_, by rw [helemsh]; simp⟩
      rw [hown h (hnek h (by rw [ho]; simp))]; exact ho
    · rw [hown x hxk] at hxo
      obtain ⟨a1, b1, c1⟩ := H.complete_elem x hx j hxo
      refine ⟨a1, by rw [hown j (hnek j (by rw [b1]; simp))]; exact b1, ?_⟩
      by_cases hjh : j = h
      · subst hjh
        rw [helemsh]
        rw [hab] at c1
        simp only [List.mem_append, List.mem_cons] at c1 ⊢
        rcases c1 with h1 | h1
        · exact Or.inl h1
        · exact Or.inr (Or.inr h1)
      · rw [helems j hjh]; exact c1
  · intro j hj hjo
    rw [length_wr_next] at hj
    exact H.rc_pos j hj (hhead j hjo)

end CppAD


namespace CppAD

/-! ## `add_element` -/

theorem add_element_empty_eq (s : list_setvec) (i element : Nat) :
    add_element_empty s i element = link_new_list s i [element] := by
  unfold add_element_empty link_new_list
  cases h1 : get_data_index s with
  | none => rfl
  | some p =>
    obtain ⟨k, s1⟩ := p
    simp only [Option.bind_eq_bind, Option.some_bind, link_loop]
    cases h2 : get_data_index
      { s1 with start_ := s1.start_.set i k, data_ := wr_value s1.data_ k 1 } with
    | none => simp [h2]
    | some q =>
      obtain ⟨k2, s2⟩ := q
      simp [h2]

theorem dropWhile_head_not {p : Nat → Bool} : ∀ {l : List Nat} {y : Nat} {ys : List Nat},
    l.dropWhile p = y :: ys → p y = false
  | [], _, _, h => by simp at h
  | x :: l, y, ys, h => by
    by_cases hx : p x = true
    · rw [List.dropWhile_cons_of_pos hx] at h
      exact dropWhile_head_not h
    · rw [List.dropWhile_cons_of_neg hx] at h
      simp only [List.cons.injEq] at h
      rw [← h.1]; simpa using hx

/-- What the search loop of `add_element` finds in a sorted list. -/
theorem split_sorted {d : List pair_size_t} {e element : Nat} (hz : rd d 0 = ⟨e, 0⟩)
    (he : element < e) (ns : List Nat) (hs : (vals d ns).Pairwise (· < ·)) :
    (∀ x ∈ ns.takeWhile (fun n => decide ((rd d n).value < element)),
      (rd d x).value < element) ∧
    element ≤ (rd d ((ns.dropWhile (fun n => decide ((rd d n).value < element))).headD 0)).value ∧
    ((rd d ((ns.dropWhile (fun n => decide ((rd d n).value < element))).headD 0)).value = element →
      element ∈ vals d ns) ∧
    ((rd d ((ns.dropWhile (fun n => decide ((rd d n).value < element))).headD 0)).value ≠ element →
      ∀ x ∈ ns.dropWhile (fun n => decide ((rd d n).value < element)),
        element < (rd d x).value) := by
  have hsplit := List.takeWhile_append_dropWhile (fun n => decide ((rd d n).value < element)) ns
  refine ⟨?_, ?_, ?_, ?_⟩
  · intro x hx
    simpa using List.mem_takeWhile_imp hx
  · cases hb : ns.dropWhile (fun n => decide ((rd d n).value < element)) with
    | nil => simp [hz]; omega
    | cons y ys =>
      have := dropWhile_head_not hb
      simp only [List.headD_cons]
      simpa using this
  · cases hb : ns.dropWhile (fun n => decide ((rd d n).value < element)) with
    | nil => simp [hz]; omega
    | cons y ys =>
      simp only [List.headD_cons]
      intro h1
      rw [← h1]
      apply List.mem_map_of_mem
      have : y ∈ ns.dropWhile (fun n => decide ((rd d n).value < element)) := by
        rw [hb]; exact List.mem_cons_self _ _
      exact (List.dropWhile_sublist _).subset this
  · cases hb : ns.dropWhile (fun n => decide ((rd d n).value < element)) with
    | nil => intro _ x hx; simp at hx
    | cons y ys =>
      simp only [List.headD_cons]
      intro h1 x hx
      have h2 := dropWhile_head_not hb
      have h3 : element < (rd d y).value := by
        have : ¬ (rd d y).value < element := by simpa using h2
        omega
      rcases List.mem_cons.1 hx with rfl | h4
      · exact h3
      · rw [← hsplit, hb] at hs
        simp only [vals, List.map_append, List.map_cons] at hs
        have h5 := (List.pairwise_append.1 hs).2.1
        have h6 := (List.pairwise_cons.1 h5).1 _ (List.mem_map_of_mem _ h4)
        omega

/-- The branch `add_element_insert` in a well-formed vector. -/
theorem add_element_insert_spec {s : list_setvec} {L}
    (I : Inv s L (fun h => s.start_.count h) []) (S : SetLink s L (fun h => s.start_.count h))
    {i element h : Nat} {a b : List Nat} (hi : i < s.start_.length) (he : element < s.end_)
    (hh : s.start_.getD i 0 = h) (h0 : h ≠ 0) (hab : L.elems h = a ++ b)
    (hva : ∀ x ∈ a, (rd s.data_ x).value < element)
    (hvb : ∀ x ∈ b, element < (rd s.data_ x).value) (hrc : s.start_.count h = 1) :
    ∃ s1, add_element_insert s (a.getLastD h) (b.headD 0) element = some s1 ∧ WF s1 ∧
      s1.end_ = s.end_ ∧ s1.start_ = s.start_ ∧ s1.post_ = s.post_ ∧
      (∃ vs1, SetIs s1 i vs1 ∧ ∀ x, x ∈ vs1 ↔ x = element ∨ x ∈ vals s.data_ (L.elems h)) ∧
      (∀ j, j < s.start_.length → j ≠ i → ∀ vs, SetIs s j vs → SetIs s1 j vs) := by
  obtain ⟨hhlt, hho⟩ := S.start i hi (by rw [hh]; exact h0)
  rw [hh] at hhlt hho
  obtain ⟨k, s1, hg, I1, E1, hk0, _, hklt, he1, hst1, hpo1, htmp1, hrd1, hfresh⟩ := I.alloc
  have hkm : k ∈ ([] : List Nat) ++ [k] := by simp
  have I3 := (I1.write_next hkm (b.headD 0)).write_value hkm element
  have E3 := (E1.ext_write_next (b.headD 0) (I1.own_pending hkm)).ext_write_value element
    (I1.own_pending hkm)
  have hlen3 : (wr_value (wr_next s1.data_ k (b.headD 0)) k element).length = s1.data_.length := by
    rw [length_wr_value, length_wr_next]
  have hstable : ∀ x ∈ L.elems h, rd (wr_value (wr_next s1.data_ k (b.headD 0)) k element) x =
      rd s.data_ x := by
    intro x hx
    have h1 := I.heap.list_own h hhlt hho x hx
    exact E3.rd x ((I.heap.list_chain h hhlt hho).mem x hx).2 (by rw [h1]; simp)
      (by rw [h1]; simp)
  have hoh : (L.alloc k).own h = Owner.head := by
    rw [E3.own h hhlt (by rw [hho]; simp) (by rw [hho]; simp)]; exact hho
  have H4 := I3.heap.insert_elem (h := h) (k := k) (v := element) (a := a) (b := b)
    (Nat.lt_of_lt_of_le hhlt E3.len) hoh (by show (L.alloc k).elems h = _; rw [E3.elems]; exact hab)
    (I1.own_pending hkm) (by rw [hlen3]; exact hklt)
    (by
      show (rd (wr_value (wr_next s1.data_ k (b.headD 0)) k element) k).next = _
      rw [next_wr_value, next_wr_next_same _ _ hklt])
    (by
      show (rd (wr_value (wr_next s1.data_ k (b.headD 0)) k element) k).value = _
      rw [value_wr_value_same]
      rw [length_wr_next]; exact hklt)
    (by
      intro x hx
      show (rd (wr_value (wr_next s1.data_ k (b.headD 0)) k element) x).value < _
      rw [hstable x (by rw [hab]; exact List.mem_append_left _ hx)]; exact hva x hx)
    (by
      intro x hx
      show _ < (rd (wr_value (wr_next s1.data_ k (b.headD 0)) k element) x).value
      rw [hstable x (by rw [hab]; exact List.mem_append_right _ hx)]; exact hvb x hx)
    (by show element < s1.end_; rw [he1]; exact he)
  have hown4 : ∀ x, x ≠ k → ((L.alloc k).insert h k (a ++ k :: b)).own x = (L.alloc k).own x := by
    intro x hx; simp [Layout.insert, Function.update_noteq hx]
  have hheadback : ∀ x,
      x < (wr_next (wr_value (wr_next s1.data_ k (b.headD 0)) k element) (a.getLastD h) k).length →
      ((L.alloc k).insert h k (a ++ k :: b)).own x = Owner.head →
      x < s.data_.length ∧ L.own x = Owner.head := by
    intro x hx hxo
    have hxk : x ≠ k := by
      rintro rfl
      simp [Layout.insert] at hxo
    rw [hown4 x hxk] at hxo
    rw [length_wr_next] at hx
    obtain ⟨h1, h2⟩ := E3.back x hx (by rw [hxo]; simp)
    exact ⟨h1, h2.trans hxo⟩
  have I4 : Inv { s1 with data_ := wr_next (wr_value (wr_next s1.data_ k (b.headD 0)) k element)
                                  (a.getLastD h) k }
      ((L.alloc k).insert h k (a ++ k :: b)) (fun h => s.start_.count h) [] := by
    refine ⟨H4, ⟨I3.free.head, I3.free.count⟩, ?_, by simp⟩
    intro x hx
    simp only [List.not_mem_nil, iff_false]
    by_cases hxk : x = k
    · subst hxk; simp [Layout.insert]
    · rw [hown4 x hxk]
      intro h1
      have hx1 : x < (wr_value (wr_next s1.data_ k (b.headD 0)) k element).length := by
        have : x < (wr_next (wr_value (wr_next s1.data_ k (b.headD 0)) k element)
          (a.getLastD h) k).length := hx
        rwa [length_wr_next] at this
      have := (I3.scratch x hx1).1 h1
      simp at this; exact hxk this
  have S4 : SetLink { s1 with data_ := wr_next (wr_value (wr_next s1.data_ k (b.headD 0)) k element)
                                  (a.getLastD h) k }
      ((L.alloc k).insert h k (a ++ k :: b)) (fun h => s.start_.count h) := by
    refine ⟨?_, ?_, ?_, ?_, ?_⟩
    · show s1.post_.length = s1.start_.length
      rw [hpo1, hst1]; exact S.len
    · intro j hj
      show s1.post_.getD j 0 = ((L.alloc k).posts j).headD 0
      rw [hpo1, E3.posts]
      exact S.post j (by rw [← hst1]; exact hj)
    · intro j hj
      show (L.alloc k).posts j = []
      rw [E3.posts]
      exact S.post_out j (by rw [← hst1]; exact hj)
    · intro j hj hne
      have hj1 : j < s.start_.length := by rw [← hst1]; exact hj
      have hne1 : s.start_.getD j 0 ≠ 0 := by rw [← hst1]; exact hne
      obtain ⟨h1, h2⟩ := S.start j hj1 hne1
      show s1.start_.getD j 0 < (wr_next _ _ _).length ∧ _
      rw [hst1, length_wr_next]
      refine ⟨Nat.lt_of_lt_of_le h1 E3.len, ?_⟩
      have h3 := (E3.own _ h1 (by rw [h2]; simp) (by rw [h2]; simp)).trans h2
      have h4 : s.start_.getD j 0 ≠ k := by
        intro h4; rw [h4, I1.own_pending hkm] at h3; cases h3
      rw [hown4 _ h4]; exact h3
    · intro x hx hxo
      show s1.start_.count x ≤ s.start_.count x
      rw [hst1]
  have hw : WF { s1 with data_ := wr_next (wr_value (wr_next s1.data_ k (b.headD 0)) k element)
                                  (a.getLastD h) k } := by
    refine WF.intro I4 S4 ?_
    intro x _ _
    show s.start_.count x = s1.start_.count x
    rw [hst1]
  have hvalsame : ∀ x ∈ L.elems h,
      (rd (wr_next (wr_value (wr_next s1.data_ k (b.headD 0)) k element) (a.getLastD h) k) x).value
        = (rd s.data_ x).value := by
    intro x hx
    rw [value_wr_next, hstable x hx]
  refine ⟨_, ?_, hw, he1, hst1, hpo1, ?_, ?_⟩
  · simp only [add_element_insert, hg, Option.bind_eq_bind, Option.some_bind]
  · have hi4 : i < s1.start_.length := by rw [hst1]; exact hi
    have hset := SetIs.of_layout I4.heap S4 (i := i) hi4
    refine ⟨_, hset, ?_⟩
    intro x
    unfold Layout.content
    have h5 : s1.start_.getD i 0 = h := by rw [hst1]; exact hh
    show x ∈ (if s1.start_.getD i 0 = 0 then [] else
      vals (wr_next (wr_value (wr_next s1.data_ k (b.headD 0)) k element) (a.getLastD h) k)
        (((L.alloc k).insert h k (a ++ k :: b)).elems (s1.start_.getD i 0))) ↔ _
    rw [h5, if_neg h0]
    have h6 : ((L.alloc k).insert h k (a ++ k :: b)).elems h = a ++ k :: b := by
      simp [Layout.insert]
    rw [h6, hab]
    simp only [vals, List.map_append, List.map_cons, List.mem_append, List.mem_cons, List.mem_map]
    have hkv : (rd (wr_next (wr_value (wr_next s1.data_ k (b.headD 0)) k element)
        (a.getLastD h) k) k).value = element := by
      rw [value_wr_next, value_wr_value_same]
      rw [length_wr_next]; exact hklt
    rw [hkv]
    constructor
    · rintro (⟨y, hy, rfl⟩ | h7 | ⟨y, hy, rfl⟩)
      · right; left
        exact ⟨y, hy, (hvalsame y (by rw [hab]; exact List.mem_append_left _ hy)).symm⟩
      · left; exact h7
      · right; right
        exact ⟨y, hy, (hvalsame y (by rw [hab]; exact List.mem_append_right _ hy)).symm⟩
    · rintro (h7 | ⟨y, hy, rfl⟩ | ⟨y, hy, rfl⟩)
      · right; left; exact h7
      · left
        exact ⟨y, hy, hvalsame y (by rw [hab]; exact List.mem_append_left _ hy)⟩
      · right; right
        exact ⟨y, hy, hvalsame y (by rw [hab]; exact List.mem_append_right _ hy)⟩
  · intro j hj hji vs hvs
    have hj4 : j < s1.start_.length := by rw [hst1]; exact hj
    have hset := SetIs.of_layout I4.heap S4 (i := j) hj4
    have h1 := SetIs.unique hvs (SetIs.of_layout I.heap S hj)
    rw [h1]
    have h2 : ((L.alloc k).insert h k (a ++ k :: b)).content
        { s1 with data_ := wr_next (wr_value (wr_next s1.data_ k (b.headD 0)) k element)
                                    (a.getLastD h) k } j = L.content s j := by
      unfold Layout.content
      show (if s1.start_.getD j 0 = 0 then [] else
        vals (wr_next (wr_value (wr_next s1.data_ k (b.headD 0)) k element) (a.getLastD h) k)
          (((L.alloc k).insert h k (a ++ k :: b)).elems (s1.start_.getD j 0))) = _
      rw [hst1]
      by_cases hj0 : s.start_.getD j 0 = 0
      · rw [if_pos hj0, if_pos hj0]
      · rw [if_neg hj0, if_neg hj0]
        obtain ⟨h3, h4⟩ := S.start j hj hj0
        have h5 : s.start_.getD j 0 ≠ h := by
          intro h5
          have := two_le_count hi hj hji h0 hh h5
          omega
        have h6 : ((L.alloc k).insert h k (a ++ k :: b)).elems (s.start_.getD j 0) =
            L.elems (s.start_.getD j 0) := by
          simp only [Layout.insert, Function.update_noteq h5]
          show (L.alloc k).elems _ = _
          rw [E3.elems]
        rw [h6]
        apply List.map_congr_left
        intro x hx
        rw [value_wr_next]
        have h7 := I.heap.list_own _ h3 h4 x hx
        rw [E3.rd x ((I.heap.list_chain _ h3 h4).mem x hx).2 (by rw [h7]; simp)
          (by rw [h7]; simp)]
    rw [← h2]; exact hset

end CppAD


namespace CppAD

theorem Inv.write_rc {s : list_setvec} {L f P} (I : Inv s L f P) {h : Nat}
    (hh : h < s.data_.length) (ho : L.own h = Owner.head) (v : Nat) (hv : 0 < v) :
    Inv { s with data_ := wr_value s.data_ h v } L (Function.update f h v) P := by
  refine ⟨I.heap.wr_rc v hh ho hv, ⟨I.free.head, I.free.count⟩, ?_, ?_⟩
  · intro x hx
    simp only [length_wr_value] at hx
    exact I.scratch x hx
  · intro x hx
    simp only [length_wr_value]
    exact I.pending_lt x hx

theorem pairwise_insert {A B : List Nat} {v : Nat} (h : (A ++ B).Pairwise (· < ·))
    (ha : ∀ x ∈ A, x < v) (hb : ∀ x ∈ B, v < x) : (A ++ v :: B).Pairwise (· < ·) := by
  rw [List.pairwise_append] at h ⊢
  refine ⟨h.1, List.pairwise_cons.2 ⟨hb, h.2.1⟩, ?_⟩
  intro x hx y hy
  rcases List.mem_cons.1 hy with rfl | hy
  · exact ha x hx
  · exact h.2.2 x hx y hy

theorem dropWhile_eq_nil_of_all {p : Nat → Bool} {l : List Nat} (h : ∀ x ∈ l, p x = true) :
    l.dropWhile p = [] := by
  induction l with
  | nil => rfl
  | cons a l ih =>
    rw [List.dropWhile_cons_of_pos (h a (List.mem_cons_self _ _))]
    exact ih (fun x hx => h x (List.mem_cons_of_mem _ hx))

theorem takeWhile_eq_self_of_all {p : Nat → Bool} {l : List Nat} (h : ∀ x ∈ l, p x = true) :
    l.takeWhile p = l := by
  induction l with
  | nil => rfl
  | cons a l ih =>
    rw [List.takeWhile_cons_of_pos (h a (List.mem_cons_self _ _))]
    rw [ih (fun x hx => h x (List.mem_cons_of_mem _ hx))]

end CppAD


namespace CppAD

/-- The branch `add_element_separate` in a well-formed vector. -/
theorem add_element_separate_spec {s : list_setvec} {L}
    (I : Inv s L (fun h => s.start_.count h) []) (S : SetLink s L (fun h => s.start_.count h))
    {i element h : Nat} {a b : List Nat} (hi : i < s.start_.length) (he : element < s.end_)
    (hh : s.start_.getD i 0 = h) (h0 : h ≠ 0)
    (ha : a = (L.elems h).takeWhile (fun n => decide ((rd s.data_ n).value < element)))
    (hb : b = (L.elems h).dropWhile (fun n => decide ((rd s.data_ n).value < element)))
    (hvb : ∀ x ∈ b, element < (rd s.data_ x).value) (hrc : s.start_.count h ≠ 1) :
    ∃ s1, add_element_separate s i element h = some s1 ∧ WF s1 ∧
      s1.end_ = s.end_ ∧ s1.start_.length = s.start_.length ∧ s1.post_ = s.post_ ∧
      (∃ vs1, SetIs s1 i vs1 ∧ ∀ x, x ∈ vs1 ↔ x = element ∨ x ∈ vals s.data_ (L.elems h)) ∧
      (∀ j, j < s.start_.length → j ≠ i → ∀ vs, SetIs s j vs → SetIs s1 j vs) := by
  obtain ⟨hhlt, hho⟩ := S.start i hi (by rw [hh]; exact h0)
  rw [hh] at hhlt hho
  have hab : L.elems h = a ++ b := by rw [ha, hb, List.takeWhile_append_dropWhile]
  have hva : ∀ x ∈ a, (rd s.data_ x).value < element := by
    intro x hx; rw [ha] at hx
    simpa using List.mem_takeWhile_imp hx
  have hcpos : 0 < s.start_.count h := count_pos_of_getD hi hh
  have hrcv : (rd s.data_ h).value = s.start_.count h := I.heap.list_rc h hhlt hho
  have hc2 : 0 < s.start_.count h - 1 := by omega
  -- the reference counter of the old list
  have I1 := I.write_rc hhlt hho (s.start_.count h - 1) hc2
  have hrd1 : ∀ x, x ≠ h → rd (wr_value s.data_ h (s.start_.count h - 1)) x = rd s.data_ x :=
    fun x hx => rd_wr_value_ne _ _ hx
  have hnotmem : h ∉ L.elems h := (I.heap.list_chain h hhlt hho).not_mem_of_next
  -- the reference counter of the new list
  obtain ⟨k0, s2, hg2, I2, E2, hk00, _, hk0lt, he2, hst2, hpo2, htmp2, hrd2, hfresh2⟩ := I1.alloc
  have hkm : k0 ∈ ([] : List Nat) ++ [k0] := by simp
  have I3 : Inv { s2 with data_ := wr_value s2.data_ k0 1 } (L.alloc k0)
      (Function.update (fun h => s.start_.count h) h (s.start_.count h - 1)) (k0 :: []) :=
    I2.write_value hkm 1
  have E3 : Ext { s with data_ := wr_value s.data_ h (s.start_.count h - 1) } L
      { s2 with data_ := wr_value s2.data_ k0 1 } (L.alloc k0) :=
    E2.ext_write_value 1 (I2.own_pending hkm)
  have B3 : Partial (wr_value s2.data_ k0 1) k0 [] k0 := Partial.init
  have hstab : ∀ x ∈ L.elems h, x < s.data_.length ∧ L.own x ≠ Owner.free ∧
      L.own x ≠ Owner.scratch := by
    intro x hx
    have h1 := I.heap.list_own h hhlt hho x hx
    exact ⟨((I.heap.list_chain h hhlt hho).mem x hx).2, by rw [h1]; simp, by rw [h1]; simp⟩
  have hlen1 : (wr_value s.data_ h (s.start_.count h - 1)).length = s.data_.length :=
    length_wr_value _ _ _
  have hrd3 : ∀ x ∈ L.elems h, rd (wr_value s2.data_ k0 1) x = rd s.data_ x := by
    intro x hx
    obtain ⟨h1, h2, h3⟩ := hstab x hx
    have h4 := E3.rd x (by show x < (wr_value s.data_ h _).length; rw [hlen1]; exact h1) h2 h3
    rw [show rd (wr_value s2.data_ k0 1) x = rd (wr_value s.data_ h (s.start_.count h - 1)) x
      from h4]
    exact hrd1 x (by rintro rfl; exact hnotmem hx)
  have hrd30 : rd (wr_value s2.data_ k0 1) 0 = rd s.data_ 0 := by
    have h4 := E3.rd 0 (by show 0 < (wr_value s.data_ h _).length; rw [hlen1]; exact I.heap.len_pos)
      (by rw [I.heap.own_zero]; simp) (by rw [I.heap.own_zero]; simp)
    rw [show rd (wr_value s2.data_ k0 1) 0 = rd (wr_value s.data_ h (s.start_.count h - 1)) 0
      from h4]
    exact hrd1 0 (Ne.symm h0)
  have hoh3 : (L.alloc k0).own h = Owner.head := by
    rw [E3.own h (by show h < (wr_value s.data_ h _).length; rw [hlen1]; exact hhlt)
      (by rw [hho]; simp) (by rw [hho]; simp)]
    exact hho
  have hhlt3 : h < (wr_value s2.data_ k0 1).length :=
    Nat.lt_of_lt_of_le (by show h < (wr_value s.data_ h _).length; rw [hlen1]; exact hhlt) E3.len
  have hseg3 : Seg (wr_value s2.data_ k0 1) (rd (wr_value s2.data_ k0 1) h).next (L.elems h) 0 := by
    have := I3.heap.list_chain h hhlt3 hoh3
    rwa [show (L.alloc k0).elems h = L.elems h from by rw [E3.elems]] at this
  have hstab3 : ∀ x ∈ L.elems h, (L.alloc k0).own x ≠ Owner.free ∧
      (L.alloc k0).own x ≠ Owner.scratch := by
    intro x hx
    have h1 := I3.heap.list_own h hhlt3 hoh3 x (by rw [E3.elems]; exact hx)
    rw [h1]; simp
  have hpred3 : ∀ x ∈ L.elems h, decide ((rd (wr_value s2.data_ k0 1) x).value < element) =
      decide ((rd s.data_ x).value < element) := by
    intro x hx; rw [hrd3 x hx]
  -- the values below `element`
  obtain ⟨s4, L4, N4, pn4, h4eq, I4, B4, hv4, hk0v4, E4, he4, hst4, hpo4, htmp4⟩ :=
    add_element_copy_spec element (L.elems h) (wr_value s2.data_ k0 1).length I3 B3 hseg3 hstab3
      (by show element ≤ s2.end_; rw [he2]; exact Nat.le_of_lt he)
      (hseg3.length_lt I3.heap.len_pos)
  dsimp only at h4eq hv4
  rw [dropWhile_congr hpred3, ← hb] at h4eq
  rw [takeWhile_congr hpred3, ← ha] at hv4
  have hbhead : rd (wr_value s2.data_ k0 1) (b.headD 0) = rd s.data_ (b.headD 0) := by
    cases hbb : b with
    | nil => exact hrd30
    | cons y ys =>
      exact hrd3 y (by rw [hab, hbb]; simp)
  have hvalue : element < (rd s.data_ (b.headD 0)).value := by
    cases hbb : b with
    | nil => simp [I.heap.zero]; exact he
    | cons y ys => exact hvb y (by rw [hbb]; simp)
  -- the new element
  obtain ⟨k5, s5, hg5, he5, hst5, hpo5, htmp5, I7, B7, hv7, hk0v7, E7⟩ := build_step I4 B4 element
  -- the values above `element`
  have E37 := E4.trans E7
  have hrd7 : ∀ x ∈ L.elems h, rd (wr_value (wr_next s5.data_ pn4 k5) k5 element) x =
      rd s.data_ x := by
    intro x hx
    have h1 := hstab3 x hx
    have h2 := E37.rd x (Nat.lt_of_lt_of_le (hstab x hx).1
      (by rw [← hlen1]; exact E3.len)) h1.1 h1.2
    rw [show rd (wr_value (wr_next s5.data_ pn4 k5) k5 element) x = rd (wr_value s2.data_ k0 1) x
      from h2]
    exact hrd3 x hx
  have hrd70 : rd (wr_value (wr_next s5.data_ pn4 k5) k5 element) 0 = rd s.data_ 0 := by
    have h2 := E37.rd 0 I3.heap.len_pos (by rw [I3.heap.own_zero]; simp)
      (by rw [I3.heap.own_zero]; simp)
    rw [show rd (wr_value (wr_next s5.data_ pn4 k5) k5 element) 0 = rd (wr_value s2.data_ k0 1) 0
      from h2]
    exact hrd30
  have hsegb3 : Seg (wr_value s2.data_ k0 1) (b.headD 0) b 0 := by
    rw [hab] at hseg3; exact hseg3.suffix
  have hseg7 : Seg (wr_value (wr_next s5.data_ pn4 k5) k5 element) (b.headD 0) b 0 := by
    refine Seg.congr E37.len ?_ hsegb3
    intro x hx
    rw [hrd7 x (by rw [hab]; exact List.mem_append_right _ hx),
      hrd3 x (by rw [hab]; exact List.mem_append_right _ hx)]
  have hstab7 : ∀ x ∈ b, (L4.alloc k5).own x ≠ Owner.free ∧
      (L4.alloc k5).own x ≠ Owner.scratch := by
    intro x hx
    have hx1 : x ∈ L.elems h := by rw [hab]; exact List.mem_append_right _ hx
    have h1 := hstab3 x hx1
    rw [E37.own x (Nat.lt_of_lt_of_le (hstab x hx1).1 (by rw [← hlen1]; exact E3.len)) h1.1 h1.2]
    exact h1
  obtain ⟨s8, L8, N8, pn8, h8eq, I8, B8, hv8, hk0v8, E8, he8, hst8, hpo8, htmp8⟩ :=
    add_element_copy_spec s5.end_ b (wr_value (wr_next s5.data_ pn4 k5) k5 element).length
      I7 B7 hseg7 hstab7 (Nat.le_refl _) (hseg7.length_lt I7.heap.len_pos)
  have hall : ∀ x ∈ b,
      decide ((rd (wr_value (wr_next s5.data_ pn4 k5) k5 element) x).value < s5.end_) = true := by
    intro x hx
    have hx1 : x ∈ L.elems h := by rw [hab]; exact List.mem_append_right _ hx
    rw [hrd7 x hx1, he5, he4]
    show decide (_ < s2.end_) = true
    rw [he2]
    simpa using I.heap.list_val h hhlt hho x hx1
  dsimp only at h8eq hv8
  rw [dropWhile_eq_nil_of_all hall] at h8eq
  rw [takeWhile_eq_self_of_all hall] at hv8
  -- the end of the new list
  have hv8a : vals s8.data_ N8 = vals s.data_ a ++ element :: vals s.data_ b := by
    rw [hv8]
    show vals (wr_value (wr_next s5.data_ pn4 k5) k5 element) (N4 ++ [k5]) ++
      vals (wr_value (wr_next s5.data_ pn4 k5) k5 element) b = _
    rw [hv7, hv4]
    have h1 : vals (wr_value s2.data_ k0 1) a = vals s.data_ a :=
      List.map_congr_left (fun x hx => by rw [hrd3 x (by rw [hab]; exact List.mem_append_left _ hx)])
    have h2 : vals (wr_value (wr_next s5.data_ pn4 k5) k5 element) b = vals s.data_ b :=
      List.map_congr_left (fun x hx => by rw [hrd7 x (by rw [hab]; exact List.mem_append_right _ hx)])
    rw [h2]
    show (vals (wr_value s2.data_ k0 1) [] ++ vals (wr_value s2.data_ k0 1) a ++ [element]) ++ _ = _
    rw [h1]
    simp [vals]
  have hN8 : N8 ≠ [] := by
    rintro rfl
    simp [vals] at hv8a
  have hpn8 := B8.last_mem
  have hpn8lt := I8.pending_lt pn8 hpn8
  have hpn80 : pn8 ≠ 0 := I8.heap.own_ne_zero (by rw [I8.own_pending hpn8]; simp)
  obtain ⟨hseg9, hv9, hk0v9⟩ := build_finish B8 hN8 hpn80 hpn8lt
  have hval1 : (rd (wr_next s8.data_ pn8 0) k0).value = 1 := by
    rw [hk0v9, hk0v8]
    show (rd (wr_value (wr_next s5.data_ pn4 k5) k5 element) k0).value = 1
    rw [hk0v7, hk0v4]
    exact value_wr_value_same _ _ hk0lt
  have hsorted : (vals s.data_ a ++ element :: vals s.data_ b).Pairwise (· < ·) := by
    have h1 := I.heap.list_sorted h hhlt hho
    rw [hab] at h1
    simp only [vals, List.map_append] at h1
    refine pairwise_insert h1 ?_ ?_
    · intro x hx
      obtain ⟨y, hy, rfl⟩ := List.mem_map.1 hx
      exact hva y hy
    · intro x hx
      obtain ⟨y, hy, rfl⟩ := List.mem_map.1 hx
      exact hvb y hy
  have hend8 : s8.end_ = s.end_ := by
    rw [he8]; show s5.end_ = _; rw [he5, he4]; show s2.end_ = _; rw [he2]
  have I9 := I8.write_next hpn8 0
  have I10 := I9.adopt hseg9 hN8 (by rw [hv9, hv8a]; exact hsorted)
    (by
      intro x hx
      have h1 : (rd (wr_next s8.data_ pn8 0) x).value ∈ vals (wr_next s8.data_ pn8 0) N8 :=
        List.mem_map_of_mem _ hx
      rw [hv9, hv8a] at h1
      show _ < s8.end_
      rw [hend8]
      simp only [List.mem_append, List.mem_cons] at h1
      rcases h1 with h1 | h1 | h1
      · obtain ⟨y, hy, h2⟩ := List.mem_map.1 h1
        rw [← h2]
        exact I.heap.list_val h hhlt hho y (by rw [hab]; exact List.mem_append_left _ hy)
      · rw [h1]; exact he
      · obtain ⟨y, hy, h2⟩ := List.mem_map.1 h1
        rw [← h2]
        exact I.heap.list_val h hhlt hho y (by rw [hab]; exact List.mem_append_right _ hy))
    (by rw [hval1]; exact Nat.one_pos)
  rw [hval1] at I10
  -- the links of the vector
  have hst8a : s8.start_ = s.start_ := by
    rw [hst8]; show s5.start_ = _; rw [hst5, hst4]; show s2.start_ = _; rw [hst2]
  have hpo8a : s8.post_ = s.post_ := by
    rw [hpo8]; show s5.post_ = _; rw [hpo5, hpo4]; show s2.post_ = _; rw [hpo2]
  have Etot : Ext { s with data_ := wr_value s.data_ h (s.start_.count h - 1) } L
      { s8 with data_ := wr_next s8.data_ pn8 0 } L8 :=
    ((E3.trans E4).trans (E7.trans E8)).ext_write_next 0 (I8.own_pending hpn8)
  have hcount0 : s.start_.count k0 = 0 := by
    have S1 : SetLink { s with data_ := wr_value s.data_ h (s.start_.count h - 1) } L
        (fun h => s.start_.count h) := S.link_fields rfl rfl (length_wr_value _ _ _)
    exact count_eq_zero_of_fresh S1 hfresh2 hk00
  have hcnt : ∀ k, k ≠ 0 → k ≠ k0 →
      (s.start_.set i k0).count k + (if h = k then 1 else 0) = s.start_.count k := by
    intro k hk hkk
    have := count_set s.start_ i k0 k hi
    rw [hh, if_neg (Ne.symm hkk)] at this
    omega
  have hcntk0 : (s.start_.set i k0).count k0 = 1 := by
    have := count_set s.start_ i k0 k0 hi
    have hk0h : h ≠ k0 := by
      rintro rfl
      omega
    rw [hh, if_neg hk0h, if_pos rfl, hcount0] at this
    omega
  have hhead : ∀ k, k < (wr_next s8.data_ pn8 0).length → (L8.adopt k0 N8).own k = Owner.head →
      k = k0 ∨ (k ≠ k0 ∧ k < s.data_.length ∧ L.own k = Owner.head) := by
    intro k hk hko
    by_cases hkk : k = k0
    · exact Or.inl hkk
    · right
      have hkN : k ∉ N8 := by
        intro h; simp [Layout.adopt, hkk, h] at hko
      have h5 : L8.own k = Owner.head := by simpa [Layout.adopt, hkk, hkN] using hko
      obtain ⟨h6, h7⟩ := Etot.back k hk (by rw [h5]; simp)
      exact ⟨hkk, by rw [← hlen1]; exact h6, h7.trans h5⟩
  have hfeq : ∀ k, k < (wr_next s8.data_ pn8 0).length → (L8.adopt k0 N8).own k = Owner.head →
      Function.update (Function.update (fun h => s.start_.count h) h (s.start_.count h - 1)) k0 1 k
        = (s.start_.set i k0).count k := by
    intro k hk hko
    rcases hhead k hk hko with rfl | ⟨h5, h6, h7⟩
    · rw [Function.update_same, hcntk0]
    · rw [Function.update_noteq h5]
      have h8 := hcnt k (I.heap.own_ne_zero (by rw [h7]; simp)) h5
      by_cases hkh : k = h
      · subst hkh
        rw [Function.update_same]
        rw [if_pos rfl] at h8; omega
      · rw [Function.update_noteq hkh]
        rw [if_neg (Ne.symm hkh)] at h8; omega
  have hownold : ∀ x, x < s.data_.length → L.own x ≠ Owner.free → L.own x ≠ Owner.scratch →
      (L8.adopt k0 N8).own x = L.own x := by
    intro x hx h1 h2
    have h3 := Etot.own x (by rw [hlen1]; exact hx) h1 h2
    have h4 : x ≠ k0 := by
      rintro rfl
      rw [I8.own_pending (List.mem_cons_self _ _)] at h3; exact h2 h3.symm
    have h5 : x ∉ N8 := by
      intro h5
      rw [I8.own_pending (List.mem_cons_of_mem _ h5)] at h3; exact h2 h3.symm
    simp only [Layout.adopt, h4, h5, if_false]
    exact h3
  have S10 : SetLink { s8 with data_ := wr_next s8.data_ pn8 0, start_ := s8.start_.set i k0 }
      (L8.adopt k0 N8)
      (Function.update (Function.update (fun h => s.start_.count h) h (s.start_.count h - 1))
        k0 1) := by
    refine ⟨?_, ?_, ?_, ?_, ?_⟩
    · show s8.post_.length = (s8.start_.set i k0).length
      rw [hpo8a, hst8a]; simp; exact S.len
    · intro j hj
      have hj1 : j < s.start_.length := by
        have : j < (s8.start_.set i k0).length := hj
        rw [hst8a] at this; simpa using this
      show s8.post_.getD j 0 = (L8.posts j).headD 0
      rw [hpo8a, Etot.posts]; exact S.post j hj1
    · intro j hj
      have hj1 : s.start_.length ≤ j := by
        have : (s8.start_.set i k0).length ≤ j := hj
        rw [hst8a] at this; simpa using this
      show L8.posts j = []
      rw [Etot.posts]; exact S.post_out j hj1
    · intro j hj hne0
      have hj1 : j < s.start_.length := by
        have : j < (s8.start_.set i k0).length := hj
        rw [hst8a] at this; simpa using this
      have hne1 : (s8.start_.set i k0).getD j 0 ≠ 0 := hne0
      show (s8.start_.set i k0).getD j 0 < (wr_next s8.data_ pn8 0).length ∧
        (L8.adopt k0 N8).own ((s8.start_.set i k0).getD j 0) = Owner.head
      rw [hst8a] at hne1 ⊢
      by_cases hjt : j = i
      · subst hjt
        rw [getD_set_same _ _ hi]
        exact ⟨I9.pending_lt k0 (List.mem_cons_self _ _), by simp [Layout.adopt]⟩
      · rw [getD_set_ne _ _ hjt] at hne1 ⊢
        obtain ⟨h5, h6⟩ := S.start j hj1 hne1
        refine ⟨Nat.lt_of_lt_of_le (by rw [hlen1]; exact h5) Etot.len, ?_⟩
        rw [hownold _ h5 (by rw [h6]; simp) (by rw [h6]; simp)]; exact h6
    · intro k hk hko
      show (s8.start_.set i k0).count k ≤ _
      rw [hst8a, hfeq k hk hko]
  have hw : WF { s8 with data_ := wr_next s8.data_ pn8 0, start_ := s8.start_.set i k0 } := by
    refine WF.intro (I10.of_fields rfl rfl rfl rfl) S10 ?_
    intro k hk hko
    show _ = (s8.start_.set i k0).count k
    rw [hst8a]; exact hfeq k hk hko
  refine ⟨{ s8 with data_ := wr_next s8.data_ pn8 0, start_ := s8.start_.set i k0 }, ?_, hw, hend8,
    ?_, hpo8a, ?_, ?_⟩
  · unfold add_element_separate
    have hasrt : (rd s.data_ h).value > 1 := by rw [hrcv]; omega
    simp only [CPPAD_ASSERT_UNKNOWN, hasrt, decide_True, if_true, Option.bind_eq_bind,
      Option.some_bind, hrcv, hg2]
    have hprev : s2.start_.getD i 0 = h := by rw [hst2]; exact hh
    simp only [hprev]
    rw [h4eq]
    simp only [Option.some_bind, hbhead, hvalue, decide_True, if_true, hg5]
    have h8' := h8eq
    rw [show (rd (wr_value (wr_next s5.data_ pn4 k5) k5 element) (b.headD 0)).value =
      (rd s.data_ (b.headD 0)).value from by
        rw [show rd (wr_value (wr_next s5.data_ pn4 k5) k5 element) (b.headD 0) =
          rd s.data_ (b.headD 0) from by
            cases hbb : b with
            | nil => exact hrd70
            | cons y ys => exact hrd7 y (by rw [hab, hbb]; simp)]] at h8'
    rw [h8']
    have hgt : 1 < s.start_.count h := by omega
    simp [hgt]
  · show (s8.start_.set i k0).length = _
    rw [hst8a]; simp
  · have hi10 : i < (s8.start_.set i k0).length := by rw [hst8a]; simpa using hi
    have hset := SetIs.of_layout I10.heap (S10.link_fields rfl rfl rfl)
      (s := { s8 with data_ := wr_next s8.data_ pn8 0, start_ := s8.start_.set i k0 }) (i := i) hi10
    refine ⟨_, hset, ?_⟩
    intro x
    unfold Layout.content
    show x ∈ (if (s8.start_.set i k0).getD i 0 = 0 then [] else
      vals (wr_next s8.data_ pn8 0) ((L8.adopt k0 N8).elems ((s8.start_.set i k0).getD i 0))) ↔ _
    rw [hst8a, getD_set_same _ _ hi, if_neg hk00]
    have h6 : (L8.adopt k0 N8).elems k0 = N8 := by simp [Layout.adopt]
    rw [h6, hv9, hv8a, hab]
    simp only [vals, List.map_append, List.mem_append, List.mem_cons]
    tauto
  · intro j hj hji vs hvs
    have hj10 : j < (s8.start_.set i k0).length := by rw [hst8a]; simpa using hj
    have hset := SetIs.of_layout I10.heap (S10.link_fields rfl rfl rfl)
      (s := { s8 with data_ := wr_next s8.data_ pn8 0, start_ := s8.start_.set i k0 }) (i := j) hj10
    have h1 := SetIs.unique hvs (SetIs.of_layout I.heap S hj)
    rw [h1]
    have h2 : (L8.adopt k0 N8).content
        { s8 with data_ := wr_next s8.data_ pn8 0, start_ := s8.start_.set i k0 } j =
        L.content s j := by
      unfold Layout.content
      show (if (s8.start_.set i k0).getD j 0 = 0 then [] else
        vals (wr_next s8.data_ pn8 0)
          ((L8.adopt k0 N8).elems ((s8.start_.set i k0).getD j 0))) = _
      rw [hst8a, getD_set_ne _ _ hji]
      by_cases hj0 : s.start_.getD j 0 = 0
      · rw [if_pos hj0, if_pos hj0]
      · rw [if_neg hj0, if_neg hj0]
        obtain ⟨h3, h4⟩ := S.start j hj hj0
        have h5 : s.start_.getD j 0 ≠ k0 := by
          intro h5
          have h6 := hownold _ h3 (by rw [h4]; simp) (by rw [h4]; simp)
          have := count_pos_of_getD hj h5
          omega
        have h6 : (L8.adopt k0 N8).elems (s.start_.getD j 0) = L.elems (s.start_.getD j 0) := by
          simp only [Layout.adopt, Function.update_noteq h5]
          rw [Etot.elems]
        rw [h6]
        apply List.map_congr_left
        intro x hx
        have h7 := I.heap.list_own _ h3 h4 x hx
        have hxlt := ((I.heap.list_chain _ h3 h4).mem x hx).2
        have h8 := Etot.rd x (by rw [hlen1]; exact hxlt) (by rw [h7]; simp) (by rw [h7]; simp)
        rw [show rd (wr_next s8.data_ pn8 0) x = rd (wr_value s.data_ h (s.start_.count h - 1)) x
          from h8]
        rw [hrd1 x (by rintro rfl; rw [hho] at h7; cases h7)]
    rw [← h2]; exact hset

end CppAD


namespace CppAD

/-- Specification of `add_element`. -/
theorem add_element_spec {s : list_setvec} (hw : WF s) {i element : Nat}
    (hi : i < s.start_.length) (he : element < s.end_) :
    ∃ s1, add_element s i element = some s1 ∧ WF s1 ∧ s1.end_ = s.end_ ∧
      s1.start_.length = s.start_.length ∧ s1.post_ = s.post_ ∧
      (∀ vs, SetIs s i vs → ∃ vs1, SetIs s1 i vs1 ∧ ∀ x, x ∈ vs1 ↔ x = element ∨ x ∈ vs) ∧
      (∀ j, j < s.start_.length → j ≠ i → ∀ vs, SetIs s j vs → SetIs s1 j vs) := by
  obtain ⟨L, I, S⟩ := hw
  have hunf : add_element s i element =
      (if s.start_.getD i 0 = 0 then add_element_empty s i element
       else (add_element_loop s.data_ element s.data_.length (s.start_.getD i 0)
              (rd s.data_ (s.start_.getD i 0)).next
              (rd s.data_ (rd s.data_ (s.start_.getD i 0)).next).value).bind fun r =>
          if r.2.2 = element then some s
          else (CPPAD_ASSERT_UNKNOWN (decide (element < r.2.2))).bind fun _ =>
            if (rd s.data_ (s.start_.getD i 0)).value = 1 then
              add_element_insert s r.1 r.2.1 element
            else add_element_separate s i element (s.start_.getD i 0)) := by
    unfold add_element
    simp only [CPPAD_ASSERT_UNKNOWN, hi, he, decide_True, if_true, Option.bind_eq_bind,
      Option.some_bind]
  rw [hunf]
  by_cases h0 : s.start_.getD i 0 = 0
  · rw [if_pos h0, add_element_empty_eq]
    obtain ⟨s1, L1, h1, hw1, F1, hset, he1, hlen1, hpo1, _, hst1⟩ :=
      link_new_list_spec I S (fun _ _ _ => rfl) hi h0 [element] (by simp) (by simp)
        (by intro x hx; simp at hx; rw [hx]; exact he)
    refine ⟨s1, h1, hw1, he1, hlen1, hpo1, ?_, ?_⟩
    · intro vs hvs
      unfold SetIs at hvs
      rw [if_pos h0] at hvs
      exact ⟨[element], hset, by intro x; rw [hvs]; simp⟩
    · intro j hj hji vs hvs
      exact SetIs.of_frame F1 I.heap S hj (hst1 j hji) (fun _ => trivial) hvs
  · rw [if_neg h0]
    obtain ⟨hhlt, hho⟩ := S.start i hi h0
    have hseg := I.heap.list_chain _ hhlt hho
    have hloop := add_element_loop_spec I.heap.zero element (Nat.le_of_lt he) _ _
      (s.start_.getD i 0) s.data_.length hseg (hseg.length_lt I.heap.len_pos)
    rw [hloop]
    simp only [Option.some_bind]
    obtain ⟨hs1, hs2, hs3, hs4⟩ := split_sorted I.heap.zero he (L.elems (s.start_.getD i 0))
      (I.heap.list_sorted _ hhlt hho)
    have hcontent : ∀ vs, SetIs s i vs → vs = vals s.data_ (L.elems (s.start_.getD i 0)) := by
      intro vs hvs
      have := SetIs.unique hvs (SetIs.of_layout I.heap S hi)
      rw [this]; unfold Layout.content; rw [if_neg h0]
    by_cases hval : (rd s.data_ (((L.elems (s.start_.getD i 0)).dropWhile
        (fun n => decide ((rd s.data_ n).value < element))).headD 0)).value = element
    · rw [if_pos hval]
      refine ⟨s, rfl, ⟨L, I, S⟩, rfl, rfl, rfl, ?_, fun _ _ _ _ h => h⟩
      intro vs hvs
      refine ⟨vs, hvs, ?_⟩
      intro x
      rw [hcontent vs hvs]
      constructor
      · intro h; exact Or.inr h
      · rintro (rfl | h)
        · exact hs3 hval
        · exact h
    · rw [if_neg hval]
      have hlt : element < (rd s.data_ (((L.elems (s.start_.getD i 0)).dropWhile
          (fun n => decide ((rd s.data_ n).value < element))).headD 0)).value := by omega
      simp only [CPPAD_ASSERT_UNKNOWN, hlt, decide_True, if_true, Option.some_bind]
      have hrcv := I.heap.list_rc _ hhlt hho
      by_cases hone : (rd s.data_ (s.start_.getD i 0)).value = 1
      · rw [if_pos hone]
        obtain ⟨s1, h1, hw1, he1, hst1, hpo1, ⟨vs1, hvs1, hmem⟩, hfr⟩ :=
          add_element_insert_spec I S hi he rfl h0
            (List.takeWhile_append_dropWhile _ _).symm hs1 (hs4 hval) (by rw [← hrcv]; exact hone)
        refine ⟨s1, h1, hw1, he1, by rw [hst1], hpo1, ?_, hfr⟩
        intro vs hvs
        exact ⟨vs1, hvs1, by rw [hcontent vs hvs]; exact hmem⟩
      · rw [if_neg hone]
        obtain ⟨s1, h1, hw1, he1, hst1, hpo1, ⟨vs1, hvs1, hmem⟩, hfr⟩ :=
          add_element_separate_spec I S hi he rfl h0 rfl rfl (hs4 hval)
            (by rw [← hrcv]; exact hone)
        refine ⟨s1, h1, hw1, he1, hst1, hpo1, ?_, hfr⟩
        intro vs hvs
        exact ⟨vs1, hvs1, by rw [hcontent vs hvs]; exact hmem⟩

end CppAD


namespace CppAD

/-! ## `assignment` -/

/-- The end of `assignment`: the target is dropped and then starts at `h0`, a list
with one reference more than the number of sets that start there (or no list). -/
theorem assign_tail_spec {s : list_setvec} {L f} (I : Inv s L f []) (S : SetLink s L f)
    {target : Nat} (h0 : Nat) (ht : target < s.start_.length)
    (hh0 : h0 = 0 ∨ (h0 < s.data_.length ∧ L.own h0 = Owner.head ∧ f h0 = s.start_.count h0 + 1))
    (hf : ∀ k, k < s.data_.length → L.own k = Owner.head → k ≠ h0 → f k = s.start_.count k) :
    ∃ nd s1 L1, drop s target = some (nd, s1) ∧
      WF { s1 with number_not_used_ := s1.number_not_used_ + nd,
                   start_ := s1.start_.set target h0 } ∧
      Frame s L { s1 with number_not_used_ := s1.number_not_used_ + nd,
                          start_ := s1.start_.set target h0 } L1
        (fun k => k ≠ s.start_.getD target 0 ∨ f k ≠ 1) ∧
      Heap s1.data_ s1.end_ L1
        (fun k => (s1.start_.set target h0).count k) ∧
      s1.end_ = s.end_ ∧ s1.start_ = s.start_.set target 0 ∧ s1.post_ = s.post_.set target 0 ∧
      s1.temporary_ = s.temporary_ ∧
      SetIs { s1 with number_not_used_ := s1.number_not_used_ + nd,
                      start_ := s1.start_.set target h0 } target
        (if h0 = 0 then [] else vals s.data_ (L.elems h0)) ∧
      (∀ j, j ≠ target → ∀ vs, SetIs s j vs →
        SetIs { s1 with number_not_used_ := s1.number_not_used_ + nd,
                        start_ := s1.start_.set target h0 } j vs) := by
  obtain ⟨nd, s1, L1, hd, I1, S1, F1, he, hst, hpo, htmp, hlen, hback⟩ := drop_bump_spec I S ht
  have ht1 : target < s1.start_.length := by rw [hst]; simpa using ht
  have hcount : ∀ k, k ≠ 0 →
      ((s.start_.set target 0).set target h0).count k + (if s.start_.getD target 0 = k then 1 else 0)
        = s.start_.count k + (if h0 = k then 1 else 0) := by
    intro k hk
    have h1 := count_set s.start_ target 0 k ht
    have h2 := count_set (s.start_.set target 0) target h0 k (by simpa using ht)
    rw [getD_set_same _ _ ht] at h2
    rw [if_neg (Ne.symm hk)] at h1 h2
    omega
  have hkeep0 : h0 ≠ 0 → h0 ≠ s.start_.getD target 0 ∨ f h0 ≠ 1 := by
    intro hne
    rcases hh0 with h1 | ⟨_, _, h3⟩
    · exact absurd h1 hne
    · by_cases h4 : h0 = s.start_.getD target 0
      · right
        have := count_pos_of_getD ht h4.symm
        omega
      · exact Or.inl h4
  have hfeq : ∀ k, k < s1.data_.length → L1.own k = Owner.head →
      Function.update f (s.start_.getD target 0) (f (s.start_.getD target 0) - 1) k =
        ((s.start_.set target 0).set target h0).count k := by
    intro k hk hko
    have hko0 := hback k hko
    rw [hlen] at hk
    have hk0 : k ≠ 0 := I.heap.own_ne_zero (by rw [hko0]; simp)
    have h1 := hcount k hk0
    have hpos := I1.heap.rc_pos k (by show k < s1.data_.length; rw [hlen]; exact hk) hko
    by_cases hkh : k = h0
    · subst hkh
      rcases hh0 with h2 | ⟨_, _, h4⟩
      · exact absurd h2 hk0
      · rw [if_pos rfl] at h1
        by_cases hkt : k = s.start_.getD target 0
        · rw [hkt, Function.update_same]
          rw [← hkt, if_pos rfl] at h1
          rw [← hkt]; omega
        · rw [Function.update_noteq hkt]
          rw [if_neg (Ne.symm hkt)] at h1
          omega
    · have h5 := hf k hk hko0 hkh
      rw [if_neg (Ne.symm hkh)] at h1
      by_cases hkt : k = s.start_.getD target 0
      · rw [hkt, Function.update_same]
        rw [← hkt, if_pos rfl] at h1
        rw [← hkt]; omega
      · rw [Function.update_noteq hkt]
        rw [if_neg (Ne.symm hkt)] at h1
        omega
  have hh0own : h0 ≠ 0 → h0 < s1.data_.length ∧ L1.own h0 = Owner.head := by
    intro hne
    rcases hh0 with h1 | ⟨h2, h3, _⟩
    · exact absurd h1 hne
    · exact ⟨by rw [hlen]; exact h2, (F1.head h0 h2 h3 (hkeep0 hne)).1⟩
  have S2 : SetLink { s1 with number_not_used_ := s1.number_not_used_ + nd,
                              start_ := s1.start_.set target h0 } L1
      (Function.update f (s.start_.getD target 0) (f (s.start_.getD target 0) - 1)) := by
    refine ⟨?_, ?_, ?_, ?_, ?_⟩
    · show s1.post_.length = (s1.start_.set target h0).length
      rw [List.length_set]; exact S1.len
    · intro j hj
      have hj1 : j < s1.start_.length := by
        have : j < (s1.start_.set target h0).length := hj
        simpa using this
      exact S1.post j hj1
    · intro j hj
      have hj1 : s1.start_.length ≤ j := by
        have : (s1.start_.set target h0).length ≤ j := hj
        simpa using this
      exact S1.post_out j hj1
    · intro j hj hne
      have hj1 : j < s1.start_.length := by
        have : j < (s1.start_.set target h0).length := hj
        simpa using this
      have hne1 : (s1.start_.set target h0).getD j 0 ≠ 0 := hne
      show (s1.start_.set target h0).getD j 0 < s1.data_.length ∧
        L1.own ((s1.start_.set target h0).getD j 0) = Owner.head
      by_cases hjt : j = target
      · subst hjt
        rw [getD_set_same _ _ hj1] at hne1 ⊢
        exact hh0own hne1
      · rw [getD_set_ne _ _ hjt] at hne1 ⊢
        exact S1.start j hj1 hne1
    · intro k hk hko
      show (s1.start_.set target h0).count k ≤ _
      rw [hst, hfeq k hk hko]
  refine ⟨nd, s1, L1, hd, ?_, ?_, ?_, he, hst, hpo, htmp, ?_, ?_⟩
  · refine WF.intro (I1.of_fields rfl rfl rfl rfl) S2 ?_
    intro k hk hko
    show _ = (s1.start_.set target h0).count k
    rw [hst]; exact hfeq k hk hko
  · exact F1.frame_fields rfl rfl
  · rw [hst]
    exact I1.heap.f_congr_heap hfeq
  · unfold SetIs
    show (if (s1.start_.set target h0).getD target 0 = 0 then _ else _)
    rw [getD_set_same _ _ ht1]
    by_cases hz : h0 = 0
    · rw [if_pos hz, if_pos hz]
    · rw [if_neg hz, if_neg hz]
      rcases hh0 with h1 | ⟨h2, h3, _⟩
      · exact absurd h1 hz
      · obtain ⟨h4, h5, h6⟩ := F1.head h0 h2 h3 (hkeep0 hz)
        refine ⟨L.elems h0, ?_, ?_⟩
        · show Seg s1.data_ _ _ _
          rw [← h5]
          exact I1.heap.list_chain h0 (by rw [hlen]; exact h2) h4
        · show _ = vals s1.data_ _
          exact (vals_congr s.data_ s1.data_ (fun x hx => by
            rw [F1.elem h0 h2 h3 (hkeep0 hz) x hx])).symm
  · intro j hj vs hvs
    by_cases hjn : j < s.start_.length
    · have F2 : Frame s L { s1 with number_not_used_ := s1.number_not_used_ + nd,
                                    start_ := s1.start_.set target h0 } L1
          (fun k => k ≠ s.start_.getD target 0 ∨ f k ≠ 1) := F1.frame_fields rfl rfl
      refine SetIs.of_frame F2 I.heap S hjn ?_ ?_ hvs
      · show (s1.start_.set target h0).getD j 0 = _
        rw [getD_set_ne _ _ hj, hst, getD_set_ne _ _ hj]
      · intro hne
        by_cases h : s.start_.getD j 0 = s.start_.getD target 0
        · right
          have h1 := two_le_count ht hjn hj hne h.symm rfl
          obtain ⟨h2, h3⟩ := S.start j hjn hne
          have h4 := S.rc _ h2 h3
          omega
        · exact Or.inl h
    · unfold SetIs at hvs ⊢
      have h1 : s.start_.getD j 0 = 0 := by
        by_contra h; exact hjn (getD_lt_of_ne_zero h)
      have h2 : (s1.start_.set target h0).getD j 0 = 0 := by
        rw [getD_set_ne _ _ hj, hst, getD_set_ne _ _ hj]; exact h1
      rw [if_pos h1] at hvs
      show (if (s1.start_.set target h0).getD j 0 = 0 then _ else _)
      rw [if_pos h2]; exact hvs

end CppAD


namespace CppAD

/-! ## The copy loop of `assignment` -/

theorem Partial.partial_write_value {d : List pair_size_t} {k0 pn : Nat} {N : List Nat}
    (B : Partial d k0 N pn) (x v : Nat) : Partial (wr_value d x v) k0 N pn := by
  obtain ⟨hnd, M, hM, hseg⟩ := B
  exact ⟨hnd, M, hM, Seg.congr (by rw [length_wr_value]) (fun y _ => next_wr_value d x v y) hseg⟩

/-- One step of the copy loop: `tmp = get_data_index(); data_[pn].next = tmp`. -/
theorem build_link {s : list_setvec} {L f} {k0 pn : Nat} {N : List Nat}
    (I : Inv s L f (k0 :: N)) (B : Partial s.data_ k0 N pn) :
    ∃ k s1, get_data_index s = some (k, s1) ∧
      s1.end_ = s.end_ ∧ s1.start_ = s.start_ ∧ s1.post_ = s.post_ ∧
      s1.temporary_ = s.temporary_ ∧ k ≠ 0 ∧
      Inv { s1 with data_ := wr_next s1.data_ pn k } (L.alloc k) f (k0 :: (N ++ [k])) ∧
      Partial (wr_next s1.data_ pn k) k0 (N ++ [k]) k ∧
      (∀ x ∈ k0 :: N, (rd (wr_next s1.data_ pn k) x).value = (rd s.data_ x).value) ∧
      Ext s L { s1 with data_ := wr_next s1.data_ pn k } (L.alloc k) := by
  obtain ⟨k, s1, h1, I1, E1, hk0, hkP, hk1, he, hst, hpo, htmp, hrd, _⟩ := I.alloc
  have hpn := B.last_mem
  have hpn1 : pn ∈ (k0 :: N) ++ [k] := List.mem_append_left _ hpn
  have I2 := I1.write_next hpn1 k
  have hpnlt : pn < s1.data_.length := I1.pending_lt pn hpn1
  have hpn0 : pn ≠ 0 := I1.heap.own_ne_zero (by rw [I1.own_pending hpn1]; simp)
  have hold : ∀ x ∈ k0 :: N, x ≠ pn → rd (wr_next s1.data_ pn k) x = rd s.data_ x := by
    intro x hx hxp
    rw [rd_wr_next_ne _ _ hxp, hrd x (I.pending_lt x hx)]
  have holdv : ∀ x ∈ k0 :: N, (rd (wr_next s1.data_ pn k) x).value = (rd s.data_ x).value := by
    intro x hx
    rw [value_wr_next, hrd x (I.pending_lt x hx)]
  obtain ⟨hnd, M, hM, hseg⟩ := B
  refine ⟨k, s1, h1, he, hst, hpo, htmp, hk0, I2, ⟨?_, M ++ [pn], ?_, ?_⟩, holdv,
    E1.ext_write_next k (I1.own_pending hpn1)⟩
  · have : (k0 :: (N ++ [k])) = (k0 :: N) ++ [k] := rfl
    rw [this, List.nodup_append]
    refine ⟨hnd, by simp, ?_⟩
    intro x hx hx2
    simp at hx2; subst hx2; exact hkP hx
  · rw [← hM]; rfl
  · refine Seg.append.2 ⟨pn, ?_, ?_⟩
    · refine Seg.congr ?_ ?_ hseg
      · rw [length_wr_next]; exact E1.len
      · intro x hx
        have hxm : x ∈ k0 :: N := by rw [hM]; exact List.mem_append_left _ hx
        have hxp : x ≠ pn := by
          rintro rfl
          rw [hM, List.nodup_append] at hnd
          exact hnd.2.2 hx (List.mem_singleton_self _)
        rw [hold x hxm hxp]
    · refine ⟨rfl, hpn0, by rw [length_wr_next]; exact hpnlt, ?_⟩
      show (rd (wr_next s1.data_ pn k) pn).next = k
      rw [next_wr_next_same _ _ hpnlt]

/-- The copy loop of `assignment` appends the values of the other list to the list
under construction and closes it. -/
theorem assignment_loop_spec (od : List pair_size_t) : ∀ (ons : List Nat) (fuel : Nat)
    {s : list_setvec} {L f} {k0 pn : Nat} {N0 : List Nat} {next : Nat},
    ons ≠ [] → Seg od next ons 0 → ons.length < fuel →
    Inv s L f (k0 :: (N0 ++ [pn])) → Partial s.data_ k0 (N0 ++ [pn]) pn →
    ∃ s1 L1 N1, assignment_loop od fuel s pn next = some s1 ∧ Inv s1 L1 f (k0 :: N1) ∧
      N1 ≠ [] ∧ Seg s1.data_ (rd s1.data_ k0).next N1 0 ∧
      vals s1.data_ N1 = vals s.data_ N0 ++ vals od ons ∧
      (rd s1.data_ k0).value = (rd s.data_ k0).value ∧ Ext s L s1 L1 ∧
      s1.end_ = s.end_ ∧ s1.start_ = s.start_ ∧ s1.post_ = s.post_ ∧
      s1.temporary_ = s.temporary_
  | [], _, _, _, _, _, _, _, _, h, _, _, _, _ => absurd rfl h
  | _, 0, _, _, _, _, _, _, _, _, _, h, _, _ => absurd h (Nat.not_lt_zero _)
  | x :: rest, fuel + 1, s, L, f, k0, pn, N0, next, _, hseg, hfuel, I, B => by
    obtain ⟨rfl, hx0, hxlt, hrest⟩ := hseg
    have hpnm : pn ∈ k0 :: (N0 ++ [pn]) := B.last_mem
    have hpnlt : pn < s.data_.length := I.pending_lt pn hpnm
    have hpn0 : pn ≠ 0 := I.heap.own_ne_zero (by rw [I.own_pending hpnm]; simp)
    have Iv := I.write_value hpnm (rd od next).value
    have Bv : Partial (wr_value s.data_ pn (rd od next).value) k0 (N0 ++ [pn]) pn :=
      B.partial_write_value pn _
    have Ev : Ext s L { s with data_ := wr_value s.data_ pn (rd od next).value } L :=
      (Ext.refl s L).ext_write_value _ (I.own_pending hpnm)
    have hnd : (k0 :: (N0 ++ [pn])).Nodup := B.1
    have hpnN0 : pn ∉ N0 := by
      intro h
      have h1 := (List.nodup_cons.1 hnd).2
      rw [List.nodup_append] at h1
      exact h1.2.2 h (List.mem_singleton_self _)
    have hk0pn : k0 ≠ pn := by
      rintro rfl
      exact (List.nodup_cons.1 hnd).1 (by simp)
    have hvN0 : vals (wr_value s.data_ pn (rd od next).value) N0 = vals s.data_ N0 :=
      vals_congr _ _ (fun y hy => by
        rw [rd_wr_value_ne]
        rintro rfl; exact hpnN0 hy)
    have hvall : vals (wr_value s.data_ pn (rd od next).value) (N0 ++ [pn]) =
        vals s.data_ N0 ++ [(rd od next).value] := by
      simp only [vals, List.map_append, List.map_cons, List.map_nil]
      rw [value_wr_value_same _ _ hpnlt]
      congr 1
    have hk0v : (rd (wr_value s.data_ pn (rd od next).value) k0).value = (rd s.data_ k0).value := by
      rw [rd_wr_value_ne _ _ hk0pn]
    cases rest with
    | nil =>
      have hn1 : (rd od next).next = 0 := hrest
      have hfuel1 : 0 < fuel := by simp at hfuel; omega
      obtain ⟨fuel1, rfl⟩ : ∃ m, fuel = m + 1 := ⟨fuel - 1, by omega⟩
      obtain ⟨hsegF, hvF, hk0F⟩ := build_finish Bv (by simp)
        hpn0 (by rw [length_wr_value]; exact hpnlt)
      refine ⟨{ s with data_ := wr_next (wr_value s.data_ pn (rd od next).value) pn 0 }, L,
        N0 ++ [pn], ?_, Iv.write_next hpnm 0, by simp, hsegF, ?_, hk0F.trans hk0v,
        Ev.ext_write_next 0 (I.own_pending hpnm), rfl, rfl, rfl, rfl⟩
      · simp only [assignment_loop, hx0, hn1, ne_eq, not_false_eq_true, if_true, not_true_eq_false,
          if_false]
      · show vals (wr_next (wr_value s.data_ pn (rd od next).value) pn 0) (N0 ++ [pn]) = _
        rw [hvF, hvall]; simp [vals]
    | cons y rest1 =>
      have hy : (rd od next).next = y := hrest.1
      have hy0 : (rd od next).next ≠ 0 := by rw [hy]; exact hrest.2.1
      obtain ⟨k, s1, h1, he, hst, hpo, htmp, hk0, I2, B2, hv2, E2⟩ := build_link Iv Bv
      have hfuel2 : (y :: rest1).length < fuel := by simp at hfuel ⊢; omega
      have I2a : Inv { s1 with data_ := wr_next s1.data_ pn k } (Layout.alloc L k) f
          (k0 :: ((N0 ++ [pn]) ++ [k])) := I2
      obtain ⟨s3, L3, N3, h3, I3, hN3, hseg3, hv3, hk0v3, E3, he3, hst3, hpo3, htmp3⟩ :=
        assignment_loop_spec od (y :: rest1) fuel (by simp) hrest hfuel2 I2a B2
      refine ⟨s3, L3, N3, ?_, I3, hN3, hseg3, ?_, ?_, (Ev.trans E2).trans E3, he3.trans he,
        hst3.trans hst, hpo3.trans hpo, htmp3.trans htmp⟩
      · simp only [assignment_loop, hx0, hy0, ne_eq, not_false_eq_true, if_true, if_false]
        rw [h1]
        simp only [Option.bind_eq_bind, Option.some_bind]
        exact h3
      · rw [hv3]
        have h4 : vals (wr_next s1.data_ pn k) (N0 ++ [pn]) =
            vals s.data_ N0 ++ [(rd od next).value] := by
          rw [← hvall]
          exact vals_congr _ _ (fun z hz => hv2 z (List.mem_cons_of_mem _ hz))
        show vals (wr_next s1.data_ pn k) (N0 ++ [pn]) ++ _ = _
        rw [h4]; simp [vals]
      · rw [hk0v3]
        show (rd (wr_next s1.data_ pn k) k0).value = _
        rw [hv2 k0 (List.mem_cons_self _ _)]
        exact hk0v

end CppAD


namespace CppAD

/-- The sets of `s` still point at their lists after pending pairs became the list
of the new reference counter `k0`. -/
theorem SetLink.of_ext_adopt {s s5 : list_setvec} {L L5 f} {k0 : Nat} {N : List Nat}
    (S : SetLink s L f) (E : Ext s L s5 L5) (I5 : Inv s5 L5 f (k0 :: N))
    (hst : s5.start_ = s.start_) (hpo : s5.post_ = s.post_) (v : Nat) :
    SetLink s5 (L5.adopt k0 N) (Function.update f k0 v) ∧
      (∀ k, k < s5.data_.length → (L5.adopt k0 N).own k = Owner.head → k ≠ k0 →
        k < s.data_.length ∧ L.own k = Owner.head) ∧ s.start_.count k0 = 0 := by
  have hhead : ∀ k, k < s5.data_.length → (L5.adopt k0 N).own k = Owner.head → k ≠ k0 →
      k < s.data_.length ∧ L.own k = Owner.head := by
    intro k hk hko hkk
    have hkN : k ∉ N := by
      intro h; simp [Layout.adopt, hkk, h] at hko
    have h5 : L5.own k = Owner.head := by simpa [Layout.adopt, hkk, hkN] using hko
    obtain ⟨h6, h7⟩ := E.back k hk (by rw [h5]; simp)
    exact ⟨h6, h7.trans h5⟩
  have hstart : ∀ j, j < s.start_.length → s.start_.getD j 0 ≠ 0 →
      s.start_.getD j 0 < s.data_.length ∧ L5.own (s.start_.getD j 0) = Owner.head := by
    intro j hj hne
    obtain ⟨h5, h6⟩ := S.start j hj hne
    exact ⟨h5, (E.own _ h5 (by rw [h6]; simp) (by rw [h6]; simp)).trans h6⟩
  have hcount0 : s.start_.count k0 = 0 := by
    rw [List.count_eq_zero]
    intro hmem
    obtain ⟨j, hj, hjk⟩ := List.getElem_of_mem hmem
    have h1 : s.start_.getD j 0 = k0 := by
      rw [List.getD_eq_getElem?_getD, List.getElem?_eq_getElem hj, hjk]; rfl
    have hk0 : k0 ≠ 0 :=
      I5.heap.own_ne_zero (by rw [I5.own_pending (List.mem_cons_self _ _)]; simp)
    obtain ⟨_, h3⟩ := hstart j hj (by rw [h1]; exact hk0)
    rw [h1, I5.own_pending (List.mem_cons_self _ _)] at h3
    cases h3
  refine ⟨⟨?_, ?_, ?_, ?_, ?_⟩, hhead, hcount0⟩
  · rw [hpo, hst]; exact S.len
  · intro j hj
    rw [hst] at hj
    show s5.post_.getD j 0 = (L5.posts j).headD 0
    rw [hpo, E.posts]; exact S.post j hj
  · intro j hj
    rw [hst] at hj
    show L5.posts j = []
    rw [E.posts]; exact S.post_out j hj
  · intro j hj hne
    rw [hst] at hj hne ⊢
    obtain ⟨h5, h6⟩ := hstart j hj hne
    refine ⟨Nat.lt_of_lt_of_le h5 E.len, ?_⟩
    have h7 : s.start_.getD j 0 ≠ k0 := by
      intro h
      rw [h, I5.own_pending (List.mem_cons_self _ _)] at h6; cases h6
    have h8 : s.start_.getD j 0 ∉ N := by
      intro h
      rw [I5.own_pending (List.mem_cons_of_mem _ h)] at h6; cases h6
    show (if s.start_.getD j 0 = k0 then Owner.head
      else if s.start_.getD j 0 ∈ N then Owner.elem k0 else L5.own (s.start_.getD j 0)) = _
    rw [if_neg h7, if_neg h8]; exact h6
  · intro k hk hko
    rw [hst]
    by_cases hkk : k = k0
    · subst hkk
      rw [hcount0]; exact Nat.zero_le _
    · rw [Function.update_noteq hkk]
      obtain ⟨h1, h2⟩ := hhead k hk hko hkk
      exact S.rc k h1 h2

/-- The copy of a list of another object: two pairs are taken, the loop copies the
values, and the result is a new list with one reference that no set points at yet. -/
theorem copy_list_spec {s : list_setvec} {L f} (I : Inv s L f []) (S : SetLink s L f)
    {od : List pair_size_t} {ostart : Nat} {ons : List Nat}
    (hseg : Seg od (rd od ostart).next ons 0) (hne : ons ≠ [])
    (hsort : (vals od ons).Pairwise (· < ·)) (hval : ∀ v ∈ vals od ons, v < s.end_)
    (hlen : ons.length < od.length) :
    ∃ k0 sA k1 sB s5 L5, get_data_index s = some (k0, sA) ∧ get_data_index sA = some (k1, sB) ∧
      assignment_loop od od.length
        { sB with data_ := wr_next (wr_value sB.data_ k0 1) k0 k1 } k1 (rd od ostart).next
          = some s5 ∧
      Inv s5 L5 (Function.update f k0 1) [] ∧ SetLink s5 L5 (Function.update f k0 1) ∧
      k0 ≠ 0 ∧ k0 < s5.data_.length ∧ L5.own k0 = Owner.head ∧ s.start_.count k0 = 0 ∧
      vals s5.data_ (L5.elems k0) = vals od ons ∧ Frame s L s5 L5 (fun _ => True) ∧
      (∀ k, k < s5.data_.length → L5.own k = Owner.head → k ≠ k0 →
        k < s.data_.length ∧ L.own k = Owner.head) ∧
      s5.end_ = s.end_ ∧ s5.start_ = s.start_ ∧ s5.post_ = s.post_ ∧
      s5.temporary_ = s.temporary_ := by
  obtain ⟨k0, sA, h1, IA, EA, hk0, _, hk0lt, heA, hstA, hpoA, htmpA, hrdA, _⟩ := I.alloc
  obtain ⟨k1, sB, h2, IB, EB, hk1, hk1P, hk1lt, heB, hstB, hpoB, htmpB, hrdB, _⟩ := IA.alloc
  have hk0m : k0 ∈ (([] : List Nat) ++ [k0]) ++ [k1] := by simp
  have hk0ltB : k0 < sB.data_.length := IB.pending_lt k0 hk0m
  have hk01 : k1 ≠ k0 := by
    rintro rfl; exact hk1P (by simp)
  have I4 : Inv { sB with data_ := wr_next (wr_value sB.data_ k0 1) k0 k1 }
      ((L.alloc k0).alloc k1) f (k0 :: ([] ++ [k1])) :=
    (IB.write_value hk0m 1).write_next hk0m k1
  have B4 : Partial (wr_next (wr_value sB.data_ k0 1) k0 k1) k0 ([] ++ [k1]) k1 := by
    refine ⟨by simp [Ne.symm hk01], [k0], rfl, rfl, hk0, ?_, ?_⟩
    · rw [length_wr_next, length_wr_value]; exact hk0ltB
    · show (rd (wr_next (wr_value sB.data_ k0 1) k0 k1) k0).next = k1
      rw [next_wr_next_same]
      rw [length_wr_value]; exact hk0ltB
  obtain ⟨s5, L5, N5, h5, I5, hN5, hseg5, hv5, hk0v5, E5, he5, hst5, hpo5, htmp5⟩ :=
    assignment_loop_spec od ons od.length hne hseg hlen I4 B4
  have hv5a : vals s5.data_ N5 = vals od ons := by rw [hv5]; simp [vals]
  have hval1 : (rd s5.data_ k0).value = 1 := by
    rw [hk0v5]
    show (rd (wr_next (wr_value sB.data_ k0 1) k0 k1) k0).value = 1
    rw [value_wr_next, value_wr_value_same _ _ hk0ltB]
  have I6 := I5.adopt hseg5 hN5 (by rw [hv5a]; exact hsort)
    (by
      intro x hx
      have : (rd s5.data_ x).value ∈ vals s5.data_ N5 := List.mem_map_of_mem _ hx
      rw [hv5a] at this
      rw [he5]
      show _ < sB.end_
      rw [heB, heA]
      exact hval _ this)
    (by rw [hval1]; exact Nat.one_pos)
  rw [hval1] at I6
  have E4 : Ext s L { sB with data_ := wr_next (wr_value sB.data_ k0 1) k0 k1 }
      ((L.alloc k0).alloc k1) :=
    ((EA.trans EB).ext_write_value 1 (IB.own_pending hk0m)).ext_write_next k1
      (IB.own_pending hk0m)
  have E6 : Ext s L s5 L5 := E4.trans E5
  have hst6 : s5.start_ = s.start_ := by
    rw [hst5]; show sB.start_ = _; rw [hstB, hstA]
  have hpo6 : s5.post_ = s.post_ := by
    rw [hpo5]; show sB.post_ = _; rw [hpoB, hpoA]
  obtain ⟨S6, hhead, hc0⟩ := S.of_ext_adopt E6 I5 hst6 hpo6 1
  refine ⟨k0, sA, k1, sB, s5, L5.adopt k0 N5, h1, h2, h5, I6, S6, hk0,
    I5.pending_lt k0 (List.mem_cons_self _ _), by simp [Layout.adopt], hc0, ?_, ?_, hhead,
    ?_, hst6, hpo6, ?_⟩
  · show vals s5.data_ (Function.update L5.elems k0 N5 k0) = _
    rw [Function.update_same]; exact hv5a
  · exact (E6.frame I.heap (fun _ => True)).frame_trans (Frame.of_adopt I5 (fun _ => True))
      (fun _ _ => trivial)
  · rw [he5]; show sB.end_ = _; rw [heB, heA]
  · rw [htmp5]; show sB.temporary_ = _; rw [htmpB, htmpA]

end CppAD


namespace CppAD

theorem Frame.of_write_rc {s : list_setvec} {L f} (H : Heap s.data_ s.end_ L f) (h v : Nat)
    (ho : L.own h = Owner.head) (keep : Nat → Prop) :
    Frame s L { s with data_ := wr_value s.data_ h v } L keep := by
  refine ⟨by show _ ≤ (wr_value s.data_ h v).length; rw [length_wr_value], ?_, ?_⟩
  · intro k _ hk _
    exact ⟨hk, rfl, next_wr_value _ _ _ _⟩
  · intro k hk hko _ x hx
    show rd (wr_value s.data_ h v) x = _
    rw [rd_wr_value_ne]
    rintro rfl
    rw [H.list_own k hk hko x hx] at ho
    cases ho

/-- Specification of `assignment`: set `target` becomes equal to set `source` of the
other object and the other sets keep their elements. -/
theorem assignment_spec {s : list_setvec} (hw : WF s) {target source : Nat}
    (other : Option list_setvec) (ho : ∀ o, other = some o → WF o ∧ o.end_ = s.end_)
    (ht : target < s.start_.length) (hs : source < (other.getD s).start_.length)
    (hp : (other.getD s).post_.getD source 0 = 0) :
    ∃ s1, assignment s target source other = some s1 ∧ WF s1 ∧ s1.end_ = s.end_ ∧
      s1.start_.length = s.start_.length ∧ s1.post_ = s.post_.set target 0 ∧
      s1.temporary_ = s.temporary_ ∧
      (∀ vs, SetIs (other.getD s) source vs → SetIs s1 target vs) ∧
      (∀ j, j ≠ target → ∀ vs, SetIs s j vs → SetIs s1 j vs) := by
  obtain ⟨L, I, S⟩ := id hw
  cases other with
  | none =>
    simp only [Option.getD_none] at hs hp ⊢
    by_cases hts : target = source
    · subst hts
      refine ⟨s, ?_, hw, rfl, rfl, ?_, rfl, fun vs h => h, fun j _ vs h => h⟩
      · simp only [assignment, Option.getD_none, hp, hs, CPPAD_ASSERT_UNKNOWN, decide_True,
          if_true, Option.bind_eq_bind, Option.some_bind, Option.isNone_none, and_self]
      · rw [← hp, set_getD_self]
    · by_cases h0 : s.start_.getD source 0 = 0
      · obtain ⟨nd, s1, L1, hd, hw1, F1, H1, he, hst, hpo, htmp, hc, hoth⟩ :=
          assign_tail_spec I S (s.start_.getD source 0) ht (Or.inl h0) (fun k _ _ _ => rfl)
        refine ⟨_, ?_, hw1, he, ?_, hpo, htmp, ?_, hoth⟩
        · simp only [assignment, Option.getD_none, hp, hs, ht, CPPAD_ASSERT_UNKNOWN,
            decide_True, if_true, Option.bind_eq_bind, Option.some_bind, Option.isNone_none,
            hts, and_false, if_false, h0, ne_eq, not_true_eq_false, hd, true_and]
        · show (s1.start_.set target _).length = _
          rw [List.length_set, hst, List.length_set]
        · intro vs hvs
          rw [if_pos h0] at hc
          unfold SetIs at hvs
          rw [if_pos h0] at hvs
          rw [hvs]; exact hc
      · obtain ⟨hh, hown⟩ := S.start source hs h0
        have hrc := I.heap.list_rc _ hh hown
        have hpos := count_pos_of_getD hs rfl (l := s.start_)
        generalize hg : s.start_.getD source 0 = h at hh hown hrc hpos h0
        have hrc1 : (rd s.data_ h).value = s.start_.count h := hrc
        have I1 := I.write_rc hh hown (s.start_.count h + 1) (Nat.succ_pos _)
        have S1 : SetLink { s with data_ := wr_value s.data_ h (s.start_.count h + 1) } L
            (Function.update (fun h => s.start_.count h) h (s.start_.count h + 1)) := by
          refine ⟨S.len, S.post, S.post_out, ?_, ?_⟩
          · intro j hj hne
            obtain ⟨h1, h2⟩ := S.start j hj hne
            exact ⟨by show _ < (wr_value _ _ _).length; rw [length_wr_value]; exact h1, h2⟩
          · intro k _ _
            show s.start_.count k ≤ _
            by_cases hk : k = h
            · subst hk
              rw [Function.update_same]
              exact Nat.le_succ _
            · rw [Function.update_noteq hk]
        obtain ⟨nd, s1, L1, hd, hw1, F1, H1, he, hst, hpo, htmp, hc, hoth⟩ :=
          assign_tail_spec I1 S1 h ht
            (Or.inr ⟨by show _ < (wr_value _ _ _).length; rw [length_wr_value]; exact hh, hown,
              by rw [Function.update_same]⟩)
            (fun k _ _ hk => by rw [Function.update_noteq hk])
        have FW := Frame.of_write_rc I.heap h (s.start_.count h + 1) hown (fun _ => True)
        refine ⟨_, ?_, hw1, he, ?_, hpo, htmp, ?_, ?_⟩
        · simp only [assignment, Option.getD_none, hp, hs, ht, CPPAD_ASSERT_UNKNOWN,
            decide_True, if_true, Option.bind_eq_bind, Option.some_bind, Option.isNone_none,
            hts, and_false, if_false, hg, h0, ne_eq, not_false_eq_true, true_and, hrc1]
          rw [if_pos]
          · simp only [Option.some_bind, hd]
          · rw [value_wr_value_same _ _ hh]
            simp only [gt_iff_lt, decide_eq_true_eq]
            omega
        · show (s1.start_.set target _).length = _
          rw [List.length_set, hst, List.length_set]
        · intro vs hvs
          rw [if_neg h0] at hc
          have h1 := SetIs.unique hvs (SetIs.of_layout I.heap S hs)
          rw [h1]
          unfold Layout.content
          rw [hg, if_neg h0]
          have h2 : vals (wr_value s.data_ h (s.start_.count h + 1)) (L.elems h) =
              vals s.data_ (L.elems h) :=
            vals_congr _ _ (fun x hx => by rw [FW.elem _ hh hown trivial x hx])
          rw [← h2]; exact hc
        · intro j hj vs hvs
          refine hoth j hj vs ?_
          by_cases hjn : j < s.start_.length
          · exact SetIs.of_frame FW I.heap S hjn rfl (fun _ => trivial) hvs
          · have h1 : s.start_.getD j 0 = 0 := by
              by_contra h; exact hjn (getD_lt_of_ne_zero h)
            unfold SetIs at hvs ⊢
            rw [if_pos h1] at hvs
            show (if s.start_.getD j 0 = 0 then _ else _)
            rw [if_pos h1]; exact hvs
  | some o =>
    obtain ⟨hwo, heo⟩ := ho o rfl
    simp only [Option.getD_some] at hs hp ⊢
    obtain ⟨Lo, Io, So⟩ := id hwo
    by_cases h0 : o.start_.getD source 0 = 0
    · obtain ⟨nd, s1, L1, hd, hw1, F1, H1, he, hst, hpo, htmp, hc, hoth⟩ :=
        assign_tail_spec I S 0 ht (Or.inl rfl) (fun k _ _ _ => rfl)
      refine ⟨_, ?_, hw1, he, ?_, hpo, htmp, ?_, hoth⟩
      · simp only [assignment, Option.getD_some, hp, hs, ht, heo, CPPAD_ASSERT_UNKNOWN,
          decide_True, if_true, Option.bind_eq_bind, Option.some_bind, Option.isNone_some,
          false_and, if_false, h0, hd, Bool.false_eq_true]
      · show (s1.start_.set target _).length = _
        rw [List.length_set, hst, List.length_set]
      · intro vs hvs
        rw [if_pos rfl] at hc
        unfold SetIs at hvs
        rw [if_pos h0] at hvs
        rw [hvs]; exact hc
    · obtain ⟨hh, hown⟩ := So.start source hs h0
      have hseg := Io.heap.list_chain _ hh hown
      have hne := Io.heap.list_ne _ hh hown
      have hsort := Io.heap.list_sorted _ hh hown
      have hval : ∀ v ∈ vals o.data_ (Lo.elems (o.start_.getD source 0)), v < s.end_ := by
        intro v hv
        obtain ⟨x, hx, rfl⟩ := List.mem_map.1 hv
        rw [← heo]
        exact Io.heap.list_val _ hh hown x hx
      obtain ⟨k0, sA, k1, sB, s5, L5, h1, h2, h5, I5, S5, hk0, hk0lt, hk0o, hc0, hv5, F5, hhead,
          he5, hst5, hpo5, htmp5⟩ :=
        copy_list_spec I S hseg hne hsort hval (hseg.length_lt Io.heap.len_pos)
      have ht5 : target < s5.start_.length := by rw [hst5]; exact ht
      obtain ⟨nd, s1, L1, hd, hw1, F1, H1, he, hst, hpo, htmp, hc, hoth⟩ :=
        assign_tail_spec I5 S5 k0 ht5
          (Or.inr ⟨hk0lt, hk0o, by rw [Function.update_same, hst5, hc0]⟩)
          (fun k _ _ hk => by rw [Function.update_noteq hk, hst5])
      have hnext : (rd o.data_ (o.start_.getD source 0)).next ≠ 0 := by
        cases hl : Lo.elems (o.start_.getD source 0) with
        | nil => exact absurd hl hne
        | cons a l =>
          rw [hl] at hseg
          rw [hseg.1]; exact hseg.2.1
      refine ⟨_, ?_, hw1, he.trans he5, ?_, ?_, htmp.trans htmp5, ?_, ?_⟩
      · simp only [assignment, Option.getD_some, hp, hs, ht, heo, CPPAD_ASSERT_UNKNOWN,
          decide_True, if_true, Option.bind_eq_bind, Option.some_bind, Option.isNone_some,
          false_and, if_false, h0, Bool.false_eq_true, h1, h2, hnext, ne_eq,
          not_false_eq_true]
        rw [h5]
        simp only [Option.some_bind, hd]
      · show (s1.start_.set target _).length = _
        rw [List.length_set, hst, List.length_set, hst5]
      · rw [hpo, hpo5]
      · intro vs hvs
        rw [if_neg hk0, hv5] at hc
        have h3 := SetIs.unique hvs (SetIs.of_layout Io.heap So hs)
        rw [h3]
        unfold Layout.content
        rw [if_neg h0]; exact hc
      · intro j hj vs hvs
        refine hoth j hj vs ?_
        by_cases hjn : j < s.start_.length
        · exact SetIs.of_frame F5 I.heap S hjn (by rw [hst5]) (fun _ => trivial) hvs
        · have h1 : s.start_.getD j 0 = 0 := by
            by_contra h; exact hjn (getD_lt_of_ne_zero h)
          unfold SetIs at hvs ⊢
          rw [if_pos h1] at hvs
          rw [hst5, if_pos h1]; exact hvs

end CppAD


namespace CppAD

/-! ## The merge loops -/

theorem union_loop_eq (d od : List pair_size_t) (e : Nat) : ∀ (fuel : Nat) (m : merge_state),
    union_loop d od e fuel m = merge_loop true true d od e fuel m
  | 0, _ => rfl
  | fuel + 1, m => by
    unfold union_loop merge_loop
    simp only [union_loop_eq d od e fuel, if_true]

theorem intersection_loop_eq (d od : List pair_size_t) (e : Nat) :
    ∀ (fuel : Nat) (m : merge_state),
    intersection_loop d od e fuel m = merge_loop false false d od e fuel m
  | 0, _ => rfl
  | fuel + 1, m => by
    unfold intersection_loop merge_loop
    simp only [intersection_loop_eq d od e fuel, Bool.false_eq_true, if_false]

theorem vals_append (d : List pair_size_t) (a b : List Nat) :
    vals d (a ++ b) = vals d a ++ vals d b := by
  simp [vals]

theorem vals_cons (d : List pair_size_t) (a : Nat) (b : List Nat) :
    vals d (a :: b) = (rd d a).value :: vals d b := rfl

theorem merge_at_nil_left (d od : List pair_size_t) {e : Nat} (hz : rd d 0 = ⟨e, 0⟩)
    (pL pR : Bool) (fuel : Nat) (T nr : List Nat) (ls rs : Bool) :
    merge_loop pL pR d od e (fuel + 1) (merge_at d od T [] nr ls rs) =
      some (merge_at d od T [] nr ls rs) := by
  unfold merge_loop
  have : (merge_at d od T [] nr ls rs).value_left = e := by
    show (rd d 0).value = e
    rw [hz]
  rw [if_neg]
  rw [this]; omega

theorem merge_at_nil_right (d od : List pair_size_t) {e : Nat} (hz : rd od 0 = ⟨e, 0⟩)
    (pL pR : Bool) (fuel : Nat) (T nl : List Nat) (ls rs : Bool) :
    merge_loop pL pR d od e (fuel + 1) (merge_at d od T nl [] ls rs) =
      some (merge_at d od T nl [] ls rs) := by
  unfold merge_loop
  have : (merge_at d od T nl [] ls rs).value_right = e := by
    show (rd od 0).value = e
    rw [hz]
  rw [if_neg]
  rw [this]; omega

theorem merge_step_eq (pL pR : Bool) (d od : List pair_size_t) {e : Nat} (fuel : Nat)
    (T : List Nat) {x y : Nat} {nl nr : List Nat} (ls rs : Bool)
    (hl : Seg d (rd d x).next nl 0) (hr : Seg od (rd od y).next nr 0)
    (ha : (rd d x).value < e) (hab : (rd d x).value = (rd od y).value) :
    merge_loop pL pR d od e (fuel + 1) (merge_at d od T (x :: nl) (y :: nr) ls rs) =
      merge_loop pL pR d od e fuel (merge_at d od (T ++ [(rd d x).value]) nl nr ls rs) := by
  have hb : (rd od y).value < e := by rw [← hab]; exact ha
  conv => lhs; unfold merge_loop
  simp only [merge_at, List.headD_cons, ha, hb, and_self, if_true, hab]
  rw [hl.start, hr.start]

theorem merge_step_lt (pL pR : Bool) (d od : List pair_size_t) {e : Nat} (fuel : Nat)
    (T : List Nat) {x y : Nat} {nl nr : List Nat} (ls rs : Bool)
    (hl : Seg d (rd d x).next nl 0)
    (hb : (rd od y).value < e) (hab : (rd d x).value < (rd od y).value) :
    merge_loop pL pR d od e (fuel + 1) (merge_at d od T (x :: nl) (y :: nr) ls rs) =
      merge_loop pL pR d od e fuel
        (merge_at d od (if pL then T ++ [(rd d x).value] else T) nl (y :: nr) false rs) := by
  have ha : (rd d x).value < e := hab.trans hb
  conv => lhs; unfold merge_loop
  simp only [merge_at, List.headD_cons, ha, hb, and_self, if_true, hab, Nat.ne_of_lt hab, if_false]
  rw [hl.start]

theorem merge_step_gt (pL pR : Bool) (d od : List pair_size_t) {e : Nat} (fuel : Nat)
    (T : List Nat) {x y : Nat} {nl nr : List Nat} (ls rs : Bool)
    (hr : Seg od (rd od y).next nr 0)
    (ha : (rd d x).value < e) (hab : (rd od y).value < (rd d x).value) :
    merge_loop pL pR d od e (fuel + 1) (merge_at d od T (x :: nl) (y :: nr) ls rs) =
      merge_loop pL pR d od e fuel
        (merge_at d od (if pR then T ++ [(rd od y).value] else T) (x :: nl) nr ls false) := by
  have hb : (rd od y).value < e := hab.trans ha
  conv => lhs; unfold merge_loop
  simp only [merge_at, List.headD_cons, ha, hb, and_self, if_true, Nat.ne_of_gt hab,
    Nat.lt_asymm hab, if_false]
  rw [hr.start]

theorem MergeOut.nil (pL pR : Bool) (RA RB : List Nat) (ls rs : Bool) :
    MergeOut pL pR [] [] RA RB [] ls rs ls rs := by
  refine ⟨by simp, by simp, by simp, by simp, by simp⟩

theorem MergeOut.step_eq {pL pR : Bool} {CA CB RA RB T1 : List Nat} {ls rs ls1 rs1 : Bool}
    {a : Nat} (h1 : ∀ y ∈ CA ++ RA, a < y) (h2 : ∀ y ∈ CB ++ RB, a < y)
    (h : MergeOut pL pR CA CB RA RB T1 ls rs ls1 rs1) :
    MergeOut pL pR (a :: CA) (a :: CB) RA RB (a :: T1) ls rs ls1 rs1 := by
  obtain ⟨hb, hc, hd, hl, hr⟩ := h
  simp only [List.mem_append] at h1 h2 hb
  refine ⟨?_, ?_, ?_, ?_, ?_⟩
  · intro u hu y hy
    simp only [List.mem_append, List.mem_cons] at hu hy
    rcases hu with (rfl | hu) | (rfl | hu)
    · rcases hy with hy | hy
      · exact h1 y (Or.inr hy)
      · exact h2 y (Or.inr hy)
    · exact hb u (Or.inl hu) y hy
    · rcases hy with hy | hy
      · exact h1 y (Or.inr hy)
      · exact h2 y (Or.inr hy)
    · exact hb u (Or.inr hu) y hy
  · refine List.pairwise_cons.2 ⟨?_, hc⟩
    intro x hx
    rcases (hd x).1 hx with ⟨h3, _⟩ | ⟨h3, _⟩
    · exact h1 x (Or.inl h3)
    · exact h2 x (Or.inl h3)
  · intro x
    simp only [List.mem_cons, hd x]
    constructor
    · rintro (rfl | ⟨h3, h4⟩ | ⟨h3, h4⟩)
      · exact Or.inl ⟨Or.inl rfl, Or.inr (Or.inl rfl)⟩
      · exact Or.inl ⟨Or.inr h3, h4.imp id Or.inr⟩
      · exact Or.inr ⟨Or.inr h3, h4.imp id Or.inr⟩
    · rintro (⟨rfl | h3, h4⟩ | ⟨rfl | h3, h4⟩)
      · exact Or.inl rfl
      · rcases h4 with h4 | rfl | h4
        · exact Or.inr (Or.inl ⟨h3, Or.inl h4⟩)
        · exact Or.inl rfl
        · exact Or.inr (Or.inl ⟨h3, Or.inr h4⟩)
      · exact Or.inl rfl
      · rcases h4 with h4 | rfl | h4
        · exact Or.inr (Or.inr ⟨h3, Or.inl h4⟩)
        · exact Or.inl rfl
        · exact Or.inr (Or.inr ⟨h3, Or.inr h4⟩)
  · rw [hl]
    refine and_congr_right fun _ => ?_
    constructor
    · intro h3 x hx
      rcases List.mem_cons.1 hx with rfl | hx
      · exact List.mem_cons_self _ _
      · exact List.mem_cons_of_mem _ (h3 x hx)
    · intro h3 x hx
      rcases List.mem_cons.1 (h3 x (List.mem_cons_of_mem _ hx)) with rfl | h4
      · exact absurd (h1 x (Or.inl hx)) (Nat.lt_irrefl _)
      · exact h4
  · rw [hr]
    refine and_congr_right fun _ => ?_
    constructor
    · intro h3 x hx
      rcases List.mem_cons.1 hx with rfl | hx
      · exact List.mem_cons_self _ _
      · exact List.mem_cons_of_mem _ (h3 x hx)
    · intro h3 x hx
      rcases List.mem_cons.1 (h3 x (List.mem_cons_of_mem _ hx)) with rfl | h4
      · exact absurd (h2 x (Or.inl hx)) (Nat.lt_irrefl _)
      · exact h4

theorem MergeOut.step_lt {pL pR : Bool} {CA CB RA RB T1 : List Nat} {ls rs ls1 rs1 : Bool}
    {a : Nat} (h1 : ∀ y ∈ CA ++ RA, a < y) (h2 : ∀ y ∈ CB ++ RB, a < y)
    (h : MergeOut pL pR CA CB RA RB T1 false rs ls1 rs1) :
    MergeOut pL pR (a :: CA) CB RA RB ((if pL = true then [a] else []) ++ T1) ls rs ls1 rs1 := by
  obtain ⟨hb, hc, hd, hl, hr⟩ := h
  simp only [List.mem_append] at h1 h2 hb
  have haCB : a ∉ CB := fun h3 => absurd (h2 a (Or.inl h3)) (Nat.lt_irrefl _)
  refine ⟨?_, ?_, ?_, ?_, ?_⟩
  · intro u hu y hy
    simp only [List.mem_append, List.mem_cons] at hu hy
    rcases hu with (rfl | hu) | hu
    · rcases hy with hy | hy
      · exact h1 y (Or.inr hy)
      · exact h2 y (Or.inr hy)
    · exact hb u (Or.inl hu) y hy
    · exact hb u (Or.inr hu) y hy
  · have h5 : ∀ x ∈ T1, a < x := by
      intro x hx
      rcases (hd x).1 hx with ⟨h3, _⟩ | ⟨h3, _⟩
      · exact h1 x (Or.inl h3)
      · exact h2 x (Or.inl h3)
    cases pL
    · simpa using hc
    · simpa using ⟨h5, hc⟩
  · intro x
    rw [List.mem_append, hd x]
    constructor
    · rintro (h3 | ⟨h3, h4⟩ | ⟨h3, h4⟩)
      · cases pL
        · simp at h3
        · simp at h3; subst h3
          exact Or.inl ⟨List.mem_cons_self _ _, Or.inl rfl⟩
      · exact Or.inl ⟨List.mem_cons_of_mem _ h3, h4⟩
      · exact Or.inr ⟨h3, h4.imp id (List.mem_cons_of_mem _)⟩
    · rintro (⟨h3, h4⟩ | ⟨h3, h4⟩)
      · rcases List.mem_cons.1 h3 with rfl | h3
        · rcases h4 with h4 | h4
          · left; rw [if_pos h4]; simp
          · exact absurd h4 haCB
        · exact Or.inr (Or.inl ⟨h3, h4⟩)
      · rcases h4 with h4 | h4
        · exact Or.inr (Or.inr ⟨h3, Or.inl h4⟩)
        · rcases List.mem_cons.1 h4 with rfl | h4
          · exact absurd h3 haCB
          · exact Or.inr (Or.inr ⟨h3, Or.inr h4⟩)
  · constructor
    · intro h3
      have := hl.1 h3
      simp at this
    · rintro ⟨_, h3⟩
      exact absurd (h3 a (List.mem_cons_self _ _)) haCB
  · rw [hr]
    refine and_congr_right fun _ => ?_
    constructor
    · intro h3 x hx
      exact List.mem_cons_of_mem _ (h3 x hx)
    · intro h3 x hx
      rcases List.mem_cons.1 (h3 x hx) with rfl | h4
      · exact absurd hx haCB
      · exact h4


theorem MergeOut.swap {pL pR : Bool} {CA CB RA RB T1 : List Nat} {ls rs ls1 rs1 : Bool}
    (h : MergeOut pL pR CA CB RA RB T1 ls rs ls1 rs1) :
    MergeOut pR pL CB CA RB RA T1 rs ls rs1 ls1 := by
  obtain ⟨hb, hc, hd, hl, hr⟩ := h
  refine ⟨?_, hc, ?_, hr, hl⟩
  · intro u hu y hy
    simp only [List.mem_append] at hu hy
    exact hb u (List.mem_append.2 hu.symm) y (List.mem_append.2 hy.symm)
  · intro x
    rw [hd x]
    exact Or.comm

theorem MergeOut.step_gt {pL pR : Bool} {CA CB RA RB T1 : List Nat} {ls rs ls1 rs1 : Bool}
    {b : Nat} (h1 : ∀ y ∈ CA ++ RA, b < y) (h2 : ∀ y ∈ CB ++ RB, b < y)
    (h : MergeOut pL pR CA CB RA RB T1 ls false ls1 rs1) :
    MergeOut pL pR CA (b :: CB) RA RB ((if pR = true then [b] else []) ++ T1) ls rs ls1 rs1 :=
  (MergeOut.step_lt h2 h1 h.swap).swap

/-- The merge loop consumes a prefix of each operand until one of them is at its
end. -/
theorem merge_loop_spec (pL pR : Bool) {d od : List pair_size_t} {e : Nat}
    (hz : rd d 0 = ⟨e, 0⟩) (hzo : rd od 0 = ⟨e, 0⟩) :
    ∀ (fuel : Nat) (nl nr T : List Nat) (ls rs : Bool),
    Seg d (nl.headD 0) nl 0 → Seg od (nr.headD 0) nr 0 →
    (vals d nl).Pairwise (· < ·) → (vals od nr).Pairwise (· < ·) →
    (∀ v ∈ vals d nl, v < e) → (∀ v ∈ vals od nr, v < e) →
    nl.length + nr.length < fuel →
    ∃ cl cr nl1 nr1 T1 ls1 rs1,
      merge_loop pL pR d od e fuel (merge_at d od T nl nr ls rs) =
        some (merge_at d od (T ++ T1) nl1 nr1 ls1 rs1) ∧
      nl = cl ++ nl1 ∧ nr = cr ++ nr1 ∧ (nl1 = [] ∨ nr1 = []) ∧
      MergeOut pL pR (vals d cl) (vals od cr) (vals d nl1) (vals od nr1) T1 ls rs ls1 rs1
  | 0, _, _, _, _, _, _, _, _, _, _, _, hf => absurd hf (Nat.not_lt_zero _)
  | fuel + 1, [], nr, T, ls, rs, _, _, _, _, _, _, _ =>
    ⟨[], [], [], nr, [], ls, rs, by rw [merge_at_nil_left d od hz]; simp, rfl, rfl, Or.inl rfl,
      MergeOut.nil pL pR _ _ ls rs⟩
  | fuel + 1, x :: nl, [], T, ls, rs, _, _, _, _, _, _, _ =>
    ⟨[], [], x :: nl, [], [], ls, rs, by rw [merge_at_nil_right d od hzo]; simp, rfl, rfl,
      Or.inr rfl, MergeOut.nil pL pR _ _ ls rs⟩
  | fuel + 1, x :: nl, y :: nr, T, ls, rs, hl, hr, hsl, hsr, hvl, hvr, hf => by
    have hl1 : Seg d (nl.headD 0) nl 0 := by rw [← hl.2.2.2.start]; exact hl.2.2.2
    have hr1 : Seg od (nr.headD 0) nr 0 := by rw [← hr.2.2.2.start]; exact hr.2.2.2
    rw [vals_cons] at hsl hsr hvl hvr
    have ha : (rd d x).value < e := hvl _ (List.mem_cons_self _ _)
    have hb : (rd od y).value < e := hvr _ (List.mem_cons_self _ _)
    obtain ⟨hsl1, hsl2⟩ := List.pairwise_cons.1 hsl
    obtain ⟨hsr1, hsr2⟩ := List.pairwise_cons.1 hsr
    have hvl1 : ∀ v ∈ vals d nl, v < e := fun v hv => hvl v (List.mem_cons_of_mem _ hv)
    have hvr1 : ∀ v ∈ vals od nr, v < e := fun v hv => hvr v (List.mem_cons_of_mem _ hv)
    simp only [List.length_cons] at hf
    rcases Nat.lt_trichotomy (rd d x).value (rd od y).value with hab | hab | hab
    · obtain ⟨cl, cr, nl1, nr1, T1, ls1, rs1, h1, h2, h3, h4, h5⟩ :=
        merge_loop_spec pL pR hz hzo fuel nl (y :: nr)
          (if pL = true then T ++ [(rd d x).value] else T) false rs hl1 hr hsl2
          (by rw [vals_cons]; exact hsr) hvl1 (by rw [vals_cons]; exact hvr)
          (by simp only [List.length_cons]; omega)
      refine ⟨x :: cl, cr, nl1, nr1, (if pL = true then [(rd d x).value] else []) ++ T1, ls1,
        rs1, ?_, by rw [h2]; rfl, h3, h4, ?_⟩
      · rw [merge_step_lt pL pR d od fuel T ls rs hl.2.2.2 hb hab, h1]
        cases pL <;> simp
      · rw [vals_cons]
        refine MergeOut.step_lt ?_ ?_ h5
        · rw [← vals_append, ← h2]; exact hsl1
        · rw [← vals_append, ← h3, vals_cons]
          intro v hv
          rcases List.mem_cons.1 hv with rfl | hv
          · exact hab
          · exact hab.trans (hsr1 v hv)
    · obtain ⟨cl, cr, nl1, nr1, T1, ls1, rs1, h1, h2, h3, h4, h5⟩ :=
        merge_loop_spec pL pR hz hzo fuel nl nr (T ++ [(rd d x).value]) ls rs hl1 hr1 hsl2 hsr2
          hvl1 hvr1 (by omega)
      refine ⟨x :: cl, y :: cr, nl1, nr1, (rd d x).value :: T1, ls1, rs1, ?_, by rw [h2]; rfl,
        by rw [h3]; rfl, h4, ?_⟩
      · rw [merge_step_eq pL pR d od fuel T ls rs hl.2.2.2 hr.2.2.2 ha hab, h1]
        simp
      · rw [vals_cons, vals_cons, ← hab]
        refine MergeOut.step_eq ?_ ?_ h5
        · rw [← vals_append, ← h2]; exact hsl1
        · rw [← vals_append, ← h3, hab]; exact hsr1
    · obtain ⟨cl, cr, nl1, nr1, T1, ls1, rs1, h1, h2, h3, h4, h5⟩ :=
        merge_loop_spec pL pR hz hzo fuel (x :: nl) nr
          (if pR = true then T ++ [(rd od y).value] else T) ls false hl hr1
          (by rw [vals_cons]; exact hsl) hsr2 (by rw [vals_cons]; exact hvl) hvr1
          (by simp only [List.length_cons]; omega)
      refine ⟨cl, y :: cr, nl1, nr1, (if pR = true then [(rd od y).value] else []) ++ T1, ls1,
        rs1, ?_, h2, by rw [h3]; rfl, h4, ?_⟩
      · rw [merge_step_gt pL pR d od fuel T ls rs hr.2.2.2 ha hab, h1]
        cases pR <;> simp
      · rw [vals_cons]
        refine MergeOut.step_gt ?_ ?_ h5
        · rw [← vals_append, ← h2, vals_cons]
          intro v hv
          rcases List.mem_cons.1 hv with rfl | hv
          · exact hab
          · exact hab.trans (hsl1 v hv)
        · rw [← vals_append, ← h3]; exact hsr1

end CppAD


namespace CppAD

/-! ## Consequences of the merge for the result -/

theorem two_le_length_of_mem {l : List Nat} {x y : Nat} (hx : x ∈ l) (hy : y ∈ l)
    (hxy : x ≠ y) : 2 ≤ l.length := by
  match l, hx, hy with
  | [a], hx, hy =>
    simp at hx hy
    exact absurd (hx.trans hy.symm) hxy
  | _ :: _ :: _, _, _ => simp

theorem MergeOut.inter_mem {CA CB RA RB T1 : List Nat} {ls rs ls1 rs1 : Bool}
    (h : MergeOut false false CA CB RA RB T1 ls rs ls1 rs1) (hR : RA = [] ∨ RB = []) (x : Nat) :
    x ∈ T1 ↔ x ∈ CA ++ RA ∧ x ∈ CB ++ RB := by
  obtain ⟨hb, _, hd, _, _⟩ := h
  rw [hd x]
  simp only [Bool.false_eq_true, false_or, List.mem_append]
  constructor
  · rintro (⟨h1, h2⟩ | ⟨h1, h2⟩)
    · exact ⟨Or.inl h1, Or.inl h2⟩
    · exact ⟨Or.inl h2, Or.inl h1⟩
  · rintro ⟨h1 | h1, h2 | h2⟩
    · exact Or.inl ⟨h1, h2⟩
    · exact absurd (hb x (List.mem_append.2 (Or.inl h1)) x (List.mem_append.2 (Or.inr h2)))
        (Nat.lt_irrefl _)
    · exact absurd (hb x (List.mem_append.2 (Or.inr h2)) x (List.mem_append.2 (Or.inl h1)))
        (Nat.lt_irrefl _)
    · rcases hR with rfl | rfl
      · simp at h1
      · simp at h2

theorem MergeOut.left_subset {pL pR : Bool} {CA CB RA RB T1 : List Nat} {rs ls1 rs1 : Bool}
    (h : MergeOut pL pR CA CB RA RB T1 true rs ls1 rs1) :
    (ls1 = true ∧ RA = []) ↔ ((∀ x ∈ CA ++ RA, x ∈ CB) ∧ RA = []) := by
  obtain ⟨_, _, _, hl, _⟩ := h
  constructor
  · rintro ⟨h1, rfl⟩
    exact ⟨by simpa using (hl.1 h1).2, rfl⟩
  · rintro ⟨h1, rfl⟩
    exact ⟨hl.2 ⟨rfl, by simpa using h1⟩, rfl⟩

theorem MergeOut.right_subset {pL pR : Bool} {CA CB RA RB T1 : List Nat} {ls ls1 rs1 : Bool}
    (h : MergeOut pL pR CA CB RA RB T1 ls true ls1 rs1) :
    (rs1 = true ∧ RB = []) ↔ ((∀ x ∈ CB ++ RB, x ∈ CA) ∧ RB = []) :=
  h.swap.left_subset

theorem MergeOut.union_mem {CA CB RA RB T1 : List Nat} {ls rs ls1 rs1 : Bool}
    (h : MergeOut true true CA CB RA RB T1 ls rs ls1 rs1) (x : Nat) :
    x ∈ T1 ++ RA ++ RB ↔ x ∈ CA ++ RA ∨ x ∈ CB ++ RB := by
  obtain ⟨_, _, hd, _, _⟩ := h
  simp only [List.mem_append, hd x, true_or, and_true]
  tauto

theorem MergeOut.union_sorted {CA CB RA RB T1 : List Nat} {ls rs ls1 rs1 : Bool}
    (h : MergeOut true true CA CB RA RB T1 ls rs ls1 rs1) (hR : RA = [] ∨ RB = [])
    (hA : RA.Pairwise (· < ·)) (hB : RB.Pairwise (· < ·)) :
    (T1 ++ RA ++ RB).Pairwise (· < ·) := by
  obtain ⟨hb, hc, hd, _, _⟩ := h
  have hT : ∀ t ∈ T1, t ∈ CA ++ CB := by
    intro t ht
    rcases (hd t).1 ht with ⟨h1, _⟩ | ⟨h1, _⟩
    · exact List.mem_append.2 (Or.inl h1)
    · exact List.mem_append.2 (Or.inr h1)
  rw [List.append_assoc, List.pairwise_append]
  refine ⟨hc, ?_, fun t ht y hy => hb t (hT t ht) y hy⟩
  rcases hR with rfl | rfl
  · simpa using hB
  · simpa using hA

theorem MergeOut.union_two_le {CA CB RA RB T1 : List Nat} {ls1 rs1 : Bool}
    (h : MergeOut true true CA CB RA RB T1 true true ls1 rs1) (hR : RA = [] ∨ RB = [])
    (h1 : ¬(rs1 = true ∧ RB = [])) (h2 : ¬(ls1 = true ∧ RA = [])) :
    2 ≤ (T1 ++ RA ++ RB).length := by
  have key : ∀ {CA CB RA RB : List Nat} {ls1 rs1 : Bool},
      MergeOut true true CA CB RA RB T1 true true ls1 rs1 → RA = [] →
      ¬(rs1 = true ∧ RB = []) → ¬(ls1 = true ∧ RA = []) → 2 ≤ (T1 ++ RA ++ RB).length := by
    intro CA CB RA RB ls1 rs1 h hRA h1 h2
    subst hRA
    obtain ⟨_, _, hd, hl, hr⟩ := id h
    have h3 : ¬ ∀ x ∈ CA, x ∈ CB := fun h3 => h2 ⟨hl.2 ⟨rfl, h3⟩, rfl⟩
    push_neg at h3
    obtain ⟨x, hx, hxB⟩ := h3
    have hxT : x ∈ T1 := (hd x).2 (Or.inl ⟨hx, Or.inl rfl⟩)
    cases RB with
    | cons y RB1 =>
      have : 0 < T1.length := List.length_pos_of_mem hxT
      simp only [List.append_nil, List.length_append, List.length_cons]
      omega
    | nil =>
      have h4 : ¬ ∀ y ∈ CB, y ∈ CA := fun h4 => h1 ⟨hr.2 ⟨rfl, h4⟩, rfl⟩
      push_neg at h4
      obtain ⟨y, hy, hyA⟩ := h4
      have hyT : y ∈ T1 := (hd y).2 (Or.inr ⟨hy, Or.inl rfl⟩)
      simp only [List.append_nil]
      exact two_le_length_of_mem hxT hyT (by rintro rfl; exact hyA hx)
  rcases hR with hR | hR
  · exact key h hR h1 h2
  · have := key h.swap hR h2 h1
    simp only [List.length_append] at this ⊢
    omega

/-- The loops that push the rest of an operand: all remaining values are pushed. -/
theorem union_rest_loop_spec {d : List pair_size_t} {e : Nat} (hz : rd d 0 = ⟨e, 0⟩) :
    ∀ (ns : List Nat) (fuel : Nat) (T : List Nat), Seg d (ns.headD 0) ns 0 →
    (∀ v ∈ vals d ns, v < e) → ns.length < fuel →
    union_rest_loop d e fuel T (ns.headD 0) (rd d (ns.headD 0)).value = some (T ++ vals d ns)
  | _, 0, _, _, _, hf => absurd hf (Nat.not_lt_zero _)
  | [], fuel + 1, T, _, _, _ => by
    unfold union_rest_loop
    simp only [List.headD_nil, hz, lt_self_iff_false, if_false, vals, List.map_nil,
      List.append_nil]
  | x :: ns, fuel + 1, T, hs, hv, hf => by
    have hx : (rd d x).value < e := hv _ (List.mem_cons_self _ _)
    have hs1 : Seg d (ns.headD 0) ns 0 := by rw [← hs.2.2.2.start]; exact hs.2.2.2
    unfold union_rest_loop
    simp only [List.headD_cons, hx, if_true]
    rw [hs.2.2.2.start, union_rest_loop_spec hz ns fuel _ hs1
      (fun v hv1 => hv v (List.mem_cons_of_mem _ hv1)) (by simpa using hf)]
    simp [vals]

end CppAD


namespace CppAD

theorem WF.of_temporary {s : list_setvec} (hw : WF s) (t : List Nat) :
    WF { s with temporary_ := t } := by
  obtain ⟨L, I, S⟩ := hw
  exact ⟨L, I.of_fields rfl rfl rfl rfl, S.link_fields rfl rfl rfl⟩

theorem SetIs.iff_temporary {s : list_setvec} {j : Nat} {vs : List Nat} (t : List Nat) :
    SetIs { s with temporary_ := t } j vs ↔ SetIs s j vs := Iff.rfl

/-- The end of `process_post`, `binary_union` and `binary_intersection`: the target
is dropped and a new list with the given values becomes the target. -/
theorem drop_link_spec {s : list_setvec} (hw : WF s) {target : Nat}
    (ht : target < s.start_.length) (values : List Nat) (hne : values ≠ [])
    (hsort : values.Pairwise (· < ·)) (hval : ∀ x ∈ values, x < s.end_) :
    ∃ nd s3 s5, drop s target = some (nd, s3) ∧ s3.temporary_ = s.temporary_ ∧
      link_new_list { s3 with number_not_used_ := s3.number_not_used_ + nd } target values
        = some s5 ∧
      WF s5 ∧ s5.end_ = s.end_ ∧ s5.start_.length = s.start_.length ∧
      s5.post_ = s.post_.set target 0 ∧ s5.temporary_ = s.temporary_ ∧
      SetIs s5 target values ∧
      (∀ j, j ≠ target → ∀ vs, SetIs s j vs → SetIs s5 j vs) := by
  obtain ⟨L, I, S⟩ := hw
  obtain ⟨nd, s3, L3, hd, I3, S3, F3, he, hst, hpo, htmp⟩ := drop_wf I S ht s.temporary_
  have I4 : Inv { s3 with number_not_used_ := s3.number_not_used_ + nd } L3
      (fun h => s3.start_.count h) [] := I3.of_fields rfl rfl rfl rfl
  have S4 : SetLink { s3 with number_not_used_ := s3.number_not_used_ + nd } L3
      (fun h => s3.start_.count h) := S3.link_fields rfl rfl rfl
  have ht4 : target < s3.start_.length := by rw [hst]; simpa using ht
  obtain ⟨s5, L5, h5, hw5, F5, hc5, he5, hlen5, hpo5, htmp5, hst5⟩ :=
    link_new_list_spec I4 S4 (fun _ _ _ => rfl) ht4
      (by show s3.start_.getD target 0 = 0; rw [hst, getD_set_same _ _ ht]) values hne hsort
      (by intro x hx; show x < s3.end_; rw [he]; exact hval x hx)
  refine ⟨nd, s3, s5, hd, htmp, h5, hw5, he5.trans he, ?_, hpo5.trans hpo, htmp5.trans htmp, hc5, ?_⟩
  · rw [hlen5]; show s3.start_.length = _; rw [hst]; simp
  · intro j hj vs hvs
    by_cases hjn : j < s.start_.length
    · have F4 : Frame s L { s3 with number_not_used_ := s3.number_not_used_ + nd } L3
          (fun h => h ≠ s.start_.getD target 0 ∨ s.start_.count h ≠ 1) :=
        F3.frame_fields rfl rfl
      have h1 : SetIs { s3 with number_not_used_ := s3.number_not_used_ + nd } j vs := by
        refine SetIs.of_frame F4 I.heap S hjn ?_ (drop_keep ht hjn hj) hvs
        show s3.start_.getD j 0 = _
        rw [hst, getD_set_ne _ _ hj]
      refine SetIs.of_frame F5 I4.heap S4 ?_ (hst5 j hj) (fun _ => trivial) h1
      show j < s3.start_.length
      rw [hst]; simpa using hjn
    · unfold SetIs at hvs ⊢
      have h1 : s.start_.getD j 0 = 0 := by
        by_contra h; exact hjn (getD_lt_of_ne_zero h)
      have h2 : s5.start_.getD j 0 = 0 := by
        rw [hst5 j hj]
        show s3.start_.getD j 0 = 0
        rw [hst, getD_set_ne _ _ hj]; exact h1
      rw [if_pos h1] at hvs
      rw [if_pos h2]; exact hvs

end CppAD


namespace CppAD

/-- The merge of two non-empty sets: the start of the merge and what the loop
leaves, in terms of the values `A` of the left and `B` of the right operand. -/
theorem merge_spec (pL pR : Bool) {s o : list_setvec} (hw : WF s) (hwo : WF o)
    (heo : o.end_ = s.end_) {left right : Nat} (hl : left < s.start_.length)
    (hr : right < o.start_.length) (h0l : s.start_.getD left 0 ≠ 0)
    (h0r : o.start_.getD right 0 ≠ 0) {A B : List Nat} (hA : SetIs s left A)
    (hB : SetIs o right B) :
    ∃ m0 m CA CB RA RB ls1 rs1, merge_init s o left right = some m0 ∧
      merge_loop pL pR s.data_ o.data_ s.end_ (s.data_.length + o.data_.length) m0 = some m ∧
      m.left_is_subset = ls1 ∧ m.right_is_subset = rs1 ∧
      (m.value_left = s.end_ ↔ RA = []) ∧ (m.value_right = s.end_ ↔ RB = []) ∧
      A = CA ++ RA ∧ B = CB ++ RB ∧ (RA = [] ∨ RB = []) ∧
      MergeOut pL pR CA CB RA RB m.temporary true true ls1 rs1 ∧
      (∀ T, union_rest_loop s.data_ s.end_ s.data_.length T m.next_left m.value_left
        = some (T ++ RA)) ∧
      (∀ T, union_rest_loop o.data_ s.end_ o.data_.length T m.next_right m.value_right
        = some (T ++ RB)) ∧
      A.Pairwise (· < ·) ∧ B.Pairwise (· < ·) ∧ (∀ x ∈ A, x < s.end_) ∧ (∀ x ∈ B, x < s.end_) := by
  obtain ⟨L, I, S⟩ := hw
  obtain ⟨Lo, Io, So⟩ := hwo
  obtain ⟨hhl, hownl⟩ := S.start left hl h0l
  obtain ⟨hhr, hownr⟩ := So.start right hr h0r
  have hAeq := SetIs.unique hA (SetIs.of_layout I.heap S hl)
  have hBeq := SetIs.unique hB (SetIs.of_layout Io.heap So hr)
  unfold Layout.content at hAeq hBeq
  rw [if_neg h0l] at hAeq
  rw [if_neg h0r] at hBeq
  have hz : rd s.data_ 0 = ⟨s.end_, 0⟩ := I.heap.zero
  have hzo : rd o.data_ 0 = ⟨s.end_, 0⟩ := by rw [← heo]; exact Io.heap.zero
  have hsegl := I.heap.list_chain _ hhl hownl
  have hsegr := Io.heap.list_chain _ hhr hownr
  have hsl := I.heap.list_sorted _ hhl hownl
  have hsr := Io.heap.list_sorted _ hhr hownr
  have hvl : ∀ v ∈ vals s.data_ (L.elems (s.start_.getD left 0)), v < s.end_ := by
    intro v hv
    obtain ⟨x, hx, rfl⟩ := List.mem_map.1 hv
    exact I.heap.list_val _ hhl hownl x hx
  have hvr : ∀ v ∈ vals o.data_ (Lo.elems (o.start_.getD right 0)), v < s.end_ := by
    intro v hv
    obtain ⟨x, hx, rfl⟩ := List.mem_map.1 hv
    rw [← heo]
    exact Io.heap.list_val _ hhr hownr x hx
  have hnel := I.heap.list_ne _ hhl hownl
  have hner := Io.heap.list_ne _ hhr hownr
  have hrcl : 0 < (rd s.data_ (s.start_.getD left 0)).value := by
    rw [I.heap.list_rc _ hhl hownl]; exact I.heap.rc_pos _ hhl hownl
  have hrcr : 0 < (rd o.data_ (o.start_.getD right 0)).value := by
    rw [Io.heap.list_rc _ hhr hownr]; exact Io.heap.rc_pos _ hhr hownr
  generalize L.elems (s.start_.getD left 0) = nl at hsegl hsl hvl hnel hAeq
  generalize Lo.elems (o.start_.getD right 0) = nr at hsegr hsr hvr hner hBeq
  have hfl : (rd s.data_ (nl.headD 0)).value < s.end_ := by
    cases nl with
    | nil => exact absurd rfl hnel
    | cons x nl1 => exact hvl _ (List.mem_cons_self _ _)
  have hfr : (rd o.data_ (nr.headD 0)).value < s.end_ := by
    cases nr with
    | nil => exact absurd rfl hner
    | cons x nr1 => exact hvr _ (List.mem_cons_self _ _)
  have hinit : merge_init s o left right = some (merge_at s.data_ o.data_ [] nl nr true true) := by
    simp only [merge_init, reference_count, h0l, h0r, if_false, CPPAD_ASSERT_UNKNOWN, gt_iff_lt,
      hrcl, hrcr, decide_True, if_true, Option.bind_eq_bind, Option.some_bind, hsegl.start,
      hsegr.start, hfl, hfr, Bool.and_self, merge_at]
  have hsegl1 : Seg s.data_ (nl.headD 0) nl 0 := by rw [← hsegl.start]; exact hsegl
  have hsegr1 : Seg o.data_ (nr.headD 0) nr 0 := by rw [← hsegr.start]; exact hsegr
  obtain ⟨cl, cr, nl1, nr1, T1, ls1, rs1, h1, h2, h3, h4, h5⟩ :=
    merge_loop_spec pL pR hz hzo (s.data_.length + o.data_.length) nl nr [] true true hsegl1
      hsegr1 hsl hsr hvl hvr (by
        have := hsegl.length_lt I.heap.len_pos
        have := hsegr.length_lt Io.heap.len_pos
        omega)
  have hend : ∀ (d : List pair_size_t) (ns : List Nat), rd d 0 = ⟨s.end_, 0⟩ →
      (∀ v ∈ vals d ns, v < s.end_) → ((rd d (ns.headD 0)).value = s.end_ ↔ vals d ns = []) := by
    intro d ns hd hv
    cases ns with
    | nil => simp [hd, vals]
    | cons x ns1 =>
      simp only [List.headD_cons, vals, List.map_cons]
      constructor
      · intro h
        have h6 : (rd d x).value < s.end_ := hv _ (List.mem_cons_self _ _)
        omega
      · intro h; cases h
  have hvl1 : ∀ v ∈ vals s.data_ nl1, v < s.end_ := by
    intro v hv; apply hvl; rw [h2, vals_append]; exact List.mem_append_right _ hv
  have hvr1 : ∀ v ∈ vals o.data_ nr1, v < s.end_ := by
    intro v hv; apply hvr; rw [h3, vals_append]; exact List.mem_append_right _ hv
  have hsegl2 : Seg s.data_ (nl1.headD 0) nl1 0 := by rw [h2] at hsegl; exact hsegl.suffix
  have hsegr2 : Seg o.data_ (nr1.headD 0) nr1 0 := by rw [h3] at hsegr; exact hsegr.suffix
  refine ⟨_, _, vals s.data_ cl, vals o.data_ cr, vals s.data_ nl1, vals o.data_ nr1, ls1, rs1,
    hinit, h1, rfl, rfl, hend _ _ hz hvl1, hend _ _ hzo hvr1, ?_, ?_, ?_, ?_, ?_, ?_, ?_, ?_, ?_, ?_⟩
  · rw [hAeq, h2, vals_append]
  · rw [hBeq, h3, vals_append]
  · rcases h4 with rfl | rfl
    · exact Or.inl rfl
    · exact Or.inr rfl
  · simpa [merge_at] using h5
  · intro T
    exact union_rest_loop_spec hz nl1 _ T hsegl2 hvl1 (hsegl2.length_lt I.heap.len_pos)
  · intro T
    exact union_rest_loop_spec hzo nr1 _ T hsegr2 hvr1 (hsegr2.length_lt Io.heap.len_pos)
  · rw [hAeq]; exact hsl
  · rw [hBeq]; exact hsr
  · rw [hAeq]; exact hvl
  · rw [hBeq]; exact hvr

end CppAD


namespace CppAD

/-! ## `binary_union` and `binary_intersection` -/

theorem binary_asserts_eq {s : list_setvec} {target left right : Nat}
    (other : Option list_setvec) (ho : ∀ o, other = some o → WF o ∧ o.end_ = s.end_)
    (ht : target < s.start_.length) (hl : left < s.start_.length)
    (hr : right < (other.getD s).start_.length) (hpl : s.post_.getD left 0 = 0)
    (hpr : (other.getD s).post_.getD right 0 = 0) :
    binary_asserts s (other.getD s) target left right = some () := by
  have heo : s.end_ = (other.getD s).end_ := by
    cases other with
    | none => rfl
    | some o => exact (ho o rfl).2.symm
  simp only [binary_asserts, CPPAD_ASSERT_UNKNOWN, hpl, hpr, ht, hl, hr, ← heo, decide_True,
    if_true, Option.bind_eq_bind, Option.some_bind]

theorem other_wf {s : list_setvec} (hw : WF s) (other : Option list_setvec)
    (ho : ∀ o, other = some o → WF o ∧ o.end_ = s.end_) :
    WF (other.getD s) ∧ (other.getD s).end_ = s.end_ := by
  cases other with
  | none => exact ⟨hw, rfl⟩
  | some o => exact ho o rfl

theorem setIs_other_temporary {s : list_setvec} (other : Option list_setvec) (t : List Nat)
    {j : Nat} {vs : List Nat} :
    SetIs (other.getD { s with temporary_ := t }) j vs ↔ SetIs (other.getD s) j vs := by
  cases other with
  | none => exact Iff.rfl
  | some o => exact Iff.rfl

/-- Specification of `binary_union`: the target becomes the union of the operands
and the other sets keep their elements. -/
theorem binary_union_spec {s : list_setvec} (hw : WF s) {target left right : Nat}
    (other : Option list_setvec) (ho : ∀ o, other = some o → WF o ∧ o.end_ = s.end_)
    (ht : target < s.start_.length) (hl : left < s.start_.length)
    (hr : right < (other.getD s).start_.length) (hpl : s.post_.getD left 0 = 0)
    (hpr : (other.getD s).post_.getD right 0 = 0) :
    ∃ s1, binary_union s target left right other = some s1 ∧ WF s1 ∧ s1.end_ = s.end_ ∧
      s1.start_.length = s.start_.length ∧ s1.post_ = s.post_.set target 0 ∧
      (∀ A B, SetIs s left A → SetIs (other.getD s) right B →
        ∃ U, SetIs s1 target U ∧ ∀ x, x ∈ U ↔ x ∈ A ∨ x ∈ B) ∧
      (∀ j, j ≠ target → ∀ vs, SetIs s j vs → SetIs s1 j vs) := by
  have hasserts := binary_asserts_eq other ho ht hl hr hpl hpr
  obtain ⟨hwo, heo⟩ := other_wf hw other ho
  by_cases h0r : (other.getD s).start_.getD right 0 = 0
  · obtain ⟨s1, h1, hw1, he1, hlen1, hpo1, _, hc1, hoth1⟩ :=
      assignment_spec hw none (by simp) ht hl hpl
    refine ⟨s1, ?_, hw1, he1, hlen1, hpo1, ?_, hoth1⟩
    · unfold binary_union
      rw [hasserts]
      simp only [Option.bind_eq_bind, Option.some_bind]
      rw [if_pos h0r]; exact h1
    · intro A B hA hB
      refine ⟨A, hc1 A hA, ?_⟩
      unfold SetIs at hB
      rw [if_pos h0r] at hB
      subst hB
      simp
  by_cases h0l : s.start_.getD left 0 = 0
  · obtain ⟨s1, h1, hw1, he1, hlen1, hpo1, _, hc1, hoth1⟩ :=
      assignment_spec hw other ho ht hr hpr
    refine ⟨s1, ?_, hw1, he1, hlen1, hpo1, ?_, hoth1⟩
    · unfold binary_union
      rw [hasserts]
      simp only [Option.bind_eq_bind, Option.some_bind]
      rw [if_neg h0r, if_pos h0l]; exact h1
    · intro A B hA hB
      refine ⟨B, hc1 B hB, ?_⟩
      unfold SetIs at hA
      rw [if_pos h0l] at hA
      subst hA
      simp
  obtain ⟨A, hA, _⟩ := hw.setIs hl
  obtain ⟨B, hB, _⟩ := hwo.setIs hr
  obtain ⟨m0, m, CA, CB, RA, RB, ls1, rs1, hinit, hloop, hls, hrs, hvl, hvr, hAeq, hBeq, hR, hM,
      hrestl, hrestr, hsA, hsB, hvA, hvB⟩ :=
    merge_spec true true hw hwo heo hl hr h0l h0r hA hB
  have hw1 : WF { s with temporary_ := m.temporary } := hw.of_temporary _
  have ho1 : ∀ o, other = some o → WF o ∧ o.end_ = ({ s with temporary_ := m.temporary }).end_ :=
    ho
  have hr1 : right < (other.getD { s with temporary_ := m.temporary }).start_.length := by
    cases other <;> exact hr
  have hpr1 : (other.getD { s with temporary_ := m.temporary }).post_.getD right 0 = 0 := by
    cases other <;> exact hpr
  have hunfold : binary_union s target left right other =
      (if (m.right_is_subset && decide (m.value_right = s.end_)) = true then
        assignment { s with temporary_ := m.temporary } target left none
      else if (m.left_is_subset && decide (m.value_left = s.end_)) = true then
        assignment { s with temporary_ := m.temporary } target right other
      else union_new_list { s with temporary_ := m.temporary }
        (other.getD { s with temporary_ := m.temporary }) target m) := by
    unfold binary_union
    rw [hasserts]
    simp only [Option.bind_eq_bind, Option.some_bind]
    rw [if_neg h0r, if_neg h0l, hinit]
    simp only [Option.some_bind]
    rw [union_loop_eq, hloop]
    simp only [Option.some_bind]
  rw [hunfold]
  have hsetA : ∀ A1, SetIs s left A1 → A1 = A := fun A1 h => SetIs.unique h hA
  have hsetB : ∀ B1, SetIs (other.getD s) right B1 → B1 = B := fun B1 h => SetIs.unique h hB
  by_cases hb1 : rs1 = true ∧ RB = []
  · have hsub := (hM.right_subset).1 hb1
    obtain ⟨s1, h1, hw2, he1, hlen1, hpo1, _, hc1, hoth1⟩ :=
      assignment_spec hw1 none (by simp) ht hl hpl
    refine ⟨s1, ?_, hw2, he1, hlen1, hpo1, ?_, hoth1⟩
    · rw [if_pos]
      · exact h1
      · rw [hrs, hb1.1, Bool.true_and, decide_eq_true_eq]
        exact hvr.2 hb1.2
    · intro A1 B1 hA1 hB1
      rw [hsetA A1 hA1, hsetB B1 hB1]
      refine ⟨A, hc1 A hA, ?_⟩
      intro x
      constructor
      · exact Or.inl
      · rintro (h | h)
        · exact h
        · rw [hAeq]
          rw [hBeq] at h
          exact List.mem_append_left _ (hsub.1 x h)
  have hcond1 : ¬ (m.right_is_subset && decide (m.value_right = s.end_)) = true := by
    rw [hrs, Bool.and_eq_true, decide_eq_true_eq, hvr]
    exact hb1
  rw [if_neg hcond1]
  by_cases hb2 : ls1 = true ∧ RA = []
  · have hsub := (hM.left_subset).1 hb2
    obtain ⟨s1, h1, hw2, he1, hlen1, hpo1, _, hc1, hoth1⟩ :=
      assignment_spec hw1 other ho1 ht hr1 hpr1
    refine ⟨s1, ?_, hw2, he1, hlen1, hpo1, ?_, hoth1⟩
    · rw [if_pos]
      · exact h1
      · rw [hls, hb2.1, Bool.true_and, decide_eq_true_eq]
        exact hvl.2 hb2.2
    · intro A1 B1 hA1 hB1
      rw [hsetA A1 hA1, hsetB B1 hB1]
      refine ⟨B, hc1 B ((setIs_other_temporary other _).2 hB), ?_⟩
      intro x
      constructor
      · exact Or.inr
      · rintro (h | h)
        · rw [hBeq]
          rw [hAeq] at h
          exact List.mem_append_left _ (hsub.1 x h)
        · exact h
  have hcond2 : ¬ (m.left_is_subset && decide (m.value_left = s.end_)) = true := by
    rw [hls, Bool.and_eq_true, decide_eq_true_eq, hvl]
    exact hb2
  rw [if_neg hcond2]
  have hRA : RA.Pairwise (· < ·) := by
    rw [hAeq] at hsA; exact (List.pairwise_append.1 hsA).2.1
  have hRB : RB.Pairwise (· < ·) := by
    rw [hBeq] at hsB; exact (List.pairwise_append.1 hsB).2.1
  have hU2 := hM.union_two_le hR hb1 hb2
  have hUs := hM.union_sorted hR hRA hRB
  have hUm := hM.union_mem
  have hw2 : WF { s with temporary_ := m.temporary ++ RA ++ RB } := hw.of_temporary _
  obtain ⟨nd, s3, s5, hd, htmp3, h5, hw5, he5, hlen5, hpo5, _, hc5, hoth5⟩ :=
    drop_link_spec hw2 ht (m.temporary ++ RA ++ RB)
      (by intro h; rw [h] at hU2; simp at hU2) hUs
      (by
        intro x hx
        rcases (hUm x).1 hx with h | h
        · exact hvA x (by rw [hAeq]; exact h)
        · exact hvB x (by rw [hBeq]; exact h))
  have hod : (other.getD { s with temporary_ := m.temporary }).data_ = (other.getD s).data_ := by
    cases other <;> rfl
  refine ⟨s5, ?_, hw5, he5, hlen5, hpo5, ?_, hoth5⟩
  · unfold union_new_list
    simp only [hod]
    have e1 := hrestl m.temporary
    have e2 := hrestr (m.temporary ++ RA)
    rw [e1]
    simp only [Option.bind_eq_bind, Option.some_bind]
    rw [e2]
    simp only [Option.some_bind]
    rw [hd]
    simp only [Option.some_bind, CPPAD_ASSERT_UNKNOWN, htmp3]
    rw [if_pos (by simpa using hU2)]
    simp only [Option.some_bind]
    rw [htmp3] at h5
    exact h5
  · intro A1 B1 hA1 hB1
    rw [hsetA A1 hA1, hsetB B1 hB1]
    refine ⟨_, hc5, ?_⟩
    intro x
    rw [hUm x, hAeq, hBeq]

end CppAD


namespace CppAD

/-- Specification of `binary_intersection`: the target becomes the intersection of the
operands and the other sets keep their elements. -/
theorem binary_intersection_spec {s : list_setvec} (hw : WF s) {target left right : Nat}
    (other : Option list_setvec) (ho : ∀ o, other = some o → WF o ∧ o.end_ = s.end_)
    (ht : target < s.start_.length) (hl : left < s.start_.length)
    (hr : right < (other.getD s).start_.length) (hpl : s.post_.getD left 0 = 0)
    (hpr : (other.getD s).post_.getD right 0 = 0) :
    ∃ s1, binary_intersection s target left right other = some s1 ∧ WF s1 ∧
      s1.end_ = s.end_ ∧ s1.start_.length = s.start_.length ∧
      s1.post_ = s.post_.set target 0 ∧
      (∀ A B, SetIs s left A → SetIs (other.getD s) right B →
        ∃ U, SetIs s1 target U ∧ ∀ x, x ∈ U ↔ x ∈ A ∧ x ∈ B) ∧
      (∀ j, j ≠ target → ∀ vs, SetIs s j vs → SetIs s1 j vs) := by
  have hasserts := binary_asserts_eq other ho ht hl hr hpl hpr
  obtain ⟨hwo, heo⟩ := other_wf hw other ho
  by_cases h0 : s.start_.getD left 0 = 0 ∨ (other.getD s).start_.getD right 0 = 0
  · obtain ⟨s1, h1, hw1, he1, hlen1, hpo1, hc1, hoth1⟩ := clear_spec hw ht
    refine ⟨s1, ?_, hw1, he1, hlen1, hpo1, ?_, hoth1⟩
    · unfold binary_intersection
      rw [hasserts]
      simp only [Option.bind_eq_bind, Option.some_bind]
      rw [if_pos h0]; exact h1
    · intro A B hA hB
      refine ⟨[], hc1, ?_⟩
      intro x
      unfold SetIs at hA hB
      rcases h0 with h0 | h0
      · rw [if_pos h0] at hA
        subst hA; simp
      · rw [if_pos h0] at hB
        subst hB; simp
  have h0l : s.start_.getD left 0 ≠ 0 := fun h => h0 (Or.inl h)
  have h0r : (other.getD s).start_.getD right 0 ≠ 0 := fun h => h0 (Or.inr h)
  obtain ⟨A, hA, _⟩ := hw.setIs hl
  obtain ⟨B, hB, _⟩ := hwo.setIs hr
  obtain ⟨m0, m, CA, CB, RA, RB, ls1, rs1, hinit, hloop, hls, hrs, hvl, hvr, hAeq, hBeq, hR, hM,
      _, _, hsA, hsB, hvA, hvB⟩ :=
    merge_spec false false hw hwo heo hl hr h0l h0r hA hB
  have hw1 : WF { s with temporary_ := m.temporary } := hw.of_temporary _
  have ho1 : ∀ o, other = some o → WF o ∧ o.end_ = ({ s with temporary_ := m.temporary }).end_ :=
    ho
  have hr1 : right < (other.getD { s with temporary_ := m.temporary }).start_.length := by
    cases other <;> exact hr
  have hpr1 : (other.getD { s with temporary_ := m.temporary }).post_.getD right 0 = 0 := by
    cases other <;> exact hpr
  have hunfold : binary_intersection s target left right other =
      (if (m.left_is_subset && decide (m.value_left = s.end_)) = true then
        assignment { s with temporary_ := m.temporary } target left none
      else if (m.right_is_subset && decide (m.value_right = s.end_)) = true then
        assignment { s with temporary_ := m.temporary } target right other
      else (drop { s with temporary_ := m.temporary } target).bind fun x =>
        if ({ x.2 with number_not_used_ := x.2.number_not_used_ + x.1 }).temporary_.length = 0
        then some { x.2 with number_not_used_ := x.2.number_not_used_ + x.1 }
        else link_new_list { x.2 with number_not_used_ := x.2.number_not_used_ + x.1 } target
          ({ x.2 with number_not_used_ := x.2.number_not_used_ + x.1 }).temporary_) := by
    unfold binary_intersection
    rw [hasserts]
    simp only [Option.bind_eq_bind, Option.some_bind]
    rw [if_neg h0, hinit]
    simp only [Option.some_bind]
    rw [intersection_loop_eq, hloop]
    simp only [Option.some_bind]
  rw [hunfold]
  have hsetA : ∀ A1, SetIs s left A1 → A1 = A := fun A1 h => SetIs.unique h hA
  have hsetB : ∀ B1, SetIs (other.getD s) right B1 → B1 = B := fun B1 h => SetIs.unique h hB
  by_cases hb1 : ls1 = true ∧ RA = []
  · have hsub := (hM.left_subset).1 hb1
    obtain ⟨s1, h1, hw2, he1, hlen1, hpo1, _, hc1, hoth1⟩ :=
      assignment_spec hw1 none (by simp) ht hl hpl
    refine ⟨s1, ?_, hw2, he1, hlen1, hpo1, ?_, hoth1⟩
    · rw [if_pos]
      · exact h1
      · rw [hls, hb1.1, Bool.true_and, decide_eq_true_eq]
        exact hvl.2 hb1.2
    · intro A1 B1 hA1 hB1
      rw [hsetA A1 hA1, hsetB B1 hB1]
      refine ⟨A, hc1 A hA, ?_⟩
      intro x
      constructor
      · intro h
        refine ⟨h, ?_⟩
        rw [hBeq]
        rw [hAeq] at h
        exact List.mem_append_left _ (hsub.1 x h)
      · exact fun h => h.1
  have hcond1 : ¬ (m.left_is_subset && decide (m.value_left = s.end_)) = true := by
    rw [hls, Bool.and_eq_true, decide_eq_true_eq, hvl]
    exact hb1
  rw [if_neg hcond1]
  by_cases hb2 : rs1 = true ∧ RB = []
  · have hsub := (hM.right_subset).1 hb2
    obtain ⟨s1, h1, hw2, he1, hlen1, hpo1, _, hc1, hoth1⟩ :=
      assignment_spec hw1 other ho1 ht hr1 hpr1
    refine ⟨s1, ?_, hw2, he1, hlen1, hpo1, ?_, hoth1⟩
    · rw [if_pos]
      · exact h1
      · rw [hrs, hb2.1, Bool.true_and, decide_eq_true_eq]
        exact hvr.2 hb2.2
    · intro A1 B1 hA1 hB1
      rw [hsetA A1 hA1, hsetB B1 hB1]
      refine ⟨B, hc1 B ((setIs_other_temporary other _).2 hB), ?_⟩
      intro x
      constructor
      · intro h
        refine ⟨?_, h⟩
        rw [hAeq]
        rw [hBeq] at h
        exact List.mem_append_left _ (hsub.1 x h)
      · exact fun h => h.2
  have hcond2 : ¬ (m.right_is_subset && decide (m.value_right = s.end_)) = true := by
    rw [hrs, Bool.and_eq_true, decide_eq_true_eq, hvr]
    exact hb2
  rw [if_neg hcond2]
  have hTm : ∀ x, x ∈ m.temporary ↔ x ∈ A ∧ x ∈ B := by
    intro x
    rw [hAeq, hBeq]
    exact hM.inter_mem hR x
  by_cases hT : m.temporary = []
  · obtain ⟨sc, hc, hwc, hec, hlenc, hpoc, hcc, hothc⟩ := clear_spec hw1 ht
    obtain ⟨L1, I1, S1⟩ := id hw1
    obtain ⟨nd, s3, L3, hd, _, _, _, _, _, _, htmp3⟩ := drop_wf I1 S1 ht m.temporary
    have hceq : sc = { s3 with number_not_used_ := s3.number_not_used_ + nd } := by
      have h2 : target < ({ s with temporary_ := m.temporary }).start_.length := ht
      simp only [clear, CPPAD_ASSERT_UNKNOWN, h2, decide_True, if_true, hd,
        Option.bind_eq_bind, Option.some_bind, Option.some.injEq] at hc
      exact hc.symm
    refine ⟨sc, ?_, hwc, hec, hlenc, hpoc, ?_, hothc⟩
    · rw [hd]
      simp only [Option.some_bind]
      rw [if_pos]
      · rw [hceq]
      · show s3.temporary_.length = 0
        rw [htmp3]
        show m.temporary.length = 0
        rw [hT]; rfl
    · intro A1 B1 hA1 hB1
      rw [hsetA A1 hA1, hsetB B1 hB1]
      refine ⟨[], hcc, ?_⟩
      intro x
      rw [← hTm x, hT]
  · obtain ⟨nd, s3, s5, hd, htmp3, h5, hw5, he5, hlen5, hpo5, _, hc5, hoth5⟩ :=
      drop_link_spec hw1 ht m.temporary hT hM.2.1
        (fun x hx => hvA x ((hTm x).1 hx).1)
    have htmp4 : s3.temporary_ = m.temporary := htmp3
    refine ⟨s5, ?_, hw5, he5, hlen5, hpo5, ?_, hoth5⟩
    · rw [hd]
      simp only [Option.some_bind]
      rw [if_neg]
      · rw [htmp4] at h5 ⊢
        exact h5
      · show ¬ s3.temporary_.length = 0
        rw [htmp4]
        intro h
        exact hT (List.length_eq_zero.1 h)
    · intro A1 B1 hA1 hB1
      rw [hsetA A1 hA1, hsetB B1 hB1]
      exact ⟨_, hc5, hTm⟩

end CppAD


namespace CppAD

/-! ## `post_element` -/

theorem vals_cons_eq (d : List pair_size_t) (a : Nat) (b : List Nat) :
    vals d (a :: b) = (rd d a).value :: vals d b := rfl

theorem Heap.push_post {d : List pair_size_t} {e : Nat} {L : Layout} {f : Nat → Nat}
    (H : Heap d e L f) {i k : Nat} (hk : L.own k = Owner.scratch) (hkl : k < d.length)
    (hk0 : k ≠ 0) (hnext : (rd d k).next = (L.posts i).headD 0) (hval : (rd d k).value < e) :
    Heap d e (L.push i k) f := by
  have hown : ∀ x, L.own x ≠ Owner.scratch → (L.push i k).own x = L.own x := by
    intro x hx
    have : x ≠ k := by rintro rfl; exact hx hk
    simp [Layout.push, Function.update_noteq this]
  have hback : ∀ x, x ≠ k → (L.push i k).own x = L.own x := by
    intro x hx
    simp [Layout.push, Function.update_noteq hx]
  have hownk : (L.push i k).own k = Owner.post i := by simp [Layout.push]
  have hhead : ∀ h, (L.push i k).own h = Owner.head → L.own h = Owner.head := by
    intro h hh
    by_cases hhk : h = k
    · subst hhk; rw [hownk] at hh; cases hh
    · rw [hback h hhk] at hh; exact hh
  have hposts : ∀ j, j ≠ i → (L.push i k).posts j = L.posts j := by
    intro j hj
    simp [Layout.push, Function.update_noteq hj]
  have hpostsi : (L.push i k).posts i = k :: L.posts i := by simp [Layout.push]
  refine ⟨H.len_pos, H.zero, ?_, H.free_chain, ?_, ?_, ?_, ?_, ?_, ?_, ?_, ?_, ?_, ?_, ?_, ?_, ?_,
    ?_, ?_⟩
  · rw [hback 0 (Ne.symm hk0)]; exact H.own_zero
  · intro x hx
    have h1 := H.free_own x hx
    rw [hown x (by rw [h1]; simp)]; exact h1
  · intro j
    by_cases hj : j = i
    · subst hj
      rw [hpostsi]
      refine ⟨rfl, hk0, hkl, ?_⟩
      rw [hnext]; exact H.post_chain j
    · rw [hposts j hj]; exact H.post_chain j
  · intro j x hx
    by_cases hj : j = i
    · subst hj
      rw [hpostsi] at hx
      rcases List.mem_cons.1 hx with rfl | hx
      · exact hownk
      · have h1 := H.post_own j x hx
        rw [hown x (by rw [h1]; simp)]; exact h1
    · rw [hposts j hj] at hx
      have h1 := H.post_own j x hx
      rw [hown x (by rw [h1]; simp)]; exact h1
  · intro j x hx
    by_cases hj : j = i
    · subst hj
      rw [hpostsi] at hx
      rcases List.mem_cons.1 hx with rfl | hx
      · exact hval
      · exact H.post_val j x hx
    · rw [hposts j hj] at hx
      exact H.post_val j x hx
  · intro h hh ho
    exact H.list_chain h hh (hhead h ho)
  · intro h hh ho
    exact H.list_ne h hh (hhead h ho)
  · intro h hh ho x hx
    have h1 := H.list_own h hh (hhead h ho) x hx
    rw [hown x (by rw [h1]; simp)]; exact h1
  · intro h hh ho
    exact H.list_sorted h hh (hhead h ho)
  · intro h hh ho
    exact H.list_val h hh (hhead h ho)
  · intro h hh ho
    exact H.list_rc h hh (hhead h ho)
  · intro x hx ho
    by_cases hxk : x = k
    · subst hxk; rw [hownk] at ho; cases ho
    · rw [hback x hxk] at ho; exact H.complete_sentinel x hx ho
  · intro x hx ho
    by_cases hxk : x = k
    · subst hxk; rw [hownk] at ho; cases ho
    · rw [hback x hxk] at ho; exact H.complete_free x hx ho
  · intro x hx j ho
    by_cases hxk : x = k
    · subst hxk
      rw [hownk] at ho
      cases ho
      rw [hpostsi]; exact List.mem_cons_self _ _
    · rw [hback x hxk] at ho
      have h1 := H.complete_post x hx j ho
      by_cases hj : j = i
      · subst hj
        rw [hpostsi]; exact List.mem_cons_of_mem _ h1
      · rw [hposts j hj]; exact h1
  · intro x hx h ho
    by_cases hxk : x = k
    · subst hxk; rw [hownk] at ho; cases ho
    · rw [hback x hxk] at ho
      obtain ⟨h1, h2, h3⟩ := H.complete_elem x hx h ho
      exact ⟨h1, by rw [hown h (by rw [h2]; simp)]; exact h2, h3⟩
  · intro h hh ho
    exact H.rc_pos h hh (hhead h ho)

/-- Specification of `post_element`: the element is put in front of the posting of
set `i`; no set changes. -/
theorem post_element_spec {s : list_setvec} (hw : WF s) {i element : Nat}
    (hi : i < s.start_.length) (he : element < s.end_) :
    ∃ s1, post_element s i element = some s1 ∧ WF s1 ∧ s1.end_ = s.end_ ∧
      s1.start_ = s.start_ ∧ s1.post_.length = s.post_.length ∧ s1.post_.getD i 0 ≠ 0 ∧
      (∀ j, j ≠ i → s1.post_.getD j 0 = s.post_.getD j 0) ∧
      (∀ ps, PostIs s i ps → PostIs s1 i (element :: ps)) ∧
      (∀ j, j ≠ i → ∀ ps, PostIs s j ps → PostIs s1 j ps) ∧
      (∀ j vs, SetIs s j vs → SetIs s1 j vs) := by
  obtain ⟨L, I, S⟩ := hw
  obtain ⟨k, s1, h1, I1, E1, hk0, _, hklt, he1, hst1, hpo1, htmp1, hrd1, _⟩ := I.alloc
  have hkm : k ∈ ([] : List Nat) ++ [k] := by simp
  have I2 := (I1.write_value hkm element).write_next hkm (s.post_.getD i 0)
  have E2 : Ext s L { s1 with data_ := wr_next (wr_value s1.data_ k element) k (s.post_.getD i 0) }
      (L.alloc k) :=
    (E1.ext_write_value element (I1.own_pending hkm)).ext_write_next _ (I1.own_pending hkm)
  have hklt2 : k < (wr_value s1.data_ k element).length := by rw [length_wr_value]; exact hklt
  have hipost : i < s.post_.length := by rw [S.len]; exact hi
  have H3 : Heap (wr_next (wr_value s1.data_ k element) k (s.post_.getD i 0)) s1.end_
      ((L.alloc k).push i k) (fun h => s.start_.count h) := by
    refine I2.heap.push_post (I1.own_pending hkm) ?_ hk0 ?_ ?_
    · show k < (wr_next (wr_value s1.data_ k element) k (s.post_.getD i 0)).length
      rw [length_wr_next]; exact hklt2
    · show (rd (wr_next (wr_value s1.data_ k element) k (s.post_.getD i 0)) k).next = _
      rw [next_wr_next_same _ _ hklt2]
      exact S.post i hi
    · show (rd (wr_next (wr_value s1.data_ k element) k (s.post_.getD i 0)) k).value < _
      rw [value_wr_next, value_wr_value_same _ _ hklt, he1]; exact he
  have hown : ∀ x, x ≠ k → ((L.alloc k).push i k).own x = (L.alloc k).own x := by
    intro x hx
    simp [Layout.push, Function.update_noteq hx]
  have hownk : ((L.alloc k).push i k).own k = Owner.post i := by simp [Layout.push]
  have I3 : Inv { s1 with post_ := s1.post_.set i k,
                          data_ := wr_next (wr_value s1.data_ k element) k (s.post_.getD i 0) }
      ((L.alloc k).push i k) (fun h => s.start_.count h) [] := by
    refine ⟨H3, ⟨I2.free.head, I2.free.count⟩, ?_, by simp⟩
    intro x hx
    simp only [List.not_mem_nil, iff_false]
    by_cases hxk : x = k
    · subst hxk; rw [hownk]; simp
    · rw [hown x hxk]
      intro h
      have := (I2.scratch x hx).1 h
      simp at this
      exact hxk this
  have S3 : SetLink { s1 with post_ := s1.post_.set i k,
                              data_ := wr_next (wr_value s1.data_ k element) k (s.post_.getD i 0) }
      ((L.alloc k).push i k) (fun h => s.start_.count h) := by
    refine ⟨?_, ?_, ?_, ?_, ?_⟩
    · show (s1.post_.set i k).length = s1.start_.length
      rw [List.length_set, hpo1, hst1]; exact S.len
    · intro j hj
      have hj1 : j < s.start_.length := by
        have : j < s1.start_.length := hj
        rw [hst1] at this; exact this
      show (s1.post_.set i k).getD j 0 = (Function.update L.posts i (k :: L.posts i) j).headD 0
      by_cases hji : j = i
      · subst hji
        rw [Function.update_same, getD_set_same _ _ (by rw [hpo1]; exact hipost)]
        rfl
      · rw [Function.update_noteq hji, getD_set_ne _ _ hji, hpo1]
        exact S.post j hj1
    · intro j hj
      have hj1 : s.start_.length ≤ j := by
        have : s1.start_.length ≤ j := hj
        rw [hst1] at this; exact this
      have hji : j ≠ i := by omega
      show Function.update L.posts i (k :: L.posts i) j = []
      rw [Function.update_noteq hji]
      exact S.post_out j hj1
    · intro j hj hne
      have hj1 : j < s.start_.length := by
        have : j < s1.start_.length := hj
        rw [hst1] at this; exact this
      have hne1 : s.start_.getD j 0 ≠ 0 := by
        have : s1.start_.getD j 0 ≠ 0 := hne
        rw [hst1] at this; exact this
      obtain ⟨h2, h3⟩ := S.start j hj1 hne1
      show s1.start_.getD j 0 < (wr_next (wr_value s1.data_ k element) k _).length ∧
        ((L.alloc k).push i k).own (s1.start_.getD j 0) = Owner.head
      rw [hst1]
      have h4 := (E2.own _ h2 (by rw [h3]; simp) (by rw [h3]; simp)).trans h3
      have h5 : s.start_.getD j 0 ≠ k := by
        intro h
        rw [h, I1.own_pending hkm] at h4
        cases h4
      exact ⟨Nat.lt_of_lt_of_le h2 E2.len, by rw [hown _ h5]; exact h4⟩
    · intro h _ _
      show s1.start_.count h ≤ s.start_.count h
      rw [hst1]
  have hw3 : WF { s1 with post_ := s1.post_.set i k,
                          data_ := wr_next (wr_value s1.data_ k element) k (s.post_.getD i 0) } :=
    WF.intro I3 S3 (fun h _ _ => by show s.start_.count h = s1.start_.count h; rw [hst1])
  have hposts : ∀ j ps, PostIs s j ps →
      ∃ ns, ns = L.posts j ∧ ps = vals s.data_ ns ∧
        Seg (wr_next (wr_value s1.data_ k element) k (s.post_.getD i 0)) (s.post_.getD j 0) ns 0 ∧
        vals (wr_next (wr_value s1.data_ k element) k (s.post_.getD i 0)) ns = vals s.data_ ns := by
    intro j ps hps
    obtain ⟨ns, hseg, hv⟩ := hps
    have hch := I.heap.post_chain j
    have hhead : s.post_.getD j 0 = (L.posts j).headD 0 := by
      by_cases hj : j < s.start_.length
      · exact S.post j hj
      · rw [S.post_out j (Nat.le_of_not_lt hj)]
        rw [List.getD_eq_default]
        · rfl
        · rw [S.len]; exact Nat.le_of_not_lt hj
    rw [← hhead] at hch
    have hns := Seg.det hseg hch
    subst hns
    have hrd : ∀ x ∈ L.posts j,
        rd (wr_next (wr_value s1.data_ k element) k (s.post_.getD i 0)) x = rd s.data_ x := by
      intro x hx
      have h2 := I.heap.post_own j x hx
      exact E2.rd x (hch.mem x hx).2 (by rw [h2]; simp) (by rw [h2]; simp)
    refine ⟨_, rfl, hv, Seg.congr E2.len (fun x hx => by rw [hrd x hx]) hseg,
      vals_congr _ _ (fun x hx => by rw [hrd x hx])⟩
  refine ⟨_, ?_, hw3, he1, hst1, ?_, ?_, ?_, ?_, ?_, ?_⟩
  · simp only [post_element, CPPAD_ASSERT_UNKNOWN, hi, he, decide_True, if_true, h1,
      Option.bind_eq_bind, Option.some_bind]
  · show (s1.post_.set i k).length = _
    rw [List.length_set, hpo1]
  · show (s1.post_.set i k).getD i 0 ≠ 0
    rw [getD_set_same _ _ (by rw [hpo1]; exact hipost)]; exact hk0
  · intro j hj
    show (s1.post_.set i k).getD j 0 = _
    rw [getD_set_ne _ _ hj, hpo1]
  · intro ps hps
    obtain ⟨ns, _, hv, hseg, hvals⟩ := hposts i ps hps
    refine ⟨k :: ns, ?_, ?_⟩
    · show Seg _ ((s1.post_.set i k).getD i 0) _ _
      rw [getD_set_same _ _ (by rw [hpo1]; exact hipost)]
      refine ⟨rfl, hk0, by rw [length_wr_next]; exact hklt2, ?_⟩
      rw [next_wr_next_same _ _ hklt2]; exact hseg
    · show _ = vals (wr_next (wr_value s1.data_ k element) k (s.post_.getD i 0)) (k :: ns)
      rw [vals_cons_eq, hvals, hv, value_wr_next, value_wr_value_same _ _ hklt]
  · intro j hj ps hps
    obtain ⟨ns, _, hv, hseg, hvals⟩ := hposts j ps hps
    refine ⟨ns, ?_, ?_⟩
    · show Seg _ ((s1.post_.set i k).getD j 0) _ _
      rw [getD_set_ne _ _ hj, hpo1]; exact hseg
    · rw [hv]; exact hvals.symm
  · intro j vs hvs
    have F : Frame s L { s1 with post_ := s1.post_.set i k,
                                 data_ := wr_next (wr_value s1.data_ k element) k (s.post_.getD i 0) }
        ((L.alloc k).push i k) (fun _ => True) := by
      have F2 := E2.frame I.heap (fun _ => True)
      refine ⟨F2.len, ?_, F2.elem⟩
      intro h hh ho hk
      obtain ⟨h2, h3, h4⟩ := F2.head h hh ho hk
      have h5 : h ≠ k := by
        rintro rfl
        rw [I1.own_pending hkm] at h2; cases h2
      exact ⟨by rw [hown h h5]; exact h2, h3, h4⟩
    by_cases hjn : j < s.start_.length
    · exact SetIs.of_frame F I.heap S hjn (by show s1.start_.getD j 0 = _; rw [hst1])
        (fun _ => trivial) hvs
    · have h2 : s.start_.getD j 0 = 0 := by
        by_contra h; exact hjn (getD_lt_of_ne_zero h)
      unfold SetIs at hvs ⊢
      rw [if_pos h2] at hvs
      show (if s1.start_.getD j 0 = 0 then _ else _)
      rw [hst1, if_pos h2]; exact hvs

end CppAD


namespace CppAD

/-! ## `process_post`: the posting goes to the free list -/

theorem post_copy_loop_spec {d : List pair_size_t} {e : Nat} :
    ∀ (rest : List Nat) (c : Nat) (init : List Nat) (last : Nat) (T : List Nat) (fuel : Nat),
    c :: rest = init ++ [last] → Seg d c (c :: rest) 0 → (∀ x ∈ rest, (rd d x).value < e) →
    rest.length < fuel →
    post_copy_loop d e fuel T c (rd d c).next = some (T ++ vals d rest, last)
  | [], c, init, last, T, fuel, h, hseg, _, hf => by
    obtain ⟨k, rfl⟩ : ∃ k, fuel = k + 1 := ⟨fuel - 1, by simp at hf; omega⟩
    have h1 : (rd d c).next = 0 := hseg.2.2.2
    have h2 : last = c := by
      cases init with
      | nil => simp at h; exact h.symm
      | cons a l => simp at h
    simp [post_copy_loop, h1, h2, vals]
  | r :: rest, c, init, last, T, fuel, h, hseg, hv, hf => by
    obtain ⟨k, rfl⟩ : ∃ k, fuel = k + 1 := ⟨fuel - 1, by simp at hf; omega⟩
    have h1 : Seg d (rd d c).next (r :: rest) 0 := hseg.2.2.2
    have h2 : (rd d c).next = r := h1.1
    have h3 : r ≠ 0 := h1.2.1
    rw [h2] at h1
    have hr : (rd d r).value < e := hv r (List.mem_cons_self _ _)
    cases init with
    | nil =>
      simp at h
    | cons a l =>
      simp only [List.cons_append, List.cons.injEq] at h
      have ih := post_copy_loop_spec rest r l last (T ++ [(rd d r).value]) k h.2 h1
        (fun x hx => hv x (List.mem_cons_of_mem _ hx)) (by simpa using hf)
      rw [h2]
      simp only [post_copy_loop, ne_eq, h3, not_false_eq_true, if_true, CPPAD_ASSERT_UNKNOWN, hr,
        decide_True, Option.bind_eq_bind, Option.some_bind]
      rw [ih]
      simp [vals]

/-- The posting of set `i` is put in front of the free list: the state of
`process_post` after `number_not_used_ += number_post`. -/
theorem post_release_spec {s : list_setvec} {L}
    (I : Inv s L (fun h => s.start_.count h) [])
    (S : SetLink s L (fun h => s.start_.count h)) {i : Nat} (hi : i < s.start_.length)
    (hp : s.post_.getD i 0 ≠ 0) :
    ∃ last, last ∈ L.posts i ∧
      post_copy_loop s.data_ s.end_ s.data_.length [(rd s.data_ (s.post_.getD i 0)).value]
        (s.post_.getD i 0) (rd s.data_ (s.post_.getD i 0)).next
          = some (vals s.data_ (L.posts i), last) ∧
      ((rd s.data_ (s.post_.getD i 0)).next = 0 → (L.posts i).length = 1 ∧
        last = s.post_.getD i 0) ∧
      ((rd s.data_ (s.post_.getD i 0)).next ≠ 0 → 1 < (L.posts i).length) ∧
      (∀ v ∈ vals s.data_ (L.posts i), v < s.end_) ∧
      (∀ n, n = (L.posts i).length →
        Inv { s with post_ := s.post_.set i 0,
                     data_ := wr_next s.data_ last s.data_not_used_,
                     data_not_used_ := s.post_.getD i 0,
                     number_not_used_ := s.number_not_used_ + n }
          (L.drop i []) (fun h => s.start_.count h) [] ∧
        SetLink { s with post_ := s.post_.set i 0,
                         data_ := wr_next s.data_ last s.data_not_used_,
                         data_not_used_ := s.post_.getD i 0,
                         number_not_used_ := s.number_not_used_ + n }
          (L.drop i []) (fun h => s.start_.count h) ∧
        Frame s L { s with post_ := s.post_.set i 0,
                           data_ := wr_next s.data_ last s.data_not_used_,
                           data_not_used_ := s.post_.getD i 0,
                           number_not_used_ := s.number_not_used_ + n }
          (L.drop i []) (fun _ => True)) := by
  have hpi := S.post i hi
  obtain ⟨s1, hdp, he1, hst1, hpo1, htmp1, hnn1, hlen1, H1, hF1, hfr1⟩ :=
    drop_post_spec I.heap I.free.head S hi
  cases hP : L.posts i with
  | nil => rw [hP] at hpi; exact absurd hpi hp
  | cons p rest =>
    have h0 : s.post_.getD i 0 = p := by rw [hpi, hP]; rfl
    have hseg : Seg s.data_ p (p :: rest) 0 := by
      have := I.heap.post_chain i
      rw [hP] at this; exact this
    have hp0 : p ≠ 0 := hseg.2.1
    have hlen := hseg.length_lt I.heap.len_pos
    have hval : ∀ x ∈ p :: rest, (rd s.data_ x).value < s.end_ := by
      intro x hx
      rw [← hP] at hx
      exact I.heap.post_val i x hx
    obtain ⟨init, last, h4, h5⟩ := drop_loop_spec rest p 1 s.data_.length hseg
      (by simp at hlen; omega)
    have hcopy := post_copy_loop_spec rest p init last [(rd s.data_ p).value] s.data_.length h4
      hseg (fun x hx => hval x (List.mem_cons_of_mem _ hx)) (by simp at hlen; omega)
    have hs1 : s1 = { s with post_ := s.post_.set i 0,
                             data_ := wr_next s.data_ last s.data_not_used_,
                             data_not_used_ := p } := by
      simp only [drop_post, h0, ne_eq, hp0, not_false_eq_true, if_true, h5, Option.bind_eq_bind,
        Option.some_bind, Option.some.injEq, Prod.mk.injEq, hP] at hdp
      exact hdp.2.symm
    have hlastm : last ∈ p :: rest := by rw [h4]; simp
    have hheadP : ∀ h, L.own h = Owner.head → h ∉ L.posts i := by
      intro h h1 h2
      rw [I.heap.post_own i h h2] at h1; cases h1
    refine ⟨last, hlastm, ?_, ?_, ?_, ?_, ?_⟩
    · rw [h0, hcopy]; rfl
    · intro hn
      rw [h0] at hn
      have h6 : Seg s.data_ (rd s.data_ p).next rest 0 := hseg.2.2.2
      rw [hn] at h6
      cases rest with
      | nil =>
        refine ⟨rfl, ?_⟩
        rw [h0]
        cases init with
        | nil => simp at h4; exact h4.symm
        | cons a l => simp at h4
      | cons r rest1 => exact absurd h6.1.symm h6.2.1
    · intro hn
      rw [h0] at hn
      cases rest with
      | nil => exact absurd hseg.2.2.2 hn
      | cons r rest1 => simp
    · intro v hv
      obtain ⟨x, hx, rfl⟩ := List.mem_map.1 hv
      exact hval x hx
    · intro n hn
      subst hn
      rw [h0]
      rw [hs1] at H1 hF1 hfr1
      have hown : ∀ x, ((L.drop i []).own x = Owner.free ∧ x ∈ L.posts i) ∨
          ((L.drop i []).own x = L.own x ∧ x ∉ L.posts i) := by
        intro x
        rcases L.drop_own_cases i [] x with ⟨h1, h2⟩ | ⟨h1, _, h3⟩
        · rcases h2 with h2 | h2
          · simp at h2
          · exact Or.inl ⟨h1, h2⟩
        · exact Or.inr ⟨h1, h3⟩
      refine ⟨⟨H1, ⟨hF1, ?_⟩, ?_, by simp⟩, ⟨?_, ?_, ?_, ?_, ?_⟩, ⟨?_, ?_, ?_⟩⟩
      · show s.number_not_used_ + (p :: rest).length = _
        rw [I.free.count]
        simp [Layout.drop, hP]; omega
      · intro x hx
        simp only [List.not_mem_nil, iff_false]
        have hx1 : x < s.data_.length := by
          have : x < (wr_next s.data_ last s.data_not_used_).length := hx
          rw [length_wr_next] at this; exact this
        rcases hown x with ⟨h1, _⟩ | ⟨h1, _⟩
        · rw [h1]; simp
        · rw [h1]
          intro h2
          have := (I.scratch x hx1).1 h2
          simp at this
      · show (s.post_.set i 0).length = s.start_.length
        rw [List.length_set]; exact S.len
      · intro j hj
        show (s.post_.set i 0).getD j 0 = ((L.drop i []).posts j).headD 0
        by_cases hji : j = i
        · subst hji
          rw [getD_set_same _ _ (by rw [S.len]; exact hj)]
          simp [Layout.drop]
        · rw [getD_set_ne _ _ hji]
          simp only [Layout.drop, Function.update_noteq hji]
          exact S.post j hj
      · intro j hj
        have hji : j ≠ i := by
          have : s.start_.length ≤ j := hj
          omega
        simp only [Layout.drop, Function.update_noteq hji]
        exact S.post_out j hj
      · intro j hj hne
        obtain ⟨h1, h2⟩ := S.start j hj hne
        refine ⟨by show _ < (wr_next s.data_ last s.data_not_used_).length
                   rw [length_wr_next]; exact h1, ?_⟩
        show (L.drop i []).own (s.start_.getD j 0) = Owner.head
        rw [L.drop_own_of_not_mem i [] (by simp) (hheadP _ h2)]; exact h2
      · intro h _ _
        exact Nat.le_refl _
      · show s.data_.length ≤ (wr_next s.data_ last s.data_not_used_).length
        rw [length_wr_next]
      · intro h hh ho _
        refine ⟨?_, rfl, ?_⟩
        · rw [L.drop_own_of_not_mem i [] (by simp) (hheadP _ ho)]; exact ho
        · rw [hfr1 h (hheadP _ ho)]
      · intro h hh ho _ x hx
        apply hfr1
        intro hx2
        have h6 := I.heap.post_own i x hx2
        rw [I.heap.list_own h hh ho x hx] at h6; cases h6

end CppAD


namespace CppAD

/-! ## `process_post`: the merge of the sorted posting with the set -/

theorem post_skip_loop_spec {d : List pair_size_t} {e : Nat} (hz : rd d 0 = ⟨e, 0⟩)
    {bound : Nat} (hb : bound ≤ e) :
    ∀ (nl : List Nat) (fuel : Nat) (T : List Nat), Seg d (nl.headD 0) nl 0 →
    (vals d nl).Pairwise (· < ·) → (∀ v ∈ vals d nl, v < e) → nl.length < fuel →
    ∃ sk nl2, nl = sk ++ nl2 ∧
      post_skip_loop d bound fuel T (nl.headD 0) (rd d (nl.headD 0)).value =
        some (T ++ vals d sk, nl2.headD 0, (rd d (nl2.headD 0)).value) ∧
      (∀ x ∈ vals d sk, x < bound) ∧ (∀ y ∈ vals d nl2, bound ≤ y)
  | _, 0, _, _, _, _, hf => absurd hf (Nat.not_lt_zero _)
  | [], fuel + 1, T, _, _, _, _ => by
    refine ⟨[], [], rfl, ?_, by simp [vals], by simp [vals]⟩
    unfold post_skip_loop
    simp only [List.headD_nil, hz, vals, List.map_nil, List.append_nil]
    rw [if_neg (by omega)]
  | x :: nl, fuel + 1, T, hs, hsort, hv, hf => by
    have hs1 : Seg d (nl.headD 0) nl 0 := by rw [← hs.2.2.2.start]; exact hs.2.2.2
    rw [vals_cons] at hsort hv
    obtain ⟨hsort1, hsort2⟩ := List.pairwise_cons.1 hsort
    by_cases hx : (rd d x).value < bound
    · obtain ⟨sk, nl2, h1, h2, h3, h4⟩ := post_skip_loop_spec hz hb nl fuel
        (T ++ [(rd d x).value]) hs1 hsort2 (fun v hv1 => hv v (List.mem_cons_of_mem _ hv1))
        (by simpa using hf)
      refine ⟨x :: sk, nl2, by rw [h1]; rfl, ?_, ?_, h4⟩
      · unfold post_skip_loop
        simp only [List.headD_cons, hx, if_true]
        rw [hs.2.2.2.start, h2]
        simp [vals]
      · intro v hv1
        rw [vals_cons] at hv1
        rcases List.mem_cons.1 hv1 with rfl | hv1
        · exact hx
        · exact h3 v hv1
    · refine ⟨[], x :: nl, rfl, ?_, by simp [vals], ?_⟩
      · unfold post_skip_loop
        simp only [List.headD_cons, hx, if_false, vals, List.map_nil, List.append_nil]
      · intro y hy
        rw [vals_cons] at hy
        rcases List.mem_cons.1 hy with rfl | hy
        · omega
        · have := hsort1 y hy
          omega

theorem PostInv.below {e : Nat} {T RA : List Nat} {prev : Nat} (h : PostInv e T RA prev) :
    ∀ t ∈ T, ∀ y ∈ RA, t < y := by
  intro t ht y hy
  rcases h.2 with ⟨_, h1⟩ | ⟨_, _, h2, h3⟩
  · rw [h1] at ht; simp at ht
  · exact Nat.lt_of_le_of_lt (h2 t ht) (h3 y hy)

theorem PostInv.step {e : Nat} {T SK RA2 : List Nat} (RA3 : List Nat) {prev pv : Nat}
    (h : PostInv e T (SK ++ RA2) prev) (hs : (SK ++ RA2).Pairwise (· < ·))
    (hsk : ∀ x ∈ SK, x < pv) (hpv : pv < e) (hprev : prev = e ∨ prev ≤ pv)
    (hra : ∀ y ∈ RA3, pv < y) :
    PostInv e (T ++ SK ++ (if prev ≠ pv then [pv] else [])) RA3 pv := by
  have hbelow := h.below
  obtain ⟨hT, hcase⟩ := h
  have hTpv : ∀ t ∈ T, t ≤ pv ∧ (prev ≠ pv → t < pv) := by
    intro t ht
    rcases hcase with ⟨_, h1⟩ | ⟨h0, _, h2, _⟩
    · rw [h1] at ht; simp at ht
    · have h3 : prev ≤ pv := by
        rcases hprev with h3 | h3
        · omega
        · exact h3
      have := h2 t ht
      exact ⟨by omega, fun h4 => by omega⟩
  have hTSK : (T ++ SK).Pairwise (· < ·) := by
    rw [List.pairwise_append]
    exact ⟨hT, (List.pairwise_append.1 hs).1, fun t ht y hy =>
      hbelow t ht y (List.mem_append_left _ hy)⟩
  refine ⟨?_, Or.inr ⟨hpv, ?_, ?_, hra⟩⟩
  · by_cases hpp : prev = pv
    · simpa [hpp] using hTSK
    · rw [if_pos hpp, List.pairwise_append]
      refine ⟨hTSK, by simp, ?_⟩
      intro t ht y hy
      simp only [List.mem_singleton] at hy
      subst hy
      rcases List.mem_append.1 ht with ht | ht
      · exact (hTpv t ht).2 hpp
      · exact hsk t ht
  · by_cases hpp : prev = pv
    · rcases hcase with ⟨h1, _⟩ | ⟨_, h1, _, _⟩
      · omega
      · rw [← hpp]
        simp [h1]
    · rw [if_pos hpp]; simp
  · intro t ht
    rcases List.mem_append.1 ht with ht | ht
    · rcases List.mem_append.1 ht with ht | ht
      · exact (hTpv t ht).1
      · exact Nat.le_of_lt (hsk t ht)
    · by_cases hpp : prev = pv
      · simp [hpp] at ht
      · rw [if_pos hpp] at ht
        simp at ht
        omega

theorem mem_push_iff (T SK CL ps : List Nat) (prev pv x : Nat) (hmemT : prev = pv → pv ∈ T) :
    (x ∈ (T ++ SK ++ if prev ≠ pv then [pv] else []) ∨ x ∈ CL ∨ x ∈ ps) ↔
      (x ∈ T ∨ x ∈ SK ++ CL ∨ x ∈ pv :: ps) := by
  by_cases hpr : prev = pv
  · have hmem := hmemT hpr
    simp only [hpr, ne_eq, not_true_eq_false, if_false, List.append_nil, List.mem_append,
      List.mem_cons]
    constructor
    · tauto
    · rintro (h | h | h | h)
      · tauto
      · tauto
      · subst h; tauto
      · tauto
  · simp only [hpr, ne_eq, not_false_eq_true, if_true, List.mem_append, List.mem_cons,
      List.mem_singleton, List.not_mem_nil, or_false]
    tauto

theorem mem_push_iff_in (T SK CL ps : List Nat) (prev pv x : Nat) (hmemT : prev = pv → pv ∈ T) :
    (x ∈ (T ++ SK ++ if prev ≠ pv then [pv] else []) ∨ x ∈ CL ∨ x ∈ ps) ↔
      (x ∈ T ∨ x ∈ SK ++ pv :: CL ∨ x ∈ pv :: ps) := by
  rw [mem_push_iff T SK CL ps prev pv x hmemT]
  simp only [List.mem_append, List.mem_cons]
  tauto

/-- The merge loop of `process_post` over the sorted posting `ps`. -/
theorem post_merge_loop_spec {d : List pair_size_t} {e : Nat} (hz : rd d 0 = ⟨e, 0⟩)
    (hlen : 0 < d.length) (T0 : List Nat) :
    ∀ (ps nl T : List Nat) (flag : Bool) (prev : Nat),
    Seg d (nl.headD 0) nl 0 → (vals d nl).Pairwise (· < ·) → (∀ v ∈ vals d nl, v < e) →
    ps.Pairwise (· ≤ ·) → (∀ p ∈ ps, p < e) → (∀ p ∈ ps, prev = e ∨ prev ≤ p) →
    PostInv e T (vals d nl) prev →
    ∃ cl nl1 T1 flag1 prev1,
      post_merge_loop d e ps (T0 ++ T) (nl.headD 0) (rd d (nl.headD 0)).value flag prev =
        some (T0 ++ T1, nl1.headD 0, (rd d (nl1.headD 0)).value, flag1) ∧
      nl = cl ++ nl1 ∧ PostInv e T1 (vals d nl1) prev1 ∧
      (∀ x, x ∈ T1 ↔ x ∈ T ∨ x ∈ vals d cl ∨ x ∈ ps) ∧
      (flag1 = true → flag = true ∧ ∀ p ∈ ps, p ∈ vals d cl)
  | [], nl, T, flag, prev, _, _, _, _, _, _, hI =>
    ⟨[], nl, T, flag, prev, by simp [post_merge_loop], rfl, hI, by simp [vals], by simp⟩
  | pv :: ps, nl, T, flag, prev, hs, hsort, hv, hps, hpe, hpp, hI => by
    have hpv : pv < e := hpe pv (List.mem_cons_self _ _)
    obtain ⟨hps1, hps2⟩ := List.pairwise_cons.1 hps
    obtain ⟨sk, nl2, h1, h2, h3, h4⟩ := post_skip_loop_spec hz (Nat.le_of_lt hpv) nl d.length
      (T0 ++ T) hs hsort hv (hs.length_lt hlen)
    have hs2 : Seg d (nl2.headD 0) nl2 0 := by rw [h1] at hs; exact hs.suffix
    have hsort' : (vals d sk ++ vals d nl2).Pairwise (· < ·) := by
      rw [← vals_append, ← h1]; exact hsort
    have hsort2 : (vals d nl2).Pairwise (· < ·) := (List.pairwise_append.1 hsort').2.1
    have hv2 : ∀ v ∈ vals d nl2, v < e := by
      intro v hv1; apply hv; rw [h1, vals_append]; exact List.mem_append_right _ hv1
    have hI' : PostInv e T (vals d sk ++ vals d nl2) prev := by
      rw [← vals_append, ← h1]; exact hI
    have hnext : ∀ p ∈ ps, pv = e ∨ pv ≤ p := fun p hp => Or.inr (hps1 p hp)
    have hmemT : prev = pv → pv ∈ T := by
      intro hpr
      rcases hI.2 with ⟨h5, _⟩ | ⟨_, h5, _, _⟩
      · omega
      · rw [← hpr]; exact h5
    by_cases heq : (rd d (nl2.headD 0)).value = pv
    · -- the posted value is in the set
      cases nl2 with
      | nil =>
        rw [List.headD_nil, hz] at heq
        have heq1 : e = pv := heq
        omega
      | cons y nl3 =>
        have hs3 : Seg d (nl3.headD 0) nl3 0 := by
          rw [← hs2.2.2.2.start]; exact hs2.2.2.2
        rw [vals_cons] at hsort2 hv2
        obtain ⟨hy1, hy2⟩ := List.pairwise_cons.1 hsort2
        have hyv : (rd d y).value = pv := heq
        have hI3 := PostInv.step (vals d nl3) hI' hsort' h3 hpv
          (hpp pv (List.mem_cons_self _ _)) (fun z hz1 => by rw [← hyv]; exact hy1 z hz1)
        obtain ⟨cl, nl1, T1, flag1, prev1, e1, e2, e3, e4, e5⟩ :=
          post_merge_loop_spec hz hlen T0 ps nl3
            (T ++ vals d sk ++ (if prev ≠ pv then [pv] else [])) flag pv hs3 hy2
            (fun v hv1 => hv2 v (List.mem_cons_of_mem _ hv1)) hps2
            (fun p hp => hpe p (List.mem_cons_of_mem _ hp)) hnext hI3
        refine ⟨sk ++ y :: cl, nl1, T1, flag1, prev1, ?_, ?_, e3, ?_, ?_⟩
        · unfold post_merge_loop
          simp only [CPPAD_ASSERT_UNKNOWN, hpv, decide_True, if_true, Option.bind_eq_bind,
            Option.some_bind, h2, List.headD_cons, hyv]
          rw [← e1, hs2.2.2.2.start]
          by_cases hpr : prev = pv
          · simp [hpr]
          · simp [hpr]
        · rw [h1, e2]; simp
        · intro x
          rw [e4 x, vals_append, vals_cons, hyv]
          exact mem_push_iff_in T (vals d sk) (vals d cl) ps prev pv x hmemT
        · intro hf
          obtain ⟨h5, h6⟩ := e5 hf
          refine ⟨h5, ?_⟩
          intro p hp
          rw [vals_append, vals_cons, hyv]
          rcases List.mem_cons.1 hp with rfl | hp
          · simp
          · have := h6 p hp
            simp only [List.mem_append, List.mem_cons]
            exact Or.inr (Or.inr this)
    · -- the posted value is not in the set
      have hgt : ∀ z ∈ vals d nl2, pv < z := by
        intro z hz1
        cases nl2 with
        | nil => simp [vals] at hz1
        | cons y nl3 =>
          rw [vals_cons] at hz1 hsort2
          have hy : pv ≤ (rd d y).value := h4 _ (by rw [vals_cons]; exact List.mem_cons_self _ _)
          have hy2 : pv < (rd d y).value := by
            rcases Nat.lt_or_ge pv (rd d y).value with h | h
            · exact h
            · exact absurd (Nat.le_antisymm h hy) heq
          rcases List.mem_cons.1 hz1 with rfl | hz1
          · exact hy2
          · exact hy2.trans ((List.pairwise_cons.1 hsort2).1 z hz1)
      have hI3 := PostInv.step (vals d nl2) hI' hsort' h3 hpv
        (hpp pv (List.mem_cons_self _ _)) hgt
      obtain ⟨cl, nl1, T1, flag1, prev1, e1, e2, e3, e4, e5⟩ :=
        post_merge_loop_spec hz hlen T0 ps nl2
          (T ++ vals d sk ++ (if prev ≠ pv then [pv] else [])) false pv hs2 hsort2 hv2 hps2
          (fun p hp => hpe p (List.mem_cons_of_mem _ hp)) hnext hI3
      refine ⟨sk ++ cl, nl1, T1, flag1, prev1, ?_, ?_, e3, ?_, ?_⟩
      · unfold post_merge_loop
        simp only [CPPAD_ASSERT_UNKNOWN, hpv, decide_True, if_true, Option.bind_eq_bind,
          Option.some_bind, h2, heq, if_false]
        rw [← e1]
        by_cases hpr : prev = pv
        · simp [hpr]
        · simp [hpr]
      · rw [h1, e2]; simp
      · intro x
        rw [e4 x, vals_append]
        exact mem_push_iff T (vals d sk) (vals d cl) ps prev pv x hmemT
      · intro hf
        have := (e5 hf).1
        simp at this

end CppAD


namespace CppAD

/-! ## `process_post` -/

theorem post_union_props {e : Nat} {T1 CA RA ps : List Nat} {prev1 : Nat}
    (hI : PostInv e T1 RA prev1) (hmem : ∀ x, x ∈ T1 ↔ x ∈ ([] : List Nat) ∨ x ∈ CA ∨ x ∈ ps)
    (hs : (CA ++ RA).Pairwise (· < ·)) (hne : ps ≠ []) :
    (T1 ++ RA).Pairwise (· < ·) ∧ T1 ++ RA ≠ [] ∧
      ∀ x, x ∈ T1 ++ RA ↔ x ∈ CA ++ RA ∨ x ∈ ps := by
  refine ⟨?_, ?_, ?_⟩
  · rw [List.pairwise_append]
    exact ⟨hI.1, (List.pairwise_append.1 hs).2.1, hI.below⟩
  · cases ps with
    | nil => exact absurd rfl hne
    | cons p ps1 =>
      have : p ∈ T1 := (hmem p).2 (Or.inr (Or.inr (List.mem_cons_self _ _)))
      intro h
      rw [List.append_eq_nil] at h
      rw [h.1] at this
      simp at this
  · intro x
    simp only [List.mem_append, hmem x, List.not_mem_nil, false_or]
    tauto

theorem PostIs.eq_layout {s : list_setvec} {L f} (I : Inv s L f []) (S : SetLink s L f)
    {i : Nat} (hi : i < s.start_.length) {ps : List Nat} (h : PostIs s i ps) :
    ps = vals s.data_ (L.posts i) := by
  obtain ⟨ns, hseg, hv⟩ := h
  have hch := I.heap.post_chain i
  rw [← S.post i hi] at hch
  rw [hv, Seg.det hseg hch]

theorem setIs_of_frame_all {s L s1 L1 f} (F : Frame s L s1 L1 (fun _ => True))
    (H : Heap s.data_ s.end_ L f) (S : SetLink s L f) (hst : s1.start_ = s.start_) {j : Nat}
    {vs : List Nat} (h : SetIs s j vs) : SetIs s1 j vs := by
  by_cases hjn : j < s.start_.length
  · exact SetIs.of_frame F H S hjn (by rw [hst]) (fun _ => trivial) h
  · have h2 : s.start_.getD j 0 = 0 := by
      by_contra h3; exact hjn (getD_lt_of_ne_zero h3)
    unfold SetIs at h ⊢
    rw [if_pos h2] at h
    rw [hst, if_pos h2]; exact h

theorem setIs_out_of_range {s s1 : list_setvec} (hlen : s1.start_.length = s.start_.length)
    {j : Nat} (hj : ¬ j < s.start_.length) {vs : List Nat} (h : SetIs s j vs) :
    SetIs s1 j vs := by
  have h2 : s.start_.getD j 0 = 0 := by
    by_contra h3; exact hj (getD_lt_of_ne_zero h3)
  have h3 : s1.start_.getD j 0 = 0 := by
    by_contra h3
    have := getD_lt_of_ne_zero h3
    omega
  unfold SetIs at h ⊢
  rw [if_pos h2] at h
  rw [if_pos h3]; exact h

end CppAD


namespace CppAD

/-- Specification of `process_post`: the posted values are added to set `i`, the
posting of set `i` becomes empty and no other set changes. -/
theorem process_post_spec {s : list_setvec} (hw : WF s) {i : Nat} (hi : i < s.start_.length) :
    ∃ s1, process_post s i = some s1 ∧ WF s1 ∧ s1.end_ = s.end_ ∧
      s1.start_.length = s.start_.length ∧ s1.post_ = s.post_.set i 0 ∧
      (∀ vs ps, SetIs s i vs → PostIs s i ps →
        ∃ vs1, SetIs s1 i vs1 ∧ ∀ x, x ∈ vs1 ↔ x ∈ vs ∨ x ∈ ps) ∧
      (∀ j, j ≠ i → ∀ vs, SetIs s j vs → SetIs s1 j vs) := by
  obtain ⟨L, I, S⟩ := id hw
  by_cases hp : s.post_.getD i 0 = 0
  · refine ⟨s, ?_, hw, rfl, rfl, ?_, ?_, fun j _ vs h => h⟩
    · simp only [process_post, hp, if_true]
    · rw [← hp, set_getD_self]
    · intro vs ps hvs hps
      have h1 := hps.eq_layout I S hi
      have h2 : L.posts i = [] := by
        have h3 := S.post i hi
        rw [hp] at h3
        have h4 := I.heap.post_chain i
        cases hP : L.posts i with
        | nil => rfl
        | cons a l =>
          rw [hP] at h4 h3
          exact absurd h3.symm h4.2.1
      rw [h2] at h1
      subst h1
      exact ⟨vs, hvs, by simp [vals]⟩
  obtain ⟨last, hlm, hcopy, hone, hmany, hvals, hrel⟩ := post_release_spec I S hi hp
  obtain ⟨I4, S4, F4⟩ := hrel (L.posts i).length rfl
  have hw4 := WF.intro I4 S4 (fun _ _ _ => rfl)
  have hsetI : ∀ j vs, SetIs s j vs →
      SetIs { s with post_ := s.post_.set i 0,
                     data_ := wr_next s.data_ last s.data_not_used_,
                     data_not_used_ := s.post_.getD i 0,
                     number_not_used_ := s.number_not_used_ + (L.posts i).length } j vs :=
    fun j vs h => setIs_of_frame_all F4 I.heap S rfl h
  by_cases hn : (rd s.data_ (s.post_.getD i 0)).next = 0
  · -- one posted value
    obtain ⟨hl1, hlast⟩ := hone hn
    have hvlt : (rd s.data_ (s.post_.getD i 0)).value < s.end_ := by
      apply hvals
      have h3 := S.post i hi
      cases hP : L.posts i with
      | nil => rw [hP] at hl1; simp at hl1
      | cons a l =>
        rw [hP] at h3
        rw [h3]; simp [vals]
    rw [hl1, hlast] at hw4 hsetI
    obtain ⟨s1, h1, hw1, he1, hlen1, hpo1, hc1, hoth1⟩ := add_element_spec hw4 hi hvlt
    refine ⟨s1, ?_, hw1, he1, hlen1, hpo1, ?_, ?_⟩
    · simp only [process_post, hp, if_false, hn, if_true]
      exact h1
    · intro vs ps hvs hps
      obtain ⟨vs1, h2, h3⟩ := hc1 vs (hsetI i vs hvs)
      refine ⟨vs1, h2, ?_⟩
      intro x
      rw [h3 x]
      have h4 := hps.eq_layout I S hi
      have h5 : ps = [(rd s.data_ (s.post_.getD i 0)).value] := by
        rw [h4]
        have h6 := S.post i hi
        cases hP : L.posts i with
        | nil => rw [hP] at hl1; simp at hl1
        | cons a l =>
          rw [hP] at h6 hl1
          have hl : l = [] := by
            simp at hl1; exact hl1
          rw [h6, hl]; rfl
      rw [h5]
      simp only [List.mem_singleton]
      exact Or.comm
    · intro j hj vs hvs
      by_cases hjn : j < s.start_.length
      · exact hoth1 j hjn hj vs (hsetI j vs hvs)
      · exact setIs_out_of_range hlen1 hjn (hsetI j vs hvs)
  · -- more than one posted value
    have hnp := hmany hn
    have hz4 : rd (wr_next s.data_ last s.data_not_used_) 0 = ⟨s.end_, 0⟩ := I4.heap.zero
    have hlen4 : 0 < (wr_next s.data_ last s.data_not_used_).length := I4.heap.len_pos
    have hvlt : (rd s.data_ (s.post_.getD i 0)).value < s.end_ := by
      apply hvals
      have h3 := S.post i hi
      cases hP : L.posts i with
      | nil => rw [hP] at hnp; simp at hnp
      | cons a l =>
        rw [hP] at h3
        rw [h3]; simp [vals]
    have hnpv : (vals s.data_ (L.posts i)).length > 1 := by
      simp only [vals, List.length_map]; exact hnp
    have hnl : ∃ nl, Seg (wr_next s.data_ last s.data_not_used_) (nl.headD 0) nl 0 ∧
        (vals (wr_next s.data_ last s.data_not_used_) nl).Pairwise (· < ·) ∧
        (∀ v ∈ vals (wr_next s.data_ last s.data_not_used_) nl, v < s.end_) ∧
        (∀ vs, SetIs s i vs → vs = vals (wr_next s.data_ last s.data_not_used_) nl) ∧
        (if s.start_.getD i 0 > 0 then
          (rd (wr_next s.data_ last s.data_not_used_) (s.start_.getD i 0)).next
          else s.start_.getD i 0) = nl.headD 0 := by
      by_cases h0 : s.start_.getD i 0 = 0
      · refine ⟨[], rfl, by simp [vals], by simp [vals], ?_, ?_⟩
        · intro vs hvs
          unfold SetIs at hvs
          rw [if_pos h0] at hvs
          rw [hvs]; rfl
        · rw [if_neg (by omega)]; exact h0
      · obtain ⟨h1, h2⟩ := S4.start i hi h0
        refine ⟨(L.drop i []).elems (s.start_.getD i 0), ?_, I4.heap.list_sorted _ h1 h2, ?_, ?_, ?_⟩
        · have := I4.heap.list_chain _ h1 h2
          rw [← this.start]; exact this
        · intro v hv
          obtain ⟨x, hx, rfl⟩ := List.mem_map.1 hv
          exact I4.heap.list_val _ h1 h2 x hx
        · intro vs hvs
          have h3 := SetIs.unique (hsetI i vs hvs) (SetIs.of_layout I4.heap S4 hi)
          rw [h3]
          unfold Layout.content
          exact if_neg h0
        · rw [if_pos (by omega)]
          exact (I4.heap.list_chain _ h1 h2).start
    obtain ⟨nl, hnl1, hnl2, hnl3, hnl4, hnl5⟩ := hnl
    have hsorted := List.sorted_insertionSort (· ≤ ·) (vals s.data_ (L.posts i))
    have hsmem : ∀ x, x ∈ (vals s.data_ (L.posts i)).insertionSort (· ≤ ·) ↔
        x ∈ vals s.data_ (L.posts i) := fun x => List.mem_insertionSort (· ≤ ·)
    have hslen := List.length_insertionSort (· ≤ ·) (vals s.data_ (L.posts i))
    obtain ⟨cl, nl1, T1, flag1, prev1, e1, e2, e3, e4, e5⟩ :=
      post_merge_loop_spec hz4 hlen4 ((vals s.data_ (L.posts i)).insertionSort (· ≤ ·))
        ((vals s.data_ (L.posts i)).insertionSort (· ≤ ·)) nl [] true s.end_ hnl1 hnl2 hnl3
        hsorted (fun p hp1 => hvals p ((hsmem p).1 hp1)) (fun p _ => Or.inl rfl)
        ⟨List.Pairwise.nil, Or.inl ⟨rfl, rfl⟩⟩
    rw [List.append_nil] at e1
    have hval0 : (if s.start_.getD i 0 > 0 then
        (rd (wr_next s.data_ last s.data_not_used_) (nl.headD 0)).value else s.end_) =
        (rd (wr_next s.data_ last s.data_not_used_) (nl.headD 0)).value := by
      by_cases h0 : s.start_.getD i 0 > 0
      · rw [if_pos h0]
      · rw [if_neg h0]
        rw [if_neg h0] at hnl5
        have h1 : s.start_.getD i 0 = 0 := by omega
        rw [← hnl5, h1, hz4]
    have hvl : (vals s.data_ (L.posts i)).length = (L.posts i).length := by
      simp only [vals, List.length_map]
    have hunfold : process_post s i =
        (if flag1 = true then
          some { s with post_ := s.post_.set i 0,
                        data_ := wr_next s.data_ last s.data_not_used_,
                        data_not_used_ := s.post_.getD i 0,
                        number_not_used_ := s.number_not_used_ + (L.posts i).length,
                        temporary_ := (vals s.data_ (L.posts i)).insertionSort (· ≤ ·) ++ T1 }
        else
          (post_skip_loop (wr_next s.data_ last s.data_not_used_) s.end_
            (wr_next s.data_ last s.data_not_used_).length
            ((vals s.data_ (L.posts i)).insertionSort (· ≤ ·) ++ T1) (nl1.headD 0)
            (rd (wr_next s.data_ last s.data_not_used_) (nl1.headD 0)).value).bind fun a =>
          (drop { s with post_ := s.post_.set i 0,
                         data_ := wr_next s.data_ last s.data_not_used_,
                         data_not_used_ := s.post_.getD i 0,
                         number_not_used_ := s.number_not_used_ + (L.posts i).length,
                         temporary_ := a.1 } i).bind fun b =>
          (if decide (b.2.temporary_.length ≥ (L.posts i).length + 1) = true then some ()
            else none).bind fun _ =>
          link_new_list { b.2 with number_not_used_ := b.2.number_not_used_ + b.1 } i
            (List.drop (L.posts i).length b.2.temporary_)) := by
      simp only [process_post, hp, hn, if_false, CPPAD_ASSERT_UNKNOWN, hvlt, decide_True, if_true,
        Option.bind_eq_bind, Option.some_bind, hcopy, hnl5, hval0, e1, hvl, gt_iff_lt, hnp]
    rw [hunfold]
    have hAeq : ∀ vs, SetIs s i vs →
        vs = vals (wr_next s.data_ last s.data_not_used_) cl ++
          vals (wr_next s.data_ last s.data_not_used_) nl1 := by
      intro vs hvs
      rw [hnl4 vs hvs, e2, vals_append]
    have hPeq : ∀ ps, PostIs s i ps → ∀ x,
        x ∈ (vals s.data_ (L.posts i)).insertionSort (· ≤ ·) ↔ x ∈ ps := by
      intro ps hps x
      rw [hps.eq_layout I S hi]
      exact hsmem x
    have hsne : (vals s.data_ (L.posts i)).insertionSort (· ≤ ·) ≠ [] := by
      intro h
      rw [h] at hslen
      simp at hslen
      omega
    by_cases hf : flag1 = true
    · rw [if_pos hf]
      have hsub := (e5 hf).2
      refine ⟨_, rfl, hw4.of_temporary _, rfl, rfl, rfl, ?_, ?_⟩
      · intro vs ps hvs hps
        refine ⟨vs, hsetI i vs hvs, ?_⟩
        intro x
        constructor
        · exact Or.inl
        · rintro (h | h)
          · exact h
          · rw [hAeq vs hvs]
            exact List.mem_append_left _ (hsub x ((hPeq ps hps x).2 h))
      · intro j _ vs hvs
        exact hsetI j vs hvs
    · rw [if_neg hf]
      have hs1 : Seg (wr_next s.data_ last s.data_not_used_) (nl1.headD 0) nl1 0 := by
        rw [e2] at hnl1; exact hnl1.suffix
      have hsort' : (vals (wr_next s.data_ last s.data_not_used_) cl ++
          vals (wr_next s.data_ last s.data_not_used_) nl1).Pairwise (· < ·) := by
        rw [← vals_append, ← e2]; exact hnl2
      have hv1 : ∀ v ∈ vals (wr_next s.data_ last s.data_not_used_) nl1, v < s.end_ := by
        intro v hv; apply hnl3; rw [e2, vals_append]; exact List.mem_append_right _ hv
      obtain ⟨sk, nl2, k1, k2, k3, k4⟩ := post_skip_loop_spec hz4 (Nat.le_refl s.end_) nl1
        (wr_next s.data_ last s.data_not_used_).length
        ((vals s.data_ (L.posts i)).insertionSort (· ≤ ·) ++ T1) hs1
        (List.pairwise_append.1 hsort').2.1 hv1 (hs1.length_lt hlen4)
      have hnl2 : nl2 = [] := by
        cases nl2 with
        | nil => rfl
        | cons y l =>
          have h1 := k4 _ (by rw [vals_cons]; exact List.mem_cons_self _ _)
          have h2 := hv1 (rd (wr_next s.data_ last s.data_not_used_) y).value (by
            rw [k1, vals_append, vals_cons]; simp)
          omega
      rw [hnl2, List.append_nil] at k1
      subst k1
      obtain ⟨hUs, hUne, hUm⟩ := post_union_props e3 e4 hsort' hsne
      have hUv : ∀ x ∈ T1 ++ vals (wr_next s.data_ last s.data_not_used_) nl1, x < s.end_ := by
        intro x hx
        rcases (hUm x).1 hx with h | h
        · apply hnl3; rw [e2, vals_append]; exact h
        · exact hvals x ((hsmem x).1 h)
      obtain ⟨nd, s3, s5, hd, htmp3, h5, hw5, he5, hlen5, hpo5, _, hc5, hoth5⟩ :=
        drop_link_spec (hw4.of_temporary ((vals s.data_ (L.posts i)).insertionSort (· ≤ ·) ++ T1 ++
          vals (wr_next s.data_ last s.data_not_used_) nl1)) hi
          (T1 ++ vals (wr_next s.data_ last s.data_not_used_) nl1) hUne hUs hUv
      have htmp3a : s3.temporary_ = (vals s.data_ (L.posts i)).insertionSort (· ≤ ·) ++
          (T1 ++ vals (wr_next s.data_ last s.data_not_used_) nl1) := by
        rw [htmp3]; exact List.append_assoc _ _ _
      have hdrop : List.drop (L.posts i).length s3.temporary_ =
          T1 ++ vals (wr_next s.data_ last s.data_not_used_) nl1 := by
        rw [htmp3a]
        exact List.drop_left' (by rw [hslen, hvl])
      refine ⟨s5, ?_, hw5, he5, hlen5, ?_, ?_, ?_⟩
      · rw [k2]
        simp only [Option.some_bind]
        rw [hd]
        simp only [Option.some_bind]
        rw [if_pos, hdrop]
        · simp only [Option.some_bind]
          exact h5
        · rw [htmp3a]
          simp only [List.length_append, hslen, hvl, ge_iff_le, decide_eq_true_eq]
          have : 0 < (T1 ++ vals (wr_next s.data_ last s.data_not_used_) nl1).length :=
            List.length_pos.2 hUne
          simp only [List.length_append] at this
          omega
      · rw [hpo5]
        show (s.post_.set i 0).set i 0 = _
        simp
      · intro vs ps hvs hps
        refine ⟨_, hc5, ?_⟩
        intro x
        rw [hUm x, hAeq vs hvs, hPeq ps hps x]
      · intro j hj vs hvs
        exact hoth5 j hj vs (hsetI j vs hvs)

end CppAD


namespace CppAD

/-! ## `resize`, `operator=`, `is_element` and the iterator on well-formed states -/

theorem getD_replicate_zero (n j : Nat) : (List.replicate n 0).getD j 0 = 0 := by
  rw [List.getD_eq_getElem?_getD]
  by_cases h : j < n
  · rw [List.getElem?_eq_getElem (by simpa using h)]
    simp
  · rw [List.getElem?_eq_none (by simpa using h)]
    rfl

/-- The state that `resize(n_set, end)` builds is well formed. -/
theorem wf_fresh (e nset : Nat) (t : List Nat) :
    WF ⟨e, 0, 0, [⟨e, 0⟩], List.replicate nset 0, List.replicate nset 0, t⟩ := by
  refine ⟨⟨fun _ => Owner.sentinel, [], fun _ => [], fun _ => []⟩, ⟨?_, ⟨rfl, rfl⟩, ?_, ?_⟩,
    ⟨?_, ?_, ?_, ?_, ?_⟩⟩
  · refine ⟨by simp, rfl, rfl, rfl, ?_, ?_, ?_, ?_, ?_, ?_, ?_, ?_, ?_, ?_, ?_, ?_, ?_, ?_, ?_⟩
    · intro x hx; simp at hx
    · intro i; rfl
    · intro i x hx; simp at hx
    · intro i x hx; simp at hx
    · intro h _ ho; cases ho
    · intro h _ ho; cases ho
    · intro h _ ho; cases ho
    · intro h _ ho; cases ho
    · intro h _ ho; cases ho
    · intro h _ ho; cases ho
    · intro x hx _
      simp at hx; exact hx
    · intro x _ ho; cases ho
    · intro x _ i ho; cases ho
    · intro x _ h ho; cases ho
    · intro h _ ho; cases ho
  · intro x _
    simp
  · intro x hx; simp at hx
  · simp
  · intro i _
    show (List.replicate nset 0).getD i 0 = 0
    exact getD_replicate_zero nset i
  · intro i _; rfl
  · intro i _ hne
    exact absurd (getD_replicate_zero nset i) hne
  · intro h _ _
    exact Nat.le_refl _

theorem resize_some {s s1 : list_setvec} {nset e : Nat} (h : resize s nset e = some s1) :
    ∃ s0, check_data_structure s = some s0 ∧
      ((nset = 0 ∧ e = 0 ∧ s1 = ⟨0, 0, 0, [], [], [], s0.temporary_⟩) ∨
       (0 < nset ∧
        s1 = ⟨e, 0, 0, [⟨e, 0⟩], List.replicate nset 0, List.replicate nset 0, s0.temporary_⟩)) := by
  unfold resize at h
  cases hc : check_data_structure s with
  | none => rw [hc] at h; simp at h
  | some s0 =>
    rw [hc] at h
    simp only [Option.bind_eq_bind, Option.some_bind] at h
    refine ⟨s0, rfl, ?_⟩
    by_cases hn : nset = 0
    · rw [if_pos hn] at h
      by_cases he : e = 0
      · simp only [CPPAD_ASSERT_UNKNOWN, he, decide_True, if_true, Option.some_bind,
          Option.some.injEq] at h
        exact Or.inl ⟨hn, he, h.symm⟩
      · simp [CPPAD_ASSERT_UNKNOWN, he] at h
    · rw [if_neg hn] at h
      simp only [Option.some.injEq] at h
      exact Or.inr ⟨Nat.pos_of_ne_zero hn, h.symm⟩

theorem resize_of_check {s s0 : list_setvec} (h : check_data_structure s = some s0)
    (nset e : Nat) (hn : 0 < nset) :
    resize s nset e =
      some ⟨e, 0, 0, [⟨e, 0⟩], List.replicate nset 0, List.replicate nset 0, s0.temporary_⟩ := by
  unfold resize
  rw [h]
  simp only [Option.bind_eq_bind, Option.some_bind]
  rw [if_neg (by omega)]

theorem resize_zero_of_check {s s0 : list_setvec} (h : check_data_structure s = some s0) :
    resize s 0 0 = some ⟨0, 0, 0, [], [], [], s0.temporary_⟩ := by
  unfold resize
  rw [h]
  simp [CPPAD_ASSERT_UNKNOWN]

theorem WF.of_assign {s o : list_setvec} (hw : WF o) : WF (s.assign o) := by
  obtain ⟨L, I, S⟩ := hw
  exact ⟨L, I.of_fields rfl rfl rfl rfl, S.link_fields rfl rfl rfl⟩

theorem IsEmpty.empty_assign {s o : list_setvec} (h : IsEmpty o) : IsEmpty (s.assign o) := h

theorem SetIs.iff_assign {s o : list_setvec} {i : Nat} {vs : List Nat} :
    SetIs (s.assign o) i vs ↔ SetIs o i vs := Iff.rfl

theorem WF.setIs_all {s : list_setvec} (hw : WF s) (j : Nat) :
    ∃ vs, SetIs s j vs ∧ vs.Pairwise (· < ·) ∧ ∀ x ∈ vs, x < s.end_ := by
  by_cases hj : j < s.start_.length
  · obtain ⟨vs, h1, h2, h3, _⟩ := hw.setIs hj
    exact ⟨vs, h1, h2, h3⟩
  · have h2 : s.start_.getD j 0 = 0 := by
      by_contra h3; exact hj (getD_lt_of_ne_zero h3)
    refine ⟨[], ?_, List.Pairwise.nil, by simp⟩
    unfold SetIs
    rw [if_pos h2]

/-- On a well-formed state `is_element` decides membership in the list of the set. -/
theorem WF.is_element_eq {s : list_setvec} (hw : WF s) {i : Nat} {vs : List Nat}
    (h : SetIs s i vs) (hp : s.post_.getD i 0 = 0) {e : Nat} (he : e < s.end_) :
    is_element s i e = some (decide (e ∈ vs)) := by
  obtain ⟨ws, h1, h2, h3⟩ := hw.setIs_all i
  have := SetIs.unique h h1
  subst this
  exact is_element_spec hw.len_pos hw.zero h h2 h3 hp he

theorem is_element_none_of_post {s : list_setvec} {i : Nat} (hp : s.post_.getD i 0 ≠ 0)
    (e : Nat) : is_element s i e = none := by
  unfold is_element
  simp only [CPPAD_ASSERT_UNKNOWN, hp, decide_False, Bool.false_eq_true, if_false,
    Option.bind_eq_bind, Option.none_bind]

theorem is_element_none_of_end {s : list_setvec} {i e : Nat} (he : ¬ e < s.end_) :
    is_element s i e = none := by
  unfold is_element
  by_cases hp : s.post_.getD i 0 = 0
  · simp only [CPPAD_ASSERT_UNKNOWN, hp, he, decide_True, decide_False, Bool.false_eq_true,
      if_true, if_false, Option.bind_eq_bind, Option.some_bind, Option.none_bind]
  · simp only [CPPAD_ASSERT_UNKNOWN, hp, decide_False, Bool.false_eq_true, if_false,
      Option.bind_eq_bind, Option.none_bind]

/-- Sets with the same list, the same posting state and the same `end` answer
`is_element` alike. -/
theorem is_element_congr {s s1 : list_setvec} (hw : WF s) (hw1 : WF s1)
    (he : s1.end_ = s.end_) {j j1 : Nat} (hp : s1.post_.getD j1 0 = 0 ↔ s.post_.getD j 0 = 0)
    (hset : ∀ vs, SetIs s j vs → SetIs s1 j1 vs) (e : Nat) :
    is_element s1 j1 e = is_element s j e := by
  by_cases hp0 : s.post_.getD j 0 = 0
  · by_cases hlt : e < s.end_
    · obtain ⟨vs, h1, _, _⟩ := hw.setIs_all j
      rw [hw.is_element_eq h1 hp0 hlt, hw1.is_element_eq (hset vs h1) (hp.2 hp0) (by rw [he]; exact hlt)]
    · rw [is_element_none_of_end hlt, is_element_none_of_end (by rw [he]; exact hlt)]
  · rw [is_element_none_of_post hp0, is_element_none_of_post (fun h => hp0 (hp.1 h))]

theorem pairwise_lt_ext : ∀ {l1 l2 : List Nat}, l1.Pairwise (· < ·) → l2.Pairwise (· < ·) →
    (∀ x, x ∈ l1 ↔ x ∈ l2) → l1 = l2 := by
  intro l1 l2 h1 h2 h
  have hs1 : l1.Sorted (· < ·) := h1
  have hs2 : l2.Sorted (· < ·) := h2
  refine List.eq_of_perm_of_sorted ?_ hs1 hs2
  exact (List.perm_ext_iff_of_nodup (h1.imp (fun h => Nat.ne_of_lt h))
    (h2.imp (fun h => Nat.ne_of_lt h))).2 h

end CppAD


namespace CppAD

/-! ## The iterator -/

theorem iterator_values_end (d : List pair_size_t) {e : Nat} (hz : rd d 0 = ⟨e, 0⟩) :
    ∀ m, list_setvec_const_iterator.values m ⟨d, e, rd d 0⟩ = List.replicate m e
  | 0 => rfl
  | m + 1 => by
    show (rd d 0).value :: list_setvec_const_iterator.values m ⟨d, e, rd d (rd d 0).next⟩ = _
    rw [hz]
    show e :: list_setvec_const_iterator.values m ⟨d, e, rd d 0⟩ = _
    rw [iterator_values_end d hz m]
    rfl

theorem iterator_values_spec (d : List pair_size_t) {e : Nat} (hz : rd d 0 = ⟨e, 0⟩) :
    ∀ (r : List Nat) (m : Nat), Seg d (r.headD 0) r 0 →
    list_setvec_const_iterator.values (r.length + m) ⟨d, e, rd d (r.headD 0)⟩ =
      vals d r ++ List.replicate m e
  | [], m, _ => by
    simp only [List.length_nil, Nat.zero_add, List.headD_nil, vals, List.map_nil, List.nil_append]
    exact iterator_values_end d hz m
  | x :: r, m, h => by
    have h1 : Seg d (r.headD 0) r 0 := by rw [← h.2.2.2.start]; exact h.2.2.2
    have h2 : (x :: r).length + m = (r.length + m) + 1 := by simp only [List.length_cons]; omega
    rw [h2]
    show (rd d x).value ::
      list_setvec_const_iterator.values (r.length + m) ⟨d, e, rd d (rd d x).next⟩ = _
    rw [h.2.2.2.start, iterator_values_spec d hz r m h1]
    rfl

/-- Specification of the `const_iterator`: it yields the values of the list of set `i`
and then `end` forever. -/
theorem iterator_ctor_spec {s : list_setvec} (hw : WF s) {i : Nat} (hi : i < s.start_.length)
    (hp : s.post_.getD i 0 = 0) {vs : List Nat} (h : SetIs s i vs) :
    ∃ it, list_setvec_const_iterator.ctor s i = some it ∧
      ∀ m, list_setvec_const_iterator.values (vs.length + m) it =
        vs ++ List.replicate m s.end_ := by
  obtain ⟨L, I, S⟩ := id hw
  have hz := I.heap.zero
  by_cases h0 : s.start_.getD i 0 = 0
  · unfold SetIs at h
    rw [if_pos h0] at h
    subst h
    refine ⟨⟨s.data_, s.end_, ⟨s.end_, 0⟩⟩, ?_, ?_⟩
    · simp only [list_setvec_const_iterator.ctor, CPPAD_ASSERT_UNKNOWN, hp, decide_True, if_true,
        h0, Option.bind_eq_bind, Option.some_bind]
    · intro m
      rw [← hz]
      simpa using iterator_values_end s.data_ hz m
  · obtain ⟨h1, h2⟩ := S.start i hi h0
    have h3 := SetIs.unique h (SetIs.of_layout I.heap S hi)
    unfold Layout.content at h3
    rw [if_neg h0] at h3
    have hseg := I.heap.list_chain _ h1 h2
    have hne := I.heap.list_ne _ h1 h2
    have hrc : 0 < (rd s.data_ (s.start_.getD i 0)).value := by
      rw [I.heap.list_rc _ h1 h2]; exact I.heap.rc_pos _ h1 h2
    have hnext : (rd s.data_ (s.start_.getD i 0)).next ≠ 0 := by
      cases hl : L.elems (s.start_.getD i 0) with
      | nil => exact absurd hl hne
      | cons a l =>
        rw [hl] at hseg
        rw [hseg.1]; exact hseg.2.1
    have hval : (rd s.data_ (rd s.data_ (s.start_.getD i 0)).next).value < s.end_ := by
      cases hl : L.elems (s.start_.getD i 0) with
      | nil => exact absurd hl hne
      | cons a l =>
        have h4 := I.heap.list_val _ h1 h2 a (by rw [hl]; exact List.mem_cons_self _ _)
        rw [hl] at hseg
        rw [hseg.1]; exact h4
    refine ⟨⟨s.data_, s.end_, rd s.data_ (rd s.data_ (s.start_.getD i 0)).next⟩, ?_, ?_⟩
    · simp only [list_setvec_const_iterator.ctor, CPPAD_ASSERT_UNKNOWN, hp, decide_True, if_true,
        h0, if_false, Option.bind_eq_bind, Option.some_bind, gt_iff_lt, hrc, hnext, ne_eq,
        not_false_eq_true, hval]
    · intro m
      have hseg1 : Seg s.data_ ((L.elems (s.start_.getD i 0)).headD 0)
          (L.elems (s.start_.getD i 0)) 0 := by
        rw [← hseg.start]; exact hseg
      have := iterator_values_spec s.data_ hz _ m hseg1
      rw [← hseg.start] at this
      rw [h3]
      simpa [vals] using this

end CppAD


namespace CppAD

/-! ## Reachable states are well formed -/

theorem assert_bind_some {c : Prop} [Decidable c] {α : Type} {f : Unit → Option α} {r : α}
    (h : (CPPAD_ASSERT_UNKNOWN (decide c)).bind f = some r) : c ∧ f () = some r := by
  by_cases hc : c
  · simp only [CPPAD_ASSERT_UNKNOWN, hc, decide_True, if_true, Option.some_bind] at h
    exact ⟨hc, h⟩
  · simp [CPPAD_ASSERT_UNKNOWN, hc] at h

theorem add_element_pre {s s1 : list_setvec} {i e : Nat} (h : add_element s i e = some s1) :
    i < s.start_.length ∧ e < s.end_ := by
  unfold add_element at h
  simp only [Option.bind_eq_bind] at h
  obtain ⟨h1, h⟩ := assert_bind_some h
  obtain ⟨h2, h⟩ := assert_bind_some h
  exact ⟨h1, h2⟩

theorem post_element_pre {s s1 : list_setvec} {i e : Nat} (h : post_element s i e = some s1) :
    i < s.start_.length ∧ e < s.end_ := by
  unfold post_element at h
  simp only [Option.bind_eq_bind] at h
  obtain ⟨h1, h⟩ := assert_bind_some h
  obtain ⟨h2, h⟩ := assert_bind_some h
  exact ⟨h1, h2⟩

theorem clear_pre {s s1 : list_setvec} {t : Nat} (h : clear s t = some s1) :
    t < s.start_.length := by
  unfold clear at h
  simp only [Option.bind_eq_bind] at h
  exact (assert_bind_some h).1

theorem assignment_pre {s s1 : list_setvec} {t src : Nat} {other : Option list_setvec}
    (h : assignment s t src other = some s1) :
    (other.getD s).post_.getD src 0 = 0 ∧ t < s.start_.length ∧
      src < (other.getD s).start_.length ∧ s.end_ = (other.getD s).end_ := by
  unfold assignment at h
  simp only [Option.bind_eq_bind] at h
  obtain ⟨h1, h⟩ := assert_bind_some h
  obtain ⟨h2, h⟩ := assert_bind_some h
  obtain ⟨h3, h⟩ := assert_bind_some h
  obtain ⟨h4, h⟩ := assert_bind_some h
  exact ⟨h1, h2, h3, h4⟩

theorem binary_asserts_pre {s o : list_setvec} {t l r : Nat}
    (h : (binary_asserts s o t l r).bind (fun _ => (none : Option list_setvec)) ≠ none ∨
      binary_asserts s o t l r = some ()) :
    s.post_.getD l 0 = 0 ∧ o.post_.getD r 0 = 0 ∧ t < s.start_.length ∧ l < s.start_.length ∧
      r < o.start_.length ∧ s.end_ = o.end_ := by
  rcases h with h | h
  · exfalso; apply h
    cases binary_asserts s o t l r <;> rfl
  · unfold binary_asserts at h
    simp only [Option.bind_eq_bind] at h
    obtain ⟨h1, h⟩ := assert_bind_some h
    obtain ⟨h2, h⟩ := assert_bind_some h
    obtain ⟨h3, h⟩ := assert_bind_some h
    obtain ⟨h4, h⟩ := assert_bind_some h
    obtain ⟨h5, h⟩ := assert_bind_some h
    by_cases h6 : s.end_ = o.end_
    · exact ⟨h1, h2, h3, h4, h5, h6⟩
    · simp [CPPAD_ASSERT_UNKNOWN, h6] at h

theorem binary_union_pre {s s1 : list_setvec} {t l r : Nat} {other : Option list_setvec}
    (h : binary_union s t l r other = some s1) :
    s.post_.getD l 0 = 0 ∧ (other.getD s).post_.getD r 0 = 0 ∧ t < s.start_.length ∧
      l < s.start_.length ∧ r < (other.getD s).start_.length ∧ s.end_ = (other.getD s).end_ := by
  unfold binary_union at h
  simp only [Option.bind_eq_bind] at h
  cases hb : binary_asserts s (other.getD s) t l r with
  | none => rw [hb] at h; simp at h
  | some u => exact binary_asserts_pre (Or.inr hb)

theorem binary_intersection_pre {s s1 : list_setvec} {t l r : Nat}
    {other : Option list_setvec} (h : binary_intersection s t l r other = some s1) :
    s.post_.getD l 0 = 0 ∧ (other.getD s).post_.getD r 0 = 0 ∧ t < s.start_.length ∧
      l < s.start_.length ∧ r < (other.getD s).start_.length ∧ s.end_ = (other.getD s).end_ := by
  unfold binary_intersection at h
  simp only [Option.bind_eq_bind] at h
  cases hb : binary_asserts s (other.getD s) t l r with
  | none => rw [hb] at h; simp at h
  | some u => exact binary_asserts_pre (Or.inr hb)

theorem IsEmpty.not_lt {s : list_setvec} (h : IsEmpty s) {i : Nat} : ¬ i < s.start_.length := by
  rw [h.2.2.2.2.1]; simp

theorem process_post_empty {s : list_setvec} (h : IsEmpty s) (i : Nat) :
    process_post s i = some s := by
  have : s.post_.getD i 0 = 0 := by rw [h.2.2.2.2.2]; rfl
  simp only [process_post, this, if_true]

/-- The other object of a call is well formed when it is in a reachable state with
sets. -/
theorem other_of_reachable {s : list_setvec} {other : Option list_setvec} {r : Nat}
    (ho : ∀ o, other = some o → IsEmpty o ∨ WF o) (hr : r < (other.getD s).start_.length)
    (he : s.end_ = (other.getD s).end_) : ∀ o, other = some o → WF o ∧ o.end_ = s.end_ := by
  intro o ho1
  subst ho1
  simp only [Option.getD_some] at hr he
  rcases ho o rfl with h | h
  · exact absurd hr h.not_lt
  · exact ⟨h, he.symm⟩

/-- Every reachable state is the state without sets or is well formed. -/
theorem reachable_wf {s : list_setvec} (h : Reachable s) : IsEmpty s ∨ WF s := by
  induction h with
  | ctor => exact Or.inl ⟨rfl, rfl, rfl, rfl, rfl, rfl⟩
  | resize _ h _ =>
    obtain ⟨s0, _, h1 | h1⟩ := resize_some h
    · rw [h1.2.2]; exact Or.inl ⟨rfl, rfl, rfl, rfl, rfl, rfl⟩
    · rw [h1.2]; exact Or.inr (wf_fresh _ _ _)
  | add_element _ h ih =>
    obtain ⟨h1, h2⟩ := add_element_pre h
    rcases ih with ih | ih
    · exact absurd h1 ih.not_lt
    · obtain ⟨s2, h3, h4, _⟩ := add_element_spec ih h1 h2
      rw [h3] at h; cases h; exact Or.inr h4
  | post_element _ h ih =>
    obtain ⟨h1, h2⟩ := post_element_pre h
    rcases ih with ih | ih
    · exact absurd h1 ih.not_lt
    · obtain ⟨s2, h3, h4, _⟩ := post_element_spec ih h1 h2
      rw [h3] at h; cases h; exact Or.inr h4
  | @process_post s s1 i _ h ih =>
    rcases ih with ih | ih
    · rw [process_post_empty ih] at h; cases h; exact Or.inl ih
    · by_cases hi : i < s.start_.length
      · obtain ⟨s2, h3, h4, _⟩ := process_post_spec ih hi
        rw [h3] at h; cases h; exact Or.inr h4
      · have h0 : s.post_.getD i 0 = 0 := by
          rw [List.getD_eq_default]
          rw [ih.len_post]; exact Nat.le_of_not_lt hi
        simp only [process_post, h0, if_true] at h
        cases h; exact Or.inr ih
  | clear _ h ih =>
    have h1 := clear_pre h
    rcases ih with ih | ih
    · exact absurd h1 ih.not_lt
    · obtain ⟨s2, h3, h4, _⟩ := clear_spec ih h1
      rw [h3] at h; cases h; exact Or.inr h4
  | @assignment s s1 t src other _ _ h ih iho =>
    obtain ⟨h1, h2, h3, h4⟩ := assignment_pre h
    rcases ih with ih | ih
    · exact absurd h2 ih.not_lt
    · obtain ⟨s2, h5, h6, _⟩ := assignment_spec ih other (other_of_reachable iho h3 h4) h2 h3 h1
      rw [h5] at h; cases h; exact Or.inr h6
  | @binary_union s s1 t l r other _ _ h ih iho =>
    obtain ⟨h1, h2, h3, h4, h5, h6⟩ := binary_union_pre h
    rcases ih with ih | ih
    · exact absurd h3 ih.not_lt
    · obtain ⟨s2, h7, h8, _⟩ :=
        binary_union_spec ih other (other_of_reachable iho h5 h6) h3 h4 h5 h1 h2
      rw [h7] at h; cases h; exact Or.inr h8
  | @binary_intersection s s1 t l r other _ _ h ih iho =>
    obtain ⟨h1, h2, h3, h4, h5, h6⟩ := binary_intersection_pre h
    rcases ih with ih | ih
    · exact absurd h3 ih.not_lt
    · obtain ⟨s2, h7, h8, _⟩ :=
        binary_intersection_spec ih other (other_of_reachable iho h5 h6) h3 h4 h5 h1 h2
      rw [h7] at h; cases h; exact Or.inr h8
  | assign _ _ _ iho =>
    rcases iho with iho | iho
    · exact Or.inl (IsEmpty.empty_assign iho)
    · exact Or.inr (WF.of_assign iho)

/-- A reachable state with a set is well formed. -/
theorem Reachable.wf {s : list_setvec} (h : Reachable s) {i : Nat} (hi : i < s.start_.length) :
    WF s := by
  rcases reachable_wf h with h1 | h1
  · exact absurd hi h1.not_lt
  · exact h1

end CppAD


namespace CppAD

/-! ## Sequences of calls -/

theorem reachable_bind_resize {o : Option list_setvec} (h : ∀ s, o = some s → Reachable s)
    (n e : Nat) : ∀ s, (o.bind fun a => resize a n e) = some s → Reachable s := by
  intro s hs
  obtain ⟨a, ha, hb⟩ := Option.bind_eq_some.1 hs
  exact Reachable.resize (h a ha) hb

theorem reachable_bind_add {o : Option list_setvec} (h : ∀ s, o = some s → Reachable s)
    (i e : Nat) : ∀ s, (o.bind fun a => add_element a i e) = some s → Reachable s := by
  intro s hs
  obtain ⟨a, ha, hb⟩ := Option.bind_eq_some.1 hs
  exact Reachable.add_element (h a ha) hb

theorem reachable_bind_post {o : Option list_setvec} (h : ∀ s, o = some s → Reachable s)
    (i e : Nat) : ∀ s, (o.bind fun a => post_element a i e) = some s → Reachable s := by
  intro s hs
  obtain ⟨a, ha, hb⟩ := Option.bind_eq_some.1 hs
  exact Reachable.post_element (h a ha) hb

theorem reachable_bind_assignment {o : Option list_setvec}
    (h : ∀ s, o = some s → Reachable s) (t src : Nat) :
    ∀ s, (o.bind fun a => assignment a t src none) = some s → Reachable s := by
  intro s hs
  obtain ⟨a, ha, hb⟩ := Option.bind_eq_some.1 hs
  exact Reachable.assignment (h a ha) (fun _ h1 => by cases h1) hb

theorem reachable_bind_intersection {o : Option list_setvec}
    (h : ∀ s, o = some s → Reachable s) (t l r : Nat) :
    ∀ s, (o.bind fun a => binary_intersection a t l r none) = some s → Reachable s := by
  intro s hs
  obtain ⟨a, ha, hb⟩ := Option.bind_eq_some.1 hs
  exact Reachable.binary_intersection (h a ha) (fun _ h1 => by cases h1) hb

theorem reachable_some_ctor : ∀ s, some list_setvec.ctor = some s → Reachable s := by
  intro s hs
  cases hs
  exact Reachable.ctor

theorem example_vec_calls_eq : example_vec_calls = some example_vec := by rfl

theorem example_pending_calls_eq : example_pending_calls = some example_pending := by rfl

theorem example_vec_reachable : Reachable example_vec :=
  reachable_bind_intersection (reachable_bind_assignment (reachable_bind_add (reachable_bind_add
    (reachable_bind_add (reachable_bind_add (reachable_bind_add (reachable_bind_resize
      reachable_some_ctor 7 5) 0 1) 0 2) 1 2) 1 3) 4 4) 2 0) 3 0 1 example_vec
    example_vec_calls_eq

theorem example_pending_reachable : Reachable example_pending :=
  reachable_bind_post (reachable_bind_resize reachable_some_ctor 1 5) 0 2 example_pending
    example_pending_calls_eq

end CppAD


namespace CppAD

/-- The calls `post_element(i, e1)`, ..., `post_element(i, ek)` put the elements in
front of the posting of set `i`, the last one first, and change no set. -/
theorem post_all_spec : ∀ (es : List Nat) {s : list_setvec}, WF s → ∀ {i : Nat},
    i < s.start_.length → (∀ e ∈ es, e < s.end_) → ∀ ps, PostIs s i ps →
    ∃ s1, post_all s i es = some s1 ∧ WF s1 ∧ s1.end_ = s.end_ ∧ s1.start_ = s.start_ ∧
      PostIs s1 i (es.reverse ++ ps) ∧ ∀ j vs, SetIs s j vs → SetIs s1 j vs
  | [], s, hw, i, _, _, ps, hps =>
    ⟨s, rfl, hw, rfl, rfl, by simpa using hps, fun _ _ h => h⟩
  | e :: es, s, hw, i, hi, hes, ps, hps => by
    obtain ⟨s1, h1, hw1, he1, hst1, _, _, _, hp1, _, hset1⟩ :=
      post_element_spec hw hi (hes e (List.mem_cons_self _ _))
    obtain ⟨s2, h2, hw2, he2, hst2, hp2, hset2⟩ :=
      post_all_spec es hw1 (by rw [hst1]; exact hi)
        (fun x hx => by rw [he1]; exact hes x (List.mem_cons_of_mem _ hx)) (e :: ps) (hp1 ps hps)
    refine ⟨s2, ?_, hw2, he2.trans he1, hst2.trans hst1, ?_, fun j vs h => hset2 j vs (hset1 j vs h)⟩
    · show (post_element s i e).bind (fun a => post_all a i es) = some s2
      rw [h1]; exact h2
    · simpa using hp2

/-- The calls `add_element(i, e1)`, ..., `add_element(i, ek)` add the elements to set
`i`. -/
theorem add_all_spec : ∀ (es : List Nat) {s : list_setvec}, WF s → ∀ {i : Nat},
    i < s.start_.length → (∀ e ∈ es, e < s.end_) →
    ∃ s1, add_all s i es = some s1 ∧ WF s1 ∧ s1.end_ = s.end_ ∧
      s1.start_.length = s.start_.length ∧ s1.post_ = s.post_ ∧
      ∀ vs, SetIs s i vs → ∃ vs1, SetIs s1 i vs1 ∧ ∀ x, x ∈ vs1 ↔ x ∈ vs ∨ x ∈ es
  | [], s, hw, i, _, _ =>
    ⟨s, rfl, hw, rfl, rfl, rfl, fun vs h => ⟨vs, h, by simp⟩⟩
  | e :: es, s, hw, i, hi, hes => by
    obtain ⟨s1, h1, hw1, he1, hlen1, hpo1, hc1, _⟩ :=
      add_element_spec hw hi (hes e (List.mem_cons_self _ _))
    obtain ⟨s2, h2, hw2, he2, hlen2, hpo2, hc2⟩ :=
      add_all_spec es hw1 (by rw [hlen1]; exact hi)
        (fun x hx => by rw [he1]; exact hes x (List.mem_cons_of_mem _ hx))
    refine ⟨s2, ?_, hw2, he2.trans he1, hlen2.trans hlen1, hpo2.trans hpo1, ?_⟩
    · show (add_element s i e).bind (fun a => add_all a i es) = some s2
      rw [h1]; exact h2
    · intro vs hvs
      obtain ⟨vs1, h3, h4⟩ := hc1 vs hvs
      obtain ⟨vs2, h5, h6⟩ := hc2 vs1 h3
      refine ⟨vs2, h5, ?_⟩
      intro x
      rw [h6 x, h4 x, List.mem_cons]
      tauto

theorem PostIs.of_post_zero {s : list_setvec} {i : Nat} (hp : s.post_.getD i 0 = 0) :
    PostIs s i [] :=
  ⟨[], hp, rfl⟩

theorem Reachable.wf_other {s : list_setvec} {other : Option list_setvec}
    (ho : ∀ o, other = some o → Reachable o ∧ o.end_ = s.end_) {r : Nat}
    (hr : r < (other.getD s).start_.length) : ∀ o, other = some o → WF o ∧ o.end_ = s.end_ := by
  intro o ho1
  subst ho1
  obtain ⟨h1, h2⟩ := ho o rfl
  exact ⟨h1.wf hr, h2⟩

theorem getD_set_zero_same (l : List Nat) (i : Nat) : (l.set i 0).getD i 0 = 0 := by
  by_cases h : i < l.length
  · exact getD_set_same _ _ h
  · rw [List.getD_eq_default]
    rw [List.length_set]; exact Nat.le_of_not_lt h

end CppAD


namespace CppAD

/-! ## The claims on membership -/

/-- C1: for a reachable `list_setvec` `s` and an other object (`other = none` when it is
`s` itself) that is reachable and has the same `end`, in-range indices `target`,
`left`, `right` and no pending posts on `left` and `right`: `binary_intersection`
returns, and afterwards `is_element(target, e)` holds, for every `e < end`, exactly
when `is_element(left, e)` and `other.is_element(right, e)` both held before. -/
theorem C1_binary_intersection_membership (s : list_setvec) (other : Option list_setvec)
    (target left right : Nat) (hs : Reachable s)
    (ho : ∀ o, other = some o → Reachable o ∧ o.end_ = s.end_)
    (ht : target < n_set s) (hl : left < n_set s) (hr : right < n_set (other.getD s))
    (hpl : s.post_.getD left 0 = 0) (hpr : (other.getD s).post_.getD right 0 = 0) :
    ∃ s1, binary_intersection s target left right other = some s1 ∧
      ∀ e, e < s.end_ →
        (is_element s1 target e = some true ↔
          (is_element s left e = some true ∧
            is_element (other.getD s) right e = some true)) := by
  have hw := hs.wf ht
  have ho1 := Reachable.wf_other ho hr
  obtain ⟨hwo, heo⟩ := other_wf hw other ho1
  obtain ⟨s1, h1, hw1, he1, _, hpo1, hc, _⟩ :=
    binary_intersection_spec hw other ho1 ht hl hr hpl hpr
  refine ⟨s1, h1, ?_⟩
  intro e he
  obtain ⟨A, hA, _⟩ := hw.setIs_all left
  obtain ⟨B, hB, _⟩ := hwo.setIs_all right
  obtain ⟨U, hU, hm⟩ := hc A B hA hB
  rw [hw1.is_element_eq hU (by rw [hpo1]; exact getD_set_zero_same _ _) (by rw [he1]; exact he),
    hw.is_element_eq hA hpl he, hwo.is_element_eq hB hpr (by rw [heo]; exact he)]
  simp only [Option.some.injEq, decide_eq_true_eq]
  exact hm e

/-- C2: for a reachable `list_setvec` `s` and an other object (`other = none` when it is
`s` itself) that is reachable and has the same `end`, in-range indices `target`,
`left`, `right` and no pending posts on `left` and `right`: `binary_union` returns, and
afterwards `is_element(target, e)` holds, for every `e < end`, exactly when
`is_element(left, e)` or `other.is_element(right, e)` held before. -/
theorem C2_binary_union_membership (s : list_setvec) (other : Option list_setvec)
    (target left right : Nat) (hs : Reachable s)
    (ho : ∀ o, other = some o → Reachable o ∧ o.end_ = s.end_)
    (ht : target < n_set s) (hl : left < n_set s) (hr : right < n_set (other.getD s))
    (hpl : s.post_.getD left 0 = 0) (hpr : (other.getD s).post_.getD right 0 = 0) :
    ∃ s1, binary_union s target left right other = some s1 ∧
      ∀ e, e < s.end_ →
        (is_element s1 target e = some true ↔
          (is_element s left e = some true ∨
            is_element (other.getD s) right e = some true)) := by
  have hw := hs.wf ht
  have ho1 := Reachable.wf_other ho hr
  obtain ⟨hwo, heo⟩ := other_wf hw other ho1
  obtain ⟨s1, h1, hw1, he1, _, hpo1, hc, _⟩ :=
    binary_union_spec hw other ho1 ht hl hr hpl hpr
  refine ⟨s1, h1, ?_⟩
  intro e he
  obtain ⟨A, hA, _⟩ := hw.setIs_all left
  obtain ⟨B, hB, _⟩ := hwo.setIs_all right
  obtain ⟨U, hU, hm⟩ := hc A B hA hB
  rw [hw1.is_element_eq hU (by rw [hpo1]; exact getD_set_zero_same _ _) (by rw [he1]; exact he),
    hw.is_element_eq hA hpl he, hwo.is_element_eq hB hpr (by rw [heo]; exact he)]
  simp only [Option.some.injEq, decide_eq_true_eq]
  exact hm e

/-- C3: for a reachable `list_setvec` `s` and an other object (`other = none` when it is
`s` itself) that is reachable and has the same `end`, in-range `target` and `source`
and no pending posts on the source: `assignment` returns, and afterwards
`is_element(target, e)` is, for every `e < end`, the value that
`other.is_element(source, e)` had before. -/
theorem C3_assignment_membership (s : list_setvec) (other : Option list_setvec)
    (target source : Nat) (hs : Reachable s)
    (ho : ∀ o, other = some o → Reachable o ∧ o.end_ = s.end_)
    (ht : target < n_set s) (hsrc : source < n_set (other.getD s))
    (hp : (other.getD s).post_.getD source 0 = 0) :
    ∃ s1, assignment s target source other = some s1 ∧
      ∀ e, e < s.end_ → is_element s1 target e = is_element (other.getD s) source e := by
  have hw := hs.wf ht
  have ho1 := Reachable.wf_other ho hsrc
  obtain ⟨hwo, heo⟩ := other_wf hw other ho1
  obtain ⟨s1, h1, hw1, he1, _, hpo1, _, hc, _⟩ := assignment_spec hw other ho1 ht hsrc hp
  refine ⟨s1, h1, ?_⟩
  intro e he
  obtain ⟨A, hA, _⟩ := hwo.setIs_all source
  rw [hw1.is_element_eq (hc A hA) (by rw [hpo1]; exact getD_set_zero_same _ _)
    (by rw [he1]; exact he), hwo.is_element_eq hA hp (by rw [heo]; exact he)]

theorem C1_binary_intersection_membership_witness :
    Reachable example_vec ∧
      ∃ s1, binary_intersection example_vec 5 0 1 none = some s1 ∧
        ∀ e, e < example_vec.end_ →
          (is_element s1 5 e = some true ↔
            (is_element example_vec 0 e = some true ∧
              is_element ((none : Option list_setvec).getD example_vec) 1 e = some true)) :=
  ⟨example_vec_reachable,
    C1_binary_intersection_membership example_vec none 5 0 1 example_vec_reachable
      (fun _ h => by cases h) (by decide) (by decide) (by decide) (by decide) (by decide)⟩

theorem C2_binary_union_membership_witness :
    Reachable example_vec ∧
      ∃ s1, binary_union example_vec 5 0 1 none = some s1 ∧
        ∀ e, e < example_vec.end_ →
          (is_element s1 5 e = some true ↔
            (is_element example_vec 0 e = some true ∨
              is_element ((none : Option list_setvec).getD example_vec) 1 e = some true)) :=
  ⟨example_vec_reachable,
    C2_binary_union_membership example_vec none 5 0 1 example_vec_reachable
      (fun _ h => by cases h) (by decide) (by decide) (by decide) (by decide) (by decide)⟩

theorem C3_assignment_membership_witness :
    Reachable example_vec ∧
      ∃ s1, assignment example_vec 5 1 none = some s1 ∧
        ∀ e, e < example_vec.end_ →
          is_element s1 5 e = is_element ((none : Option list_setvec).getD example_vec) 1 e :=
  ⟨example_vec_reachable,
    C3_assignment_membership example_vec none 5 1 example_vec_reachable
      (fun _ h => by cases h) (by decide) (by decide) (by decide)⟩

end CppAD


namespace CppAD

/-! ## The claims on `add_element` and the posting -/

/-- C4: for a reachable `list_setvec`, an in-range set index `i` and `element < end`:
`add_element(i, element)` returns, and afterwards `is_element(i, e)` is, for every `e`,
`e == element` or the value `is_element(i, e)` had before the call (and `is_element`
raises an assertion after the call exactly when it did before). -/
theorem C4_add_element_membership (s : list_setvec) (i element : Nat) (hs : Reachable s)
    (hi : i < n_set s) (he : element < s.end_) :
    ∃ s1, add_element s i element = some s1 ∧
      ∀ e, is_element s1 i e = (is_element s i e).map fun b => decide (e = element) || b := by
  have hw := hs.wf hi
  obtain ⟨s1, h1, hw1, he1, _, hpo1, hc, _⟩ := add_element_spec hw hi he
  refine ⟨s1, h1, ?_⟩
  intro e
  by_cases hp : s.post_.getD i 0 = 0
  · by_cases hlt : e < s.end_
    · obtain ⟨vs, hvs, _⟩ := hw.setIs_all i
      obtain ⟨vs1, hvs1, hm⟩ := hc vs hvs
      rw [hw1.is_element_eq hvs1 (by rw [hpo1]; exact hp) (by rw [he1]; exact hlt),
        hw.is_element_eq hvs hp hlt]
      simp only [Option.map_some', Option.some.injEq]
      rw [← Bool.decide_or]
      exact decide_eq_decide.2 (hm e)
    · rw [is_element_none_of_end hlt, is_element_none_of_end (by rw [he1]; exact hlt)]
      rfl
  · rw [is_element_none_of_post hp, is_element_none_of_post (by rw [hpo1]; exact hp)]
    rfl

theorem C4_add_element_membership_witness :
    Reachable example_vec ∧
      ∃ s1, add_element example_vec 4 3 = some s1 ∧
        ∀ e, is_element s1 4 e =
          (is_element example_vec 4 e).map fun b => decide (e = 3) || b :=
  ⟨example_vec_reachable,
    C4_add_element_membership example_vec 4 3 example_vec_reachable (by decide) (by decide)⟩

/-- C5: copy-on-write: for a reachable `list_setvec`, an in-range set `i` (in particular
one that shares its list with other sets, reference count above 1) and `element < end`:
`add_element(i, element)` returns and leaves `is_element(j, e)` unchanged for every set
`j != i` and every `e`, so the sets that share the list of set `i` do not see the
insertion. -/
theorem C5_add_element_copy_on_write (s : list_setvec) (i element : Nat) (hs : Reachable s)
    (hi : i < n_set s) (he : element < s.end_) :
    ∃ s1, add_element s i element = some s1 ∧
      ∀ j, j ≠ i → ∀ e, is_element s1 j e = is_element s j e := by
  have hw := hs.wf hi
  obtain ⟨s1, h1, hw1, he1, hlen1, hpo1, _, hoth⟩ := add_element_spec hw hi he
  refine ⟨s1, h1, ?_⟩
  intro j hj e
  refine is_element_congr hw hw1 he1 (by rw [hpo1]) ?_ e
  intro vs hvs
  by_cases hjn : j < s.start_.length
  · exact hoth j hjn hj vs hvs
  · exact setIs_out_of_range hlen1 hjn hvs

theorem C5_add_element_copy_on_write_witness :
    Reachable example_vec ∧ 1 < reference_count example_vec 0 ∧
      example_vec.start_.getD 2 0 = example_vec.start_.getD 0 0 ∧
      ∃ s1, add_element example_vec 0 4 = some s1 ∧
        ∀ j, j ≠ 0 → ∀ e, is_element s1 j e = is_element example_vec j e :=
  ⟨example_vec_reachable, by decide, by decide,
    C5_add_element_copy_on_write example_vec 0 4 example_vec_reachable (by decide)
      (by decide)⟩

/-- C6 (amended): for a reachable `list_setvec`, an in-range set index `i` with no
pending posts and elements `e1..ek < end` (repetitions allowed, `k >= 0`): the calls
`post_element(i, e1)`, ..., `post_element(i, ek)` followed by `process_post(i)` return
and leave `post_[i] == 0`, the calls `add_element(i, e1)`, ..., `add_element(i, ek)`
return, and for every `e < end` the two final states answer `is_element(i, e)` alike:
it holds exactly when it held before or `e` is one of `e1..ek`. -/
theorem C6_post_process_as_add (s : list_setvec) (i : Nat) (es : List Nat) (hs : Reachable s)
    (hi : i < n_set s) (hp : s.post_.getD i 0 = 0) (hes : ∀ e ∈ es, e < s.end_) :
    ∃ sa sb, ((post_all s i es).bind fun s1 => process_post s1 i) = some sa ∧
      add_all s i es = some sb ∧ sa.post_.getD i 0 = 0 ∧
      ∀ e, e < s.end_ →
        (is_element sa i e = is_element sb i e ∧
          (is_element sa i e = some true ↔ (is_element s i e = some true ∨ e ∈ es))) := by
  have hw := hs.wf hi
  obtain ⟨s1, h1, hw1, he1, hst1, hps1, hset1⟩ :=
    post_all_spec es hw hi hes [] (PostIs.of_post_zero hp)
  have hi1 : i < s1.start_.length := by rw [hst1]; exact hi
  obtain ⟨sa, h2, hwa, hea, _, hpoa, hca, _⟩ := process_post_spec hw1 hi1
  obtain ⟨sb, h3, hwb, heb, _, hpob, hcb⟩ := add_all_spec es hw hi hes
  have hpa : sa.post_.getD i 0 = 0 := by rw [hpoa]; exact getD_set_zero_same _ _
  refine ⟨sa, sb, ?_, h3, hpa, ?_⟩
  · rw [h1]; exact h2
  · intro e he
    obtain ⟨vs, hvs, _⟩ := hw.setIs_all i
    obtain ⟨va, hva, hma⟩ := hca vs (es.reverse ++ []) (hset1 i vs hvs) hps1
    obtain ⟨vb, hvb, hmb⟩ := hcb vs hvs
    rw [hwa.is_element_eq hva hpa (by rw [hea, he1]; exact he),
      hwb.is_element_eq hvb (by rw [hpob]; exact hp) (by rw [heb]; exact he),
      hw.is_element_eq hvs hp he]
    have hma1 : e ∈ va ↔ e ∈ vs ∨ e ∈ es := by
      rw [hma e]; simp
    refine ⟨?_, ?_⟩
    · rw [Option.some.injEq]
      exact decide_eq_decide.2 (hma1.trans (hmb e).symm)
    · simp only [Option.some.injEq, decide_eq_true_eq]
      exact hma1

theorem C6_post_process_as_add_witness :
    Reachable example_vec ∧
      ∃ sa sb, ((post_all example_vec 4 [3, 1, 3]).bind fun s1 => process_post s1 4) = some sa ∧
        add_all example_vec 4 [3, 1, 3] = some sb ∧ sa.post_.getD 4 0 = 0 ∧
        ∀ e, e < example_vec.end_ →
          (is_element sa 4 e = is_element sb 4 e ∧
            (is_element sa 4 e = some true ↔
              (is_element example_vec 4 e = some true ∨ e ∈ [3, 1, 3]))) :=
  ⟨example_vec_reachable,
    C6_post_process_as_add example_vec 4 [3, 1, 3] example_vec_reachable (by decide) (by decide)
      (by decide)⟩

/-- C6 as stated fails on a reachable state with a pending post on set `i`: in
`example_pending` (one empty set, element `2` posted) take `k = 0`. Then `process_post(0)`
leaves set 0 equal to `{2}`, while no call of `add_element` leaves it empty: the old set
united with no element. -/
theorem C6_pending_post_counterexample :
    Reachable example_pending ∧ 0 < n_set example_pending ∧
      ((post_all example_pending 0 []).bind fun s1 => process_post s1 0) =
        some ⟨5, 0, 0, [⟨5, 0⟩, ⟨1, 2⟩, ⟨2, 0⟩], [1], [0], []⟩ ∧
      add_all example_pending 0 [] = some example_pending ∧
      SetIs ⟨5, 0, 0, [⟨5, 0⟩, ⟨1, 2⟩, ⟨2, 0⟩], [1], [0], []⟩ 0 [2] ∧
      SetIs example_pending 0 [] ∧
      is_element ⟨5, 0, 0, [⟨5, 0⟩, ⟨1, 2⟩, ⟨2, 0⟩], [1], [0], []⟩ 0 2 = some true ∧
      is_element example_pending 0 2 ≠ some true := by
  refine ⟨example_pending_reachable, by decide, by rfl, by rfl, ?_, ?_, by rfl, by decide⟩
  · unfold SetIs
    rw [if_neg (by decide)]
    exact ⟨[2], ⟨rfl, by decide, by decide, rfl⟩, rfl⟩
  · unfold SetIs
    rw [if_pos (by decide)]

end CppAD


namespace CppAD

/-! ## The claims on the iterator, the invariant, associativity and `resize` -/

/-- C7: for a reachable `list_setvec` and an in-range set `i` with no pending posts, the
`const_iterator` constructed on `(vec, i)` exists and yields, by successive `*itr` and
`++itr`, the values `vs` and then `end` forever, where `vs` is strictly increasing and
holds exactly the elements of set `i` (each `e < end` with `is_element(i, e)`). -/
theorem C7_iterator_yields_elements (s : list_setvec) (i : Nat) (hs : Reachable s)
    (hi : i < n_set s) (hp : s.post_.getD i 0 = 0) :
    ∃ it vs, list_setvec_const_iterator.ctor s i = some it ∧ vs.Pairwise (· < ·) ∧
      (∀ e, e < s.end_ → (is_element s i e = some true ↔ e ∈ vs)) ∧
      (∀ v ∈ vs, v < s.end_) ∧
      ∀ m, list_setvec_const_iterator.values (vs.length + m) it =
        vs ++ List.replicate m s.end_ := by
  have hw := hs.wf hi
  obtain ⟨vs, hvs, hsort, hval⟩ := hw.setIs_all i
  obtain ⟨it, h1, h2⟩ := iterator_ctor_spec hw hi hp hvs
  refine ⟨it, vs, h1, hsort, ?_, hval, h2⟩
  intro e he
  rw [hw.is_element_eq hvs hp he]
  simp

theorem C7_iterator_yields_elements_witness :
    (Reachable example_vec ∧
      ∃ it vs, list_setvec_const_iterator.ctor example_vec 3 = some it ∧
        vs.Pairwise (· < ·) ∧
        (∀ e, e < example_vec.end_ → (is_element example_vec 3 e = some true ↔ e ∈ vs)) ∧
        (∀ v ∈ vs, v < example_vec.end_) ∧
        ∀ m, list_setvec_const_iterator.values (vs.length + m) it =
          vs ++ List.replicate m example_vec.end_) ∧
    (list_setvec_const_iterator.ctor example_vec 3).map
      (list_setvec_const_iterator.values 3) = some [2, 5, 5] :=
  ⟨⟨example_vec_reachable,
    C7_iterator_yields_elements example_vec 3 example_vec_reachable (by decide) (by decide)⟩,
    by rfl⟩

/-- C8: in every reachable state, the linked list of every non-empty set (the pairs
reached from the reference counter `start_[i]` along `next` up to the end marker) is not
empty and holds strictly increasing values, each less than `end`. -/
theorem C8_reachable_lists_increasing (s : list_setvec) (i : Nat) (hs : Reachable s)
    (hi : i < n_set s) (h0 : s.start_.getD i 0 ≠ 0) :
    ∃ ns, ns ≠ [] ∧ Seg s.data_ (rd s.data_ (s.start_.getD i 0)).next ns 0 ∧
      (vals s.data_ ns).Pairwise (· < ·) ∧ ∀ v ∈ vals s.data_ ns, v < s.end_ := by
  obtain ⟨L, I, S⟩ := hs.wf hi
  obtain ⟨h1, h2⟩ := S.start i hi h0
  refine ⟨L.elems (s.start_.getD i 0), I.heap.list_ne _ h1 h2, I.heap.list_chain _ h1 h2,
    I.heap.list_sorted _ h1 h2, ?_⟩
  intro v hv
  obtain ⟨x, hx, rfl⟩ := List.mem_map.1 hv
  exact I.heap.list_val _ h1 h2 x hx

theorem C8_reachable_lists_increasing_witness :
    Reachable example_vec ∧
      ∃ ns, ns ≠ [] ∧
        Seg example_vec.data_ (rd example_vec.data_ (example_vec.start_.getD 1 0)).next ns 0 ∧
        (vals example_vec.data_ ns).Pairwise (· < ·) ∧
        ∀ v ∈ vals example_vec.data_ ns, v < example_vec.end_ :=
  ⟨example_vec_reachable,
    C8_reachable_lists_increasing example_vec 1 example_vec_reachable (by decide) (by decide)⟩

end CppAD


namespace CppAD

theorem iterator_values_take : ∀ (k j : Nat) (it : list_setvec_const_iterator),
    (list_setvec_const_iterator.values (k + j) it).take k =
      list_setvec_const_iterator.values k it
  | 0, _, _ => by simp [list_setvec_const_iterator.values]
  | k + 1, j, it => by
    have h : k + 1 + j = (k + j) + 1 := by omega
    rw [h]
    show it.deref :: (list_setvec_const_iterator.values (k + j) it.incr).take k = _
    rw [iterator_values_take k j it.incr]
    rfl

/-- Two iterators that yield the same list of elements and the same end marker yield
the same sequence. -/
theorem iterator_values_eq {it1 it2 : list_setvec_const_iterator} {vs : List Nat} {e : Nat}
    (h1 : ∀ m, list_setvec_const_iterator.values (vs.length + m) it1 = vs ++ List.replicate m e)
    (h2 : ∀ m, list_setvec_const_iterator.values (vs.length + m) it2 = vs ++ List.replicate m e)
    (k : Nat) :
    list_setvec_const_iterator.values k it1 = list_setvec_const_iterator.values k it2 := by
  have h3 : k + vs.length = vs.length + k := Nat.add_comm _ _
  rw [← iterator_values_take k vs.length it1, ← iterator_values_take k vs.length it2, h3, h1 k,
    h2 k]

theorem getD_set_zero (l : List Nat) (i j : Nat) (h : l.getD j 0 = 0) :
    (l.set i 0).getD j 0 = 0 := by
  by_cases hij : j = i
  · subst hij; exact getD_set_zero_same _ _
  · rw [getD_set_ne _ _ hij]; exact h

/-- C9: `binary_union` is associative on set contents: for a reachable `list_setvec`
with in-range sets `a`, `b`, `c` without pending posts and two targets, `t1` other than
`a`, `b`, `c` and `t2` other than `a` and `t1`: computing `(A ∪ B) ∪ C` into `t1` and
then `A ∪ (B ∪ C)` into `t2` returns, and then
`is_element(t1, e)` and `is_element(t2, e)` agree for every `e < end` (they hold exactly
when `e` was in `A`, `B` or `C`), and the iterators on `t1` and `t2` yield the same
sequence. -/
theorem C9_union_associative (s : list_setvec) (a b c t1 t2 : Nat) (hs : Reachable s)
    (ha : a < n_set s) (hb : b < n_set s) (hc : c < n_set s) (ht1 : t1 < n_set s)
    (ht2 : t2 < n_set s) (hpa : s.post_.getD a 0 = 0) (hpb : s.post_.getD b 0 = 0)
    (hpc : s.post_.getD c 0 = 0) (h1a : a ≠ t1) (h1b : b ≠ t1) (h1c : c ≠ t1)
    (h2a : a ≠ t2) (h12 : t1 ≠ t2) :
    ∃ s1 s2 s3 s4 it1 it2, binary_union s t1 a b none = some s1 ∧
      binary_union s1 t1 t1 c none = some s2 ∧
      binary_union s2 t2 b c none = some s3 ∧
      binary_union s3 t2 a t2 none = some s4 ∧
      (∀ e, e < s.end_ → is_element s4 t1 e = is_element s4 t2 e ∧
        (is_element s4 t1 e = some true ↔
          (is_element s a e = some true ∨ is_element s b e = some true ∨
            is_element s c e = some true))) ∧
      list_setvec_const_iterator.ctor s4 t1 = some it1 ∧
      list_setvec_const_iterator.ctor s4 t2 = some it2 ∧
      ∀ k, list_setvec_const_iterator.values k it1 =
        list_setvec_const_iterator.values k it2 := by
  have hw := hs.wf ha
  have hnone : ∀ {x : list_setvec} (o : list_setvec),
      (none : Option list_setvec) = some o → WF o ∧ o.end_ = x.end_ := fun _ h => by cases h
  obtain ⟨A, hA, _⟩ := hw.setIs_all a
  obtain ⟨B, hB, _⟩ := hw.setIs_all b
  obtain ⟨C, hC, _⟩ := hw.setIs_all c
  -- t1 = A ∪ B
  obtain ⟨s1, e1, hw1, hend1, hlen1, hpo1, hc1, hoth1⟩ :=
    binary_union_spec hw none hnone ht1 ha hb hpa hpb
  obtain ⟨U1, hU1, hm1⟩ := hc1 A B hA hB
  have hp1 : ∀ j, s.post_.getD j 0 = 0 → s1.post_.getD j 0 = 0 := by
    intro j hj; rw [hpo1]; exact getD_set_zero _ _ _ hj
  have hp1t : s1.post_.getD t1 0 = 0 := by rw [hpo1]; exact getD_set_zero_same _ _
  -- t1 = (A ∪ B) ∪ C
  obtain ⟨s2, e2, hw2, hend2, hlen2, hpo2, hc2, hoth2⟩ :=
    binary_union_spec hw1 none hnone (by rw [hlen1]; exact ht1) (by rw [hlen1]; exact ht1)
      (show c < (none.getD s1).start_.length by
        show c < s1.start_.length; rw [hlen1]; exact hc) hp1t (hp1 c hpc)
  obtain ⟨U2, hU2, hm2⟩ := hc2 U1 C hU1 (hoth1 c h1c C hC)
  have hp2 : ∀ j, s1.post_.getD j 0 = 0 → s2.post_.getD j 0 = 0 := by
    intro j hj; rw [hpo2]; exact getD_set_zero _ _ _ hj
  have hlen2' : s2.start_.length = s.start_.length := hlen2.trans hlen1
  -- t2 = B ∪ C
  obtain ⟨s3, e3, hw3, hend3, hlen3, hpo3, hc3, hoth3⟩ :=
    binary_union_spec hw2 none hnone (by rw [hlen2']; exact ht2) (by rw [hlen2']; exact hb)
      (show c < (none.getD s2).start_.length by
        show c < s2.start_.length; rw [hlen2']; exact hc)
      (hp2 b (hp1 b hpb)) (hp2 c (hp1 c hpc))
  obtain ⟨U3, hU3, hm3⟩ := hc3 B C (hoth2 b h1b B (hoth1 b h1b B hB))
    (hoth2 c h1c C (hoth1 c h1c C hC))
  have hp3 : ∀ j, s2.post_.getD j 0 = 0 → s3.post_.getD j 0 = 0 := by
    intro j hj; rw [hpo3]; exact getD_set_zero _ _ _ hj
  have hp3t : s3.post_.getD t2 0 = 0 := by rw [hpo3]; exact getD_set_zero_same _ _
  have hlen3' : s3.start_.length = s.start_.length := hlen3.trans hlen2'
  -- t2 = A ∪ (B ∪ C)
  obtain ⟨s4, e4, hw4, hend4, hlen4, hpo4, hc4, hoth4⟩ :=
    binary_union_spec hw3 none hnone (by rw [hlen3']; exact ht2) (by rw [hlen3']; exact ha)
      (show t2 < (none.getD s3).start_.length by
        show t2 < s3.start_.length; rw [hlen3']; exact ht2)
      (hp3 a (hp2 a (hp1 a hpa))) hp3t
  obtain ⟨U4, hU4, hm4⟩ := hc4 A U3
    (hoth3 a h2a A (hoth2 a h1a A (hoth1 a h1a A hA))) hU3
  have hp4 : ∀ j, s3.post_.getD j 0 = 0 → s4.post_.getD j 0 = 0 := by
    intro j hj; rw [hpo4]; exact getD_set_zero _ _ _ hj
  have hlen4' : s4.start_.length = s.start_.length := hlen4.trans hlen3'
  have hend4' : s4.end_ = s.end_ := hend4.trans (hend3.trans (hend2.trans hend1))
  have hT1 : SetIs s4 t1 U2 := hoth4 t1 h12 U2 (hoth3 t1 h12 U2 hU2)
  have hpost1 : s4.post_.getD t1 0 = 0 := hp4 t1 (hp3 t1 (by rw [hpo2]; exact getD_set_zero_same _ _))
  have hpost2 : s4.post_.getD t2 0 = 0 := by rw [hpo4]; exact getD_set_zero_same _ _
  have hmU2 : ∀ x, x ∈ U2 ↔ x ∈ A ∨ x ∈ B ∨ x ∈ C := by
    intro x; rw [hm2 x, hm1 x]; tauto
  have hmU4 : ∀ x, x ∈ U4 ↔ x ∈ A ∨ x ∈ B ∨ x ∈ C := by
    intro x; rw [hm4 x, hm3 x]
  obtain ⟨V1, hV1, hV1s, _⟩ := hw4.setIs_all t1
  obtain ⟨V2, hV2, hV2s, _⟩ := hw4.setIs_all t2
  have hV1e := SetIs.unique hT1 hV1
  have hV2e := SetIs.unique hU4 hV2
  have hUeq : U2 = U4 := by
    rw [hV1e, hV2e]
    refine pairwise_lt_ext hV1s hV2s ?_
    intro x
    rw [← hV1e, ← hV2e, hmU2 x, hmU4 x]
  have hT2 : SetIs s4 t2 U2 := by rw [hUeq]; exact hU4
  obtain ⟨it1, hi1, hv1⟩ := iterator_ctor_spec hw4 (by rw [hlen4']; exact ht1) hpost1 hT1
  obtain ⟨it2, hi2, hv2⟩ := iterator_ctor_spec hw4 (by rw [hlen4']; exact ht2) hpost2 hT2
  refine ⟨s1, s2, s3, s4, it1, it2, e1, e2, e3, e4, ?_, hi1, hi2, iterator_values_eq hv1 hv2⟩
  intro e he
  have he4 : e < s4.end_ := by rw [hend4']; exact he
  rw [hw4.is_element_eq hT1 hpost1 he4, hw4.is_element_eq hT2 hpost2 he4,
    hw.is_element_eq hA hpa he, hw.is_element_eq hB hpb he, hw.is_element_eq hC hpc he]
  refine ⟨rfl, ?_⟩
  simp only [Option.some.injEq, decide_eq_true_eq]
  exact hmU2 e

theorem C9_union_associative_witness :
    Reachable example_vec ∧
      ∃ s1 s2 s3 s4 it1 it2, binary_union example_vec 5 0 1 none = some s1 ∧
        binary_union s1 5 5 4 none = some s2 ∧
        binary_union s2 6 1 4 none = some s3 ∧
        binary_union s3 6 0 6 none = some s4 ∧
        (∀ e, e < example_vec.end_ → is_element s4 5 e = is_element s4 6 e ∧
          (is_element s4 5 e = some true ↔
            (is_element example_vec 0 e = some true ∨ is_element example_vec 1 e = some true ∨
              is_element example_vec 4 e = some true))) ∧
        list_setvec_const_iterator.ctor s4 5 = some it1 ∧
        list_setvec_const_iterator.ctor s4 6 = some it2 ∧
        ∀ k, list_setvec_const_iterator.values k it1 =
          list_setvec_const_iterator.values k it2 :=
  ⟨example_vec_reachable,
    C9_union_associative example_vec 0 1 4 5 6 example_vec_reachable (by decide) (by decide)
      (by decide) (by decide) (by decide) (by decide) (by decide) (by decide) (by decide)
      (by decide) (by decide) (by decide) (by decide)⟩

/-- The result of `resize`: for every `list_setvec` state on which the consistency check
that opens `resize` raises no assertion, every `n_set > 0` and every `end`:
`resize(n_set, end)`
returns, and afterwards `n_set()` is `n_set`, `end()` is `end`, every set is empty
(`is_element(i, e)` is false for all `i < n_set`, `e < end`) and no set has pending
posts; and `resize(0, 0)` returns with `n_set() == 0` and `end() == 0`. -/
theorem resize_empty_sets_of_check (s s0 : list_setvec) (nset e : Nat)
    (hcheck : check_data_structure s = some s0) (hn : 0 < nset) :
    ∃ s1 s2, resize s nset e = some s1 ∧ n_set s1 = nset ∧ list_setvec.end s1 = e ∧
      (∀ i, i < nset → ∀ x, x < e → is_element s1 i x = some false) ∧
      (∀ i, i < nset → s1.post_.getD i 0 = 0) ∧
      resize s 0 0 = some s2 ∧ n_set s2 = 0 ∧ list_setvec.end s2 = 0 := by
  refine ⟨_, _, resize_of_check hcheck nset e hn, by simp [n_set], rfl, ?_, ?_,
    resize_zero_of_check hcheck, rfl, rfl⟩
  · intro i _ x hx
    have h1 : (List.replicate nset 0).getD i 0 = 0 := getD_replicate_zero nset i
    simp only [is_element, CPPAD_ASSERT_UNKNOWN, h1, hx, decide_True, if_true,
      Option.bind_eq_bind, Option.some_bind]
  · intro i _
    exact getD_replicate_zero nset i

end CppAD


namespace CppAD

/-! ## `clear`, `operator=` and `number_elements` -/

/-- C11: for a reachable `list_setvec` and an in-range `target`: `clear(target)` returns,
and afterwards set `target` is empty (`is_element(target, e)` is false for every
`e < end`) and has no pending posts (`post_[target] == 0`, the posting is empty). -/
theorem C11_clear_empties_target (s : list_setvec) (target : Nat) (hs : Reachable s)
    (ht : target < n_set s) :
    ∃ s1, clear s target = some s1 ∧
      (∀ e, e < s.end_ → is_element s1 target e = some false) ∧
      s1.post_.getD target 0 = 0 ∧ PostIs s1 target [] := by
  have hw := hs.wf ht
  obtain ⟨s1, h1, hw1, he1, _, hpo1, hc1, _⟩ := clear_spec hw ht
  have hp : s1.post_.getD target 0 = 0 := by rw [hpo1]; exact getD_set_zero_same _ _
  refine ⟨s1, h1, ?_, hp, PostIs.of_post_zero hp⟩
  intro e he
  rw [hw1.is_element_eq hc1 hp (by rw [he1]; exact he)]
  simp

theorem C11_clear_empties_target_witness :
    Reachable example_vec ∧
      ∃ s1, clear example_vec 1 = some s1 ∧
        (∀ e, e < example_vec.end_ → is_element s1 1 e = some false) ∧
        s1.post_.getD 1 0 = 0 ∧ PostIs s1 1 [] :=
  ⟨example_vec_reachable, C11_clear_empties_target example_vec 1 example_vec_reachable
    (by decide)⟩

/-- C12: whole-vector assignment is a copy: after `vec = other`, `vec.n_set()` is
`other.n_set()`, `vec.end()` is `other.end()`, and for every set `i` and element `e`,
`vec.is_element(i, e)` is `other.is_element(i, e)`, whatever `vec` held before. -/
theorem C12_assign_copies (vec other : list_setvec) :
    n_set (vec.assign other) = n_set other ∧
      list_setvec.end (vec.assign other) = list_setvec.end other ∧
      ∀ i e, is_element (vec.assign other) i e = is_element other i e :=
  ⟨rfl, rfl, fun _ _ => rfl⟩

theorem number_elements_loop_spec {d : List pair_size_t} {e : Nat} :
    ∀ (ns : List Nat) (fuel p c : Nat), Seg d p ns 0 → (∀ x ∈ ns, (rd d x).value < e) →
    ns.length < fuel → number_elements_loop d e fuel p c = some (c + ns.length)
  | _, 0, _, _, _, _, hf => absurd hf (Nat.not_lt_zero _)
  | [], fuel + 1, p, c, hs, _, _ => by
    have hp : p = 0 := hs
    simp [number_elements_loop, hp]
  | x :: ns, fuel + 1, p, c, hs, hv, hf => by
    obtain ⟨rfl, hx0, _, hrest⟩ := hs
    have hx : (rd d p).value < e := hv p (List.mem_cons_self _ _)
    simp only [number_elements_loop, ne_eq, hx0, not_false_eq_true, if_true, CPPAD_ASSERT_UNKNOWN, hx,
      decide_True, Option.bind_eq_bind, Option.some_bind]
    rw [number_elements_loop_spec ns fuel _ (c + 1) hrest
      (fun y hy => hv y (List.mem_cons_of_mem _ hy)) (by simpa using hf)]
    simp only [List.length_cons]
    congr 1
    omega

/-- Specification of `number_elements`: the length of the list of the set. -/
theorem number_elements_spec {s : list_setvec} (hw : WF s) {i : Nat} (hi : i < s.start_.length)
    (hp : s.post_.getD i 0 = 0) {vs : List Nat} (h : SetIs s i vs) :
    number_elements s i = some vs.length := by
  obtain ⟨L, I, S⟩ := id hw
  by_cases h0 : s.start_.getD i 0 = 0
  · unfold SetIs at h
    rw [if_pos h0] at h
    subst h
    simp only [number_elements, CPPAD_ASSERT_UNKNOWN, hp, decide_True, if_true, h0,
      Option.bind_eq_bind, Option.some_bind, List.length_nil]
  · obtain ⟨h1, h2⟩ := S.start i hi h0
    have h3 := SetIs.unique h (SetIs.of_layout I.heap S hi)
    unfold Layout.content at h3
    rw [if_neg h0] at h3
    have hseg := I.heap.list_chain _ h1 h2
    have hne := I.heap.list_ne _ h1 h2
    have hloop := number_elements_loop_spec (e := s.end_) _ s.data_.length _ 0 hseg
      (I.heap.list_val _ h1 h2) (hseg.length_lt I.heap.len_pos)
    have hlen : vs.length = (L.elems (s.start_.getD i 0)).length := by
      rw [h3]; simp [vals]
    have hpos : 0 < (L.elems (s.start_.getD i 0)).length := List.length_pos.2 hne
    simp only [number_elements, CPPAD_ASSERT_UNKNOWN, hp, decide_True, if_true, h0, if_false,
      Option.bind_eq_bind, Option.some_bind, hloop, Nat.zero_add, gt_iff_lt, hpos, hlen]

theorem length_filter_range_mem {vs : List Nat} {n : Nat} (hnd : vs.Nodup)
    (hlt : ∀ x ∈ vs, x < n) (p : Nat → Bool) (hp : ∀ x, x < n → (p x = true ↔ x ∈ vs)) :
    ((List.range n).filter p).length = vs.length := by
  apply List.Perm.length_eq
  rw [List.perm_ext_iff_of_nodup ((List.nodup_range n).filter _) hnd]
  intro x
  rw [List.mem_filter, List.mem_range]
  constructor
  · rintro ⟨h1, h2⟩
    exact (hp x h1).1 h2
  · intro h
    exact ⟨hlt x h, (hp x (hlt x h)).2 h⟩

/-- C14: for a reachable `list_setvec` and an in-range set `i` with no pending posts,
`number_elements(i)` returns the number of `e < end` with `is_element(i, e)`, and it is
0 exactly when the set is empty (`is_element(i, e)` is false for every `e < end`). -/
theorem C14_number_elements_counts (s : list_setvec) (i : Nat) (hs : Reachable s)
    (hi : i < n_set s) (hp : s.post_.getD i 0 = 0) :
    ∃ k, number_elements s i = some k ∧
      k = ((List.range s.end_).filter fun e => decide (is_element s i e = some true)).length ∧
      (k = 0 ↔ ∀ e, e < s.end_ → is_element s i e = some false) := by
  have hw := hs.wf hi
  obtain ⟨vs, hvs, hsort, hval⟩ := hw.setIs_all i
  have hnd : vs.Nodup := hsort.imp (fun h => Nat.ne_of_lt h)
  have hel : ∀ e, e < s.end_ → is_element s i e = some (decide (e ∈ vs)) :=
    fun e he => hw.is_element_eq hvs hp he
  refine ⟨vs.length, number_elements_spec hw hi hp hvs, ?_, ?_⟩
  · refine (length_filter_range_mem hnd hval _ ?_).symm
    intro x hx
    rw [hel x hx]
    simp
  · constructor
    · intro h e he
      rw [hel e he, List.length_eq_zero.1 h]
      simp
    · intro h
      rw [List.length_eq_zero]
      cases hl : vs with
      | nil => rfl
      | cons a l =>
        have ha : a ∈ vs := by rw [hl]; exact List.mem_cons_self _ _
        have h1 := h a (hval a ha)
        rw [hel a (hval a ha)] at h1
        simp [ha] at h1

theorem C14_number_elements_counts_witness :
    Reachable example_vec ∧ number_elements example_vec 1 = some 2 ∧
      ∃ k, number_elements example_vec 1 = some k ∧
        k = ((List.range example_vec.end_).filter fun e =>
          decide (is_element example_vec 1 e = some true)).length ∧
        (k = 0 ↔ ∀ e, e < example_vec.end_ → is_element example_vec 1 e = some false) :=
  ⟨example_vec_reachable, by rfl,
    C14_number_elements_counts example_vec 1 example_vec_reachable (by decide) (by decide)⟩

end CppAD


namespace CppAD

/-! ## `sparsity_user2internal` -/

theorem Mem.iff_of_setIs {s : list_setvec} {i : Nat} {vs : List Nat} (h : SetIs s i vs)
    (x : Nat) : Mem s i x ↔ x ∈ vs := by
  constructor
  · rintro ⟨ws, h1, h2⟩
    rw [SetIs.unique h h1]; exact h2
  · intro hx
    exact ⟨vs, h, hx⟩

theorem setIs_iff_of_imp {s s1 : list_setvec} (hw : WF s) {j : Nat}
    (h : ∀ vs, SetIs s j vs → SetIs s1 j vs) (x : Nat) : Mem s1 j x ↔ Mem s j x := by
  obtain ⟨vs, hvs, _, _⟩ := hw.setIs_all j
  rw [Mem.iff_of_setIs hvs, Mem.iff_of_setIs (h vs hvs)]

/-- The effect of `add_element(i, element)` on the membership relation of all sets. -/
theorem add_element_mem {s : list_setvec} (hw : WF s) {i element : Nat}
    (hi : i < s.start_.length) (he : element < s.end_) :
    ∃ s1, add_element s i element = some s1 ∧ WF s1 ∧ s1.end_ = s.end_ ∧
      s1.start_.length = s.start_.length ∧ s1.post_ = s.post_ ∧
      ∀ k x, Mem s1 k x ↔ Mem s k x ∨ (k = i ∧ x = element) := by
  obtain ⟨s1, h1, hw1, he1, hlen1, hpo1, hc1, hfr1⟩ := add_element_spec hw hi he
  refine ⟨s1, h1, hw1, he1, hlen1, hpo1, ?_⟩
  intro k x
  by_cases hk : k = i
  · subst hk
    obtain ⟨vs, hvs, _, _⟩ := hw.setIs_all k
    obtain ⟨vs1, hvs1, hmem⟩ := hc1 vs hvs
    rw [Mem.iff_of_setIs hvs, Mem.iff_of_setIs hvs1, hmem x]
    tauto
  · have h2 : Mem s1 k x ↔ Mem s k x := by
      by_cases hkn : k < s.start_.length
      · exact setIs_iff_of_imp hw (fun vs h => hfr1 k hkn hk vs h) x
      · exact setIs_iff_of_imp hw (fun vs h => setIs_out_of_range hlen1 hkn h) x
    rw [h2]
    tauto

theorem user2internal_row_spec (e i : Nat) : ∀ (js : List Nat) {s : list_setvec}, WF s →
    i < s.start_.length → s.end_ = e → (∀ j ∈ js, j < e) →
    ∃ s1, user2internal_row e i js s = some s1 ∧ WF s1 ∧ s1.end_ = s.end_ ∧
      s1.start_.length = s.start_.length ∧ s1.post_ = s.post_ ∧
      ∀ k x, Mem s1 k x ↔ Mem s k x ∨ (k = i ∧ x ∈ js)
  | [], s, hw, _, _, _ => ⟨s, rfl, hw, rfl, rfl, rfl, fun k x => by simp⟩
  | j :: js, s, hw, hi, he, hjs => by
    have hj : j < e := hjs j (List.mem_cons_self _ _)
    obtain ⟨s1, h1, hw1, he1, hlen1, hpo1, hm1⟩ := add_element_mem hw hi (he ▸ hj)
    obtain ⟨s2, h2, hw2, he2, hlen2, hpo2, hm2⟩ :=
      user2internal_row_spec e i js hw1 (by rw [hlen1]; exact hi) (he1.trans he)
        (fun x hx => hjs x (List.mem_cons_of_mem _ hx))
    refine ⟨s2, ?_, hw2, he2.trans he1, hlen2.trans hlen1, hpo2.trans hpo1, ?_⟩
    · simp only [user2internal_row, CPPAD_ASSERT_KNOWN, hj, decide_True, if_true,
        Option.bind_eq_bind, Option.some_bind, h1, h2]
    · intro k x
      rw [hm2 k x, hm1 k x, List.mem_cons]
      tauto

theorem user2internal_column_spec (n j : Nat) : ∀ (is : List Nat) {s : list_setvec}, WF s →
    s.start_.length = n → j < s.end_ → (∀ i ∈ is, i < n) →
    ∃ s1, user2internal_column n j is s = some s1 ∧ WF s1 ∧ s1.end_ = s.end_ ∧
      s1.start_.length = s.start_.length ∧ s1.post_ = s.post_ ∧
      ∀ k x, Mem s1 k x ↔ Mem s k x ∨ (k ∈ is ∧ x = j)
  | [], s, hw, _, _, _ => ⟨s, rfl, hw, rfl, rfl, rfl, fun k x => by simp⟩
  | i :: is, s, hw, hn, hj, his => by
    have hi : i < n := his i (List.mem_cons_self _ _)
    obtain ⟨s1, h1, hw1, he1, hlen1, hpo1, hm1⟩ := add_element_mem hw (hn ▸ hi) hj
    obtain ⟨s2, h2, hw2, he2, hlen2, hpo2, hm2⟩ :=
      user2internal_column_spec n j is hw1 (hlen1.trans hn) (by rw [he1]; exact hj)
        (fun x hx => his x (List.mem_cons_of_mem _ hx))
    refine ⟨s2, ?_, hw2, he2.trans he1, hlen2.trans hlen1, hpo2.trans hpo1, ?_⟩
    · simp only [user2internal_column, CPPAD_ASSERT_KNOWN, hi, decide_True, if_true,
        Option.bind_eq_bind, Option.some_bind, h1, h2]
    · intro k x
      rw [hm2 k x, hm1 k x, List.mem_cons]
      tauto

theorem user2internal_rows_spec (user : List (List Nat)) (e : Nat) :
    ∀ (c i : Nat) {s : list_setvec}, WF s → i + c ≤ s.start_.length → s.end_ = e →
    (∀ k, k < i + c → ∀ x ∈ user.getD k [], x < e) →
    ∃ s1, user2internal_rows user e c i s = some s1 ∧ WF s1 ∧ s1.end_ = s.end_ ∧
      s1.start_.length = s.start_.length ∧ s1.post_ = s.post_ ∧
      ∀ k x, Mem s1 k x ↔ Mem s k x ∨ (i ≤ k ∧ k < i + c ∧ x ∈ user.getD k [])
  | 0, i, s, hw, _, _, _ =>
    ⟨s, rfl, hw, rfl, rfl, rfl, fun k x => by
      constructor
      · intro h; exact Or.inl h
      · rintro (h | ⟨h1, h2, _⟩)
        · exact h
        · omega⟩
  | c + 1, i, s, hw, hn, he, hval => by
    obtain ⟨s1, h1, hw1, he1, hlen1, hpo1, hm1⟩ :=
      user2internal_row_spec e i (user.getD i []) hw (by omega) he (hval i (by omega))
    obtain ⟨s2, h2, hw2, he2, hlen2, hpo2, hm2⟩ :=
      user2internal_rows_spec user e c (i + 1) hw1 (by rw [hlen1]; omega) (he1.trans he)
        (fun k hk => hval k (by omega))
    refine ⟨s2, ?_, hw2, he2.trans he1, hlen2.trans hlen1, hpo2.trans hpo1, ?_⟩
    · simp only [user2internal_rows, Option.bind_eq_bind, Option.some_bind, h1, h2]
    · intro k x
      rw [hm2 k x, hm1 k x]
      constructor
      · rintro ((h | ⟨rfl, h⟩) | ⟨h3, h4, h5⟩)
        · exact Or.inl h
        · exact Or.inr ⟨le_refl _, by omega, h⟩
        · exact Or.inr ⟨by omega, by omega, h5⟩
      · rintro (h | ⟨h3, h4, h5⟩)
        · exact Or.inl (Or.inl h)
        · by_cases hk : k = i
          · subst hk; exact Or.inl (Or.inr ⟨rfl, h5⟩)
          · exact Or.inr ⟨by omega, by omega, h5⟩

theorem user2internal_columns_spec (user : List (List Nat)) (n : Nat) :
    ∀ (c j : Nat) {s : list_setvec}, WF s → s.start_.length = n → j + c ≤ s.end_ →
    (∀ k, k < j + c → ∀ x ∈ user.getD k [], x < n) →
    ∃ s1, user2internal_columns user n c j s = some s1 ∧ WF s1 ∧ s1.end_ = s.end_ ∧
      s1.start_.length = s.start_.length ∧ s1.post_ = s.post_ ∧
      ∀ k x, Mem s1 k x ↔ Mem s k x ∨ (j ≤ x ∧ x < j + c ∧ k ∈ user.getD x [])
  | 0, j, s, hw, _, _, _ =>
    ⟨s, rfl, hw, rfl, rfl, rfl, fun k x => by
      constructor
      · intro h; exact Or.inl h
      · rintro (h | ⟨h1, h2, _⟩)
        · exact h
        · omega⟩
  | c + 1, j, s, hw, hn, he, hval => by
    obtain ⟨s1, h1, hw1, he1, hlen1, hpo1, hm1⟩ :=
      user2internal_column_spec n j (user.getD j []) hw hn (by omega) (hval j (by omega))
    obtain ⟨s2, h2, hw2, he2, hlen2, hpo2, hm2⟩ :=
      user2internal_columns_spec user n c (j + 1) hw1 (hlen1.trans hn) (by rw [he1]; omega)
        (fun k hk => hval k (by omega))
    refine ⟨s2, ?_, hw2, he2.trans he1, hlen2.trans hlen1, hpo2.trans hpo1, ?_⟩
    · simp only [user2internal_columns, Option.bind_eq_bind, Option.some_bind, h1, h2]
    · intro k x
      rw [hm2 k x, hm1 k x]
      constructor
      · rintro ((h | ⟨h, rfl⟩) | ⟨h3, h4, h5⟩)
        · exact Or.inl h
        · exact Or.inr ⟨le_refl _, by omega, h⟩
        · exact Or.inr ⟨by omega, by omega, h5⟩
      · rintro (h | ⟨h3, h4, h5⟩)
        · exact Or.inl (Or.inl h)
        · by_cases hx : x = j
          · subst hx; exact Or.inl (Or.inr ⟨h5, rfl⟩)
          · exact Or.inr ⟨by omega, by omega, h5⟩

theorem not_mem_fresh (e nset : Nat) (t : List Nat) (k x : Nat) :
    ¬ Mem ⟨e, 0, 0, [⟨e, 0⟩], List.replicate nset 0, List.replicate nset 0, t⟩ k x := by
  rintro ⟨vs, h1, h2⟩
  unfold SetIs at h1
  rw [if_pos (getD_replicate_zero nset k)] at h1
  subst h1
  simp at h2

/-- The membership test on a well-formed state without pending posts decides `Mem`. -/
theorem WF.is_element_mem {s : list_setvec} (hw : WF s) {i e : Nat}
    (hp : s.post_.getD i 0 = 0) (he : e < s.end_) (b : Bool) (hb : b = true ↔ Mem s i e) :
    is_element s i e = some b := by
  obtain ⟨vs, hvs, _, _⟩ := hw.setIs_all i
  rw [hw.is_element_eq hvs hp he]
  congr 1
  rw [Bool.eq_iff_iff, hb, Mem.iff_of_setIs hvs]
  simp

/-- C13 (amended): for an `internal` whose data structure check passes, `n_set > 0` or
`end == 0`, and a user pattern whose size (`n_set`, or `end` when transposed) and element
values are in range: `sparsity_user2internal` returns, and afterwards `internal` has
`n_set` sets over universe `end` and, for all `i < n_set` and `j < end`,
`internal.is_element(i, j)` holds iff `j` is in `user[i]` when `transpose` is false, and
iff `i` is in `user[j]` when `transpose` is true. -/
theorem C13_user2internal_pattern (internal s0 : list_setvec) (user : List (List Nat))
    (nset e : Nat) (transpose : Bool) (hcheck : check_data_structure internal = some s0)
    (hn : nset = 0 → e = 0)
    (hsize : user.length = if transpose then e else nset)
    (hval : ∀ k, k < user.length → ∀ x ∈ user.getD k [],
      x < if transpose then nset else e) :
    ∃ s1, sparsity_user2internal internal user nset e transpose = some s1 ∧
      n_set s1 = nset ∧ list_setvec.end s1 = e ∧
      ∀ i, i < nset → ∀ j, j < e →
        is_element s1 i j =
          some (if transpose then decide (i ∈ user.getD j []) else decide (j ∈ user.getD i [])) := by
  by_cases h0 : nset = 0
  · have he0 : e = 0 := hn h0
    subst h0 he0
    have hu : user.length = 0 := by rw [hsize]; simp
    refine ⟨⟨0, 0, 0, [], [], [], s0.temporary_⟩, ?_, rfl, rfl, fun i hi => absurd hi (by omega)⟩
    cases transpose <;>
      simp [sparsity_user2internal, CPPAD_ASSERT_KNOWN, hu, resize_zero_of_check hcheck,
        user2internal_columns, user2internal_rows]
  · have hpos : 0 < nset := Nat.pos_of_ne_zero h0
    have hres := resize_of_check hcheck nset e hpos
    have hwf := wf_fresh e nset s0.temporary_
    cases transpose with
    | true =>
      simp only [if_true] at hsize hval
      obtain ⟨s1, h1, hw1, he1, hlen1, hpo1, hm1⟩ :=
        user2internal_columns_spec user nset e 0 hwf (by simp) (by simp)
          (fun k hk => hval k (by omega))
      refine ⟨s1, ?_, ?_, he1, ?_⟩
      · simp only [sparsity_user2internal, CPPAD_ASSERT_KNOWN, hsize, decide_True, if_true,
          Bool.not_true, Bool.false_eq_true, if_false, Option.bind_eq_bind, Option.some_bind,
          hres, h1]
      · show s1.start_.length = nset
        rw [hlen1]; simp
      · intro i _ j hj
        simp only [if_true]
        refine hw1.is_element_mem (by rw [hpo1]; exact getD_replicate_zero nset i)
          (by rw [he1]; exact hj) _ ?_
        rw [hm1 i j, decide_eq_true_iff]
        constructor
        · intro h; exact Or.inr ⟨by omega, by omega, h⟩
        · rintro (h | ⟨_, _, h⟩)
          · exact absurd h (not_mem_fresh e nset _ i j)
          · exact h
    | false =>
      simp only [Bool.false_eq_true, if_false] at hsize hval
      obtain ⟨s1, h1, hw1, he1, hlen1, hpo1, hm1⟩ :=
        user2internal_rows_spec user e nset 0 hwf (by simp) rfl
          (fun k hk => hval k (by omega))
      refine ⟨s1, ?_, ?_, he1, ?_⟩
      · simp only [sparsity_user2internal, CPPAD_ASSERT_KNOWN, hsize, decide_True, if_true,
          Bool.not_false, Bool.false_eq_true, if_false, Option.bind_eq_bind, Option.some_bind,
          hres, h1]
      · show s1.start_.length = nset
        rw [hlen1]; simp
      · intro i hi j hj
        simp only [Bool.false_eq_true, if_false]
        refine hw1.is_element_mem (by rw [hpo1]; exact getD_replicate_zero nset i)
          (by rw [he1]; exact hj) _ ?_
        rw [hm1 i j, decide_eq_true_iff]
        constructor
        · intro h; exact Or.inr ⟨by omega, by omega, h⟩
        · rintro (h | ⟨_, _, h⟩)
          · exact absurd h (not_mem_fresh e nset _ i j)
          · exact h

theorem C13_user2internal_pattern_witness :
    sparsity_user2internal example_vec [[1, 0], [], [2]] 3 3 true =
        some ⟨3, 0, 0, [⟨3, 0⟩, ⟨1, 2⟩, ⟨0, 0⟩, ⟨1, 4⟩, ⟨0, 0⟩, ⟨1, 6⟩, ⟨2, 0⟩],
          [3, 1, 5], [0, 0, 0], [2, 1, 2, 1, 1, 0, 0]⟩ ∧
      ∃ s1, sparsity_user2internal example_vec [[1, 0], [], [2]] 3 3 true = some s1 ∧
        n_set s1 = 3 ∧ list_setvec.end s1 = 3 ∧
        ∀ i, i < 3 → ∀ j, j < 3 →
          is_element s1 i j =
            some (if true = true then decide (i ∈ [[1, 0], [], [2]].getD j [])
              else decide (j ∈ [[1, 0], [], [2]].getD i [])) :=
  ⟨by rfl, C13_user2internal_pattern example_vec _ [[1, 0], [], [2]] 3 3 true
    (show check_data_structure example_vec = some ⟨5, 0, 0,
          [⟨5, 0⟩, ⟨2, 2⟩, ⟨1, 3⟩, ⟨2, 0⟩, ⟨1, 5⟩, ⟨2, 6⟩, ⟨3, 0⟩, ⟨1, 8⟩, ⟨4, 0⟩, ⟨1, 10⟩, ⟨2, 0⟩],
          [1, 4, 1, 9, 7, 0, 0], [0, 0, 0, 0, 0, 0, 0], [2, 1, 2, 1, 1, 0, 0]⟩ by rfl)
    (by decide) (by rfl) (by decide)⟩

/-- C13 counterexample: `n_set = 0`, `end = 1`, `transpose = true` and the user pattern
of one empty set (size `end`, no element out of range), on a default constructed
`internal`: `resize(0, 1)` fails its assertion `end == 0`, so the call does not leave
`internal` with universe `end = 1`. -/
theorem C13_zero_sets_counterexample :
    (∀ k, k < [([] : List Nat)].length → ∀ x ∈ [([] : List Nat)].getD k [], x < 0) ∧
      check_data_structure list_setvec.ctor = some list_setvec.ctor ∧
      sparsity_user2internal list_setvec.ctor [[]] 0 1 true = none := by
  refine ⟨?_, by rfl, by rfl⟩
  intro k hk x hx
  have : k = 0 := by simpa using hk
  subst this
  simp at hx

end CppAD


namespace CppAD

/-! ## `AD<Base>`: `operator+=` and `operator-=` -/

theorem set_value_is_variable {Base : Type} (m : ADState Base) (this : Nat) (v : Base)
    (k : Nat) : ((m.set_value this v).obj k).is_variable = (m.obj k).is_variable := by
  unfold ADState.set_value
  by_cases h : k = this
  · subst h; simp
  · simp [Function.update_noteq h]

theorem set_value_taddr {Base : Type} (m : ADState Base) (this : Nat) (v : Base)
    (k : Nat) : ((m.set_value this v).obj k).taddr = (m.obj k).taddr := by
  unfold ADState.set_value
  by_cases h : k = this
  · subst h; simp
  · simp [Function.update_noteq h]

theorem set_value_value_self {Base : Type} (m : ADState Base) (this : Nat) (v : Base) :
    ((m.set_value this v).obj this).value = v := by
  simp [ADState.set_value]

theorem set_value_obj_ne {Base : Type} (m : ADState Base) (this : Nat) (v : Base)
    {k : Nat} (h : k ≠ this) : (m.set_value this v).obj k = m.obj k := by
  simp [ADState.set_value, Function.update_noteq h]

theorem set_value_tape {Base : Type} (m : ADState Base) (this : Nat) (v : Base) :
    (m.set_value this v).tape = m.tape := rfl

theorem ne_of_is_variable {Base : Type} {m : ADState Base} {y x : Nat}
    (hy : (m.obj y).is_variable = true) (hx : (m.obj x).is_variable = false) : x ≠ y := by
  rintro rfl
  rw [hy] at hx
  cases hx

/-- C15: for operands `y` and `x` that are both parameters, `y += x` and `y -= x` leave
the tape as it is (no operation is recorded), leave `y` a parameter, and only the
member `value` of `y` is updated, to the sum or the difference in the type `Base`. -/
theorem C15_parameters_record_nothing {Base : Type} [Add Base] [Sub Base]
    (zero : Base → Bool) (m : ADState Base) (y x : Nat)
    (hy : Parameter (m.obj y) = true) (hx : Parameter (m.obj x) = true) :
    ((AD.operator_add_eq zero m y x).1.tape = m.tape ∧
      Parameter ((AD.operator_add_eq zero m y x).1.obj y) = true ∧
      (AD.operator_add_eq zero m y x).1.obj = Function.update m.obj y
        { m.obj y with value := (m.obj y).value + (m.obj x).value }) ∧
    ((AD.operator_sub_eq zero m y x).1.tape = m.tape ∧
      Parameter ((AD.operator_sub_eq zero m y x).1.obj y) = true ∧
      (AD.operator_sub_eq zero m y x).1.obj = Function.update m.obj y
        { m.obj y with value := (m.obj y).value - (m.obj x).value }) := by
  simp only [Parameter, Bool.not_eq_true'] at hy hx
  have ha : AD.operator_add_eq zero m y x =
      (m.set_value y ((m.obj y).value + (m.obj x).value), y) := by
    simp [AD.operator_add_eq, Parameter, Variable, set_value_is_variable, hy, hx]
  have hb : AD.operator_sub_eq zero m y x =
      (m.set_value y ((m.obj y).value - (m.obj x).value), y) := by
    simp [AD.operator_sub_eq, Parameter, Variable, set_value_is_variable, hy, hx]
  rw [ha, hb]
  refine ⟨⟨rfl, ?_, rfl⟩, ⟨rfl, ?_, rfl⟩⟩ <;>
    simp [Parameter, set_value_is_variable, hy]

theorem C15_parameters_record_nothing_witness :
    Parameter (example_state.obj 2) = true ∧ Parameter (example_state.obj 4) = true ∧
      (AD.operator_add_eq IdenticalZero_Int example_state 2 4).1.tape = example_state.tape ∧
      (AD.operator_sub_eq IdenticalZero_Int example_state 2 4).1.tape = example_state.tape :=
  ⟨by decide, by decide,
    (C15_parameters_record_nothing IdenticalZero_Int example_state 2 4 (by decide)
      (by decide)).1.1,
    (C15_parameters_record_nothing IdenticalZero_Int example_state 2 4 (by decide)
      (by decide)).2.1⟩

/-- C16: for a parameter `y` whose value is identically zero (a value that `+` leaves
its right argument unchanged) and a variable `x`: `y += x` records no operation and
makes `y` a variable with the tape address of `x` (`MakeVariable(x.taddr)`) and the
value of `x`; no other object changes. -/
theorem C16_zero_parameter_becomes_alias {Base : Type} [Add Base] (zero : Base → Bool)
    (m : ADState Base) (y x : Nat) (hz : ∀ b v : Base, zero b = true → b + v = v)
    (hy : Parameter (m.obj y) = true) (hy0 : zero (m.obj y).value = true)
    (hx : Variable (m.obj x) = true) :
    (AD.operator_add_eq zero m y x).1.tape = m.tape ∧
      Variable ((AD.operator_add_eq zero m y x).1.obj y) = true ∧
      (AD.operator_add_eq zero m y x).1.obj =
        Function.update m.obj y ⟨(m.obj x).value, true, (m.obj x).taddr⟩ := by
  simp only [Parameter, Bool.not_eq_true'] at hy
  simp only [Variable] at hx
  have ha : AD.operator_add_eq zero m y x =
      (MakeVariable (m.set_value y ((m.obj y).value + (m.obj x).value)) y (m.obj x).taddr,
        y) := by
    simp [AD.operator_add_eq, Parameter, Variable, set_value_is_variable, set_value_taddr,
      hy, hx, hy0]
  rw [ha]
  refine ⟨rfl, ?_, ?_⟩
  · simp [Variable, MakeVariable]
  · simp [MakeVariable, ADState.set_value, hz _ _ hy0]

theorem C16_zero_parameter_becomes_alias_witness :
    (∀ b v : Int, IdenticalZero_Int b = true → b + v = v) ∧
      Parameter (example_state.obj 0) = true ∧
      IdenticalZero_Int (example_state.obj 0).value = true ∧
      Variable (example_state.obj 1) = true ∧
      (AD.operator_add_eq IdenticalZero_Int example_state 0 1).1.tape = example_state.tape ∧
      Variable ((AD.operator_add_eq IdenticalZero_Int example_state 0 1).1.obj 0) = true ∧
      (AD.operator_add_eq IdenticalZero_Int example_state 0 1).1.obj =
        Function.update example_state.obj 0 ⟨5, true, 1⟩ :=
  ⟨fun b v h => by simp [IdenticalZero_Int] at h; simp [h], by decide, by decide, by decide,
    C16_zero_parameter_becomes_alias IdenticalZero_Int example_state 0 1
      (fun b v h => by simp [IdenticalZero_Int] at h; simp [h]) (by decide) (by decide)
      (by decide)⟩

/-- C17: for a variable `y` and a parameter `x` whose value is identically zero:
`y += x` and `y -= x` leave the tape as it is (no operation is recorded, the length of
the tape is that before the call) and leave `y` a variable with its tape address. -/
theorem C17_zero_addend_dropped {Base : Type} [Add Base] [Sub Base] (zero : Base → Bool)
    (m : ADState Base) (y x : Nat) (hy : Variable (m.obj y) = true)
    (hx : Parameter (m.obj x) = true) (hx0 : zero (m.obj x).value = true) :
    ((AD.operator_add_eq zero m y x).1.tape = m.tape ∧
      (AD.operator_add_eq zero m y x).1.tape.Rec.length = m.tape.Rec.length ∧
      Variable ((AD.operator_add_eq zero m y x).1.obj y) = true ∧
      ((AD.operator_add_eq zero m y x).1.obj y).taddr = (m.obj y).taddr) ∧
    ((AD.operator_sub_eq zero m y x).1.tape = m.tape ∧
      (AD.operator_sub_eq zero m y x).1.tape.Rec.length = m.tape.Rec.length ∧
      Variable ((AD.operator_sub_eq zero m y x).1.obj y) = true ∧
      ((AD.operator_sub_eq zero m y x).1.obj y).taddr = (m.obj y).taddr) := by
  simp only [Parameter, Bool.not_eq_true'] at hx
  simp only [Variable] at hy
  have hne : x ≠ y := ne_of_is_variable hy hx
  have ha : AD.operator_add_eq zero m y x =
      (m.set_value y ((m.obj y).value + (m.obj x).value), y) := by
    simp [AD.operator_add_eq, Parameter, Variable, set_value_is_variable, hy, hx,
      set_value_obj_ne m y _ hne, hx0]
  have hb : AD.operator_sub_eq zero m y x =
      (m.set_value y ((m.obj y).value - (m.obj x).value), y) := by
    simp [AD.operator_sub_eq, AD.IdenticalZero, Parameter, Variable, set_value_is_variable,
      hy, hx, set_value_obj_ne m y _ hne, hx0]
  rw [ha, hb]
  refine ⟨⟨rfl, rfl, ?_, ?_⟩, ⟨rfl, rfl, ?_, ?_⟩⟩ <;>
    simp [Variable, set_value_is_variable, set_value_taddr, hy]

theorem C17_zero_addend_dropped_witness :
    Variable (example_state.obj 1) = true ∧ Parameter (example_state.obj 0) = true ∧
      IdenticalZero_Int (example_state.obj 0).value = true ∧
      (AD.operator_add_eq IdenticalZero_Int example_state 1 0).1.tape = example_state.tape ∧
      ((AD.operator_sub_eq IdenticalZero_Int example_state 1 0).1.obj 1).taddr = 1 :=
  ⟨by decide, by decide, by decide,
    (C17_zero_addend_dropped IdenticalZero_Int example_state 1 0 (by decide) (by decide)
      (by decide)).1.1,
    (C17_zero_addend_dropped IdenticalZero_Int example_state 1 0 (by decide) (by decide)
      (by decide)).2.2.2.2⟩

end CppAD


namespace CppAD

/-- C18: `operator+=` applies the three-way split: for (parameter not identically
zero, variable) it appends exactly one `AddpvOp` whose arguments are the value of the
target before the update and the address of the right operand; for (variable,
parameter not identically zero) exactly one `AddvpOp` with the address of the target
and the constant `right.value`; for (variable, variable) exactly one `AddvvOp` with
both addresses; in no other case is anything recorded. -/
theorem C18_add_eq_three_way_split {Base : Type} [Add Base] (zero : Base → Bool)
    (m : ADState Base) (y x : Nat) :
    (Parameter (m.obj y) = true → zero (m.obj y).value = false →
        Variable (m.obj x) = true →
      (AD.operator_add_eq zero m y x).1.tape =
        ⟨m.tape.Rec ++ [⟨OpCode.AddpvOp, Operand.par (m.obj y).value,
          Operand.addr (m.obj x).taddr, m.tape.size⟩], m.tape.size + 1⟩) ∧
    (Variable (m.obj y) = true → Parameter (m.obj x) = true →
        zero (m.obj x).value = false →
      (AD.operator_add_eq zero m y x).1.tape =
        ⟨m.tape.Rec ++ [⟨OpCode.AddvpOp, Operand.addr (m.obj y).taddr,
          Operand.par (m.obj x).value, m.tape.size⟩], m.tape.size + 1⟩) ∧
    (Variable (m.obj y) = true → Variable (m.obj x) = true →
      (AD.operator_add_eq zero m y x).1.tape =
        ⟨m.tape.Rec ++ [⟨OpCode.AddvvOp, Operand.addr (m.obj y).taddr,
          Operand.addr (m.obj x).taddr, m.tape.size⟩], m.tape.size + 1⟩) ∧
    (¬ (Parameter (m.obj y) = true ∧ zero (m.obj y).value = false ∧
          Variable (m.obj x) = true) →
      ¬ (Variable (m.obj y) = true ∧ Parameter (m.obj x) = true ∧
          zero (m.obj x).value = false) →
      ¬ (Variable (m.obj y) = true ∧ Variable (m.obj x) = true) →
      (AD.operator_add_eq zero m y x).1.tape = m.tape) := by
  refine ⟨?_, ?_, ?_, ?_⟩
  · intro hy hy0 hx
    simp only [Parameter, Bool.not_eq_true'] at hy
    simp only [Variable] at hx
    simp [AD.operator_add_eq, Parameter, Variable, set_value_is_variable, set_value_taddr,
      hy, hx, hy0, RecordOp, set_value_tape]
  · intro hy hx hx0
    simp only [Parameter, Bool.not_eq_true'] at hx
    simp only [Variable] at hy
    have hne : x ≠ y := ne_of_is_variable hy hx
    simp [AD.operator_add_eq, Parameter, Variable, set_value_is_variable, set_value_taddr,
      hy, hx, hx0, RecordOp, set_value_tape, set_value_obj_ne m y _ hne]
  · intro hy hx
    simp only [Variable] at hy hx
    simp [AD.operator_add_eq, Parameter, Variable, set_value_is_variable, set_value_taddr,
      hy, hx, RecordOp, set_value_tape]
  · intro h1 h2 h3
    simp only [Parameter, Variable, Bool.not_eq_true', not_and, Bool.not_eq_false,
      Bool.not_eq_true] at h1 h2 h3
    cases hy : (m.obj y).is_variable with
    | false =>
      cases hx : (m.obj x).is_variable with
      | false =>
        simp [AD.operator_add_eq, Parameter, Variable, set_value_is_variable, hy, hx,
          set_value_tape]
      | true =>
        have h0 := h1 hy
        cases hz : zero (m.obj y).value with
        | false => rw [h0 hz] at hx; cases hx
        | true =>
          simp [AD.operator_add_eq, Parameter, Variable, set_value_is_variable, hy, hx, hz,
            MakeVariable, set_value_tape]
    | true =>
      cases hx : (m.obj x).is_variable with
      | false =>
        have hne : x ≠ y := ne_of_is_variable hy hx
        have h0 := h2 hy hx
        simp [AD.operator_add_eq, Parameter, Variable, set_value_is_variable, hy, hx, h0,
          set_value_tape, set_value_obj_ne m y _ hne]
      | true =>
        have := h3 hy
        rw [hx] at this
        cases this

theorem C18_add_eq_three_way_split_witness :
    (AD.operator_add_eq IdenticalZero_Int example_state 2 1).1.tape =
        ⟨[⟨OpCode.AddpvOp, Operand.par 3, Operand.addr 1, 3⟩], 4⟩ ∧
      (AD.operator_add_eq IdenticalZero_Int example_state 1 2).1.tape =
        ⟨[⟨OpCode.AddvpOp, Operand.addr 1, Operand.par 3, 3⟩], 4⟩ ∧
      (AD.operator_add_eq IdenticalZero_Int example_state 1 3).1.tape =
        ⟨[⟨OpCode.AddvvOp, Operand.addr 1, Operand.addr 2, 3⟩], 4⟩ ∧
      (AD.operator_add_eq IdenticalZero_Int example_state 2 0).1.tape = ⟨[], 3⟩ :=
  ⟨(C18_add_eq_three_way_split IdenticalZero_Int example_state 2 1).1 (by decide) (by decide)
      (by decide),
    (C18_add_eq_three_way_split IdenticalZero_Int example_state 1 2).2.1 (by decide)
      (by decide) (by decide),
    (C18_add_eq_three_way_split IdenticalZero_Int example_state 1 3).2.2.1 (by decide)
      (by decide),
    (C18_add_eq_three_way_split IdenticalZero_Int example_state 2 0).2.2.2 (by decide)
      (by decide) (by decide)⟩

/-- C19: `operator-=` applies the three-way split: for (parameter, variable) it appends
exactly one `SubpvOp` whose arguments are the value of the target before the update and
the address of the right operand, also when that value is identically zero; for
(variable, parameter not identically zero) exactly one `SubvpOp` with the address of the
target and `right.value`; for (variable, variable) exactly one `SubvvOp` with both
addresses. -/
theorem C19_sub_eq_three_way_split {Base : Type} [Sub Base] (zero : Base → Bool)
    (m : ADState Base) (y x : Nat) :
    (Parameter (m.obj y) = true → Variable (m.obj x) = true →
      (AD.operator_sub_eq zero m y x).1.tape =
        ⟨m.tape.Rec ++ [⟨OpCode.SubpvOp, Operand.par (m.obj y).value,
          Operand.addr (m.obj x).taddr, m.tape.size⟩], m.tape.size + 1⟩) ∧
    (Variable (m.obj y) = true → Parameter (m.obj x) = true →
        zero (m.obj x).value = false →
      (AD.operator_sub_eq zero m y x).1.tape =
        ⟨m.tape.Rec ++ [⟨OpCode.SubvpOp, Operand.addr (m.obj y).taddr,
          Operand.par (m.obj x).value, m.tape.size⟩], m.tape.size + 1⟩) ∧
    (Variable (m.obj y) = true → Variable (m.obj x) = true →
      (AD.operator_sub_eq zero m y x).1.tape =
        ⟨m.tape.Rec ++ [⟨OpCode.SubvvOp, Operand.addr (m.obj y).taddr,
          Operand.addr (m.obj x).taddr, m.tape.size⟩], m.tape.size + 1⟩) := by
  refine ⟨?_, ?_, ?_⟩
  · intro hy hx
    simp only [Parameter, Bool.not_eq_true'] at hy
    simp only [Variable] at hx
    simp [AD.operator_sub_eq, Parameter, Variable, set_value_is_variable, set_value_taddr,
      hy, hx, RecordOp, set_value_tape]
  · intro hy hx hx0
    simp only [Parameter, Bool.not_eq_true'] at hx
    simp only [Variable] at hy
    have hne : x ≠ y := ne_of_is_variable hy hx
    simp [AD.operator_sub_eq, AD.IdenticalZero, Parameter, Variable, set_value_is_variable,
      set_value_taddr, hy, hx, hx0, RecordOp, set_value_tape, set_value_obj_ne m y _ hne]
  · intro hy hx
    simp only [Variable] at hy hx
    simp [AD.operator_sub_eq, Parameter, Variable, set_value_is_variable, set_value_taddr,
      hy, hx, RecordOp, set_value_tape]

theorem C19_sub_eq_three_way_split_witness :
    (AD.operator_sub_eq IdenticalZero_Int example_state 0 1).1.tape =
        ⟨[⟨OpCode.SubpvOp, Operand.par 0, Operand.addr 1, 3⟩], 4⟩ ∧
      (AD.operator_sub_eq IdenticalZero_Int example_state 1 2).1.tape =
        ⟨[⟨OpCode.SubvpOp, Operand.addr 1, Operand.par 3, 3⟩], 4⟩ ∧
      (AD.operator_sub_eq IdenticalZero_Int example_state 1 3).1.tape =
        ⟨[⟨OpCode.SubvvOp, Operand.addr 1, Operand.addr 2, 3⟩], 4⟩ :=
  ⟨(C19_sub_eq_three_way_split IdenticalZero_Int example_state 0 1).1 (by decide) (by decide),
    (C19_sub_eq_three_way_split IdenticalZero_Int example_state 1 2).2.1 (by decide)
      (by decide) (by decide),
    (C19_sub_eq_three_way_split IdenticalZero_Int example_state 1 3).2.2 (by decide)
      (by decide)⟩

theorem operator_add_eq_snd {Base : Type} [Add Base] (zero : Base → Bool)
    (m : ADState Base) (y x : Nat) : (AD.operator_add_eq zero m y x).2 = y := by
  unfold AD.operator_add_eq
  simp only []
  split_ifs <;> rfl

theorem operator_sub_eq_snd {Base : Type} [Sub Base] (zero : Base → Bool)
    (m : ADState Base) (y x : Nat) : (AD.operator_sub_eq zero m y x).2 = y := by
  unfold AD.operator_sub_eq
  simp only []
  split_ifs <;> rfl

/-- The objects after `y += x`: the value of `y` is the sum, and every other object is
as before. -/
theorem operator_add_eq_value {Base : Type} [Add Base] (zero : Base → Bool)
    (m : ADState Base) (y x : Nat) :
    ((AD.operator_add_eq zero m y x).1.obj y).value = (m.obj y).value + (m.obj x).value ∧
      ∀ k, k ≠ y → (AD.operator_add_eq zero m y x).1.obj k = m.obj k := by
  unfold AD.operator_add_eq
  simp only []
  split_ifs <;>
    refine ⟨by simp [MakeVariable, RecordOp, ADState.set_value], fun k hk => ?_⟩ <;>
    simp [MakeVariable, RecordOp, ADState.set_value, Function.update_noteq hk]

/-- The objects after `y -= x`: the value of `y` is the difference, and every other
object is as before. -/
theorem operator_sub_eq_value {Base : Type} [Sub Base] (zero : Base → Bool)
    (m : ADState Base) (y x : Nat) :
    ((AD.operator_sub_eq zero m y x).1.obj y).value = (m.obj y).value - (m.obj x).value ∧
      ∀ k, k ≠ y → (AD.operator_sub_eq zero m y x).1.obj k = m.obj k := by
  unfold AD.operator_sub_eq
  simp only []
  split_ifs <;>
    refine ⟨by simp [MakeVariable, RecordOp, ADState.set_value], fun k hk => ?_⟩ <;>
    simp [MakeVariable, RecordOp, ADState.set_value, Function.update_noteq hk]

/-- C20 (amended): for every `y` and `x`, in all four parameter/variable combinations:
after `y += x` the value of `y` is (old `y` value) + (old `x` value), after `y -= x` it
is (old `y` value) - (old `x` value), the operator returns a reference to `y`, and when
`x` is an object other than `y`, `x` is unchanged. -/
theorem C20_assign_values {Base : Type} [Add Base] [Sub Base] (zero : Base → Bool)
    (m : ADState Base) (y x : Nat) :
    (((AD.operator_add_eq zero m y x).1.obj y).value = (m.obj y).value + (m.obj x).value ∧
      (AD.operator_add_eq zero m y x).2 = y ∧
      (x ≠ y → (AD.operator_add_eq zero m y x).1.obj x = m.obj x)) ∧
    (((AD.operator_sub_eq zero m y x).1.obj y).value = (m.obj y).value - (m.obj x).value ∧
      (AD.operator_sub_eq zero m y x).2 = y ∧
      (x ≠ y → (AD.operator_sub_eq zero m y x).1.obj x = m.obj x)) :=
  ⟨⟨(operator_add_eq_value zero m y x).1, operator_add_eq_snd zero m y x,
      (operator_add_eq_value zero m y x).2 x⟩,
    ⟨(operator_sub_eq_value zero m y x).1, operator_sub_eq_snd zero m y x,
      (operator_sub_eq_value zero m y x).2 x⟩⟩

theorem C20_assign_values_witness :
    ((AD.operator_add_eq IdenticalZero_Int example_state 2 3).1.obj 2).value = 3 + 7 ∧
      (AD.operator_add_eq IdenticalZero_Int example_state 2 3).1.obj 3 = ⟨7, true, 2⟩ ∧
      ((AD.operator_sub_eq IdenticalZero_Int example_state 2 3).1.obj 2).value = 3 - 7 ∧
      (AD.operator_sub_eq IdenticalZero_Int example_state 2 3).1.obj 3 = ⟨7, true, 2⟩ :=
  ⟨(C20_assign_values IdenticalZero_Int example_state 2 3).1.1,
    (C20_assign_values IdenticalZero_Int example_state 2 3).1.2.2 (by decide),
    (C20_assign_values IdenticalZero_Int example_state 2 3).2.1,
    (C20_assign_values IdenticalZero_Int example_state 2 3).2.2.2 (by decide)⟩

/-- C20 counterexample: `y += y` for the parameter `y` with the value 3 (the object at
2 of the example state): `right` is the object `*this`, and after the call its value
is 6, so the operand `x` is changed. -/
theorem C20_same_object_counterexample :
    (example_state.obj 2).value = 3 ∧
      ((AD.operator_add_eq IdenticalZero_Int example_state 2 2).1.obj 2).value = 6 ∧
      (AD.operator_add_eq IdenticalZero_Int example_state 2 2).1.obj 2 ≠
        example_state.obj 2 := by
  decide

end CppAD


namespace CppAD

namespace sweep

/-! ## The atomic function dispatcher -/

theorem string_append_ne (name a b : String) (h : a ≠ b) : name ++ a ≠ name ++ b := by
  intro heq
  apply h
  have h1 := congrArg String.data heq
  simp only [String.data_append, List.append_cancel_left_eq] at h1
  exact String.ext h1

theorem deleted_ne_forward_false (name : String) :
    name ++ ": this atomic_three function has been deleted" ≠
      name ++ ": atomic forward returned false" :=
  string_append_ne name _ _ (by decide)

theorem deleted_ne_reverse_false (name : String) :
    name ++ ": this atomic_three function has been deleted" ≠
      name ++ ": atomic reverse returned false" :=
  string_append_ne name _ _ (by decide)

/-- The result of `call_atomic_forward` in terms of the entry of the registry. -/
theorem call_atomic_forward_eq {B E P S : Type} (NDEBUG : Bool)
    (registry : Nat → atomic_index_info B E P S) (order_low order_up atom_index atom_old : Nat)
    (type_x type_y : List E) (taylor_x taylor_y : List B) (s : S) (h0 : 0 < atom_index)
    (hw : (registry atom_index).well_typed = true) :
    call_atomic_forward NDEBUG registry order_low order_up atom_index atom_old type_x type_y
        taylor_x taylor_y s =
      dispatch_outcome NDEBUG
        ((registry atom_index).own_forward order_low order_up atom_old type_x type_y
          taylor_x taylor_y s)
        ((registry atom_index).name ++ ": this atomic_three function has been deleted")
        ((registry atom_index).name ++ ": atomic forward returned false") := by
  rcases hr : registry atom_index with ⟨type, name, ptr⟩
  rw [hr] at hw
  rcases ptr with _ | (afun | afun)
  · cases NDEBUG <;>
      simp [call_atomic_forward, call_atomic_forward_type, atomic_index, hr,
        CPPAD_ASSERT_UNKNOWN, CPPAD_ASSERT_KNOWN, h0, atomic_index_info.own_forward, dispatch_outcome,
        as_atomic_base, as_atomic_three, bind, Except.bind, pure, Except.pure]
  · have ht : type = 2 := by simpa [atomic_index_info.well_typed] using hw
    subst ht
    cases NDEBUG <;>
      simp [call_atomic_forward, call_atomic_forward_type, atomic_index, hr,
        CPPAD_ASSERT_UNKNOWN, CPPAD_ASSERT_KNOWN, h0, atomic_index_info.own_forward, dispatch_outcome,
        as_atomic_base, as_atomic_three, bind, Except.bind, pure, Except.pure]
    all_goals split_ifs <;> simp_all
  · have ht : type = 3 := by simpa [atomic_index_info.well_typed] using hw
    subst ht
    cases NDEBUG <;>
      simp [call_atomic_forward, call_atomic_forward_type, atomic_index, hr,
        CPPAD_ASSERT_UNKNOWN, CPPAD_ASSERT_KNOWN, h0, atomic_index_info.own_forward, dispatch_outcome,
        as_atomic_base, as_atomic_three, bind, Except.bind, pure, Except.pure]
    all_goals split_ifs <;> simp_all

/-- The result of `call_atomic_reverse` in terms of the entry of the registry. -/
theorem call_atomic_reverse_eq {B E P S : Type} (NDEBUG : Bool)
    (registry : Nat → atomic_index_info B E P S) (order_up atom_index atom_old : Nat)
    (taylor_x taylor_y partial_x partial_y : List B) (s : S) (h0 : 0 < atom_index)
    (hw : (registry atom_index).well_typed = true) :
    call_atomic_reverse NDEBUG registry order_up atom_index atom_old taylor_x taylor_y
        partial_x partial_y s =
      dispatch_outcome NDEBUG
        ((registry atom_index).own_reverse order_up atom_old taylor_x taylor_y partial_x
          partial_y s)
        ((registry atom_index).name ++ ": this atomic_three function has been deleted")
        ((registry atom_index).name ++ ": atomic reverse returned false") := by
  rcases hr : registry atom_index with ⟨type, name, ptr⟩
  rw [hr] at hw
  rcases ptr with _ | (afun | afun)
  · cases NDEBUG <;>
      simp [call_atomic_reverse, call_atomic_reverse_type, atomic_index, hr,
        CPPAD_ASSERT_UNKNOWN, CPPAD_ASSERT_KNOWN, h0, atomic_index_info.own_reverse, dispatch_outcome,
        as_atomic_base, as_atomic_three, bind, Except.bind, pure, Except.pure]
  · have ht : type = 2 := by simpa [atomic_index_info.well_typed] using hw
    subst ht
    cases NDEBUG <;>
      simp [call_atomic_reverse, call_atomic_reverse_type, atomic_index, hr,
        CPPAD_ASSERT_UNKNOWN, CPPAD_ASSERT_KNOWN, h0, atomic_index_info.own_reverse, dispatch_outcome,
        as_atomic_base, as_atomic_three, bind, Except.bind, pure, Except.pure]
    all_goals split_ifs <;> simp_all
  · have ht : type = 3 := by simpa [atomic_index_info.well_typed] using hw
    subst ht
    cases NDEBUG <;>
      simp [call_atomic_reverse, call_atomic_reverse_type, atomic_index, hr,
        CPPAD_ASSERT_UNKNOWN, CPPAD_ASSERT_KNOWN, h0, atomic_index_info.own_reverse, dispatch_outcome,
        as_atomic_base, as_atomic_three, bind, Except.bind, pure, Except.pure]
    all_goals split_ifs <;> simp_all

/-- The three outcomes of a checked call: it is the fatal error `del` iff the function
is deleted, the fatal error `fal` iff the callback returned false, and it returns iff
the callback returned true. -/
theorem checked_outcomes {α : Type} (c : Except Fatal α) (own : Option (Bool × α))
    (del fal : String) (hne : del ≠ fal) (h : c = dispatch_outcome false own del fal) :
    (c = Except.error (Fatal.known del) ↔ own = none) ∧
      (c = Except.error (Fatal.known fal) ↔ ∃ r, own = some r ∧ r.1 = false) ∧
      ((∃ a, c = Except.ok a) ↔ ∃ r, own = some r ∧ r.1 = true) ∧
      (∀ r, own = some r → r.1 = true → c = Except.ok r.2) := by
  subst h
  rcases own with _ | ⟨b, r⟩
  · simp [dispatch_outcome, hne]
  · cases b <;> simp [dispatch_outcome, hne.symm, hne]

end sweep

end CppAD


namespace CppAD

namespace sweep

theorem own_forward_eq_none {B E P S : Type} (e : atomic_index_info B E P S)
    (order_low order_up atom_old : Nat) (type_x type_y : List E) (taylor_x taylor_y : List B)
    (s : S) :
    e.own_forward order_low order_up atom_old type_x type_y taylor_x taylor_y s = none ↔
      e.ptr = none := by
  rcases e with ⟨type, name, ptr⟩
  rcases ptr with _ | (afun | afun) <;> simp [atomic_index_info.own_forward]

theorem own_reverse_eq_none {B E P S : Type} (e : atomic_index_info B E P S)
    (order_up atom_old : Nat) (taylor_x taylor_y partial_x partial_y : List B) (s : S) :
    e.own_reverse order_up atom_old taylor_x taylor_y partial_x partial_y s = none ↔
      e.ptr = none := by
  rcases e with ⟨type, name, ptr⟩
  rcases ptr with _ | (afun | afun) <;> simp [atomic_index_info.own_reverse]

/-- C21: in a checked build, for a registered index (`0 < atom_index`, the type tag that
of the object), `call_atomic_forward` and `call_atomic_reverse` end with the fatal error
whose message is the registered name followed by ": this atomic_three function has been
deleted" iff the pointer of the registry is null; with the fatal error whose message is
the registered name followed by ": atomic forward returned false" (respectively
"reverse") iff the pointer is not null and the callback returned false; and they return
iff the callback returned true, and then with the results of the callback. -/
theorem C21_checked_dispatch_outcomes {B E P S : Type}
    (registry : Nat → atomic_index_info B E P S) (order_low order_up atom_index atom_old : Nat)
    (type_x type_y : List E) (taylor_x taylor_y partial_x partial_y : List B) (s : S)
    (h0 : 0 < atom_index) (hw : (registry atom_index).well_typed = true) :
    ((call_atomic_forward false registry order_low order_up atom_index atom_old type_x type_y
          taylor_x taylor_y s =
        Except.error (Fatal.known ((registry atom_index).name ++
          ": this atomic_three function has been deleted")) ↔
        (registry atom_index).ptr = none) ∧
      (call_atomic_forward false registry order_low order_up atom_index atom_old type_x type_y
          taylor_x taylor_y s =
        Except.error (Fatal.known ((registry atom_index).name ++
          ": atomic forward returned false")) ↔
        ∃ r, (registry atom_index).own_forward order_low order_up atom_old type_x type_y
          taylor_x taylor_y s = some r ∧ r.1 = false) ∧
      ((∃ a, call_atomic_forward false registry order_low order_up atom_index atom_old type_x
          type_y taylor_x taylor_y s = Except.ok a) ↔
        ∃ r, (registry atom_index).own_forward order_low order_up atom_old type_x type_y
          taylor_x taylor_y s = some r ∧ r.1 = true) ∧
      (∀ r, (registry atom_index).own_forward order_low order_up atom_old type_x type_y
          taylor_x taylor_y s = some r → r.1 = true →
        call_atomic_forward false registry order_low order_up atom_index atom_old type_x
          type_y taylor_x taylor_y s = Except.ok r.2)) ∧
    ((call_atomic_reverse false registry order_up atom_index atom_old taylor_x taylor_y
          partial_x partial_y s =
        Except.error (Fatal.known ((registry atom_index).name ++
          ": this atomic_three function has been deleted")) ↔
        (registry atom_index).ptr = none) ∧
      (call_atomic_reverse false registry order_up atom_index atom_old taylor_x taylor_y
          partial_x partial_y s =
        Except.error (Fatal.known ((registry atom_index).name ++
          ": atomic reverse returned false")) ↔
        ∃ r, (registry atom_index).own_reverse order_up atom_old taylor_x taylor_y partial_x
          partial_y s = some r ∧ r.1 = false) ∧
      ((∃ a, call_atomic_reverse false registry order_up atom_index atom_old taylor_x taylor_y
          partial_x partial_y s = Except.ok a) ↔
        ∃ r, (registry atom_index).own_reverse order_up atom_old taylor_x taylor_y partial_x
          partial_y s = some r ∧ r.1 = true) ∧
      (∀ r, (registry atom_index).own_reverse order_up atom_old taylor_x taylor_y partial_x
          partial_y s = some r → r.1 = true →
        call_atomic_reverse false registry order_up atom_index atom_old taylor_x taylor_y
          partial_x partial_y s = Except.ok r.2)) := by
  have hf := checked_outcomes _ _ _ _ (deleted_ne_forward_false (registry atom_index).name)
    (call_atomic_forward_eq false registry order_low order_up atom_index atom_old type_x
      type_y taylor_x taylor_y s h0 hw)
  have hr := checked_outcomes _ _ _ _ (deleted_ne_reverse_false (registry atom_index).name)
    (call_atomic_reverse_eq false registry order_up atom_index atom_old taylor_x taylor_y
      partial_x partial_y s h0 hw)
  rw [own_forward_eq_none] at hf
  rw [own_reverse_eq_none] at hr
  exact ⟨hf, hr⟩

theorem C21_checked_dispatch_outcomes_witness :
    call_atomic_forward false example_registry 0 0 3 0 [] [] [5] [0] 0 =
        Except.error (Fatal.known "gone: this atomic_three function has been deleted") ∧
      call_atomic_reverse false example_registry 1 1 0 [5] [0] [0] [1] 0 =
        Except.error (Fatal.known "three: atomic reverse returned false") ∧
      call_atomic_forward false example_registry 0 0 2 7 [1] [2] [5] [6] 0 =
        Except.ok ([2], [6], 7) :=
  ⟨(C21_checked_dispatch_outcomes example_registry 0 0 3 0 [] [] [5] [0] [] [] 0 (by decide)
      (by rfl)).1.1.2 (by rfl),
    (C21_checked_dispatch_outcomes example_registry 0 1 1 0 [] [] [5] [0] [0] [1] 0 (by decide)
      (by rfl)).2.2.1.2 ⟨_, by rfl, by rfl⟩,
    (C21_checked_dispatch_outcomes example_registry 0 0 2 7 [1] [2] [5] [6] [] [] 0 (by decide)
      (by rfl)).1.2.2.2 _ (by rfl) (by rfl)⟩

/-- C22 (amended): in a checked build (`NDEBUG` not defined), for a registered index,
`call_atomic_forward` and `call_atomic_reverse` check for a deleted atomic function and
for a callback that returned false and end with the named fatal error: a null pointer
of the registry is not used and a false return is not ignored. -/
theorem C22_checked_build_reports {B E P S : Type}
    (registry : Nat → atomic_index_info B E P S) (order_low order_up atom_index atom_old : Nat)
    (type_x type_y : List E) (taylor_x taylor_y partial_x partial_y : List B) (s : S)
    (h0 : 0 < atom_index) (hw : (registry atom_index).well_typed = true) :
    ((registry atom_index).ptr = none →
      call_atomic_forward false registry order_low order_up atom_index atom_old type_x type_y
          taylor_x taylor_y s =
        Except.error (Fatal.known ((registry atom_index).name ++
          ": this atomic_three function has been deleted")) ∧
      call_atomic_reverse false registry order_up atom_index atom_old taylor_x taylor_y
          partial_x partial_y s =
        Except.error (Fatal.known ((registry atom_index).name ++
          ": this atomic_three function has been deleted"))) ∧
    (∀ r, (registry atom_index).own_forward order_low order_up atom_old type_x type_y
        taylor_x taylor_y s = some r → r.1 = false →
      call_atomic_forward false registry order_low order_up atom_index atom_old type_x type_y
          taylor_x taylor_y s =
        Except.error (Fatal.known ((registry atom_index).name ++
          ": atomic forward returned false"))) ∧
    (∀ r, (registry atom_index).own_reverse order_up atom_old taylor_x taylor_y partial_x
        partial_y s = some r → r.1 = false →
      call_atomic_reverse false registry order_up atom_index atom_old taylor_x taylor_y
          partial_x partial_y s =
        Except.error (Fatal.known ((registry atom_index).name ++
          ": atomic reverse returned false"))) := by
  have hf := call_atomic_forward_eq false registry order_low order_up atom_index atom_old
    type_x type_y taylor_x taylor_y s h0 hw
  have hr := call_atomic_reverse_eq false registry order_up atom_index atom_old taylor_x
    taylor_y partial_x partial_y s h0 hw
  refine ⟨fun hp => ⟨?_, ?_⟩, fun r h1 h2 => ?_, fun r h1 h2 => ?_⟩
  · rw [hf, (own_forward_eq_none _ _ _ _ _ _ _ _ _).2 hp]; rfl
  · rw [hr, (own_reverse_eq_none _ _ _ _ _ _ _ _).2 hp]; rfl
  · rw [hf, h1]; simp [dispatch_outcome, h2]
  · rw [hr, h1]; simp [dispatch_outcome, h2]

theorem C22_checked_build_reports_witness :
    call_atomic_reverse false example_registry 0 4 0 [5] [0] [0] [1] 0 =
        Except.error (Fatal.known "old: this atomic_three function has been deleted") ∧
      call_atomic_forward false example_registry 0 1 1 0 [] [] [5] [0] 0 =
        Except.error (Fatal.known "three: atomic forward returned false") :=
  ⟨((C22_checked_build_reports example_registry 0 0 4 0 [] [] [5] [0] [0] [1] 0 (by decide)
      (by rfl)).1 (by rfl)).2,
    (C22_checked_build_reports example_registry 0 1 1 0 [] [] [5] [0] [0] [1] 0 (by decide)
      (by rfl)).2.1 _ (by rfl) (by rfl)⟩

/-- C22 counterexample: with `NDEBUG` defined, the callback of the function "three"
returns false for `order_up = 1` and `call_atomic_forward` returns all the same, and for
the deleted function at index 3 the null pointer is used. -/
theorem C22_trusted_build_counterexample :
    (example_registry 1).own_forward 0 1 0 [] [] [5] [0] 0 = some (false, [], [5], 1) ∧
      call_atomic_forward true example_registry 0 1 1 0 [] [] [5] [0] 0 =
        Except.ok ([], [5], 1) ∧
      (example_registry 3).ptr.isNone = true ∧
      call_atomic_forward true example_registry 0 0 3 0 [] [] [5] [0] 0 =
        Except.error Fatal.undefined ∧
      call_atomic_reverse true example_registry 1 1 0 [5] [0] [0] [1] 0 =
        Except.ok ([5], 1) :=
  ⟨by rfl, by rfl, by rfl, by rfl, by rfl⟩

/-- C23 failing input: for the deleted function "old" at index 4 (type tag 2, null
pointer) each of the four sparsity callbacks, in both builds, uses the null pointer
(`afun->set_old(atom_old)`) and raises no named error. -/
theorem C23_deleted_sparsity_callbacks (NDEBUG : Bool) :
    (example_registry 4).ptr.isNone = true ∧
      call_atomic_for_jac_sparsity NDEBUG example_registry 4 0 [] [0] [1] [] 0 =
        Except.error Fatal.undefined ∧
      call_atomic_rev_jac_sparsity NDEBUG example_registry 4 0 [] [0] [1] [] 0 =
        Except.error Fatal.undefined ∧
      call_atomic_for_hes_sparsity NDEBUG example_registry 4 0 [] [0] [1] [] [] [] 0 =
        Except.error Fatal.undefined ∧
      call_atomic_rev_hes_sparsity NDEBUG example_registry 4 0 [] [0] [1] [] [true] [] 0 =
        Except.error Fatal.undefined := by
  cases NDEBUG <;> exact ⟨by rfl, by rfl, by rfl, by rfl, by rfl⟩

/-- C24 (amended): `call_atomic_forward` and `call_atomic_reverse` support both
interfaces: for a function registered with the type tag 3 and for one with the type tag
2 the call is the call of `forward` or `reverse` of the function itself (after
`set_old(atom_old)` for the tag 2), whose false return is the fatal error of a checked
build. The sparsity entry points support the type tag 2: the forward Jacobian and the
reverse Hessian sparsity calls are the calls of `for_sparse_jac` and `rev_sparse_hes`
of the function itself. -/
theorem C24_dispatch_by_type_tag {B E P S : Type} (NDEBUG : Bool)
    (registry : Nat → atomic_index_info B E P S) (order_low order_up atom_index atom_old : Nat)
    (type_x type_y : List E) (taylor_x taylor_y partial_x partial_y parameter_x : List B)
    (x_index y_index : List Nat) (for_jac_sparsity var_sparsity rev_hes_sparsity : P)
    (rev_jac_flag : List Bool) (s : S) (h0 : 0 < atom_index) :
    (∀ name afun, registry atom_index = ⟨3, name, some (atomic_object.three afun)⟩ →
      call_atomic_forward NDEBUG registry order_low order_up atom_index atom_old type_x type_y
          taylor_x taylor_y s =
        (if NDEBUG || (afun.forward order_low order_up type_x type_y taylor_x taylor_y s).1
          then Except.ok (afun.forward order_low order_up type_x type_y taylor_x taylor_y s).2
          else Except.error (Fatal.known (name ++ ": atomic forward returned false"))) ∧
      call_atomic_reverse NDEBUG registry order_up atom_index atom_old taylor_x taylor_y
          partial_x partial_y s =
        (if NDEBUG || (afun.reverse order_up taylor_x taylor_y partial_x partial_y s).1
          then Except.ok (afun.reverse order_up taylor_x taylor_y partial_x partial_y s).2
          else Except.error (Fatal.known (name ++ ": atomic reverse returned false")))) ∧
    (∀ name afun, registry atom_index = ⟨2, name, some (atomic_object.base afun)⟩ →
      call_atomic_forward NDEBUG registry order_low order_up atom_index atom_old type_x type_y
          taylor_x taylor_y s =
        (if NDEBUG || (afun.forward order_low order_up type_x type_y taylor_x taylor_y
            (afun.set_old atom_old s)).1
          then Except.ok (afun.forward order_low order_up type_x type_y taylor_x taylor_y
            (afun.set_old atom_old s)).2
          else Except.error (Fatal.known (name ++ ": atomic forward returned false"))) ∧
      call_atomic_reverse NDEBUG registry order_up atom_index atom_old taylor_x taylor_y
          partial_x partial_y s =
        (if NDEBUG || (afun.reverse order_up taylor_x taylor_y partial_x partial_y
            (afun.set_old atom_old s)).1
          then Except.ok (afun.reverse order_up taylor_x taylor_y partial_x partial_y
            (afun.set_old atom_old s)).2
          else Except.error (Fatal.known (name ++ ": atomic reverse returned false"))) ∧
      call_atomic_for_jac_sparsity NDEBUG registry atom_index atom_old parameter_x x_index
          y_index var_sparsity s =
        Except.ok (afun.for_sparse_jac parameter_x x_index y_index var_sparsity
          (afun.set_old atom_old s)) ∧
      call_atomic_rev_hes_sparsity NDEBUG registry atom_index atom_old parameter_x x_index
          y_index for_jac_sparsity rev_jac_flag rev_hes_sparsity s =
        Except.ok (afun.rev_sparse_hes parameter_x x_index y_index for_jac_sparsity
          rev_jac_flag rev_hes_sparsity (afun.set_old atom_old s))) := by
  refine ⟨fun name afun hr => ⟨?_, ?_⟩, fun name afun hr => ⟨?_, ?_, ?_, ?_⟩⟩
  · rw [call_atomic_forward_eq NDEBUG registry order_low order_up atom_index atom_old type_x
      type_y taylor_x taylor_y s h0 (by rw [hr]; rfl), hr]
    rfl
  · rw [call_atomic_reverse_eq NDEBUG registry order_up atom_index atom_old taylor_x taylor_y
      partial_x partial_y s h0 (by rw [hr]; rfl), hr]
    rfl
  · rw [call_atomic_forward_eq NDEBUG registry order_low order_up atom_index atom_old type_x
      type_y taylor_x taylor_y s h0 (by rw [hr]; rfl), hr]
    rfl
  · rw [call_atomic_reverse_eq NDEBUG registry order_up atom_index atom_old taylor_x taylor_y
      partial_x partial_y s h0 (by rw [hr]; rfl), hr]
    rfl
  · simp [call_atomic_for_jac_sparsity, atomic_index, hr, CPPAD_ASSERT_UNKNOWN, h0,
      as_atomic_base, bind, Except.bind, pure, Except.pure]
  · simp [call_atomic_rev_hes_sparsity, atomic_index, hr, CPPAD_ASSERT_UNKNOWN, h0,
      as_atomic_base, bind, Except.bind, pure, Except.pure]

theorem C24_dispatch_by_type_tag_witness :
    call_atomic_forward false example_registry 0 0 1 0 [1] [2] [5] [6] 0 =
        Except.ok ([1], [5], 1) ∧
      call_atomic_forward false example_registry 0 0 2 7 [1] [2] [5] [6] 0 =
        Except.ok ([2], [6], 7) ∧
      call_atomic_for_jac_sparsity false example_registry 2 7 [] [0, 1] [2] [9] 0 =
        Except.ok ([9, 0, 1], 7) ∧
      call_atomic_rev_hes_sparsity false example_registry 2 7 [] [0, 1] [2] [] [true] [9] 0 =
        Except.ok ([true], [9, 0, 1], 7) :=
  ⟨((C24_dispatch_by_type_tag false example_registry 0 0 1 0 [1] [2] [5] [6] [] [] [] [] []
      [] [] [] [] 0 (by decide)).1 "three" example_three (by rfl)).1,
    ((C24_dispatch_by_type_tag false example_registry 0 0 2 7 [1] [2] [5] [6] [] [] [] [] []
      [] [] [] [] 0 (by decide)).2 "base" example_base (by rfl)).1,
    ((C24_dispatch_by_type_tag false example_registry 0 0 2 7 [1] [2] [5] [6] [] [] [] [0, 1]
      [2] [] [9] [] [] 0 (by decide)).2 "base" example_base (by rfl)).2.2.1,
    ((C24_dispatch_by_type_tag false example_registry 0 0 2 7 [1] [2] [5] [6] [] [] [] [0, 1]
      [2] [] [] [9] [true] 0 (by decide)).2 "base" example_base (by rfl)).2.2.2⟩

/-- C24 counterexample: for the function "three" at index 1, registered with the type
tag 3, the forward Jacobian and the reverse Hessian sparsity entry points fail the
assertion `type == 2` in a checked build, and with `NDEBUG` use the object as an
`atomic_base`; the function is not called. -/
theorem C24_type_three_sparsity_counterexample :
    (example_registry 1).type = 3 ∧ (example_registry 1).ptr.isSome = true ∧
      call_atomic_for_jac_sparsity false example_registry 1 0 [] [0] [1] [] 0 =
        Except.error Fatal.unknown ∧
      call_atomic_rev_hes_sparsity false example_registry 1 0 [] [0] [1] [] [true] [] 0 =
        Except.error Fatal.unknown ∧
      call_atomic_for_jac_sparsity true example_registry 1 0 [] [0] [1] [] 0 =
        Except.error Fatal.undefined ∧
      call_atomic_rev_hes_sparsity true example_registry 1 0 [] [0] [1] [] [true] [] 0 =
        Except.error Fatal.undefined :=
  ⟨by rfl, by rfl, by rfl, by rfl, by rfl, by rfl⟩

end sweep

end CppAD


namespace CppAD

namespace sweep

/-! ## `sweep::dynamic` -/

theorem vec_read_checked {α : Type} (v : List α) (i : Nat) :
    (∃ a, v[i]? = some a ∧ vec_read false v i = Except.ok a) ∨
      (v[i]? = none ∧ vec_read false v i = Except.error Fatal.index) := by
  unfold vec_read
  cases h : v[i]? with
  | none => right; simp
  | some a => left; exact ⟨a, rfl, rfl⟩

theorem getD_of_getElem {α : Type} {v : List α} {i : Nat} {a : α} (h : v[i]? = some a)
    (d : α) : v.getD i d = a := by
  simp [List.getD, h]

/-- The loop of assertions on the arguments returns iff every argument is below `i`;
otherwise it ends in a failed assertion or a failed element access. -/
theorem dynamic_check_arg_spec (dyn_par_arg : List Nat) (i i_arg : Nat) :
    ∀ (n j0 : Nat),
      (dynamic_check_arg dyn_par_arg i i_arg n j0 = Except.ok () ∧
        ∀ j, j0 ≤ j → j < j0 + n → ∃ a, dyn_par_arg[i_arg + j]? = some a ∧ a < i) ∨
      ((dynamic_check_arg dyn_par_arg i i_arg n j0 = Except.error Fatal.unknown ∨
          dynamic_check_arg dyn_par_arg i i_arg n j0 = Except.error Fatal.index) ∧
        ∃ j, j0 ≤ j ∧ j < j0 + n ∧ ∀ a, dyn_par_arg[i_arg + j]? = some a → ¬ a < i)
  | 0, j0 => Or.inl ⟨rfl, fun j h1 h2 => absurd h2 (by omega)⟩
  | n + 1, j0 => by
    rcases vec_read_checked dyn_par_arg (i_arg + j0) with ⟨a, ha, hr⟩ | ⟨ha, hr⟩
    · by_cases hlt : a < i
      · have hstep : dynamic_check_arg dyn_par_arg i i_arg (n + 1) j0 =
            dynamic_check_arg dyn_par_arg i i_arg n (j0 + 1) := by
          simp [dynamic_check_arg, hr, CPPAD_ASSERT_UNKNOWN, hlt, bind, Except.bind]
        rw [hstep]
        rcases dynamic_check_arg_spec dyn_par_arg i i_arg n (j0 + 1) with ⟨h1, h2⟩ | ⟨h1, h2⟩
        · left
          refine ⟨h1, fun j hj1 hj2 => ?_⟩
          by_cases hj : j = j0
          · subst hj; exact ⟨a, ha, hlt⟩
          · exact h2 j (by omega) (by omega)
        · right
          obtain ⟨j, hj1, hj2, hj3⟩ := h2
          exact ⟨h1, j, by omega, by omega, hj3⟩
      · right
        refine ⟨Or.inl ?_, j0, le_refl _, by omega, ?_⟩
        · simp [dynamic_check_arg, hr, CPPAD_ASSERT_UNKNOWN, hlt, bind, Except.bind]
        · intro b hb
          rw [ha] at hb
          cases hb
          exact hlt
    · right
      refine ⟨Or.inr ?_, j0, le_refl _, by omega, ?_⟩
      · simp [dynamic_check_arg, hr, bind, Except.bind]
      · intro b hb
        rw [ha] at hb
        cases hb

/-- The loop of assertions on the independent dynamic parameters returns only if each
of them is dynamic with the operator `InvOp`. -/
theorem dynamic_check_ind_spec (dyn_par_is : List Bool) (dyn_par_op : List OpCode) :
    ∀ (n j0 : Nat), dynamic_check_ind dyn_par_is dyn_par_op n j0 = Except.ok () ↔
      ∀ j, j0 ≤ j → j < j0 + n →
        dyn_par_is[j]? = some true ∧ dyn_par_op[j]? = some OpCode.InvOp
  | 0, j0 => by
    constructor
    · intro _ j h1 h2; omega
    · intro _; rfl
  | n + 1, j0 => by
    have ih := dynamic_check_ind_spec dyn_par_is dyn_par_op n (j0 + 1)
    rcases vec_read_checked dyn_par_is j0 with ⟨b, hb, hr⟩ | ⟨hb, hr⟩
    · cases b with
      | false =>
        constructor
        · intro h
          simp [dynamic_check_ind, hr, CPPAD_ASSERT_UNKNOWN, bind, Except.bind, pure,
            Except.pure] at h
        · intro h
          have := (h j0 (le_refl _) (by omega)).1
          rw [hb] at this
          cases this
      | true =>
        rcases vec_read_checked dyn_par_op j0 with ⟨o, ho, hro⟩ | ⟨ho, hro⟩
        · by_cases hinv : o = OpCode.InvOp
          · have hstep : dynamic_check_ind dyn_par_is dyn_par_op (n + 1) j0 =
                dynamic_check_ind dyn_par_is dyn_par_op n (j0 + 1) := by
              simp [dynamic_check_ind, hr, hro, CPPAD_ASSERT_UNKNOWN, hinv, bind, Except.bind,
                pure, Except.pure]
            rw [hstep, ih]
            constructor
            · intro h j hj1 hj2
              by_cases hj : j = j0
              · subst hj; exact ⟨hb, by rw [ho, hinv]⟩
              · exact h j (by omega) (by omega)
            · intro h j hj1 hj2
              exact h j (by omega) (by omega)
          · constructor
            · intro h
              simp [dynamic_check_ind, hr, hro, CPPAD_ASSERT_UNKNOWN, hinv, bind, Except.bind,
                pure, Except.pure] at h
            · intro h
              have := (h j0 (le_refl _) (by omega)).2
              rw [ho] at this
              cases this
              exact absurd rfl hinv
        · constructor
          · intro h
            simp [dynamic_check_ind, hr, hro, bind, Except.bind, pure, Except.pure] at h
          · intro h
            have := (h j0 (le_refl _) (by omega)).2
            rw [ho] at this
            cases this
    · constructor
      · intro h
        simp [dynamic_check_ind, hr, bind, Except.bind] at h
      · intro h
        have := (h j0 (le_refl _) (by omega)).1
        rw [hb] at this
        cases this

end sweep

end CppAD


namespace CppAD

namespace sweep

theorem dynamic_loop_skip {Base : Type} [NatCast Base] (NumArg : OpCode → Nat)
    (OpName : OpCode → String) (dyn_par_is : List Bool) (dyn_par_op : List OpCode)
    (dyn_par_arg : List Nat) (n i i_op i_arg : Nat) (par_vec : List Base)
    (h : dyn_par_is[i]? = some false) :
    dynamic_loop false NumArg OpName dyn_par_is dyn_par_op dyn_par_arg (n + 1) i i_op i_arg
        par_vec =
      dynamic_loop false NumArg OpName dyn_par_is dyn_par_op dyn_par_arg n (i + 1) i_op i_arg
        par_vec := by
  simp [dynamic_loop, vec_read, h, bind, Except.bind]

theorem dynamic_loop_op {Base : Type} [NatCast Base] (NumArg : OpCode → Nat)
    (OpName : OpCode → String) (dyn_par_is : List Bool) (dyn_par_op : List OpCode)
    (dyn_par_arg : List Nat) (n i i_op i_arg : Nat) (par_vec : List Base) (op : OpCode)
    (h : dyn_par_is[i]? = some true) (ho : dyn_par_op[i_op]? = some op) :
    dynamic_loop false NumArg OpName dyn_par_is dyn_par_op dyn_par_arg (n + 1) i i_op i_arg
        par_vec =
      (dynamic_check_arg dyn_par_arg i i_arg (NumArg op) 0).bind fun _ =>
        if op = OpCode.AbsOp then
          (vec_read false dyn_par_arg (i_arg + 0)).bind fun a =>
            (vec_write false par_vec i ((abs_addr a : Nat) : Base)).bind fun par_vec1 =>
              dynamic_loop false NumArg OpName dyn_par_is dyn_par_op dyn_par_arg n (i + 1)
                (i_op + 1) (i_arg + NumArg op) par_vec1
        else Except.error (Fatal.known (OpName op)) := by
  cases op <;>
    simp [dynamic_loop, vec_read, h, ho, bind, Except.bind, CPPAD_ASSERT_KNOWN, pure,
      Except.pure]

theorem dynamic_step_skip (NumArg : OpCode → Nat) (dyn_par_is : List Bool)
    (dyn_par_op : List OpCode) (i i_op i_arg : Nat) (h : dyn_par_is[i]? = some false) :
    dynamic_step NumArg dyn_par_is dyn_par_op (i, i_op, i_arg) = (i + 1, i_op, i_arg) := by
  show (if dyn_par_is.getD i false = true then _ else _) = _
  rw [getD_of_getElem h, if_neg (by decide)]

theorem dynamic_step_op (NumArg : OpCode → Nat) (dyn_par_is : List Bool)
    (dyn_par_op : List OpCode) (i i_op i_arg : Nat) (op : OpCode)
    (h : dyn_par_is[i]? = some true) (ho : dyn_par_op[i_op]? = some op) :
    dynamic_step NumArg dyn_par_is dyn_par_op (i, i_op, i_arg) =
      (i + 1, i_op + 1, i_arg + NumArg op) := by
  show (if dyn_par_is.getD i false = true then
    (i + 1, i_op + 1, i_arg + NumArg (dyn_par_op.getD i_op OpCode.InvOp)) else _) = _
  rw [getD_of_getElem h, getD_of_getElem ho, if_pos rfl]

/-- When the loop of `dynamic` returns in a checked build, in every iteration for a
dynamic parameter the operator is `AbsOp` and each of its arguments is below the index
of the parameter. -/
theorem dynamic_loop_ok {Base : Type} [NatCast Base] (NumArg : OpCode → Nat)
    (OpName : OpCode → String) (dyn_par_is : List Bool) (dyn_par_op : List OpCode)
    (dyn_par_arg : List Nat) :
    ∀ (n i i_op i_arg : Nat) (par_vec par_vec1 : List Base),
      dynamic_loop false NumArg OpName dyn_par_is dyn_par_op dyn_par_arg n i i_op i_arg
        par_vec = Except.ok par_vec1 →
      ∀ k, k < n →
        dyn_par_is.getD ((dynamic_step NumArg dyn_par_is dyn_par_op)^[k] (i, i_op, i_arg)).1
          false = true →
        ∀ j, j < NumArg (dyn_par_op.getD
            ((dynamic_step NumArg dyn_par_is dyn_par_op)^[k] (i, i_op, i_arg)).2.1
            OpCode.InvOp) →
          ∃ a, dyn_par_arg[((dynamic_step NumArg dyn_par_is dyn_par_op)^[k]
              (i, i_op, i_arg)).2.2 + j]? = some a ∧
            a < ((dynamic_step NumArg dyn_par_is dyn_par_op)^[k] (i, i_op, i_arg)).1
  | 0, _, _, _, _, _, _, k, hk => absurd hk (Nat.not_lt_zero k)
  | n + 1, i, i_op, i_arg, par_vec, par_vec1, h, k, hk => by
    rcases vec_read_checked dyn_par_is i with ⟨b, hb, hr⟩ | ⟨hb, hr⟩
    · cases b with
      | false =>
        rw [dynamic_loop_skip NumArg OpName dyn_par_is dyn_par_op dyn_par_arg n i i_op i_arg
          par_vec hb] at h
        cases k with
        | zero =>
          intro his
          simp only [Function.iterate_zero, id_eq] at his
          rw [getD_of_getElem hb] at his
          cases his
        | succ k =>
          rw [Function.iterate_succ_apply,
            dynamic_step_skip NumArg dyn_par_is dyn_par_op i i_op i_arg hb]
          exact dynamic_loop_ok NumArg OpName dyn_par_is dyn_par_op dyn_par_arg n (i + 1) i_op
            i_arg par_vec par_vec1 h k (by omega)
      | true =>
        rcases vec_read_checked dyn_par_op i_op with ⟨o, ho, hro⟩ | ⟨ho, hro⟩
        · rw [dynamic_loop_op NumArg OpName dyn_par_is dyn_par_op dyn_par_arg n i i_op i_arg
            par_vec o hb ho] at h
          rcases dynamic_check_arg_spec dyn_par_arg i i_arg (NumArg o) 0 with
            ⟨hc, hargs⟩ | ⟨hc | hc, _⟩
          · rw [hc] at h
            by_cases habs : o = OpCode.AbsOp
            · simp only [Except.bind, if_pos habs] at h
              cases hra : vec_read false dyn_par_arg (i_arg + 0) with
              | error e => rw [hra] at h; cases h
              | ok a =>
                rw [hra] at h
                simp only [Except.bind] at h
                cases hw : vec_write false par_vec i ((abs_addr a : Nat) : Base) with
                | error e => rw [hw] at h; cases h
                | ok par_vec2 =>
                  rw [hw] at h
                  simp only [] at h
                  cases k with
                  | zero =>
                    intro _ j hj
                    simp only [Function.iterate_zero, id_eq, getD_of_getElem ho] at hj ⊢
                    exact hargs j (Nat.zero_le _) (by omega)
                  | succ k =>
                    rw [Function.iterate_succ_apply,
                      dynamic_step_op NumArg dyn_par_is dyn_par_op i i_op i_arg o hb ho]
                    exact dynamic_loop_ok NumArg OpName dyn_par_is dyn_par_op dyn_par_arg n
                      (i + 1) (i_op + 1) (i_arg + NumArg o) par_vec2 par_vec1 h k (by omega)
            · simp only [Except.bind, if_neg habs] at h
              cases h
          · rw [hc] at h; cases h
          · rw [hc] at h; cases h
        · simp [dynamic_loop, hr, hro, bind, Except.bind] at h
    · simp [dynamic_loop, hr, bind, Except.bind] at h

theorem dynamic_index_fst (NumArg : OpCode → Nat) (dyn_par_is : List Bool)
    (dyn_par_op : List OpCode) :
    ∀ (n : Nat) (r : Nat × Nat × Nat),
      ((dynamic_step NumArg dyn_par_is dyn_par_op)^[n] r).1 = r.1 + n
  | 0, r => rfl
  | n + 1, r => by
    rw [Function.iterate_succ_apply, dynamic_index_fst NumArg dyn_par_is dyn_par_op n]
    unfold dynamic_step
    split_ifs <;> simp <;> omega

end sweep

end CppAD


namespace CppAD

namespace sweep

/-- C25: in a checked build of `sweep::dynamic`: when the call returns, the first
`num_ind_dynamic` parameters are dynamic with the operator `InvOp`, and for every
dependent dynamic parameter at an index `i` (`i >= num_ind_dynamic` with
`dyn_par_is[i]`) each of the `NumArg(op)` arguments of its operator is strictly less
than `i`; and in an iteration with an argument that is not less than `i` the loop of
assertions ends in a fatal error, which is the end of the call, before the operator is
evaluated. -/
theorem C25_dynamic_argument_order {Base : Type} [NatCast Base] (NumArg : OpCode → Nat)
    (OpName : OpCode → String) (num_ind_dynamic : Nat) (par_vec : List Base)
    (dyn_par_is : List Bool) (dyn_par_op : List OpCode) (dyn_par_arg : List Nat) :
    (∀ par_vec1, dynamic false NumArg OpName num_ind_dynamic par_vec dyn_par_is dyn_par_op
        dyn_par_arg = Except.ok par_vec1 →
      (∀ j, j < num_ind_dynamic →
        dyn_par_is[j]? = some true ∧ dyn_par_op[j]? = some OpCode.InvOp) ∧
      (∀ n, num_ind_dynamic + n < par_vec.length →
        dyn_par_is.getD (num_ind_dynamic + n) false = true →
        ∀ j, j < NumArg (dyn_par_op.getD
            (dynamic_index NumArg num_ind_dynamic dyn_par_is dyn_par_op n).2.1 OpCode.InvOp) →
          ∃ a, dyn_par_arg[(dynamic_index NumArg num_ind_dynamic dyn_par_is dyn_par_op n).2.2
              + j]? = some a ∧ a < num_ind_dynamic + n)) ∧
    (∀ (n i i_op i_arg : Nat) (pv : List Base) (op : OpCode), dyn_par_is[i]? = some true →
      dyn_par_op[i_op]? = some op →
      (∃ j, j < NumArg op ∧ ∀ a, dyn_par_arg[i_arg + j]? = some a → ¬ a < i) →
      ∃ e, dynamic_check_arg dyn_par_arg i i_arg (NumArg op) 0 = Except.error e ∧
        dynamic_loop false NumArg OpName dyn_par_is dyn_par_op dyn_par_arg (n + 1) i i_op i_arg
          pv = Except.error e) := by
  constructor
  · intro par_vec1 h
    unfold dynamic at h
    cases hc : dynamic_check_ind dyn_par_is dyn_par_op num_ind_dynamic 0 with
    | error e => simp [hc, bind, Except.bind] at h
    | ok u =>
      simp only [Bool.not_false, if_true, hc, bind, Except.bind] at h
      refine ⟨fun j hj => ?_, fun n hn his j hj => ?_⟩
      · exact (dynamic_check_ind_spec dyn_par_is dyn_par_op num_ind_dynamic 0).1 hc j
          (Nat.zero_le _) (by omega)
      · have hfst := dynamic_index_fst NumArg dyn_par_is dyn_par_op n
          (num_ind_dynamic, num_ind_dynamic, 0)
        have hloop := dynamic_loop_ok NumArg OpName dyn_par_is dyn_par_op dyn_par_arg
          (par_vec.length - num_ind_dynamic) num_ind_dynamic num_ind_dynamic 0 par_vec par_vec1
          h n (by omega)
        rw [hfst] at hloop
        exact hloop his j hj
  · intro n i i_op i_arg pv op his hop ⟨j, hj, hbad⟩
    rw [dynamic_loop_op NumArg OpName dyn_par_is dyn_par_op dyn_par_arg n i i_op i_arg pv op
      his hop]
    rcases dynamic_check_arg_spec dyn_par_arg i i_arg (NumArg op) 0 with
      ⟨_, hargs⟩ | ⟨hc | hc, _⟩
    · obtain ⟨a, ha, hlt⟩ := hargs j (Nat.zero_le _) (by omega)
      exact absurd hlt (hbad a ha)
    · exact ⟨_, hc, by rw [hc]; rfl⟩
    · exact ⟨_, hc, by rw [hc]; rfl⟩

theorem C25_dynamic_argument_order_witness :
    dynamic false example_NumArg example_OpName 2 ([3, -7, 100] : List Int)
        [true, true, true] [OpCode.InvOp, OpCode.InvOp, OpCode.AbsOp] [1] =
        Except.ok [3, -7, 1] ∧
      (∃ a, [1][(dynamic_index example_NumArg 2 [true, true, true]
          [OpCode.InvOp, OpCode.InvOp, OpCode.AbsOp] 0).2.2 + 0]? = some a ∧ a < 2 + 0) ∧
      ∃ e, dynamic_check_arg [2] 2 0 (example_NumArg OpCode.AbsOp) 0 = Except.error e ∧
        dynamic_loop false example_NumArg example_OpName [true, true, true]
          [OpCode.InvOp, OpCode.InvOp, OpCode.AbsOp] [2] (0 + 1) 2 2 0 ([3, -7, 100] : List Int) =
          Except.error e :=
  ⟨by rfl,
    ((C25_dynamic_argument_order example_NumArg example_OpName 2 ([3, -7, 100] : List Int)
      [true, true, true] [OpCode.InvOp, OpCode.InvOp, OpCode.AbsOp] [1]).1 _ (by rfl)).2 0
      (by decide) (by rfl) 0 (by decide),
    (C25_dynamic_argument_order example_NumArg example_OpName 2 ([3, -7, 100] : List Int)
      [true, true, true] [OpCode.InvOp, OpCode.InvOp, OpCode.AbsOp] [2]).2 0 2 2 0 _
      OpCode.AbsOp (by rfl) (by rfl) ⟨0, by decide, fun a ha => by
        have h2 : a = 2 := by simpa using ha.symm
        omega⟩⟩

/-- C26 failing input: `num_ind_dynamic = 2`, `par_vec = (3, -7, 100)`, all three
parameters dynamic, the third with the operator `AbsOp` and the argument index 1: the
call returns with `par_vec[2] == 1`, the absolute value of the argument index, where the
absolute value of `par_vec[1]` is 7; the two independent dynamic parameters are
unchanged. -/
theorem C26_abs_of_argument_index (NDEBUG : Bool) :
    dynamic NDEBUG example_NumArg example_OpName 2 ([3, -7, 100] : List Int)
        [true, true, true] [OpCode.InvOp, OpCode.InvOp, OpCode.AbsOp] [1] =
        Except.ok [3, -7, 1] ∧
      |(-7 : Int)| = 7 := by
  cases NDEBUG <;> exact ⟨by rfl, by decide⟩

end sweep

/-- C27: for the atomic function `reciprocal` of the test (one argument and one result,
`n == 1` and `m == 1`), for every `taylor_x` and `order_low <= order_up`: `forward`
returns, it returns true iff `order_up == 0`; when it returns true `taylor_y[0]` is
`1 / taylor_x[0]`; when `order_up > 0` it returns false and `taylor_y` is unchanged. -/
theorem C27_reciprocal_forward {B E : Type} [One B] [Div B] (NDEBUG : Bool)
    (parameter_x : List B) (type_x : List E) (need_y order_low order_up : Nat)
    (taylor_x taylor_y : List B) (hlow : order_low ≤ order_up)
    (hn : taylor_x.length / (order_up + 1) = 1) (hm : taylor_y.length / (order_up + 1) = 1) :
    ∃ ok taylor_y1,
      atomic_reciprocal.forward NDEBUG parameter_x type_x need_y order_low order_up taylor_x
        taylor_y = Except.ok (ok, taylor_y1) ∧
      (ok = true ↔ order_up = 0) ∧
      (ok = true → ∃ x0, taylor_x[0]? = some x0 ∧ taylor_y1 = taylor_y.set 0 (1 / x0) ∧
        taylor_y1[0]? = some (1 / x0)) ∧
      (0 < order_up → ok = false ∧ taylor_y1 = taylor_y) := by
  by_cases h0 : order_up = 0
  · subst h0
    simp only [Nat.zero_add, Nat.div_one] at hn hm
    obtain ⟨x0, hx⟩ : ∃ x0, taylor_x = [x0] := List.length_eq_one.1 hn
    obtain ⟨y0, hy⟩ : ∃ y0, taylor_y = [y0] := List.length_eq_one.1 hm
    subst hx hy
    refine ⟨true, [1 / x0], ?_, by simp, fun _ => ⟨x0, rfl, rfl, rfl⟩,
      fun h => absurd h (by omega)⟩
    cases NDEBUG <;>
      simp [atomic_reciprocal.forward, sweep.c_assert, sweep.vec_read, sweep.vec_write, hlow,
        bind, Except.bind, pure, Except.pure]
  · refine ⟨false, taylor_y, ?_, by simp [h0], fun h => (by cases h), fun _ => ⟨rfl, rfl⟩⟩
    cases NDEBUG <;>
      simp [atomic_reciprocal.forward, sweep.c_assert, hn, hm, hlow, h0, bind, Except.bind,
        pure, Except.pure]

theorem C27_reciprocal_forward_witness :
    (0 : Nat) ≤ 0 ∧ ([4] : List ℚ).length / (0 + 1) = 1 ∧ (1 : ℚ) / 4 = 0.25 ∧
      ∃ ok taylor_y1,
        atomic_reciprocal.forward false ([] : List ℚ) ([] : List Nat) 0 0 0 [4] [0] =
          Except.ok (ok, taylor_y1) ∧
        (ok = true ↔ 0 = 0) ∧
        (ok = true → ∃ x0, ([4] : List ℚ)[0]? = some x0 ∧
          taylor_y1 = ([0] : List ℚ).set 0 (1 / x0) ∧ taylor_y1[0]? = some (1 / x0)) ∧
        (0 < 0 → ok = false ∧ taylor_y1 = [0]) :=
  ⟨by decide, by decide, by norm_num,
    C27_reciprocal_forward false ([] : List ℚ) ([] : List Nat) 0 0 0 [4] [0] (by decide)
      (by decide) (by decide)⟩

end CppAD


namespace CppAD

/-! ## The graph exchange form: round trip -/

theorem count_var_add (a : Nat) : ∀ (ops : List FunOp) (b : Nat),
    FunOp.count_var (a + b) ops = a + FunOp.count_var b ops
  | [], b => rfl
  | FunOp.sum _ :: ops, b => by
    simp only [FunOp.count_var]
    rw [Nat.add_assoc, count_var_add a ops (b + 1)]
  | FunOp.comp _ _ _ :: ops, b => by
    simp only [FunOp.count_var]
    exact count_var_add a ops b

theorem count_var_le : ∀ (ops : List FunOp) (b : Nat), b ≤ FunOp.count_var b ops
  | [], b => le_refl b
  | FunOp.sum _ :: ops, b => by
    simp only [FunOp.count_var]
    exact le_trans (Nat.le_succ b) (count_var_le ops (b + 1))
  | FunOp.comp _ _ _ :: ops, b => by
    simp only [FunOp.count_var]
    exact count_var_le ops b

/-- The node of a valid operand is read back as the operand. -/
theorem graph_ref_node {Base : Type} (g : cpp_graph Base) (n_ind k : Nat) (r : Ref)
    (hr : Ref.valid g.n_dynamic_ind g.constant_vec.length (n_ind + k) r = true)
    (hn : g.n_variable_ind = n_ind) :
    g.ref (g.n_dynamic_ind + n_ind + g.constant_vec.length + k)
      (Ref.node g.n_dynamic_ind n_ind g.constant_vec.length r) = some r := by
  subst hn
  cases r with
  | dyn j =>
    have hj : j < g.n_dynamic_ind := by simpa [Ref.valid] using hr
    have hnode : Ref.node g.n_dynamic_ind g.n_variable_ind g.constant_vec.length (Ref.dyn j) =
        j + 1 := rfl
    rw [hnode]
    unfold cpp_graph.ref
    rw [if_neg (by omega), if_pos (by omega)]
    simp
  | con j =>
    have hj : j < g.constant_vec.length := by simpa [Ref.valid] using hr
    have hnode : Ref.node g.n_dynamic_ind g.n_variable_ind g.constant_vec.length (Ref.con j) =
        g.n_dynamic_ind + g.n_variable_ind + j + 1 := rfl
    rw [hnode]
    unfold cpp_graph.ref
    rw [if_neg (by omega), if_neg (by omega), if_neg (by omega), if_pos (by omega)]
    congr 2
    omega
  | var a =>
    have ha : a < g.n_variable_ind + k := by simpa [Ref.valid] using hr
    have hnode : Ref.node g.n_dynamic_ind g.n_variable_ind g.constant_vec.length (Ref.var a) =
        if a < g.n_variable_ind then g.n_dynamic_ind + a + 1
        else g.n_dynamic_ind + g.constant_vec.length + a + 1 := rfl
    rw [hnode]
    unfold cpp_graph.ref
    by_cases hlt : a < g.n_variable_ind
    · rw [if_pos hlt, if_neg (by omega), if_neg (by omega), if_pos (by omega)]
      congr 2
      omega
    · rw [if_neg hlt, if_neg (by omega), if_neg (by omega), if_neg (by omega),
        if_neg (by omega)]
      congr 2
      omega

theorem graph_refs_node {Base : Type} (g : cpp_graph Base) (n_ind k : Nat)
    (hn : g.n_variable_ind = n_ind) : ∀ (args : List Ref),
    args.all (Ref.valid g.n_dynamic_ind g.constant_vec.length (n_ind + k)) = true →
    g.refs (g.n_dynamic_ind + n_ind + g.constant_vec.length + k)
      (args.map (Ref.node g.n_dynamic_ind n_ind g.constant_vec.length)) = some args
  | [], _ => rfl
  | r :: args, h => by
    simp only [List.all_cons, Bool.and_eq_true] at h
    simp only [List.map_cons, cpp_graph.refs, graph_ref_node g n_ind k r h.1 hn,
      graph_refs_node g n_ind k hn args h.2, Option.bind_eq_bind, Option.some_bind,
      Option.pure_def]

theorem graph_op_compare (c : CompareOp) : c.graph_op.compare = some c := by
  cases c <;> rfl

/-- The operators and arguments of the graph of a valid tape are read back as the
tape. -/
theorem graph_operations {Base : Type} (g : cpp_graph Base) (n_ind : Nat)
    (hn : g.n_variable_ind = n_ind) : ∀ (ops : List FunOp) (k : Nat),
    FunOp.valid_list g.n_dynamic_ind g.constant_vec.length (n_ind + k) ops = true →
    g.operations (g.n_dynamic_ind + n_ind + g.constant_vec.length + k) (FunOp.graph_ops ops)
      (FunOp.graph_args g.n_dynamic_ind n_ind g.constant_vec.length ops) = some ops
  | [], _, _ => rfl
  | FunOp.sum args :: ops, k, h => by
    simp only [FunOp.valid_list, Bool.and_eq_true] at h
    have ih := graph_operations g n_ind hn ops (k + 1) h.2
    simp only [FunOp.graph_ops, FunOp.graph_args, cpp_graph.operations,
      graph_op_enum.compare]
    rw [if_pos (by simp)]
    have htake : List.take args.length
        (args.map (Ref.node g.n_dynamic_ind n_ind g.constant_vec.length) ++
          FunOp.graph_args g.n_dynamic_ind n_ind g.constant_vec.length ops) =
        args.map (Ref.node g.n_dynamic_ind n_ind g.constant_vec.length) := by
      rw [List.take_append_of_le_length (by simp)]
      exact List.take_of_length_le (by simp)
    have hdrop : List.drop args.length
        (args.map (Ref.node g.n_dynamic_ind n_ind g.constant_vec.length) ++
          FunOp.graph_args g.n_dynamic_ind n_ind g.constant_vec.length ops) =
        FunOp.graph_args g.n_dynamic_ind n_ind g.constant_vec.length ops := by
      rw [List.drop_append_of_le_length (by simp)]
      rw [List.drop_of_length_le (by simp)]
      rfl
    rw [htake, hdrop, graph_refs_node g n_ind k hn args h.1]
    rw [show g.n_dynamic_ind + n_ind + g.constant_vec.length + k + 1 =
      g.n_dynamic_ind + n_ind + g.constant_vec.length + (k + 1) from rfl, ih]
    rfl
  | FunOp.comp c left right :: ops, k, h => by
    simp only [FunOp.valid_list, Bool.and_eq_true] at h
    have ih := graph_operations g n_ind hn ops k h.2
    simp only [FunOp.graph_ops, FunOp.graph_args, cpp_graph.operations, graph_op_compare]
    rw [if_pos (by simp)]
    simp only [List.take, List.drop, cpp_graph.refs, graph_ref_node g n_ind k left h.1.1 hn,
      graph_ref_node g n_ind k right h.1.2 hn, ih, Option.bind_eq_bind, Option.some_bind,
      Option.pure_def]
    rfl

/-- The function of the graph of a sealed function is the function. -/
theorem from_graph_to_graph {Base : Type} (f : ADFun Base) (hs : f.sealed = true) :
    ADFun.from_graph f.to_graph = some f := by
  unfold ADFun.sealed at hs
  simp only [Bool.and_eq_true] at hs
  have hops := graph_operations f.to_graph f.n_ind rfl f.ops 0 hs.1
  have hcount : FunOp.count_var (f.n_dyn + f.n_ind + f.constants.length) f.ops =
      f.n_dyn + f.n_ind + f.constants.length +
        (FunOp.count_var f.n_ind f.ops - f.n_ind) := by
    have h1 := count_var_add (f.n_dyn + f.constants.length) f.ops f.n_ind
    have h2 := count_var_le f.ops f.n_ind
    have h3 : f.n_dyn + f.n_ind + f.constants.length =
        f.n_dyn + f.constants.length + f.n_ind := by omega
    rw [h3, h1]
    omega
  have hdeps := graph_refs_node f.to_graph f.n_ind (FunOp.count_var f.n_ind f.ops - f.n_ind)
    rfl f.dependents (by
      have h2 := count_var_le f.ops f.n_ind
      rw [Nat.add_sub_cancel' h2]
      exact hs.2)
  unfold ADFun.from_graph
  simp only [ADFun.to_graph] at hops hdeps ⊢
  simp only [Nat.add_zero] at hops
  rw [hops]
  simp only [Option.bind_eq_bind, Option.some_bind]
  rw [hcount, hdeps]
  rfl

/-- C28: graph round trip: for a sealed Function `f`, `from_graph(to_graph(f))` returns
a function that has the same `Domain`, `Range` and number of independent dynamic
parameters as `f` and, for every dynamic parameter vector `p` and input `x`, returns from
`Forward(0, x)` the values that `f` returns. -/
theorem C28_graph_round_trip {Base : Type} [LinearOrderedRing Base] (f : ADFun Base)
    (hs : f.sealed = true) :
    ∃ g, ADFun.from_graph f.to_graph = some g ∧ g.Domain = f.Domain ∧ g.Range = f.Range ∧
      g.size_dyn_ind = f.size_dyn_ind ∧ ∀ p x, g.Forward0 p x = f.Forward0 p x :=
  ⟨f, from_graph_to_graph f hs, rfl, rfl, rfl, fun _ _ => rfl⟩

theorem C28_graph_round_trip_witness :
    ADFun.from_graph (sum_op_graph Int) =
        some ⟨3, 1, [], [FunOp.sum [Ref.dyn 0, Ref.dyn 1, Ref.dyn 2],
          FunOp.sum [Ref.var 0, Ref.var 1]], [Ref.var 2]⟩ ∧
      (⟨3, 1, [], [FunOp.sum [Ref.dyn 0, Ref.dyn 1, Ref.dyn 2],
          FunOp.sum [Ref.var 0, Ref.var 1]], [Ref.var 2]⟩ : ADFun Int).to_graph =
        sum_op_graph Int ∧
      (⟨3, 1, [], [FunOp.sum [Ref.dyn 0, Ref.dyn 1, Ref.dyn 2],
          FunOp.sum [Ref.var 0, Ref.var 1]], [Ref.var 2]⟩ : ADFun Int).Forward0 [1, 2, 3] [5] =
        some [11] ∧
      ∃ g, ADFun.from_graph (⟨3, 1, [], [FunOp.sum [Ref.dyn 0, Ref.dyn 1, Ref.dyn 2],
          FunOp.sum [Ref.var 0, Ref.var 1]], [Ref.var 2]⟩ : ADFun Int).to_graph = some g ∧
        g.Domain = 1 ∧ g.Range = 1 ∧ g.size_dyn_ind = 3 ∧
        ∀ p x, g.Forward0 p x =
          (⟨3, 1, [], [FunOp.sum [Ref.dyn 0, Ref.dyn 1, Ref.dyn 2],
            FunOp.sum [Ref.var 0, Ref.var 1]], [Ref.var 2]⟩ : ADFun Int).Forward0 p x :=
  ⟨by rfl, by rfl, by decide,
    C28_graph_round_trip (⟨3, 1, [], [FunOp.sum [Ref.dyn 0, Ref.dyn 1, Ref.dyn 2],
      FunOp.sum [Ref.var 0, Ref.var 1]], [Ref.var 2]⟩ : ADFun Int) (by rfl)⟩

end CppAD


namespace CppAD

/-! ## The scenarios of `unary_plus.cpp` and `tst_compare_1` -/

theorem UnaryPlus_record_eq {Base : Type} [Zero Base] (x0 : Base) :
    UnaryPlus_record x0 = ([⟨x0, true, 0⟩], ⟨0, 1, [], [], [Ref.var 0]⟩) := by
  rfl

/-- C29: for the function recorded as `y[0] = + x[0]` at any `x0`: `y[0]` has the value
of `x[0]`, `Forward(0, x)` returns `y = x`, `Forward(1, dx)` returns `dy = dx` and
`Reverse(1, w)` returns `dw = w`, so that for `dx = 1` and `w = 1` the forward
directional derivative is the reverse adjoint entry; and unary plus of a `VecAD`
element reference to which `x[0]` was assigned has the value of `y[0]`. -/
theorem C29_unary_plus_identity {Base : Type} [LinearOrderedRing Base] (x0 x dx w : Base) :
    (UnaryPlus_record x0).1.map AD.value = [x0] ∧
      (UnaryPlus_record x0).2.Forward0 [] [x] = some [x] ∧
      (UnaryPlus_record x0).2.Forward1 [dx] = some [dx] ∧
      (UnaryPlus_record x0).2.Reverse1 [w] = some [w] ∧
      (UnaryPlus_record x0).2.Forward1 [1] = (UnaryPlus_record x0).2.Reverse1 [1] ∧
      (VecAD_unary_plus (VecAD_assign [⟨0, false, 0⟩] 0 ((Independent [x0]).1.getD 0 ⟨0, false, 0⟩))
          0).value = ((UnaryPlus_record x0).1.getD 0 ⟨0, false, 0⟩).value := by
  rw [UnaryPlus_record_eq]
  refine ⟨rfl, ?_, ?_, ?_, ?_, rfl⟩
  · simp [ADFun.Forward0, forward0_sweep, Ref.value]
  · simp [ADFun.Forward1, forward1_sweep, Ref.tangent]
  · simp [ADFun.Reverse1, FunOp.results, FunOp.count_var, reverse1_sweep, adjoint_seed,
      adjoint_add]
  · simp [ADFun.Forward1, forward1_sweep, Ref.tangent, ADFun.Reverse1, FunOp.results,
      FunOp.count_var, reverse1_sweep, adjoint_seed, adjoint_add]

theorem C29_unary_plus_identity_witness :
    (UnaryPlus_record (3 : Int)).1.map AD.value = [3] ∧
      (UnaryPlus_record (3 : Int)).2.Forward0 [] [3] = some [3] ∧
      (UnaryPlus_record (3 : Int)).2.Forward1 [1] = some [1] ∧
      (UnaryPlus_record (3 : Int)).2.Reverse1 [1] = some [1] :=
  ⟨(C29_unary_plus_identity (3 : Int) 3 1 1).1, (C29_unary_plus_identity (3 : Int) 3 1 1).2.1,
    (C29_unary_plus_identity (3 : Int) 3 1 1).2.2.1,
    (C29_unary_plus_identity (3 : Int) 3 1 1).2.2.2.1⟩

/-- The function that `tst_compare_record` records when `x0 < x1`. -/
theorem tst_compare_record_eq {Base : Type} [LinearOrderedRing Base] (c : CompareOp)
    (x0 x1 x2 x3 : Base) (h : x0 < x1) :
    tst_compare_record c [x0, x1, x2, x3] =
      match c with
      | CompareOp.eq => ⟨0, 4, [], [FunOp.comp CompareOp.ne (Ref.var 0) (Ref.var 1)],
          [Ref.var 3]⟩
      | CompareOp.le => ⟨0, 4, [], [FunOp.comp CompareOp.le (Ref.var 0) (Ref.var 1)],
          [Ref.var 2]⟩
      | CompareOp.lt => ⟨0, 4, [], [FunOp.comp CompareOp.lt (Ref.var 0) (Ref.var 1)],
          [Ref.var 2]⟩
      | CompareOp.ne => ⟨0, 4, [], [FunOp.comp CompareOp.ne (Ref.var 0) (Ref.var 1)],
          [Ref.var 2]⟩ := by
  have hne : x0 ≠ x1 := ne_of_lt h
  have hle : x0 ≤ x1 := le_of_lt h
  cases c <;>
    simp [tst_compare_record, Independent, Independent_from, AD.compare, CompareOp.holds,
      Parameter, Variable, Recorder.operand, ADFun.ctor, Recorder.dependents, hne, hle, h]

/-- C30: for the conditional `if( ax[0] c ax[1] ) ay[0] = ax[2]; else ay[0] = ax[3];`
recorded with `x0 < x1`: `Forward(0, x)` at inputs with the same result of the
comparison gives `compare_change_number() == 0`; at inputs with `x[0] == x[1]` it gives
a nonzero `compare_change_number()` for the comparisons `==`, `<` and `!=`, whose result
differs, and 0 for `<=`, whose result does not differ; and in each case `y[0]` is the
value of the branch taken at recording time. -/
theorem C30_compare_change {Base : Type} [LinearOrderedRing Base] (c : CompareOp)
    (x0 x1 x2 x3 a b u v : Base) (hrec : x0 < x1) :
    (c.holds a b = c.holds x0 x1 →
      (tst_compare_record c [x0, x1, x2, x3]).compare_change_number [] [a, b, u, v] = 0 ∧
      (tst_compare_record c [x0, x1, x2, x3]).Forward0 [] [a, b, u, v] =
        some [if c.holds x0 x1 then u else v]) ∧
    (a = b →
      (c ≠ CompareOp.le →
        (tst_compare_record c [x0, x1, x2, x3]).compare_change_number [] [a, b, u, v] ≠ 0) ∧
      (c = CompareOp.le →
        (tst_compare_record c [x0, x1, x2, x3]).compare_change_number [] [a, b, u, v] = 0) ∧
      (tst_compare_record c [x0, x1, x2, x3]).Forward0 [] [a, b, u, v] =
        some [if c.holds x0 x1 then u else v]) := by
  have hne : x0 ≠ x1 := ne_of_lt hrec
  have hle : x0 ≤ x1 := le_of_lt hrec
  rw [tst_compare_record_eq c x0 x1 x2 x3 hrec]
  cases c <;>
    simp [CompareOp.holds, ADFun.compare_change_number, ADFun.Forward0, forward0_sweep,
      Ref.value, hne, hle, hrec]
  · intro h; exact le_of_eq h
  · intro h; exact le_of_eq h.symm

theorem C30_compare_change_witness :
    (tst_compare_record CompareOp.lt ([0, 1, 2, 3] : List Int)).compare_change_number []
        [2, 3, 2, 3] = 0 ∧
      (tst_compare_record CompareOp.eq ([0, 1, 2, 3] : List Int)).compare_change_number []
        [3, 3, 2, 3] ≠ 0 ∧
      (tst_compare_record CompareOp.eq ([0, 1, 2, 3] : List Int)).Forward0 [] [3, 3, 2, 3] =
        some [if CompareOp.eq.holds (0 : Int) 1 then 2 else 3] ∧
      (tst_compare_record CompareOp.le ([0, 1, 2, 3] : List Int)).compare_change_number []
        [3, 3, 2, 3] = 0 :=
  ⟨((C30_compare_change CompareOp.lt (0 : Int) 1 2 3 2 3 2 3 (by decide)).1 (by decide)).1,
    ((C30_compare_change CompareOp.eq (0 : Int) 1 2 3 3 3 2 3 (by decide)).2 rfl).1
      (by decide),
    ((C30_compare_change CompareOp.eq (0 : Int) 1 2 3 3 3 2 3 (by decide)).2 rfl).2.2,
    ((C30_compare_change CompareOp.le (0 : Int) 1 2 3 3 3 2 3 (by decide)).2 rfl).2.1 rfl⟩

end CppAD


namespace CppAD

theorem count_eq_filter_range (h : Nat) : ∀ l : List Nat,
    l.count h = ((List.range l.length).filter (fun j => decide (l.getD j 0 = h))).length := by
  intro l
  induction l with
  | nil => rfl
  | cons a l ih =>
    rw [List.length_cons, List.range_succ_eq_map, List.filter_cons, List.filter_map,
      List.count_cons, ih]
    have h1 : ((fun j => decide ((a :: l).getD j 0 = h)) ∘ Nat.succ) =
        (fun j => decide (l.getD j 0 = h)) := by
      funext j; simp
    rw [h1]
    by_cases ha : a = h
    · simp [ha]
    · simp [ha]

/-- C38: `get_data_index()` on a state whose `number_not_used_` is the length of the
free list that starts at `data_not_used_` returns; when `data_not_used_ != 0` it returns
the head of the free list, advances `data_not_used_` to the next free pair (the rest of
the free list), decrements `number_not_used_` and leaves `data_` (so `data_.size()`)
unchanged; only when the free list is empty it grows `data_` by exactly one pair, returns
the new last index and leaves `number_not_used_` and `data_not_used_` unchanged; the
other members are never changed. -/
theorem C38_get_data_index (s : list_setvec) (ns : List Nat)
    (hfree : Seg s.data_ s.data_not_used_ ns 0) (hn : s.number_not_used_ = ns.length) :
    ∃ index s1, get_data_index s = some (index, s1) ∧
      s1.end_ = s.end_ ∧ s1.start_ = s.start_ ∧ s1.post_ = s.post_ ∧
      (s.data_not_used_ ≠ 0 →
        index = s.data_not_used_ ∧ s1.data_not_used_ = (rd s.data_ s.data_not_used_).next ∧
          Seg s1.data_ s1.data_not_used_ ns.tail 0 ∧
          s1.number_not_used_ + 1 = s.number_not_used_ ∧ s1.data_ = s.data_) ∧
      (s.data_not_used_ = 0 →
        index = s.data_.length ∧ s1.data_.length = s.data_.length + 1 ∧
          s1.data_.take s.data_.length = s.data_ ∧ index + 1 = s1.data_.length ∧
          s1.number_not_used_ = s.number_not_used_ ∧
          s1.data_not_used_ = s.data_not_used_) := by
  by_cases h0 : s.data_not_used_ = 0
  · refine ⟨s.data_.length, { s with data_ := s.data_ ++ [⟨0, 0⟩] }, ?_, rfl, rfl, rfl,
      fun h => absurd h0 h, fun _ => ⟨rfl, by simp, by simp, by simp, rfl, rfl⟩⟩
    unfold get_data_index
    rw [if_neg (by omega)]
  · cases ns with
    | nil => exact absurd hfree h0
    | cons n ns =>
      obtain ⟨_, _, _, h4⟩ := hfree
      have hpos : s.number_not_used_ > 0 := by rw [hn]; simp
      refine ⟨s.data_not_used_, { s with
        number_not_used_ := s.number_not_used_ - 1
        data_not_used_ := (rd s.data_ s.data_not_used_).next }, ?_, rfl, rfl, rfl,
        fun _ => ⟨rfl, rfl, ?_, ?_, rfl⟩, fun h => absurd h h0⟩
      · unfold get_data_index
        rw [if_pos (by omega)]
        simp [CPPAD_ASSERT_UNKNOWN, hpos]
      · show Seg s.data_ (rd s.data_ s.data_not_used_).next ns 0
        rw [‹s.data_not_used_ = n›]; exact h4
      · show s.number_not_used_ - 1 + 1 = s.number_not_used_
        omega

theorem C38_get_data_index_witness :
    Seg [⟨5, 0⟩, ⟨0, 2⟩, ⟨1, 0⟩, ⟨1, 4⟩, ⟨3, 0⟩] 1 [1, 2] 0 ∧
    ∃ index s1, get_data_index ⟨5, 2, 1, [⟨5, 0⟩, ⟨0, 2⟩, ⟨1, 0⟩, ⟨1, 4⟩, ⟨3, 0⟩], [0, 3],
        [0, 0], []⟩ = some (index, s1) ∧
      s1.end_ = 5 ∧ s1.start_ = [0, 3] ∧ s1.post_ = [0, 0] ∧
      ((1 : Nat) ≠ 0 →
        index = 1 ∧ s1.data_not_used_ = (rd [⟨5, 0⟩, ⟨0, 2⟩, ⟨1, 0⟩, ⟨1, 4⟩, ⟨3, 0⟩] 1).next ∧
          Seg s1.data_ s1.data_not_used_ [2] 0 ∧
          s1.number_not_used_ + 1 = 2 ∧ s1.data_ = [⟨5, 0⟩, ⟨0, 2⟩, ⟨1, 0⟩, ⟨1, 4⟩, ⟨3, 0⟩]) ∧
      ((1 : Nat) = 0 →
        index = 5 ∧ s1.data_.length = 5 + 1 ∧
          s1.data_.take 5 = [⟨5, 0⟩, ⟨0, 2⟩, ⟨1, 0⟩, ⟨1, 4⟩, ⟨3, 0⟩] ∧
          index + 1 = s1.data_.length ∧ s1.number_not_used_ = 2 ∧ s1.data_not_used_ = 1) :=
  ⟨⟨rfl, by decide, by decide, rfl, by decide, by decide, rfl⟩,
    C38_get_data_index ⟨5, 2, 1, [⟨5, 0⟩, ⟨0, 2⟩, ⟨1, 0⟩, ⟨1, 4⟩, ⟨3, 0⟩], [0, 3], [0, 0], []⟩
      [1, 2] ⟨rfl, by decide, by decide, rfl, by decide, by decide, rfl⟩ rfl⟩

/-- C35: representation invariant: in every state reachable through the public operations
that has at least one set, `data_[0]` is `(end_, 0)`; for every set `i` with
`start_[i] != 0` the reference count `data_[start_[i]].value` is positive and equals the
number of sets `j` with `start_[j] == start_[i]`, and the list has at least one element
(`data_[start_[i]].next != 0`); and set `i` has no element exactly when `start_[i] == 0`. -/
theorem C35_representation_invariant (s : list_setvec) (hs : Reachable s) (hn : 0 < n_set s) :
    rd s.data_ 0 = ⟨s.end_, 0⟩ ∧
    ∀ i, i < n_set s →
      (s.start_.getD i 0 ≠ 0 →
        0 < (rd s.data_ (s.start_.getD i 0)).value ∧
        (rd s.data_ (s.start_.getD i 0)).value = reference_count s i ∧
        reference_count s i = ((List.range (n_set s)).filter
          (fun j => decide (s.start_.getD j 0 = s.start_.getD i 0))).length ∧
        (rd s.data_ (s.start_.getD i 0)).next ≠ 0) ∧
      ((∀ x, ¬ Mem s i x) ↔ s.start_.getD i 0 = 0) := by
  have hw := hs.wf hn
  obtain ⟨L, I, S⟩ := id hw
  refine ⟨I.heap.zero, ?_⟩
  intro i hi
  constructor
  · intro h0
    obtain ⟨h1, h2⟩ := S.start i hi h0
    have hrc := I.heap.list_rc _ h1 h2
    have hpos := I.heap.rc_pos _ h1 h2
    have href : reference_count s i = (rd s.data_ (s.start_.getD i 0)).value := by
      unfold reference_count
      simp only [if_neg h0]
    refine ⟨by rw [hrc]; exact hpos, href.symm, ?_, ?_⟩
    · rw [href, hrc]
      exact count_eq_filter_range _ _
    · intro hnext
      have hseg := I.heap.list_chain _ h1 h2
      have hne := I.heap.list_ne _ h1 h2
      rw [hnext] at hseg
      cases hl : L.elems (s.start_.getD i 0) with
      | nil => exact hne hl
      | cons a l =>
        rw [hl] at hseg
        exact hseg.2.1 hseg.1.symm
  · obtain ⟨vs, h1, _, _, h4⟩ := hw.setIs hi
    constructor
    · intro h
      apply h4.1
      cases vs with
      | nil => rfl
      | cons a l => exact absurd ⟨a :: l, h1, List.mem_cons_self a l⟩ (h a)
    · intro h x hx
      obtain ⟨ws, h5, h6⟩ := hx
      have h7 := SetIs.unique h5 h1
      rw [h7, h4.2 h] at h6
      simp at h6

theorem C35_representation_invariant_witness :
    rd example_vec.data_ 0 = ⟨example_vec.end_, 0⟩ ∧
    ∀ i, i < n_set example_vec →
      (example_vec.start_.getD i 0 ≠ 0 →
        0 < (rd example_vec.data_ (example_vec.start_.getD i 0)).value ∧
        (rd example_vec.data_ (example_vec.start_.getD i 0)).value =
          reference_count example_vec i ∧
        reference_count example_vec i = ((List.range (n_set example_vec)).filter
          (fun j => decide (example_vec.start_.getD j 0 = example_vec.start_.getD i 0))).length ∧
        (rd example_vec.data_ (example_vec.start_.getD i 0)).next ≠ 0) ∧
      ((∀ x, ¬ Mem example_vec i x) ↔ example_vec.start_.getD i 0 = 0) :=
  C35_representation_invariant example_vec example_vec_reachable (by decide)

end CppAD


namespace CppAD

theorem drop_post_value {s s1 : list_setvec} {nd i : Nat} (h : drop_post s i = some (nd, s1)) :
    s1.start_ = s.start_ ∧ s1.data_.length = s.data_.length ∧
      ∀ x, (rd s1.data_ x).value = (rd s.data_ x).value := by
  unfold drop_post at h
  simp only at h
  split at h
  · simp only [Option.bind_eq_bind, Option.bind_eq_some] at h
    obtain ⟨⟨prev, n⟩, _, h2⟩ := h
    simp only [Option.some.injEq, Prod.mk.injEq] at h2
    obtain ⟨_, rfl⟩ := h2
    exact ⟨rfl, length_wr_next _ _ _, fun x => value_wr_next _ _ _ _⟩
  · simp only [Option.some.injEq, Prod.mk.injEq] at h
    obtain ⟨_, rfl⟩ := h
    exact ⟨rfl, rfl, fun _ => rfl⟩

/-- The only value that `drop(i)` writes is the reference counter of a non-empty set
`i`, which it decrements. -/
theorem drop_value {s s1 : list_setvec} {nd i : Nat} (h : drop s i = some (nd, s1)) (x : Nat) :
    (rd s1.data_ x).value =
      if x = s.start_.getD i 0 ∧ x ≠ 0 ∧ x < s.data_.length then (rd s.data_ x).value - 1
      else (rd s.data_ x).value := by
  unfold drop at h
  simp only [Option.bind_eq_bind, Option.bind_eq_some] at h
  obtain ⟨⟨n0, s0⟩, h0, h⟩ := h
  obtain ⟨hst, hlen, hval⟩ := drop_post_value h0
  simp only at h
  rw [hst] at h
  by_cases hz : s.start_.getD i 0 = 0
  · rw [if_pos hz] at h
    simp only [Option.some.injEq, Prod.mk.injEq] at h
    obtain ⟨_, rfl⟩ := h
    rw [hval, if_neg]
    rintro ⟨h1, h2, _⟩
    exact h2 (h1.trans hz)
  · rw [if_neg hz] at h
    simp only [Option.bind_eq_some] at h
    obtain ⟨_, _, h⟩ := h
    have key : ∀ y, (rd (wr_value s0.data_ (s.start_.getD i 0)
        ((rd s0.data_ (s.start_.getD i 0)).value - 1)) y).value =
        if y = s.start_.getD i 0 ∧ y ≠ 0 ∧ y < s.data_.length then (rd s.data_ y).value - 1
        else (rd s.data_ y).value := by
      intro y
      rw [rd_wr_value]
      by_cases hy : y = s.start_.getD i 0
      · subst hy
        by_cases hl : s.start_.getD i 0 < s.data_.length
        · rw [if_pos ⟨rfl, by rw [hlen]; exact hl⟩, if_pos ⟨rfl, hz, hl⟩, hval]
        · rw [if_neg (by rw [hlen]; exact fun h => hl h.2), if_neg (fun h => hl h.2.2), hval]
      · rw [if_neg (fun h => hy h.1.symm), if_neg (fun h => hy h.1), hval]
    split at h
    · simp only [Option.some.injEq, Prod.mk.injEq] at h
      obtain ⟨_, rfl⟩ := h
      exact key x
    · simp only [Option.bind_eq_some] at h
      obtain ⟨⟨prev, n⟩, _, h2⟩ := h
      simp only [Option.some.injEq, Prod.mk.injEq] at h2
      obtain ⟨_, rfl⟩ := h2
      show (rd (wr_next _ _ _) x).value = _
      rw [value_wr_next]
      exact key x

/-- C39: for a reachable `list_setvec` and an in-range set `i` whose posting is the chain
`ps`, whose list (when `start_[i] != 0`) has the element pairs `ns`, and whose free list
is `fs`: `drop(i)` returns; it sets `start_[i]` and `post_[i]` to zero; when set `i` was
non-empty the reference count was positive and is decremented by one, and no other value
of `data_` changes; afterwards the free list is the head and element pairs of the list
(exactly when the decremented reference count is zero), then the posting pairs `ps`, then
the old free list; and the return value is the number of pairs moved: `ps.length`, plus
`ns.length + 1` for a freed list. -/
theorem C39_drop_moves_nodes (s : list_setvec) (i : Nat) (ps ns fs : List Nat)
    (hs : Reachable s) (hi : i < n_set s)
    (hps : Seg s.data_ (s.post_.getD i 0) ps 0)
    (hns : s.start_.getD i 0 ≠ 0 → Seg s.data_ (rd s.data_ (s.start_.getD i 0)).next ns 0)
    (hfs : Seg s.data_ s.data_not_used_ fs 0) :
    ∃ nd s1, drop s i = some (nd, s1) ∧
      s1.start_ = s.start_.set i 0 ∧ s1.post_ = s.post_.set i 0 ∧
      s1.start_.getD i 0 = 0 ∧ s1.post_.getD i 0 = 0 ∧
      (s.start_.getD i 0 ≠ 0 →
        0 < (rd s.data_ (s.start_.getD i 0)).value ∧
        (rd s1.data_ (s.start_.getD i 0)).value = (rd s.data_ (s.start_.getD i 0)).value - 1) ∧
      (∀ x, x ≠ s.start_.getD i 0 → (rd s1.data_ x).value = (rd s.data_ x).value) ∧
      Seg s1.data_ s1.data_not_used_
        ((if s.start_.getD i 0 ≠ 0 ∧ (rd s1.data_ (s.start_.getD i 0)).value = 0
          then s.start_.getD i 0 :: ns else []) ++ ps ++ fs) 0 ∧
      nd = (if s.start_.getD i 0 ≠ 0 ∧ (rd s1.data_ (s.start_.getD i 0)).value = 0
          then ns.length + 1 else 0) + ps.length := by
  have hw := hs.wf hi
  obtain ⟨L, I, S⟩ := id hw
  obtain ⟨s1, c, hd, hc, he, hst, hpo, htmp, hnn, hlen, H1, hF1, S1, hfr, hnext⟩ :=
    drop_spec I.heap I.free.head S hi
  have hps1 : ps = L.posts i := by
    refine Seg.det hps ?_
    rw [S.post i hi]; exact I.heap.post_chain i
  have hfs1 : fs = L.free := by
    refine Seg.det hfs ?_
    rw [I.free.head]; exact I.heap.free_chain
  have hval := drop_value hd
  have hdec : s.start_.getD i 0 ≠ 0 →
      0 < (rd s.data_ (s.start_.getD i 0)).value ∧
      (rd s1.data_ (s.start_.getD i 0)).value = (rd s.data_ (s.start_.getD i 0)).value - 1 := by
    intro h0
    obtain ⟨h1, h2⟩ := S.start i hi h0
    refine ⟨by rw [I.heap.list_rc _ h1 h2]; exact I.heap.rc_pos _ h1 h2, ?_⟩
    rw [hval, if_pos ⟨rfl, h0, h1⟩]
  have hcond : (s.start_.getD i 0 ≠ 0 ∧ (rd s1.data_ (s.start_.getD i 0)).value = 0) ↔
      (s.start_.getD i 0 ≠ 0 ∧ s.start_.count (s.start_.getD i 0) = 1) := by
    constructor
    · rintro ⟨h0, h1⟩
      obtain ⟨h2, h3⟩ := hdec h0
      obtain ⟨h4, h5⟩ := S.start i hi h0
      rw [I.heap.list_rc _ h4 h5] at h2 h3
      exact ⟨h0, by omega⟩
    · rintro ⟨h0, h1⟩
      obtain ⟨_, h3⟩ := hdec h0
      obtain ⟨h4, h5⟩ := S.start i hi h0
      rw [I.heap.list_rc _ h4 h5] at h3
      exact ⟨h0, by omega⟩
  have hc1 : c = (if s.start_.getD i 0 ≠ 0 ∧ (rd s1.data_ (s.start_.getD i 0)).value = 0
      then s.start_.getD i 0 :: ns else []) := by
    rw [hc]
    by_cases h : s.start_.getD i 0 ≠ 0 ∧ s.start_.count (s.start_.getD i 0) = 1
    · rw [if_pos h, if_pos (hcond.2 h)]
      obtain ⟨h4, h5⟩ := S.start i hi h.1
      rw [Seg.det (hns h.1) (I.heap.list_chain _ h4 h5)]
    · rw [if_neg h, if_neg (fun h1 => h (hcond.1 h1))]
  refine ⟨_, s1, hd, hst, hpo, ?_, ?_, hdec, ?_, ?_, ?_⟩
  · rw [hst]; exact getD_set_same _ _ hi
  · rw [hpo]; exact getD_set_same _ _ (by rw [S.len]; exact hi)
  · intro x hx
    rw [hval, if_neg (fun h => hx h.1)]
  · rw [← hc1, hps1, hfs1, List.append_assoc, hF1]
    exact H1.free_chain
  · rw [hps1]
    congr 1
    rw [hc1]
    split <;> simp

theorem C39_drop_moves_nodes_witness :
    Reachable example_vec ∧
    ∃ nd s1, drop example_vec 3 = some (nd, s1) ∧
      s1.start_ = example_vec.start_.set 3 0 ∧ s1.post_ = example_vec.post_.set 3 0 ∧
      s1.start_.getD 3 0 = 0 ∧ s1.post_.getD 3 0 = 0 ∧
      (example_vec.start_.getD 3 0 ≠ 0 →
        0 < (rd example_vec.data_ (example_vec.start_.getD 3 0)).value ∧
        (rd s1.data_ (example_vec.start_.getD 3 0)).value =
          (rd example_vec.data_ (example_vec.start_.getD 3 0)).value - 1) ∧
      (∀ x, x ≠ example_vec.start_.getD 3 0 →
        (rd s1.data_ x).value = (rd example_vec.data_ x).value) ∧
      Seg s1.data_ s1.data_not_used_
        ((if example_vec.start_.getD 3 0 ≠ 0 ∧
            (rd s1.data_ (example_vec.start_.getD 3 0)).value = 0
          then example_vec.start_.getD 3 0 :: [10] else []) ++ [] ++ []) 0 ∧
      nd = (if example_vec.start_.getD 3 0 ≠ 0 ∧
            (rd s1.data_ (example_vec.start_.getD 3 0)).value = 0
          then [10].length + 1 else 0) + ([] : List Nat).length :=
  ⟨example_vec_reachable,
    C39_drop_moves_nodes example_vec 3 [] [10] [] example_vec_reachable (by decide) rfl
      (fun _ => ⟨rfl, by decide, by decide, rfl⟩) rfl⟩

end CppAD


namespace CppAD

/-- An operation that keeps the list of every set but `t` and clears only the posting of
`t` leaves `is_element(j, e)` unchanged for every `j != t`. -/
theorem frame_is_element {s s1 : list_setvec} {t : Nat} (hw : WF s) (hw1 : WF s1)
    (he : s1.end_ = s.end_) (hpo : s1.post_ = s.post_.set t 0)
    (hfr : ∀ j, j ≠ t → ∀ vs, SetIs s j vs → SetIs s1 j vs) :
    ∀ j, j ≠ t → ∀ e, is_element s1 j e = is_element s j e := by
  intro j hj e
  refine is_element_congr hw hw1 he ?_ (hfr j hj) e
  rw [hpo, getD_set_ne _ _ hj]

/-- C33: for a reachable `list_setvec` `s` and an in-range target `t`: `clear(t)` and
`process_post(t)` return and leave `is_element(j, e)` unchanged for every set `j != t` and
every `e`; so do `assignment(t, source, other)`, `binary_union(t, left, right, other)` and
`binary_intersection(t, left, right, other)` for every other object (`other = none` when
it is `s` itself) that is reachable with the same `end`, in-range operands and no pending
posts on the operands; this holds whether or not set `j` shared its list with `t` or is
an operand. -/
theorem C33_other_sets_unchanged (s : list_setvec) (t : Nat) (hs : Reachable s)
    (ht : t < n_set s) :
    (∃ s1, clear s t = some s1 ∧ ∀ j, j ≠ t → ∀ e, is_element s1 j e = is_element s j e) ∧
    (∃ s1, process_post s t = some s1 ∧
      ∀ j, j ≠ t → ∀ e, is_element s1 j e = is_element s j e) ∧
    (∀ (other : Option list_setvec) (source : Nat),
      (∀ o, other = some o → Reachable o ∧ o.end_ = s.end_) →
      source < n_set (other.getD s) → (other.getD s).post_.getD source 0 = 0 →
      ∃ s1, assignment s t source other = some s1 ∧
        ∀ j, j ≠ t → ∀ e, is_element s1 j e = is_element s j e) ∧
    (∀ (other : Option list_setvec) (left right : Nat),
      (∀ o, other = some o → Reachable o ∧ o.end_ = s.end_) →
      left < n_set s → right < n_set (other.getD s) →
      s.post_.getD left 0 = 0 → (other.getD s).post_.getD right 0 = 0 →
      (∃ s1, binary_union s t left right other = some s1 ∧
        ∀ j, j ≠ t → ∀ e, is_element s1 j e = is_element s j e) ∧
      (∃ s1, binary_intersection s t left right other = some s1 ∧
        ∀ j, j ≠ t → ∀ e, is_element s1 j e = is_element s j e)) := by
  have hw := hs.wf ht
  refine ⟨?_, ?_, ?_, ?_⟩
  · obtain ⟨s1, h1, hw1, he1, _, hpo1, _, hfr⟩ := clear_spec hw ht
    exact ⟨s1, h1, frame_is_element hw hw1 he1 hpo1 hfr⟩
  · obtain ⟨s1, h1, hw1, he1, _, hpo1, _, hfr⟩ := process_post_spec hw ht
    exact ⟨s1, h1, frame_is_element hw hw1 he1 hpo1 hfr⟩
  · intro other source ho hr hpr
    have ho1 := Reachable.wf_other ho hr
    obtain ⟨s1, h1, hw1, he1, _, hpo1, _, _, hfr⟩ := assignment_spec hw other ho1 ht hr hpr
    exact ⟨s1, h1, frame_is_element hw hw1 he1 hpo1 hfr⟩
  · intro other left right ho hl hr hpl hpr
    have ho1 := Reachable.wf_other ho hr
    constructor
    · obtain ⟨s1, h1, hw1, he1, _, hpo1, _, hfr⟩ :=
        binary_union_spec hw other ho1 ht hl hr hpl hpr
      exact ⟨s1, h1, frame_is_element hw hw1 he1 hpo1 hfr⟩
    · obtain ⟨s1, h1, hw1, he1, _, hpo1, _, hfr⟩ :=
        binary_intersection_spec hw other ho1 ht hl hr hpl hpr
      exact ⟨s1, h1, frame_is_element hw hw1 he1 hpo1 hfr⟩

theorem C33_other_sets_unchanged_witness :
    Reachable example_vec ∧ example_vec.start_.getD 2 0 = example_vec.start_.getD 0 0 ∧
    (∃ s1, clear example_vec 0 = some s1 ∧
      ∀ j, j ≠ 0 → ∀ e, is_element s1 j e = is_element example_vec j e) ∧
    (∃ s1, process_post example_vec 0 = some s1 ∧
      ∀ j, j ≠ 0 → ∀ e, is_element s1 j e = is_element example_vec j e) ∧
    (∃ s1, assignment example_vec 0 1 none = some s1 ∧
      ∀ j, j ≠ 0 → ∀ e, is_element s1 j e = is_element example_vec j e) ∧
    (∃ s1, binary_union example_vec 0 2 1 none = some s1 ∧
      ∀ j, j ≠ 0 → ∀ e, is_element s1 j e = is_element example_vec j e) ∧
    (∃ s1, binary_intersection example_vec 0 2 1 none = some s1 ∧
      ∀ j, j ≠ 0 → ∀ e, is_element s1 j e = is_element example_vec j e) :=
  ⟨example_vec_reachable, by decide,
    (C33_other_sets_unchanged example_vec 0 example_vec_reachable (by decide)).1,
    (C33_other_sets_unchanged example_vec 0 example_vec_reachable (by decide)).2.1,
    (C33_other_sets_unchanged example_vec 0 example_vec_reachable (by decide)).2.2.1 none 1
      (fun _ h => by cases h) (by decide) (by decide),
    (C33_other_sets_unchanged example_vec 0 example_vec_reachable (by decide)).2.2.2 none 2 1
      (fun _ h => by cases h) (by decide) (by decide) (by decide) (by decide)⟩

end CppAD


namespace CppAD

theorem example_posted_calls_eq : example_posted_calls = some example_posted := by rfl

theorem example_posted_reachable : Reachable example_posted :=
  reachable_bind_post (reachable_bind_add (reachable_bind_resize reachable_some_ctor 1 5) 0 1)
    0 2 example_posted example_posted_calls_eq

/-- C36 (the code breaks it): the state after `resize(1, 5)`, `add_element(0, 1)` and
`post_element(0, 2)` is reachable through the public operations with in-range arguments,
and on it `check_data_structure()` raises an assertion (`number_elements(0)`, which it
calls for the last reference to a list, asserts `post_[0] == 0`), so `resize` and the
destructor abort in a checked build; after `process_post(0)` the same check passes. -/
theorem C36_check_aborts_on_pending_post :
    Reachable example_posted ∧
    number_elements example_posted 0 = none ∧
    check_data_structure example_posted = none ∧
    resize example_posted 1 5 = none ∧
    list_setvec.destructor example_posted = none ∧
    ((process_post example_posted 0).bind check_data_structure).isSome = true :=
  ⟨example_posted_reachable, by rfl, by rfl, by rfl, by rfl, by rfl⟩

end CppAD


namespace CppAD

theorem count_take_succ (p : Nat) : ∀ (l : List Nat) (i : Nat), i < l.length →
    (l.take (i + 1)).count p = (l.take i).count p + (if l.getD i 0 = p then 1 else 0) := by
  intro l
  induction l with
  | nil => intro i hi; simp at hi
  | cons a l ih =>
    intro i hi
    cases i with
    | zero =>
      by_cases ha : a = p
      · simp [ha]
      · simp [ha, List.count_cons]
    | succ i =>
      have h1 := ih i (by simpa using hi)
      rw [List.take_succ_cons, List.count_cons, h1, List.take_succ_cons, List.count_cons]
      simp only [List.getD_cons_succ]
      omega

theorem count_take_le (p : Nat) (l : List Nat) (i : Nat) : (l.take i).count p ≤ l.count p :=
  (List.take_sublist i l).count_le p

theorem data_ext {d1 d : List pair_size_t} (hl : d1.length = d.length)
    (h : ∀ p, rd d1 p = rd d p) : d1 = d := by
  refine List.ext_getElem hl ?_
  intro n h1 h2
  have h3 := h n
  simp only [rd, List.getD_eq_getElem?_getD, List.getElem?_eq_getElem h1,
    List.getElem?_eq_getElem h2, Option.getD_some] at h3
  exact h3

theorem getD_map_range (f : Nat → Nat) {n i : Nat} (hi : i < n) :
    ((List.range n).map f).getD i 0 = f i := by
  simp [List.getD_eq_getElem?_getD, List.getElem?_range hi]

/-- The first loop of `check_data_structure` restores every reference counter once all
the sets that share the list have been visited. -/
theorem check_sets_loop_inv {s : list_setvec}
    (hrc : ∀ i, s.start_.getD i 0 ≠ 0 → s.start_.getD i 0 < s.data_.length ∧
      (rd s.data_ (s.start_.getD i 0)).value = s.start_.count (s.start_.getD i 0)) :
    ∀ (k : Nat) (s1 : list_setvec) (i nu : Nat) (r : Nat × list_setvec),
      i + k = s.start_.length → CheckInv s s1 i → check_sets_loop k s1 i nu = some r →
      CheckInv s r.2 (i + k) := by
  intro k
  induction k with
  | zero =>
    intro s1 i nu r _ hI h
    simp only [check_sets_loop, Option.some.injEq] at h
    subst h
    exact hI
  | succ k ih =>
    intro s1 i nu r hik hI h
    have hi : i < s.start_.length := by omega
    have hik1 : i + (k + 1) = (i + 1) + k := by omega
    rw [hik1]
    unfold check_sets_loop at h
    simp only at h
    rw [hI.start_eq] at h
    by_cases h0 : s.start_.getD i 0 > 0
    · rw [if_pos h0] at h
      simp only [Option.bind_eq_bind] at h
      replace h := (assert_bind_some h).2
      replace h := (assert_bind_some h).2
      replace h := (assert_bind_some h).2
      have hh : s.start_.getD i 0 ≠ 0 := by omega
      obtain ⟨hlt, hval⟩ := hrc i hh
      have hlt1 : s.start_.getD i 0 < s1.data_.length := by rw [hI.length_eq]; exact hlt
      have hsucc := count_take_succ (s.start_.getD i 0) _ _ hi
      rw [if_pos rfl] at hsucc
      have hle := count_take_le (s.start_.getD i 0) s.start_ (i + 1)
      have hd := hI.data (s.start_.getD i 0)
      have hv : (rd s1.data_ (s.start_.getD i 0)).value =
          s.start_.count (s.start_.getD i 0) - (s.start_.take i).count (s.start_.getD i 0) := by
        rw [hd]
        split
        · show (rd s.data_ _).value - _ = _
          rw [hval]
        · rename_i hc
          rw [hval]
          have : (s.start_.take i).count (s.start_.getD i 0) = 0 := by
            by_contra h9
            exact hc ⟨hh, by omega, by omega⟩
          omega
      have hnx : (rd s1.data_ (s.start_.getD i 0)).next = (rd s.data_ (s.start_.getD i 0)).next := by
        rw [hd]
        split <;> rfl
      have hother : ∀ p, p ≠ s.start_.getD i 0 →
          (s.start_.take (i + 1)).count p = (s.start_.take i).count p := by
        intro p hp
        rw [count_take_succ p _ _ hi, if_neg (fun h => hp h.symm), Nat.add_zero]
      rw [value_wr_value_same _ _ hlt1, hv] at h
      by_cases hzero : s.start_.count (s.start_.getD i 0) -
          (s.start_.take i).count (s.start_.getD i 0) - 1 = 0
      · rw [if_pos hzero] at h
        obtain ⟨n, _, h⟩ := Option.bind_eq_some.1 h
        refine ih _ (i + 1) _ r (by omega) ?_ h
        refine ⟨hI.end_eq, hI.number_eq, hI.free_eq, rfl, hI.post_eq, hI.temporary_eq, ?_, ?_⟩
        · show (wr_value (wr_value _ _ _) _ _).length = _
          rw [length_wr_value, length_wr_value]; exact hI.length_eq
        · intro p
          show rd (wr_value (wr_value _ _ _) _ _) p = _
          by_cases hp : p = s.start_.getD i 0
          · subst hp
            rw [rd_wr_value, if_pos ⟨rfl, by rw [length_wr_value]; exact hlt1⟩, next_wr_value,
              hnx, hI.temporary_eq, getD_map_range _ hi, hsucc, if_neg (by omega)]
            unfold reference_count
            simp only [if_neg hh]
          · rw [rd_wr_value_ne _ _ hp, rd_wr_value_ne _ _ hp, hI.data p, hother p hp]
      · rw [if_neg hzero] at h
        refine ih _ (i + 1) _ r (by omega) ?_ h
        refine ⟨hI.end_eq, hI.number_eq, hI.free_eq, rfl, hI.post_eq, hI.temporary_eq, ?_, ?_⟩
        · show (wr_value _ _ _).length = _
          rw [length_wr_value]; exact hI.length_eq
        · intro p
          show rd (wr_value _ _ _) p = _
          by_cases hp : p = s.start_.getD i 0
          · subst hp
            rw [rd_wr_value, if_pos ⟨rfl, hlt1⟩, hnx, hsucc,
              if_pos ⟨hh, by omega, by omega⟩, hval]
            congr 1
          · rw [rd_wr_value_ne _ _ hp, hI.data p, hother p hp]
    · rw [if_neg h0] at h
      refine ih s1 (i + 1) nu r (by omega) ?_ h
      have hz : s.start_.getD i 0 = 0 := by omega
      refine ⟨hI.end_eq, hI.number_eq, hI.free_eq, hI.start_eq, hI.post_eq, hI.temporary_eq,
        hI.length_eq, ?_⟩
      intro p
      rw [hI.data p]
      by_cases hp : p = 0
      · rw [if_neg (fun h => h.1 hp), if_neg (fun h => h.1 hp)]
      · have h1 : (if (0 : Nat) = p then 1 else 0) = 0 := if_neg (Ne.symm hp)
        rw [count_take_succ p _ _ hi, hz, h1, Nat.add_zero]

/-- C37: `check_data_structure()` is effectively const: for every reachable state on
which it raises no assertion, `end_`, `number_not_used_`, `data_not_used_`, `data_`
(including every reference count that it temporarily decrements), `start_` and `post_`
are the same after the call as before. -/
theorem C37_check_effectively_const (s s1 : list_setvec) (hs : Reachable s)
    (h : check_data_structure s = some s1) :
    s1.end_ = s.end_ ∧ s1.number_not_used_ = s.number_not_used_ ∧
      s1.data_not_used_ = s.data_not_used_ ∧ s1.data_ = s.data_ ∧ s1.start_ = s.start_ ∧
      s1.post_ = s.post_ := by
  unfold check_data_structure at h
  simp only [Option.bind_eq_bind] at h
  replace h := (assert_bind_some h).2
  by_cases hn : s.start_.length = 0
  · rw [if_pos hn] at h
    replace h := (assert_bind_some h).2
    replace h := (assert_bind_some h).2
    replace h := (assert_bind_some h).2
    replace h := (assert_bind_some h).2
    replace h := (assert_bind_some h).2
    simp only [Option.some.injEq] at h
    subst h
    exact ⟨rfl, rfl, rfl, rfl, rfl, rfl⟩
  · rw [if_neg hn] at h
    replace h := (assert_bind_some h).2
    replace h := (assert_bind_some h).2
    obtain ⟨⟨nu, s2⟩, hloop, h⟩ := Option.bind_eq_some.1 h
    obtain ⟨np, _, h⟩ := Option.bind_eq_some.1 h
    obtain ⟨cnt, _, h⟩ := Option.bind_eq_some.1 h
    replace h := (assert_bind_some h).2
    replace h := (assert_bind_some h).2
    simp only [Option.some.injEq] at h
    subst h
    obtain ⟨L, I, S⟩ := hs.wf (Nat.pos_of_ne_zero hn)
    have hrc : ∀ i, s.start_.getD i 0 ≠ 0 → s.start_.getD i 0 < s.data_.length ∧
        (rd s.data_ (s.start_.getD i 0)).value = s.start_.count (s.start_.getD i 0) := by
      intro i h0
      obtain ⟨h1, h2⟩ := S.start i (getD_lt_of_ne_zero h0) h0
      exact ⟨h1, I.heap.list_rc _ h1 h2⟩
    have h0 : CheckInv s
        { s with temporary_ := (List.range s.start_.length).map (reference_count s) } 0 := by
      refine ⟨rfl, rfl, rfl, rfl, rfl, rfl, rfl, ?_⟩
      intro p
      rw [if_neg]
      simp
    have hI := check_sets_loop_inv hrc _ _ 0 1 _ (Nat.zero_add _) h0 hloop
    refine ⟨hI.end_eq, hI.number_eq, hI.free_eq, data_ext hI.length_eq ?_, hI.start_eq,
      hI.post_eq⟩
    intro p
    rw [hI.data p, if_neg]
    rw [Nat.zero_add, List.take_length]
    intro h9
    omega

theorem C37_check_effectively_const_witness :
    Reachable example_vec ∧
    check_data_structure example_vec =
      some ⟨5, 0, 0,
        [⟨5, 0⟩, ⟨2, 2⟩, ⟨1, 3⟩, ⟨2, 0⟩, ⟨1, 5⟩, ⟨2, 6⟩, ⟨3, 0⟩, ⟨1, 8⟩, ⟨4, 0⟩, ⟨1, 10⟩, ⟨2, 0⟩],
        [1, 4, 1, 9, 7, 0, 0], [0, 0, 0, 0, 0, 0, 0], [2, 1, 2, 1, 1, 0, 0]⟩ ∧
    (5 : Nat) = example_vec.end_ ∧ (0 : Nat) = example_vec.number_not_used_ ∧
      (0 : Nat) = example_vec.data_not_used_ ∧
      [⟨5, 0⟩, ⟨2, 2⟩, ⟨1, 3⟩, ⟨2, 0⟩, ⟨1, 5⟩, ⟨2, 6⟩, ⟨3, 0⟩, ⟨1, 8⟩, ⟨4, 0⟩, ⟨1, 10⟩, ⟨2, 0⟩] =
        example_vec.data_ ∧
      [1, 4, 1, 9, 7, 0, 0] = example_vec.start_ ∧
      [0, 0, 0, 0, 0, 0, 0] = example_vec.post_ :=
  ⟨example_vec_reachable, by rfl,
    C37_check_effectively_const example_vec _ example_vec_reachable (by rfl)⟩

end CppAD


namespace CppAD

/-- The path of `assignment` inside one object with a non-empty source: the reference
counter of the source list is incremented, the target is dropped and made to start at
the same pair; no pair is allocated. -/
theorem assignment_alias {s : list_setvec} (hw : WF s) {target source : Nat}
    (ht : target < s.start_.length) (hs : source < s.start_.length)
    (hp : s.post_.getD source 0 = 0) (hts : target ≠ source)
    (h0 : s.start_.getD source 0 ≠ 0) :
    ∃ s1, assignment s target source none = some s1 ∧ WF s1 ∧
      s1.data_.length = s.data_.length ∧ s.number_not_used_ ≤ s1.number_not_used_ ∧
      s1.start_ = s.start_.set target (s.start_.getD source 0) ∧
      s1.temporary_ = s.temporary_ ∧
      ∃ nd s2, drop { s with data_ := (wr_value s.data_ (s.start_.getD source 0)
          ((rd s.data_ (s.start_.getD source 0)).value + 1)) } target = some (nd, s2) ∧
        s1.number_not_used_ = s.number_not_used_ + nd := by
  obtain ⟨L, I, S⟩ := id hw
  obtain ⟨s9, h9, hw9, _⟩ := assignment_spec hw none (fun _ h => by cases h) ht hs hp
  obtain ⟨hh, hown⟩ := S.start source hs h0
  have hrc := I.heap.list_rc _ hh hown
  generalize hg : s.start_.getD source 0 = h at hh hown hrc h0
  have hrc1 : (rd s.data_ h).value = s.start_.count h := hrc
  have I1 := I.write_rc hh hown (s.start_.count h + 1) (Nat.succ_pos _)
  have S1 : SetLink { s with data_ := wr_value s.data_ h (s.start_.count h + 1) } L
      (Function.update (fun h => s.start_.count h) h (s.start_.count h + 1)) := by
    refine ⟨S.len, S.post, S.post_out, ?_, ?_⟩
    · intro j hj hne
      obtain ⟨h1, h2⟩ := S.start j hj hne
      exact ⟨by show _ < (wr_value _ _ _).length; rw [length_wr_value]; exact h1, h2⟩
    · intro k _ _
      show s.start_.count k ≤ _
      by_cases hk : k = h
      · subst hk
        rw [Function.update_same]
        exact Nat.le_succ _
      · rw [Function.update_noteq hk]
  obtain ⟨s2, c, hd, _, _, hst, _, htmp, hnn, hlen, _⟩ :=
    drop_spec I1.heap I1.free.head S1 ht
  have hpos := count_pos_of_getD hs hg (l := s.start_)
  have hX : assignment s target source none =
      some { s2 with number_not_used_ := s2.number_not_used_ + (c.length + (L.posts target).length)
                     start_ := s2.start_.set target h } := by
    simp only [assignment, Option.getD_none, hp, hs, ht, CPPAD_ASSERT_UNKNOWN,
      decide_True, if_true, Option.bind_eq_bind, Option.some_bind, Option.isNone_none,
      hts, and_false, if_false, hg, h0, ne_eq, not_false_eq_true, true_and, hrc1]
    rw [if_pos]
    · simp only [Option.some_bind, hd]
    · rw [value_wr_value_same _ _ hh]
      simp only [gt_iff_lt, decide_eq_true_eq]
      omega
  rw [hX] at h9
  simp only [Option.some.injEq] at h9
  refine ⟨_, hX, by rw [h9]; exact hw9, ?_, ?_, ?_, htmp, _, s2, by rw [hrc1]; exact hd, ?_⟩
  · show s2.data_.length = _
    rw [hlen]; exact length_wr_value _ _ _
  · show _ ≤ s2.number_not_used_ + _
    rw [hnn]; exact Nat.le_add_right _ _
  · show s2.start_.set target h = _
    rw [hst]
    show (s.start_.set target 0).set target h = _
    rw [List.set_set]
  · show s2.number_not_used_ + _ = _
    rw [hnn]

theorem WF.reference_count_eq {s : list_setvec} (hw : WF s) {i : Nat} (hi : i < s.start_.length)
    (h0 : s.start_.getD i 0 ≠ 0) :
    reference_count s i = s.start_.count (s.start_.getD i 0) := by
  obtain ⟨L, I, S⟩ := hw
  obtain ⟨h1, h2⟩ := S.start i hi h0
  unfold reference_count
  simp only [if_neg h0]
  exact I.heap.list_rc _ h1 h2

theorem start_ne_zero_of_mem {s : list_setvec} {i x : Nat} (h : Mem s i x) :
    s.start_.getD i 0 ≠ 0 := by
  obtain ⟨vs, h1, h2⟩ := h
  intro h0
  unfold SetIs at h1
  rw [if_pos h0] at h1
  rw [h1] at h2
  simp at h2

/-- C31: structural sharing: for a reachable `list_setvec`, distinct in-range `target` and
`source`, the source holding an element `x` and having no pending posts:
`assignment(target, source, *this)` returns and allocates no pair: `data_` keeps its size
and `number_not_used_` grows by exactly the number that `drop(target)` returns after the
increment of the reference count, so nothing is taken from the free list; it leaves
`start_[target] == start_[source]` with `start_[source]` unchanged, and leaves the
reference count of the shared list equal to the number of sets that now start at it,
which is the old count plus one when the target did not already share the list and the
old count otherwise. -/
theorem C31_assignment_shares_list (s : list_setvec) (target source x : Nat)
    (hs : Reachable s) (ht : target < n_set s) (hsrc : source < n_set s)
    (hts : target ≠ source) (hne : Mem s source x) (hp : s.post_.getD source 0 = 0) :
    ∃ s1, assignment s target source none = some s1 ∧
      s1.data_.length = s.data_.length ∧
      (∃ nd s2, drop { s with data_ := (wr_value s.data_ (s.start_.getD source 0)
          ((rd s.data_ (s.start_.getD source 0)).value + 1)) } target = some (nd, s2) ∧
        s1.number_not_used_ = s.number_not_used_ + nd) ∧
      s1.start_.getD target 0 = s1.start_.getD source 0 ∧
      s1.start_.getD source 0 = s.start_.getD source 0 ∧
      reference_count s1 source = ((List.range (n_set s1)).filter
        (fun j => decide (s1.start_.getD j 0 = s1.start_.getD source 0))).length ∧
      reference_count s1 source = reference_count s source +
        (if s.start_.getD target 0 = s.start_.getD source 0 then 0 else 1) := by
  have hw := hs.wf ht
  have h0 := start_ne_zero_of_mem hne
  obtain ⟨s1, h1, hw1, hlen, _, hst, _, hnn⟩ := assignment_alias hw ht hsrc hp hts h0
  have hsrc1 : s1.start_.getD source 0 = s.start_.getD source 0 := by
    rw [hst, getD_set_ne _ _ (Ne.symm hts)]
  have htgt1 : s1.start_.getD target 0 = s.start_.getD source 0 := by
    rw [hst, getD_set_same _ _ ht]
  have hlen1 : source < s1.start_.length := by
    rw [hst, List.length_set]; exact hsrc
  have hrc1 := hw1.reference_count_eq hlen1 (by rw [hsrc1]; exact h0)
  refine ⟨s1, h1, hlen, hnn, by rw [htgt1, hsrc1], hsrc1, ?_, ?_⟩
  · rw [hrc1]
    exact count_eq_filter_range _ _
  · rw [hrc1, hw.reference_count_eq hsrc h0, hsrc1, hst]
    have h2 := count_set s.start_ target (s.start_.getD source 0) (s.start_.getD source 0) ht
    rw [if_pos rfl] at h2
    split at h2 <;> rename_i h3
    · rw [if_pos h3]; omega
    · rw [if_neg h3]; omega

theorem C31_assignment_shares_list_witness :
    Reachable example_vec ∧
    ∃ s1, assignment example_vec 3 0 none = some s1 ∧
      s1.data_.length = example_vec.data_.length ∧
      (∃ nd s2, drop { example_vec with data_ := (wr_value example_vec.data_
            (example_vec.start_.getD 0 0)
            ((rd example_vec.data_ (example_vec.start_.getD 0 0)).value + 1)) } 3 =
          some (nd, s2) ∧
        s1.number_not_used_ = example_vec.number_not_used_ + nd) ∧
      s1.start_.getD 3 0 = s1.start_.getD 0 0 ∧
      s1.start_.getD 0 0 = example_vec.start_.getD 0 0 ∧
      reference_count s1 0 = ((List.range (n_set s1)).filter
        (fun j => decide (s1.start_.getD j 0 = s1.start_.getD 0 0))).length ∧
      reference_count s1 0 = reference_count example_vec 0 +
        (if example_vec.start_.getD 3 0 = example_vec.start_.getD 0 0 then 0 else 1) :=
  ⟨example_vec_reachable,
    C31_assignment_shares_list example_vec 3 0 1 example_vec_reachable (by decide) (by decide)
      (by decide) ⟨[1, 2], ⟨[2, 3], ⟨rfl, by decide, by decide, rfl, by decide, by decide, rfl⟩,
        rfl⟩, by decide⟩ (by decide)⟩

end CppAD


namespace CppAD

/-- When every value of the left operand is in the right one, the merge loop ends with
the left flag set and the left operand exhausted. -/
theorem MergeOut.left_subset_of {pL pR : Bool} {CA CB RA RB T1 : List Nat} {rs ls1 rs1 : Bool}
    (h : MergeOut pL pR CA CB RA RB T1 true rs ls1 rs1) (hR : RA = [] ∨ RB = [])
    (hsub : ∀ x ∈ CA ++ RA, x ∈ CB ++ RB) : ls1 = true ∧ RA = [] := by
  have hb := h.1
  have hRA : RA = [] := by
    cases hRA : RA with
    | nil => rfl
    | cons y ys =>
      exfalso
      have hy : y ∈ RA := by rw [hRA]; exact List.mem_cons_self _ _
      rcases List.mem_append.1 (hsub y (List.mem_append.2 (Or.inr hy))) with h1 | h1
      · exact Nat.lt_irrefl y (hb y (List.mem_append.2 (Or.inr h1)) y
          (List.mem_append.2 (Or.inl hy)))
      · rcases hR with h2 | h2
        · rw [h2] at hy; simp at hy
        · rw [h2] at h1; simp at h1
  refine h.left_subset.2 ⟨?_, hRA⟩
  intro x hx
  rcases List.mem_append.1 (hsub x hx) with h1 | h1
  · exact h1
  · exfalso
    rcases List.mem_append.1 hx with h2 | h2
    · exact Nat.lt_irrefl x (hb x (List.mem_append.2 (Or.inl h2)) x
        (List.mem_append.2 (Or.inr h1)))
    · rw [hRA] at h2; simp at h2

theorem MergeOut.right_subset_of {pL pR : Bool} {CA CB RA RB T1 : List Nat} {ls ls1 rs1 : Bool}
    (h : MergeOut pL pR CA CB RA RB T1 ls true ls1 rs1) (hR : RA = [] ∨ RB = [])
    (hsub : ∀ x ∈ CB ++ RB, x ∈ CA ++ RA) : rs1 = true ∧ RB = [] :=
  h.swap.left_subset_of hR.symm hsub

/-- What `clear` does to the storage: the target starts nowhere and no pair is allocated. -/
theorem clear_fields {s : list_setvec} (hw : WF s) {target : Nat} (ht : target < s.start_.length) :
    ∃ s1, clear s target = some s1 ∧ s1.data_.length = s.data_.length ∧
      s.number_not_used_ ≤ s1.number_not_used_ ∧ s1.start_ = s.start_.set target 0 := by
  obtain ⟨L, I, S⟩ := hw
  obtain ⟨s2, c, hd, _, _, hst, _, _, hnn, hlen, _⟩ := drop_spec I.heap I.free.head S ht
  refine ⟨{ s2 with number_not_used_ := s2.number_not_used_ + (c.length + (L.posts target).length) },
    ?_, hlen, ?_, hst⟩
  · simp only [clear, ht, CPPAD_ASSERT_UNKNOWN, decide_True, if_true, hd, Option.bind_eq_bind,
      Option.some_bind]
  · show _ ≤ s2.number_not_used_ + _
    rw [hnn]; exact Nat.le_add_right _ _

/-- What `assignment` inside one object does to the storage: the target starts where the
source starts and no pair is allocated. -/
theorem assignment_none_fields {s : list_setvec} (hw : WF s) {target source : Nat}
    (ht : target < s.start_.length) (hs : source < s.start_.length)
    (hp : s.post_.getD source 0 = 0) :
    ∃ s1, assignment s target source none = some s1 ∧ s1.data_.length = s.data_.length ∧
      s.number_not_used_ ≤ s1.number_not_used_ ∧
      s1.start_ = s.start_.set target (s.start_.getD source 0) := by
  by_cases hts : target = source
  · subst hts
    refine ⟨s, ?_, rfl, Nat.le_refl _, (set_getD_self _ _).symm⟩
    simp only [assignment, Option.getD_none, hp, hs, CPPAD_ASSERT_UNKNOWN, decide_True,
      if_true, Option.bind_eq_bind, Option.some_bind, Option.isNone_none, and_self]
  · by_cases h0 : s.start_.getD source 0 = 0
    · obtain ⟨L, I, S⟩ := hw
      obtain ⟨s2, c, hd, _, _, hst, _, _, hnn, hlen, _⟩ := drop_spec I.heap I.free.head S ht
      refine ⟨{ s2 with
        number_not_used_ := s2.number_not_used_ + (c.length + (L.posts target).length)
        start_ := s2.start_.set target 0 }, ?_, hlen, ?_, ?_⟩
      · simp only [assignment, Option.getD_none, hp, hs, ht, CPPAD_ASSERT_UNKNOWN,
          decide_True, if_true, Option.bind_eq_bind, Option.some_bind, Option.isNone_none,
          hts, and_false, if_false, h0, ne_eq, not_true_eq_false, hd, true_and]
      · show _ ≤ s2.number_not_used_ + _
        rw [hnn]; exact Nat.le_add_right _ _
      · show s2.start_.set target 0 = _
        rw [hst, h0, List.set_set]
    · obtain ⟨s1, h1, _, hlen, hnn, hst, _⟩ := assignment_alias hw ht hs hp hts h0
      exact ⟨s1, h1, hlen, hnn, hst⟩

end CppAD


namespace CppAD

theorem get_data_index_start {s s1 : list_setvec} {k : Nat}
    (h : get_data_index s = some (k, s1)) : s1.start_ = s.start_ := by
  unfold get_data_index at h
  split at h
  · simp only [Option.bind_eq_bind] at h
    replace h := (assert_bind_some h).2
    simp only [Option.some.injEq, Prod.mk.injEq] at h
    obtain ⟨_, rfl⟩ := h
    rfl
  · simp only [Option.some.injEq, Prod.mk.injEq] at h
    obtain ⟨_, rfl⟩ := h
    rfl

theorem link_loop_start : ∀ (vs : List Nat) (s : list_setvec) (index : Nat)
    (r : Nat × list_setvec), link_loop vs s index = some r → r.2.start_ = s.start_
  | [], s, index, r, h => by
    simp only [link_loop, Option.some.injEq] at h
    subst h
    rfl
  | v :: vs, s, index, r, h => by
    unfold link_loop at h
    simp only [Option.bind_eq_bind] at h
    obtain ⟨⟨k, s1⟩, h1, h2⟩ := Option.bind_eq_some.1 h
    have h3 := link_loop_start vs _ _ r h2
    rw [h3]
    show s1.start_ = _
    exact get_data_index_start h1

/-- The list that `link_new_list` builds starts at the pair that its first call of
`get_data_index` returns. -/
theorem link_new_list_start {s s1 : list_setvec} {target : Nat} {values : List Nat}
    (h : link_new_list s target values = some s1) :
    ∃ k s2, get_data_index s = some (k, s2) ∧ s1.start_ = s.start_.set target k := by
  unfold link_new_list at h
  simp only [Option.bind_eq_bind] at h
  obtain ⟨⟨k, s2⟩, h1, h2⟩ := Option.bind_eq_some.1 h
  obtain ⟨⟨i, s4⟩, h3, h4⟩ := Option.bind_eq_some.1 h2
  simp only [Option.some.injEq] at h4
  subst h4
  refine ⟨k, s2, h1, ?_⟩
  have h5 := link_loop_start _ _ _ _ h3
  show s4.start_ = _
  rw [h5]
  show s2.start_.set target k = _
  rw [get_data_index_start h1]

/-- A list built by `drop(target)` followed by `link_new_list` is referenced by the
target only: its reference count is 1 and no other set starts at it. -/
theorem drop_link_count {s : list_setvec} (hw : WF s) {target : Nat}
    (ht : target < s.start_.length) {nd : Nat} {s3 s5 : list_setvec} {values : List Nat}
    (hd : drop s target = some (nd, s3))
    (h5 : link_new_list { s3 with number_not_used_ := s3.number_not_used_ + nd } target values
      = some s5) (hw5 : WF s5) :
    s5.start_.getD target 0 ≠ 0 ∧ reference_count s5 target = 1 ∧
      ∀ j, j ≠ target → s5.start_.getD j 0 ≠ s5.start_.getD target 0 := by
  obtain ⟨L, I, S⟩ := hw
  obtain ⟨nd1, s31, L3, hd1, I3, S3, _, _, hst, _⟩ := drop_wf I S ht s.temporary_
  rw [hd] at hd1
  simp only [Option.some.injEq, Prod.mk.injEq] at hd1
  obtain ⟨rfl, rfl⟩ := hd1
  have I4 : Inv { s3 with number_not_used_ := s3.number_not_used_ + nd } L3
      (fun h => s3.start_.count h) [] := I3.of_fields rfl rfl rfl rfl
  have S4 : SetLink { s3 with number_not_used_ := s3.number_not_used_ + nd } L3
      (fun h => s3.start_.count h) := S3.link_fields rfl rfl rfl
  obtain ⟨k, s2, hk, hst5⟩ := link_new_list_start h5
  obtain ⟨k1, s21, hk1, hk0, _, _, _, _, _, _, _, hfresh, _⟩ :=
    get_data_index_spec I4.heap I4.free
  rw [hk] at hk1
  simp only [Option.some.injEq, Prod.mk.injEq] at hk1
  obtain ⟨rfl, rfl⟩ := hk1
  have hcount0 : s3.start_.count k = 0 := count_eq_zero_of_fresh S4 hfresh hk0
  have ht3 : target < s3.start_.length := by rw [hst, List.length_set]; exact ht
  have hst5a : s5.start_ = s3.start_.set target k := hst5
  have htk : s5.start_.getD target 0 = k := by rw [hst5a, getD_set_same _ _ ht3]
  have ht5 : target < s5.start_.length := by rw [hst5a, List.length_set]; exact ht3
  have hcount1 : s5.start_.count k = 1 := by
    have h1 := count_set s3.start_ target k k ht3
    rw [if_pos rfl, hcount0, hst, getD_set_same _ _ ht, if_neg (Ne.symm hk0), ← hst,
      ← hst5a] at h1
    omega
  refine ⟨by rw [htk]; exact hk0, ?_, ?_⟩
  · rw [hw5.reference_count_eq ht5 (by rw [htk]; exact hk0), htk, hcount1]
  · intro j hj heq
    rw [htk] at heq
    have hjlt : j < s5.start_.length := getD_lt_of_ne_zero (by rw [heq]; exact hk0)
    have := two_le_count ht5 hjlt hj hk0 htk heq
    omega

end CppAD


namespace CppAD

/-- The three paths of `binary_union` inside one object: the left operand is shared when
the right one is a subset of it, else the right operand is shared when the left one is a
subset of it, else a new list is linked after `drop(target)`. -/
theorem binary_union_path {s : list_setvec} (hw : WF s) {target left right : Nat}
    (ht : target < s.start_.length) (hl : left < s.start_.length)
    (hr : right < s.start_.length) (hpl : s.post_.getD left 0 = 0)
    (hpr : s.post_.getD right 0 = 0) {A B : List Nat} (hA : SetIs s left A)
    (hB : SetIs s right B) :
    ((∀ x ∈ B, x ∈ A) ∧ ∃ T, binary_union s target left right none =
        assignment { s with temporary_ := T } target left none) ∨
    (¬ (∀ x ∈ B, x ∈ A) ∧ (∀ x ∈ A, x ∈ B) ∧ ∃ T, binary_union s target left right none =
        assignment { s with temporary_ := T } target right none) ∨
    (¬ (∀ x ∈ B, x ∈ A) ∧ ¬ (∀ x ∈ A, x ∈ B) ∧ ∃ T nd s3 s5 values,
        drop { s with temporary_ := T } target = some (nd, s3) ∧
        link_new_list { s3 with number_not_used_ := s3.number_not_used_ + nd } target values
          = some s5 ∧
        WF s5 ∧ binary_union s target left right none = some s5) := by
  have hasserts := binary_asserts_eq (s := s) none (fun _ h => by cases h) ht hl hr hpl hpr
  simp only [Option.getD_none] at hasserts
  obtain ⟨A1, hA1, _, _, hiffA⟩ := hw.setIs hl
  obtain ⟨B1, hB1, _, _, hiffB⟩ := hw.setIs hr
  have hAA := SetIs.unique hA1 hA
  have hBB := SetIs.unique hB1 hB
  subst hAA hBB
  by_cases h0r : s.start_.getD right 0 = 0
  · left
    refine ⟨by rw [hiffB.2 h0r]; simp, s.temporary_, ?_⟩
    unfold binary_union
    simp only [Option.getD_none]
    rw [hasserts]
    simp only [Option.bind_eq_bind, Option.some_bind]
    rw [if_pos h0r]
  by_cases h0l : s.start_.getD left 0 = 0
  · right; left
    have hAnil := hiffA.2 h0l
    have hBne : B1 ≠ [] := fun h => h0r (hiffB.1 h)
    refine ⟨?_, by rw [hAnil]; simp, s.temporary_, ?_⟩
    · intro h
      cases hB1l : B1 with
      | nil => exact hBne hB1l
      | cons b bs =>
        have := h b (by rw [hB1l]; exact List.mem_cons_self _ _)
        rw [hAnil] at this
        simp at this
    · unfold binary_union
      simp only [Option.getD_none]
      rw [hasserts]
      simp only [Option.bind_eq_bind, Option.some_bind]
      rw [if_neg h0r, if_pos h0l]
  obtain ⟨m0, m, CA, CB, RA, RB, ls1, rs1, hinit, hloop, hls, hrs, hvl, hvr, hAeq, hBeq, hR, hM,
      hrestl, hrestr, hsA, hsB, hvA, hvB⟩ :=
    merge_spec true true hw hw rfl hl hr h0l h0r hA hB
  have hunfold : binary_union s target left right none =
      (if (m.right_is_subset && decide (m.value_right = s.end_)) = true then
        assignment { s with temporary_ := m.temporary } target left none
      else if (m.left_is_subset && decide (m.value_left = s.end_)) = true then
        assignment { s with temporary_ := m.temporary } target right none
      else union_new_list { s with temporary_ := m.temporary }
        { s with temporary_ := m.temporary } target m) := by
    unfold binary_union
    simp only [Option.getD_none]
    rw [hasserts]
    simp only [Option.bind_eq_bind, Option.some_bind]
    rw [if_neg h0r, if_neg h0l, hinit]
    simp only [Option.some_bind]
    rw [union_loop_eq, hloop]
    simp only [Option.some_bind]
  rw [hunfold]
  by_cases hb1 : rs1 = true ∧ RB = []
  · left
    have hsub := (hM.right_subset).1 hb1
    refine ⟨?_, m.temporary, ?_⟩
    · intro x hx
      rw [hAeq]
      rw [hBeq] at hx
      exact List.mem_append_left _ (hsub.1 x hx)
    · rw [if_pos]
      rw [hrs, hb1.1, Bool.true_and, decide_eq_true_eq]
      exact hvr.2 hb1.2
  have hcond1 : ¬ (m.right_is_subset && decide (m.value_right = s.end_)) = true := by
    rw [hrs, Bool.and_eq_true, decide_eq_true_eq, hvr]
    exact hb1
  rw [if_neg hcond1]
  have hnotBA : ¬ (∀ x ∈ B1, x ∈ A1) := by
    intro h
    apply hb1
    refine hM.right_subset_of hR ?_
    rw [← hAeq, ← hBeq]
    exact h
  right
  by_cases hb2 : ls1 = true ∧ RA = []
  · left
    have hsub := (hM.left_subset).1 hb2
    refine ⟨hnotBA, ?_, m.temporary, ?_⟩
    · intro x hx
      rw [hBeq]
      rw [hAeq] at hx
      exact List.mem_append_left _ (hsub.1 x hx)
    · rw [if_pos]
      rw [hls, hb2.1, Bool.true_and, decide_eq_true_eq]
      exact hvl.2 hb2.2
  have hcond2 : ¬ (m.left_is_subset && decide (m.value_left = s.end_)) = true := by
    rw [hls, Bool.and_eq_true, decide_eq_true_eq, hvl]
    exact hb2
  rw [if_neg hcond2]
  have hnotAB : ¬ (∀ x ∈ A1, x ∈ B1) := by
    intro h
    apply hb2
    refine hM.left_subset_of hR ?_
    rw [← hAeq, ← hBeq]
    exact h
  right
  have hRA : RA.Pairwise (· < ·) := by
    rw [hAeq] at hsA; exact (List.pairwise_append.1 hsA).2.1
  have hRB : RB.Pairwise (· < ·) := by
    rw [hBeq] at hsB; exact (List.pairwise_append.1 hsB).2.1
  have hU2 := hM.union_two_le hR hb1 hb2
  have hUs := hM.union_sorted hR hRA hRB
  have hUm := hM.union_mem
  have hw2 : WF { s with temporary_ := m.temporary ++ RA ++ RB } := hw.of_temporary _
  obtain ⟨nd, s3, s5, hd, htmp3, h5, hw5, _⟩ :=
    drop_link_spec hw2 ht (m.temporary ++ RA ++ RB)
      (by intro h; rw [h] at hU2; simp at hU2) hUs
      (by
        intro x hx
        rcases (hUm x).1 hx with h | h
        · exact hvA x (by rw [hAeq]; exact h)
        · exact hvB x (by rw [hBeq]; exact h))
  refine ⟨hnotBA, hnotAB, m.temporary ++ RA ++ RB, nd, s3, s5, m.temporary ++ RA ++ RB, hd, h5,
    hw5, ?_⟩
  unfold union_new_list
  have e1 := hrestl m.temporary
  have e2 := hrestr (m.temporary ++ RA)
  simp only
  rw [e1]
  simp only [Option.bind_eq_bind, Option.some_bind]
  rw [e2]
  simp only [Option.some_bind]
  rw [hd]
  simp only [Option.some_bind, CPPAD_ASSERT_UNKNOWN, htmp3]
  rw [if_pos (by simpa using hU2)]
  simp only [Option.some_bind]
  rw [htmp3] at h5
  exact h5

/-- The paths of `binary_intersection` inside one object: the target is cleared when an
operand is empty, else the left operand is shared when it is a subset of the right one,
else the right operand is shared when it is a subset of the left one, else the target is
dropped and, unless the operands are disjoint, a new list is linked. -/
theorem binary_intersection_path {s : list_setvec} (hw : WF s) {target left right : Nat}
    (ht : target < s.start_.length) (hl : left < s.start_.length)
    (hr : right < s.start_.length) (hpl : s.post_.getD left 0 = 0)
    (hpr : s.post_.getD right 0 = 0) {A B : List Nat} (hA : SetIs s left A)
    (hB : SetIs s right B) :
    ((s.start_.getD left 0 = 0 ∨ s.start_.getD right 0 = 0) ∧
        binary_intersection s target left right none = clear s target) ∨
    (s.start_.getD left 0 ≠ 0 ∧ s.start_.getD right 0 ≠ 0 ∧ (∀ x ∈ A, x ∈ B) ∧
        ∃ T, binary_intersection s target left right none =
          assignment { s with temporary_ := T } target left none) ∨
    (s.start_.getD left 0 ≠ 0 ∧ s.start_.getD right 0 ≠ 0 ∧ ¬ (∀ x ∈ A, x ∈ B) ∧
        (∀ x ∈ B, x ∈ A) ∧
        ∃ T, binary_intersection s target left right none =
          assignment { s with temporary_ := T } target right none) ∨
    (¬ (∀ x ∈ A, x ∈ B) ∧ ¬ (∀ x ∈ B, x ∈ A) ∧ (∀ x ∈ A, x ∉ B) ∧
        ∃ T, binary_intersection s target left right none =
          clear { s with temporary_ := T } target) ∨
    (¬ (∀ x ∈ A, x ∈ B) ∧ ¬ (∀ x ∈ B, x ∈ A) ∧ (∃ x ∈ A, x ∈ B) ∧
        ∃ T nd s3 s5 values,
          drop { s with temporary_ := T } target = some (nd, s3) ∧
          link_new_list { s3 with number_not_used_ := s3.number_not_used_ + nd } target values
            = some s5 ∧
          WF s5 ∧ binary_intersection s target left right none = some s5) := by
  have hasserts := binary_asserts_eq (s := s) none (fun _ h => by cases h) ht hl hr hpl hpr
  simp only [Option.getD_none] at hasserts
  by_cases h0 : s.start_.getD left 0 = 0 ∨ s.start_.getD right 0 = 0
  · left
    refine ⟨h0, ?_⟩
    unfold binary_intersection
    simp only [Option.getD_none]
    rw [hasserts]
    simp only [Option.bind_eq_bind, Option.some_bind]
    rw [if_pos h0]
  right
  have h0l : s.start_.getD left 0 ≠ 0 := fun h => h0 (Or.inl h)
  have h0r : s.start_.getD right 0 ≠ 0 := fun h => h0 (Or.inr h)
  obtain ⟨m0, m, CA, CB, RA, RB, ls1, rs1, hinit, hloop, hls, hrs, hvl, hvr, hAeq, hBeq, hR, hM,
      _, _, hsA, hsB, hvA, hvB⟩ :=
    merge_spec false false hw hw rfl hl hr h0l h0r hA hB
  have hw1 : WF { s with temporary_ := m.temporary } := hw.of_temporary _
  have hunfold : binary_intersection s target left right none =
      (if (m.left_is_subset && decide (m.value_left = s.end_)) = true then
        assignment { s with temporary_ := m.temporary } target left none
      else if (m.right_is_subset && decide (m.value_right = s.end_)) = true then
        assignment { s with temporary_ := m.temporary } target right none
      else (drop { s with temporary_ := m.temporary } target).bind fun x =>
        if ({ x.2 with number_not_used_ := x.2.number_not_used_ + x.1 }).temporary_.length = 0
        then some { x.2 with number_not_used_ := x.2.number_not_used_ + x.1 }
        else link_new_list { x.2 with number_not_used_ := x.2.number_not_used_ + x.1 } target
          ({ x.2 with number_not_used_ := x.2.number_not_used_ + x.1 }).temporary_) := by
    unfold binary_intersection
    simp only [Option.getD_none]
    rw [hasserts]
    simp only [Option.bind_eq_bind, Option.some_bind]
    rw [if_neg h0, hinit]
    simp only [Option.some_bind]
    rw [intersection_loop_eq, hloop]
    simp only [Option.some_bind]
  rw [hunfold]
  by_cases hb1 : ls1 = true ∧ RA = []
  · left
    have hsub := (hM.left_subset).1 hb1
    refine ⟨h0l, h0r, ?_, m.temporary, ?_⟩
    · intro x hx
      rw [hBeq]
      rw [hAeq] at hx
      exact List.mem_append_left _ (hsub.1 x hx)
    · rw [if_pos]
      rw [hls, hb1.1, Bool.true_and, decide_eq_true_eq]
      exact hvl.2 hb1.2
  have hcond1 : ¬ (m.left_is_subset && decide (m.value_left = s.end_)) = true := by
    rw [hls, Bool.and_eq_true, decide_eq_true_eq, hvl]
    exact hb1
  rw [if_neg hcond1]
  have hnotAB : ¬ (∀ x ∈ A, x ∈ B) := by
    intro h
    apply hb1
    refine hM.left_subset_of hR ?_
    rw [← hAeq, ← hBeq]
    exact h
  right
  by_cases hb2 : rs1 = true ∧ RB = []
  · left
    have hsub := (hM.right_subset).1 hb2
    refine ⟨h0l, h0r, hnotAB, ?_, m.temporary, ?_⟩
    · intro x hx
      rw [hAeq]
      rw [hBeq] at hx
      exact List.mem_append_left _ (hsub.1 x hx)
    · rw [if_pos]
      rw [hrs, hb2.1, Bool.true_and, decide_eq_true_eq]
      exact hvr.2 hb2.2
  have hcond2 : ¬ (m.right_is_subset && decide (m.value_right = s.end_)) = true := by
    rw [hrs, Bool.and_eq_true, decide_eq_true_eq, hvr]
    exact hb2
  rw [if_neg hcond2]
  have hnotBA : ¬ (∀ x ∈ B, x ∈ A) := by
    intro h
    apply hb2
    refine hM.right_subset_of hR ?_
    rw [← hAeq, ← hBeq]
    exact h
  right
  have hTm : ∀ x, x ∈ m.temporary ↔ x ∈ A ∧ x ∈ B := by
    intro x
    rw [hAeq, hBeq]
    exact hM.inter_mem hR x
  by_cases hT : m.temporary = []
  · left
    refine ⟨hnotAB, hnotBA, ?_, m.temporary, ?_⟩
    · intro x hx hxB
      have := (hTm x).2 ⟨hx, hxB⟩
      rw [hT] at this
      simp at this
    · obtain ⟨L1, I1, S1⟩ := id hw1
      obtain ⟨nd, s3, L3, hd, _, _, _, _, _, _, htmp3⟩ := drop_wf I1 S1 ht m.temporary
      have h2 : target < ({ s with temporary_ := m.temporary }).start_.length := ht
      rw [hd]
      simp only [clear, CPPAD_ASSERT_UNKNOWN, h2, decide_True, if_true, hd,
        Option.bind_eq_bind, Option.some_bind]
      rw [if_pos]
      show s3.temporary_.length = 0
      rw [htmp3]
      show m.temporary.length = 0
      rw [hT]; rfl
  · right
    obtain ⟨nd, s3, s5, hd, htmp3, h5, hw5, _⟩ :=
      drop_link_spec hw1 ht m.temporary hT hM.2.1
        (fun x hx => hvA x ((hTm x).1 hx).1)
    have htmp4 : s3.temporary_ = m.temporary := htmp3
    refine ⟨hnotAB, hnotBA, ?_, m.temporary, nd, s3, s5, m.temporary, hd, h5, hw5, ?_⟩
    · cases hTl : m.temporary with
      | nil => exact absurd hTl hT
      | cons x xs =>
        have hx := (hTm x).1 (by rw [hTl]; exact List.mem_cons_self _ _)
        exact ⟨x, hx.1, hx.2⟩
    · rw [hd]
      simp only [Option.some_bind]
      rw [if_neg]
      · rw [htmp4] at h5 ⊢
        exact h5
      · show ¬ s3.temporary_.length = 0
        rw [htmp4]
        intro h
        exact hT (List.length_eq_zero.1 h)

end CppAD


namespace CppAD

theorem alias_result {s : list_setvec} (hw : WF s) (T : List Nat) {target source : Nat}
    (ht : target < s.start_.length) (hs : source < s.start_.length)
    (hp : s.post_.getD source 0 = 0) :
    ∃ s1, assignment { s with temporary_ := T } target source none = some s1 ∧
      s1.data_.length = s.data_.length ∧ s.number_not_used_ ≤ s1.number_not_used_ ∧
      s1.start_.getD target 0 = s.start_.getD source 0 ∧
      s1.start_.getD source 0 = s.start_.getD source 0 := by
  obtain ⟨s1, h1, hlen, hnn, hst⟩ :=
    @assignment_none_fields _ (hw.of_temporary T) target source ht hs hp
  have hst1 : s1.start_ = s.start_.set target (s.start_.getD source 0) := hst
  refine ⟨s1, h1, hlen, hnn, by rw [hst1, getD_set_same _ _ ht], ?_⟩
  by_cases h : source = target
  · subst h
    rw [hst1, getD_set_same _ _ ht]
  · rw [hst1, getD_set_ne _ _ h]

theorem clear_result {s : list_setvec} (hw : WF s) (T : List Nat) {target : Nat}
    (ht : target < s.start_.length) :
    ∃ s1, clear { s with temporary_ := T } target = some s1 ∧
      s1.data_.length = s.data_.length ∧ s.number_not_used_ ≤ s1.number_not_used_ ∧
      s1.start_.getD target 0 = 0 ∧
      ∀ j, s.start_.getD j 0 = 0 → s1.start_.getD j 0 = 0 := by
  obtain ⟨s1, h1, hlen, hnn, hst⟩ := @clear_fields _ (hw.of_temporary T) target ht
  have hst1 : s1.start_ = s.start_.set target 0 := hst
  refine ⟨s1, h1, hlen, hnn, by rw [hst1, getD_set_same _ _ ht], ?_⟩
  intro j hj
  by_cases h : j = target
  · subst h
    rw [hst1, getD_set_same _ _ ht]
  · rw [hst1, getD_set_ne _ _ h]; exact hj

/-- The result of `binary_union` inside one object, by subset relation of the operands. -/
theorem binary_union_alias {s : list_setvec} (hw : WF s) {target left right : Nat}
    (ht : target < s.start_.length) (hl : left < s.start_.length)
    (hr : right < s.start_.length) (hpl : s.post_.getD left 0 = 0)
    (hpr : s.post_.getD right 0 = 0) :
    ∃ s1, binary_union s target left right none = some s1 ∧
      ((∀ x, Mem s right x → Mem s left x) →
        (∃ T, binary_union s target left right none =
          assignment { s with temporary_ := T } target left none) ∧
        s1.start_.getD target 0 = s1.start_.getD left 0 ∧
        s1.start_.getD left 0 = s.start_.getD left 0 ∧
        s1.data_.length = s.data_.length ∧ s.number_not_used_ ≤ s1.number_not_used_) ∧
      ((∀ x, Mem s left x → Mem s right x) →
        (∃ T source, binary_union s target left right none =
          assignment { s with temporary_ := T } target source none) ∧
        s1.data_.length = s.data_.length ∧ s.number_not_used_ ≤ s1.number_not_used_) ∧
      (¬ (∀ x, Mem s right x → Mem s left x) → ¬ (∀ x, Mem s left x → Mem s right x) →
        s1.start_.getD target 0 ≠ 0 ∧ reference_count s1 target = 1 ∧
        ∀ j, j ≠ target → s1.start_.getD j 0 ≠ s1.start_.getD target 0) := by
  obtain ⟨A, hA, _⟩ := hw.setIs hl
  obtain ⟨B, hB, _⟩ := hw.setIs hr
  have hBA : (∀ x, Mem s right x → Mem s left x) ↔ ∀ x ∈ B, x ∈ A := by
    simp only [Mem.iff_of_setIs hA, Mem.iff_of_setIs hB]
  have hAB : (∀ x, Mem s left x → Mem s right x) ↔ ∀ x ∈ A, x ∈ B := by
    simp only [Mem.iff_of_setIs hA, Mem.iff_of_setIs hB]
  rw [hBA, hAB]
  rcases binary_union_path hw ht hl hr hpl hpr hA hB with ⟨h1, T, hT⟩ | ⟨h1, h2, T, hT⟩ |
    ⟨h1, h2, T, nd, s3, s5, values, hd, h5, hw5, hT⟩
  · obtain ⟨s1, e1, hlen, hnn, hst, hsl⟩ := alias_result hw T ht hl hpl
    refine ⟨s1, by rw [hT]; exact e1, fun _ => ⟨⟨T, hT⟩, by rw [hst, hsl], hsl, hlen, hnn⟩,
      fun _ => ⟨⟨T, left, hT⟩, hlen, hnn⟩, fun h => absurd h1 h⟩
  · obtain ⟨s1, e1, hlen, hnn, _, _⟩ := alias_result hw T ht hr hpr
    refine ⟨s1, by rw [hT]; exact e1, fun h => absurd h h1,
      fun _ => ⟨⟨T, right, hT⟩, hlen, hnn⟩, fun _ h => absurd h2 h⟩
  · refine ⟨s5, hT, fun h => absurd h h1, fun h => absurd h h2, fun _ _ => ?_⟩
    exact drop_link_count (hw.of_temporary T) ht hd h5 hw5

/-- The result of `binary_intersection` inside one object, by subset relation of the
operands. -/
theorem binary_intersection_alias {s : list_setvec} (hw : WF s) {target left right : Nat}
    (ht : target < s.start_.length) (hl : left < s.start_.length)
    (hr : right < s.start_.length) (hpl : s.post_.getD left 0 = 0)
    (hpr : s.post_.getD right 0 = 0) :
    ∃ s1, binary_intersection s target left right none = some s1 ∧
      ((∀ x, Mem s left x → Mem s right x) →
        (binary_intersection s target left right none = clear s target ∨
          ∃ T, binary_intersection s target left right none =
            assignment { s with temporary_ := T } target left none) ∧
        s1.start_.getD target 0 = s1.start_.getD left 0 ∧
        s1.start_.getD left 0 = s.start_.getD left 0 ∧
        s1.data_.length = s.data_.length ∧ s.number_not_used_ ≤ s1.number_not_used_) ∧
      ((∀ x, Mem s right x → Mem s left x) →
        (binary_intersection s target left right none = clear s target ∨
          ∃ T source, binary_intersection s target left right none =
            assignment { s with temporary_ := T } target source none) ∧
        s1.data_.length = s.data_.length ∧ s.number_not_used_ ≤ s1.number_not_used_) ∧
      (¬ (∀ x, Mem s left x → Mem s right x) → ¬ (∀ x, Mem s right x → Mem s left x) →
        (∃ x, Mem s left x ∧ Mem s right x) →
        s1.start_.getD target 0 ≠ 0 ∧ reference_count s1 target = 1 ∧
        ∀ j, j ≠ target → s1.start_.getD j 0 ≠ s1.start_.getD target 0) := by
  obtain ⟨A, hA, _, _, hiffA⟩ := hw.setIs hl
  obtain ⟨B, hB, _, _, hiffB⟩ := hw.setIs hr
  have hBA : (∀ x, Mem s right x → Mem s left x) ↔ ∀ x ∈ B, x ∈ A := by
    simp only [Mem.iff_of_setIs hA, Mem.iff_of_setIs hB]
  have hAB : (∀ x, Mem s left x → Mem s right x) ↔ ∀ x ∈ A, x ∈ B := by
    simp only [Mem.iff_of_setIs hA, Mem.iff_of_setIs hB]
  have hcom : (∃ x, Mem s left x ∧ Mem s right x) ↔ ∃ x ∈ A, x ∈ B := by
    simp only [Mem.iff_of_setIs hA, Mem.iff_of_setIs hB, exists_prop]
  rw [hBA, hAB, hcom]
  rcases binary_intersection_path hw ht hl hr hpl hpr hA hB with ⟨h0, hT⟩ | ⟨_, _, h1, T, hT⟩ |
    ⟨_, _, h1, h2, T, hT⟩ | ⟨h1, h2, h3, T, hT⟩ |
    ⟨h1, h2, h3, T, nd, s3, s5, values, hd, h5, hw5, hT⟩
  · obtain ⟨s1, e1, hlen, hnn, hst, hz⟩ := clear_result hw s.temporary_ ht
    have e2 : clear s target = some s1 := e1
    refine ⟨s1, by rw [hT]; exact e2, ?_, fun _ => ⟨Or.inl hT, hlen, hnn⟩, ?_⟩
    · intro hsub
      have hl0 : s.start_.getD left 0 = 0 := by
        rcases h0 with h0 | h0
        · exact h0
        · apply hiffA.1
          have hBnil := hiffB.2 h0
          cases hAl : A with
          | nil => rfl
          | cons a as =>
            have := hsub a (by rw [hAl]; exact List.mem_cons_self _ _)
            rw [hBnil] at this
            simp at this
      exact ⟨Or.inl hT, by rw [hst, hz left hl0], by rw [hz left hl0, hl0], hlen, hnn⟩
    · intro _ _ ⟨x, hxA, hxB⟩
      exfalso
      rcases h0 with h0 | h0
      · rw [hiffA.2 h0] at hxA; simp at hxA
      · rw [hiffB.2 h0] at hxB; simp at hxB
  · obtain ⟨s1, e1, hlen, hnn, hst, hsl⟩ := alias_result hw T ht hl hpl
    refine ⟨s1, by rw [hT]; exact e1,
      fun _ => ⟨Or.inr ⟨T, hT⟩, by rw [hst, hsl], hsl, hlen, hnn⟩,
      fun _ => ⟨Or.inr ⟨T, left, hT⟩, hlen, hnn⟩, fun h => absurd h1 h⟩
  · obtain ⟨s1, e1, hlen, hnn, _, _⟩ := alias_result hw T ht hr hpr
    refine ⟨s1, by rw [hT]; exact e1, fun h => absurd h h1,
      fun _ => ⟨Or.inr ⟨T, right, hT⟩, hlen, hnn⟩, fun _ h => absurd h2 h⟩
  · obtain ⟨s1, e1, _⟩ := clear_result hw T ht
    refine ⟨s1, by rw [hT]; exact e1, fun h => absurd h h1, fun h => absurd h h2, ?_⟩
    intro _ _ ⟨x, hxA, hxB⟩
    exact absurd hxB (h3 x hxA)
  · refine ⟨s5, hT, fun h => absurd h h1, fun h => absurd h h2, fun _ _ _ => ?_⟩
    exact drop_link_count (hw.of_temporary T) ht hd h5 hw5

/-- C32: subset detection takes the aliasing path: for a reachable `list_setvec`,
in-range `target`, `left`, `right` and operands without pending posts, inside one object:
when the right operand is a subset of the left one (equal operands included),
`binary_union` is the call `assignment(target, left, *this)` (run with some contents of
the scratch vector `temporary_`), which leaves `start_[target] == start_[left]` and
allocates no pair; when the left operand is a subset of the right one, `binary_union` is
an `assignment` from an operand too; only when neither operand is a subset of the other
the target gets a new list, with reference count 1, at which no other set starts. The
same holds for `binary_intersection` with the operands exchanged: when the left operand
is a subset of the right one it is `clear(target)` (left empty) or
`assignment(target, left, *this)` and leaves `start_[target] == start_[left]`; when the
right one is a subset of the left one it is `clear` or an `assignment` from an operand;
and a new list with reference count 1 is built only when neither is a subset of the
other (and then exactly when the operands have a common element). -/
theorem C32_subset_takes_alias (s : list_setvec) (target left right : Nat) (hs : Reachable s)
    (ht : target < n_set s) (hl : left < n_set s) (hr : right < n_set s)
    (hpl : s.post_.getD left 0 = 0) (hpr : s.post_.getD right 0 = 0) :
    (∃ s1, binary_union s target left right none = some s1 ∧
      ((∀ x, Mem s right x → Mem s left x) →
        (∃ T, binary_union s target left right none =
          assignment { s with temporary_ := T } target left none) ∧
        s1.start_.getD target 0 = s1.start_.getD left 0 ∧
        s1.start_.getD left 0 = s.start_.getD left 0 ∧
        s1.data_.length = s.data_.length ∧ s.number_not_used_ ≤ s1.number_not_used_) ∧
      ((∀ x, Mem s left x → Mem s right x) →
        (∃ T source, binary_union s target left right none =
          assignment { s with temporary_ := T } target source none) ∧
        s1.data_.length = s.data_.length ∧ s.number_not_used_ ≤ s1.number_not_used_) ∧
      (¬ (∀ x, Mem s right x → Mem s left x) → ¬ (∀ x, Mem s left x → Mem s right x) →
        s1.start_.getD target 0 ≠ 0 ∧ reference_count s1 target = 1 ∧
        ∀ j, j ≠ target → s1.start_.getD j 0 ≠ s1.start_.getD target 0)) ∧
    (∃ s1, binary_intersection s target left right none = some s1 ∧
      ((∀ x, Mem s left x → Mem s right x) →
        (binary_intersection s target left right none = clear s target ∨
          ∃ T, binary_intersection s target left right none =
            assignment { s with temporary_ := T } target left none) ∧
        s1.start_.getD target 0 = s1.start_.getD left 0 ∧
        s1.start_.getD left 0 = s.start_.getD left 0 ∧
        s1.data_.length = s.data_.length ∧ s.number_not_used_ ≤ s1.number_not_used_) ∧
      ((∀ x, Mem s right x → Mem s left x) →
        (binary_intersection s target left right none = clear s target ∨
          ∃ T source, binary_intersection s target left right none =
            assignment { s with temporary_ := T } target source none) ∧
        s1.data_.length = s.data_.length ∧ s.number_not_used_ ≤ s1.number_not_used_) ∧
      (¬ (∀ x, Mem s left x → Mem s right x) → ¬ (∀ x, Mem s right x → Mem s left x) →
        (∃ x, Mem s left x ∧ Mem s right x) →
        s1.start_.getD target 0 ≠ 0 ∧ reference_count s1 target = 1 ∧
        ∀ j, j ≠ target → s1.start_.getD j 0 ≠ s1.start_.getD target 0)) :=
  ⟨binary_union_alias (hs.wf ht) ht hl hr hpl hpr,
    binary_intersection_alias (hs.wf ht) ht hl hr hpl hpr⟩

theorem C32_subset_takes_alias_witness :
    Reachable example_vec ∧
    (∃ s1, binary_union example_vec 5 0 3 none = some s1 ∧
      ((∀ x, Mem example_vec 3 x → Mem example_vec 0 x) →
        (∃ T, binary_union example_vec 5 0 3 none =
          assignment { example_vec with temporary_ := T } 5 0 none) ∧
        s1.start_.getD 5 0 = s1.start_.getD 0 0 ∧
        s1.start_.getD 0 0 = example_vec.start_.getD 0 0 ∧
        s1.data_.length = example_vec.data_.length ∧ example_vec.number_not_used_ ≤ s1.number_not_used_) ∧
      ((∀ x, Mem example_vec 0 x → Mem example_vec 3 x) →
        (∃ T source, binary_union example_vec 5 0 3 none =
          assignment { example_vec with temporary_ := T } 5 source none) ∧
        s1.data_.length = example_vec.data_.length ∧ example_vec.number_not_used_ ≤ s1.number_not_used_) ∧
      (¬ (∀ x, Mem example_vec 3 x → Mem example_vec 0 x) → ¬ (∀ x, Mem example_vec 0 x → Mem example_vec 3 x) →
        s1.start_.getD 5 0 ≠ 0 ∧ reference_count s1 5 = 1 ∧
        ∀ j, j ≠ 5 → s1.start_.getD j 0 ≠ s1.start_.getD 5 0)) ∧
    (∃ s1, binary_intersection example_vec 5 0 3 none = some s1 ∧
      ((∀ x, Mem example_vec 0 x → Mem example_vec 3 x) →
        (binary_intersection example_vec 5 0 3 none = clear example_vec 5 ∨
          ∃ T, binary_intersection example_vec 5 0 3 none =
            assignment { example_vec with temporary_ := T } 5 0 none) ∧
        s1.start_.getD 5 0 = s1.start_.getD 0 0 ∧
        s1.start_.getD 0 0 = example_vec.start_.getD 0 0 ∧
        s1.data_.length = example_vec.data_.length ∧ example_vec.number_not_used_ ≤ s1.number_not_used_) ∧
      ((∀ x, Mem example_vec 3 x → Mem example_vec 0 x) →
        (binary_intersection example_vec 5 0 3 none = clear example_vec 5 ∨
          ∃ T source, binary_intersection example_vec 5 0 3 none =
            assignment { example_vec with temporary_ := T } 5 source none) ∧
        s1.data_.length = example_vec.data_.length ∧ example_vec.number_not_used_ ≤ s1.number_not_used_) ∧
      (¬ (∀ x, Mem example_vec 0 x → Mem example_vec 3 x) → ¬ (∀ x, Mem example_vec 3 x → Mem example_vec 0 x) →
        (∃ x, Mem example_vec 0 x ∧ Mem example_vec 3 x) →
        s1.start_.getD 5 0 ≠ 0 ∧ reference_count s1 5 = 1 ∧
        ∀ j, j ≠ 5 → s1.start_.getD j 0 ≠ s1.start_.getD 5 0)) :=
  ⟨example_vec_reachable,
    C32_subset_takes_alias example_vec 5 0 3 example_vec_reachable (by decide) (by decide)
      (by decide) (by decide) (by decide)⟩

end CppAD


namespace CppAD

theorem length_eq_of_cover {l : List Nat} {n : Nat} (hnd : l.Nodup)
    (hmem : ∀ x, x ∈ l ↔ x < n) : l.length = n := by
  have h := (List.perm_ext_iff_of_nodup hnd (List.nodup_range n)).2
    (fun a => by rw [hmem a, List.mem_range])
  rw [h.length_eq, List.length_range]

theorem mem_heads {l : List Nat} {h : Nat} :
    h ∈ l.dedup.filter (fun h => decide (h ≠ 0)) ↔ h ∈ l ∧ h ≠ 0 := by
  simp [List.mem_filter]

theorem getD_of_mem {l : List Nat} {h : Nat} (hm : h ∈ l) : ∃ j, j < l.length ∧ l.getD j 0 = h := by
  obtain ⟨j, hj, hjk⟩ := List.getElem_of_mem hm
  exact ⟨j, hj, by rw [List.getD_eq_getElem?_getD, List.getElem?_eq_getElem hj, hjk]; rfl⟩

/-- Every pair of `data_` is in exactly one of: index 0, the free list, a posting, the
reference counters, the element pairs of a list. -/
theorem node_partition {s : list_setvec} {L : Layout}
    (I : Inv s L (fun h => s.start_.count h) []) (S : SetLink s L (fun h => s.start_.count h)) :
    ([0] ++ L.free ++ (List.range s.start_.length).flatMap L.posts ++
        s.start_.dedup.filter (fun h => decide (h ≠ 0)) ++
        (s.start_.dedup.filter (fun h => decide (h ≠ 0))).flatMap L.elems).Nodup ∧
    ∀ x, x ∈ [0] ++ L.free ++ (List.range s.start_.length).flatMap L.posts ++
        s.start_.dedup.filter (fun h => decide (h ≠ 0)) ++
        (s.start_.dedup.filter (fun h => decide (h ≠ 0))).flatMap L.elems ↔
      x < s.data_.length := by
  have H := I.heap
  have hhead : ∀ h, h ∈ s.start_.dedup.filter (fun h => decide (h ≠ 0)) →
      h < s.data_.length ∧ L.own h = Owner.head := by
    intro h hh
    obtain ⟨h1, h2⟩ := mem_heads.1 hh
    obtain ⟨j, hj, hjh⟩ := getD_of_mem h1
    have := S.start j hj (by rw [hjh]; exact h2)
    rw [hjh] at this
    exact this
  have hheadmem : ∀ h, h < s.data_.length → L.own h = Owner.head →
      h ∈ s.start_.dedup.filter (fun h => decide (h ≠ 0)) := by
    intro h hlt ho
    refine mem_heads.2 ⟨List.count_pos_iff.1 (H.rc_pos h hlt ho), ?_⟩
    rintro rfl
    rw [H.own_zero] at ho
    cases ho
  have o1 : ∀ x ∈ L.free, L.own x = Owner.free := H.free_own
  have o2 : ∀ x ∈ (List.range s.start_.length).flatMap L.posts, ∃ i, L.own x = Owner.post i := by
    intro x hx
    obtain ⟨i, _, hi⟩ := List.mem_flatMap.1 hx
    exact ⟨i, H.post_own i x hi⟩
  have o3 : ∀ x ∈ s.start_.dedup.filter (fun h => decide (h ≠ 0)), L.own x = Owner.head :=
    fun x hx => (hhead x hx).2
  have o4 : ∀ x ∈ (s.start_.dedup.filter (fun h => decide (h ≠ 0))).flatMap L.elems,
      ∃ h, L.own x = Owner.elem h := by
    intro x hx
    obtain ⟨h, hh, hxe⟩ := List.mem_flatMap.1 hx
    exact ⟨h, H.list_own h (hhead h hh).1 (hhead h hh).2 x hxe⟩
  constructor
  · rw [List.nodup_append, List.nodup_append, List.nodup_append, List.nodup_append]
    refine ⟨⟨⟨⟨List.nodup_singleton 0, H.free_nodup, ?_⟩, ?_, ?_⟩,
      (List.nodup_dedup _).filter _, ?_⟩, ?_, ?_⟩
    · intro x hx hf
      rw [List.mem_singleton] at hx
      subst hx
      have := o1 _ hf
      rw [H.own_zero] at this
      cases this
    · rw [List.nodup_flatMap]
      refine ⟨fun i _ => (H.post_chain i).nodup, ?_⟩
      refine (List.nodup_range _).pairwise_of_forall_ne ?_
      intro a _ b _ hab x hxa hxb
      have h1 := H.post_own a x hxa
      rw [H.post_own b x hxb] at h1
      exact hab (Owner.post.inj h1).symm
    · intro x hx hp
      obtain ⟨i, hi⟩ := o2 x hp
      rcases List.mem_append.1 hx with h | h
      · rw [List.mem_singleton] at h
        subst h
        rw [H.own_zero] at hi
        cases hi
      · rw [o1 x h] at hi
        cases hi
    · intro x hx hh
      have h3 := o3 x hh
      rcases List.mem_append.1 hx with h | h
      · rcases List.mem_append.1 h with h | h
        · rw [List.mem_singleton] at h
          subst h
          rw [H.own_zero] at h3
          cases h3
        · rw [o1 x h] at h3
          cases h3
      · obtain ⟨i, hi⟩ := o2 x h
        rw [hi] at h3
        cases h3
    · rw [List.nodup_flatMap]
      refine ⟨fun h hh => (H.list_chain h (hhead h hh).1 (hhead h hh).2).nodup, ?_⟩
      refine ((List.nodup_dedup _).filter _).pairwise_of_forall_ne ?_
      intro a ha b hb hab x hxa hxb
      have h1 := H.list_own a (hhead a ha).1 (hhead a ha).2 x hxa
      rw [H.list_own b (hhead b hb).1 (hhead b hb).2 x hxb] at h1
      exact hab (Owner.elem.inj h1).symm
    · intro x hx he
      obtain ⟨h, h4⟩ := o4 x he
      rcases List.mem_append.1 hx with h1 | h1
      · rcases List.mem_append.1 h1 with h1 | h1
        · rcases List.mem_append.1 h1 with h1 | h1
          · rw [List.mem_singleton] at h1
            subst h1
            rw [H.own_zero] at h4
            cases h4
          · rw [o1 x h1] at h4
            cases h4
        · obtain ⟨i, hi⟩ := o2 x h1
          rw [hi] at h4
          cases h4
      · rw [o3 x h1] at h4
        cases h4
  · intro x
    constructor
    · intro hx
      rcases List.mem_append.1 hx with h1 | h1
      · rcases List.mem_append.1 h1 with h1 | h1
        · rcases List.mem_append.1 h1 with h1 | h1
          · rcases List.mem_append.1 h1 with h1 | h1
            · rw [List.mem_singleton] at h1
              subst h1
              exact H.len_pos
            · exact (H.free_chain.mem x h1).2
          · obtain ⟨i, _, hi⟩ := List.mem_flatMap.1 h1
            exact ((H.post_chain i).mem x hi).2
        · exact (hhead x h1).1
      · obtain ⟨h, hh, hxe⟩ := List.mem_flatMap.1 h1
        exact ((H.list_chain h (hhead h hh).1 (hhead h hh).2).mem x hxe).2
    · intro hx
      simp only [List.mem_append, List.mem_singleton, List.mem_flatMap, List.mem_range]
      cases ho : L.own x with
      | sentinel => exact Or.inl (Or.inl (Or.inl (Or.inl (H.complete_sentinel x hx ho))))
      | free => exact Or.inl (Or.inl (Or.inl (Or.inr (H.complete_free x hx ho))))
      | post i =>
        have hm := H.complete_post x hx i ho
        refine Or.inl (Or.inl (Or.inr ⟨i, ?_, hm⟩))
        by_contra hi
        rw [S.post_out i (Nat.le_of_not_lt hi)] at hm
        simp at hm
      | head => exact Or.inl (Or.inr (hheadmem x hx ho))
      | elem h =>
        obtain ⟨h1, h2, h3⟩ := H.complete_elem x hx h ho
        exact Or.inr ⟨h, hheadmem h h1 h2, h3⟩
      | scratch =>
        have := (I.scratch x hx).1 ho
        simp at this

theorem sum_map_one_add (f : Nat → Nat) (l : List Nat) :
    (l.map (fun h => 1 + f h)).sum = l.length + (l.map f).sum := by
  induction l with
  | nil => rfl
  | cons a l ih =>
    simp only [List.map_cons, List.sum_cons, List.length_cons, ih]
    omega

/-- C34 (amended): node accounting: in every state reachable through the public
operations that has at least one set (`n_set > 0`), with `fs` the free list that starts
at `data_not_used_`, `posts i` the posting of set `i` and `elems h` the element pairs of
the list whose reference counter is `h`: `number_not_used_` is the length of `fs`; the
sum of 1 (for `data_[0]`), of one plus the list length over the distinct non-zero values
of `start_`, of the posting lengths and of `number_not_used_` is `data_.size()`; every
pair of `data_` is index 0, free, posted, a reference counter or an element pair (no pair
is lost); and no free pair is in use. -/
theorem C34_node_accounting (s : list_setvec) (hs : Reachable s) (hn : 0 < n_set s) :
    ∃ (fs : List Nat) (posts elems : Nat → List Nat),
      Seg s.data_ s.data_not_used_ fs 0 ∧ s.number_not_used_ = fs.length ∧
      (∀ i, i < n_set s → Seg s.data_ (s.post_.getD i 0) (posts i) 0) ∧
      (∀ h ∈ s.start_, h ≠ 0 → Seg s.data_ (rd s.data_ h).next (elems h) 0) ∧
      1 + ((s.start_.dedup.filter (fun h => decide (h ≠ 0))).map
            (fun h => 1 + (elems h).length)).sum +
          ((List.range (n_set s)).map (fun i => (posts i).length)).sum +
          s.number_not_used_ = s.data_.length ∧
      (∀ x, x < s.data_.length →
        x = 0 ∨ x ∈ fs ∨ (∃ i, i < n_set s ∧ x ∈ posts i) ∨ (x ∈ s.start_ ∧ x ≠ 0) ∨
          ∃ h, (h ∈ s.start_ ∧ h ≠ 0) ∧ x ∈ elems h) ∧
      (∀ x ∈ fs, x ≠ 0 ∧ x ∉ s.start_ ∧ (∀ i, i < n_set s → x ∉ posts i) ∧
        ∀ h ∈ s.start_, h ≠ 0 → x ∉ elems h) := by
  obtain ⟨L, I, S⟩ := hs.wf hn
  have H := I.heap
  obtain ⟨hnd, hmem⟩ := node_partition I S
  have hhead : ∀ h ∈ s.start_, h ≠ 0 → h < s.data_.length ∧ L.own h = Owner.head := by
    intro h h1 h2
    obtain ⟨j, hj, hjh⟩ := getD_of_mem h1
    have := S.start j hj (by rw [hjh]; exact h2)
    rw [hjh] at this
    exact this
  refine ⟨L.free, L.posts, L.elems, ?_, I.free.count, ?_, ?_, ?_, ?_, ?_⟩
  · rw [I.free.head]; exact H.free_chain
  · intro i hi
    rw [S.post i hi]; exact H.post_chain i
  · intro h h1 h2
    exact H.list_chain h (hhead h h1 h2).1 (hhead h h1 h2).2
  · have hlen := length_eq_of_cover hnd hmem
    simp only [List.length_append, List.length_singleton, List.length_flatMap] at hlen
    rw [sum_map_one_add, I.free.count]
    have e1 : (List.range (n_set s)).map (fun i => (L.posts i).length) =
        (List.range s.start_.length).map (List.length ∘ L.posts) := rfl
    have e2 : (s.start_.dedup.filter (fun h => decide (h ≠ 0))).map
        (fun h => (L.elems h).length) =
        (s.start_.dedup.filter (fun h => decide (h ≠ 0))).map (List.length ∘ L.elems) := rfl
    rw [e1, e2]
    omega
  · intro x hx
    have h := (hmem x).2 hx
    simp only [List.mem_append, List.mem_singleton, List.mem_flatMap, List.mem_range,
      mem_heads] at h
    rcases h with (((h | h) | h) | h) | h
    · exact Or.inl h
    · exact Or.inr (Or.inl h)
    · exact Or.inr (Or.inr (Or.inl h))
    · exact Or.inr (Or.inr (Or.inr (Or.inl h)))
    · exact Or.inr (Or.inr (Or.inr (Or.inr h)))
  · intro x hx
    have ho := H.free_own x hx
    refine ⟨(H.free_chain.mem x hx).1, ?_, ?_, ?_⟩
    · intro h1
      have := (hhead x h1 (H.free_chain.mem x hx).1).2
      rw [ho] at this
      cases this
    · intro i _ h1
      have := H.post_own i x h1
      rw [ho] at this
      cases this
    · intro h h1 h2 h3
      have := H.list_own h (hhead h h1 h2).1 (hhead h h1 h2).2 x h3
      rw [ho] at this
      cases this

theorem C34_node_accounting_witness :
    ∃ (fs : List Nat) (posts elems : Nat → List Nat),
      Seg example_vec.data_ example_vec.data_not_used_ fs 0 ∧
      example_vec.number_not_used_ = fs.length ∧
      (∀ i, i < n_set example_vec → Seg example_vec.data_ (example_vec.post_.getD i 0)
        (posts i) 0) ∧
      (∀ h ∈ example_vec.start_, h ≠ 0 →
        Seg example_vec.data_ (rd example_vec.data_ h).next (elems h) 0) ∧
      1 + ((example_vec.start_.dedup.filter (fun h => decide (h ≠ 0))).map
            (fun h => 1 + (elems h).length)).sum +
          ((List.range (n_set example_vec)).map (fun i => (posts i).length)).sum +
          example_vec.number_not_used_ = example_vec.data_.length ∧
      (∀ x, x < example_vec.data_.length →
        x = 0 ∨ x ∈ fs ∨ (∃ i, i < n_set example_vec ∧ x ∈ posts i) ∨
          (x ∈ example_vec.start_ ∧ x ≠ 0) ∨
          ∃ h, (h ∈ example_vec.start_ ∧ h ≠ 0) ∧ x ∈ elems h) ∧
      (∀ x ∈ fs, x ≠ 0 ∧ x ∉ example_vec.start_ ∧
        (∀ i, i < n_set example_vec → x ∉ posts i) ∧
        ∀ h ∈ example_vec.start_, h ≠ 0 → x ∉ elems h) :=
  C34_node_accounting example_vec example_vec_reachable (by decide)

/-- C34 (counterexample): the state after `resize(0, 0)` on a default-constructed object
is reachable and has no sets and an empty `data_`, so for any posting and list lengths
the sum that starts with 1 for `data_[0]` is not `data_.size()`, which is 0. -/
theorem C34_no_sets_counterexample :
    ∃ s, resize list_setvec.ctor 0 0 = some s ∧ Reachable s ∧ n_set s = 0 ∧
      s.data_.length = 0 ∧
      ∀ posts elems : Nat → List Nat,
        1 + ((s.start_.dedup.filter (fun h => decide (h ≠ 0))).map
              (fun h => 1 + (elems h).length)).sum +
            ((List.range (n_set s)).map (fun i => (posts i).length)).sum +
            s.number_not_used_ ≠ s.data_.length :=
  ⟨list_setvec.ctor, by rfl, Reachable.ctor, rfl, rfl, fun _ _ => by
    show 1 + _ + _ + _ ≠ 0
    omega⟩

end CppAD


namespace CppAD

/-- C10 (the code breaks it): the state after `resize(1, 5)`, `add_element(0, 1)` and
`post_element(0, 2)` is reachable through the public operations and has one set; on it
`check_data_structure()`, the first statement of `resize`, raises an assertion, so in a
checked build `resize(n_set, end)` returns for no `n_set` and `end` (in particular not for
`n_set > 0`, nor for `resize(0, 0)`) instead of leaving `n_set` empty sets; after
`process_post(0)` the call `resize(3, 8)` returns with three sets over `{0, ..., 7}`. -/
theorem C10_resize_aborts_on_pending_post :
    Reachable example_posted ∧ n_set example_posted = 1 ∧
    check_data_structure example_posted = none ∧
    (∀ nset e, resize example_posted nset e = none) ∧
    resize example_posted 3 8 = none ∧ resize example_posted 0 0 = none ∧
    ((process_post example_posted 0).bind fun s => resize s 3 8) =
      some ⟨8, 0, 0, [⟨8, 0⟩], [0, 0, 0], [0, 0, 0], [1]⟩ := by
  have hc : check_data_structure example_posted = none := by rfl
  refine ⟨example_posted_reachable, rfl, hc, ?_, by rfl, by rfl, by rfl⟩
  intro nset e
  unfold resize
  rw [hc]
  rfl

end CppAD
